import Mathlib

/-!
# rst2rfcxml: a verification development

A shallow embedding of `src/rst2rfcxml/rst2rfcxml.cpp` (the reStructuredText to
RFC-XML line transducer) and theorems about it.

Modelling conventions.

* A `std::string` is a `List Char`; string literals of the source are written
  `"...".toList`.
* `std::string::npos` is `none`, both as the result of a search (not found) and as the
  count of `substr` (up to the end of the string).
* The `ostream` the program writes to is the field `output` of the converter
  state: the list of all characters written so far (`endl` writes `'\n'`).
* A `while` loop of the source is a recursive function with a fuel argument;
  running out of fuel, reading the top of an empty stack, `back()` of an
  empty vector and `substr` beyond the end of the string all give `none`.
  The theorems show that the results are `some _`.
* `size_t` subtraction is taken modulo `2^64`.
-/

namespace Rst2RfcXml

/-! ## `std::string` primitives -/

/-- Subtraction of two `size_t` values (`size_t` is 64 bits wide). -/
def size_sub (a b : Nat) : Nat := (a + 2 ^ 64 - b % 2 ^ 64) % 2 ^ 64

/-- Auxiliary scan for `find`: the first position, counted from `i`, at which `pat`
is a prefix of the rest of the string. -/
def find_at (pat : List Char) : List Char → Nat → Option Nat
  | [], i => if pat.isPrefixOf [] then some i else none
  | c :: cs, i => if pat.isPrefixOf (c :: cs) then some i else find_at pat cs (i + 1)

/-- Model of `s.find(pat, pos)`. -/
def find (s pat : List Char) (pos : Nat) : Option Nat :=
  if pos > s.length then none else find_at pat (s.drop pos) pos

/-- Auxiliary scan: the first position, counted from `i`, of a character satisfying `p`. -/
def find_if (p : Char → Bool) : List Char → Nat → Option Nat
  | [], _ => none
  | c :: cs, i => if p c then some i else find_if p cs (i + 1)

/-- Model of `s.find_first_of(chars, pos)`. -/
def find_first_of (s chars : List Char) (pos : Nat) : Option Nat :=
  find_if (fun c => chars.contains c) (s.drop pos) pos

/-- Model of `s.find_first_not_of(chars, pos)`. -/
def find_first_not_of (s chars : List Char) (pos : Nat) : Option Nat :=
  find_if (fun c => !chars.contains c) (s.drop pos) pos

/-- Model of `s.starts_with(pat)`. -/
def starts_with (s pat : List Char) : Bool := pat.isPrefixOf s

/-- Model of `s.substr(pos, count)`; it throws when `pos > s.length()`, and with the count
`npos` (`none`, the default) the substring extends to the end of the string. -/
def substr (s : List Char) (pos : Nat) (count : Option Nat) : Option (List Char) :=
  if pos > s.length then none
  else
    match count with
    | none => some (s.drop pos)
    | some count => some ((s.drop pos).take count)

/-- Model of `s.replace(index, len, to)` for `index + len ≤ s.length()`. -/
def replace (s : List Char) (index len : Nat) (to_s : List Char) : List Char :=
  s.take index ++ to_s ++ s.drop (index + len)

/-- Model of `isupper` in the "C" locale. -/
def isupper (c : Char) : Bool := 'A'.toNat ≤ c.toNat && c.toNat ≤ 'Z'.toNat

/-- Model of `tolower` in the "C" locale. -/
def tolower (c : Char) : Char := if isupper c then Char.ofNat (c.toNat + 32) else c

/-- Model of `isalpha` in the "C" locale. -/
def isalpha (c : Char) : Bool :=
  ('A'.toNat ≤ c.toNat && c.toNat ≤ 'Z'.toNat) || ('a'.toNat ≤ c.toNat && c.toNat ≤ 'z'.toNat)

/-- The characters matched by `\s` in the regular expression of `_trim`. -/
def is_space (c : Char) : Bool :=
  c = ' ' || c = '\t' || c = '\n' || c = Char.ofNat 11 || c = Char.ofNat 12 || c = '\r'

/-! ## Leaf functions -/

/-- Model of `_trim`: `regex_replace(s, "^\\s+|\\s+$", "")` removes the maximal run of
whitespace at the beginning and the maximal run of whitespace at the end. -/
def _trim (s : List Char) : List Char :=
  ((s.dropWhile is_space).reverse.dropWhile is_space).reverse

/-- The constant `legal_first_character` of `_anchor`. -/
def legal_first_character : List Char :=
  "ABCDEFGHIJKLMNOPQRSTUVWXYZabcdefghijklmnopqrstuvwxyz_:".toList

/-- The constant `legal_anchor_characters` of `_anchor`. -/
def legal_anchor_characters : List Char :=
  legal_first_character ++ "1234567890-.".toList

/-- One iteration of the loop of `_anchor`, on the character `c`. -/
def _anchor_step (anchor : List Char) (c : Char) : List Char :=
  if !legal_anchor_characters.contains c then anchor
  else if anchor.isEmpty && !legal_first_character.contains c then anchor
  else anchor ++ [if isupper c then tolower c else c]

/-- Model of `_anchor`. -/
def _anchor (value : List Char) : List Char :=
  value.foldl _anchor_step []


/-- The `while` loop of `_replace_constant_width_instances`. -/
def _replace_constant_width_instances_loop : Nat → List Char → Option (List Char)
  | 0, _ => none
  | fuel + 1, line =>
    match find line "``".toList 0 with
    | none => some line
    | some index =>
      match find line "``".toList (index + 2) with
      | none => some line
      | some next_index =>
        match substr line 0 (some index), substr line (index + 2) (some (next_index - index - 2)),
            substr line (next_index + 2) none with
        | some before, some middle, some after =>
          _replace_constant_width_instances_loop fuel
            (before ++ "<tt>".toList ++ _trim middle ++ "</tt>".toList ++ after)
        | _, _, _ => none

/-- Model of `_replace_constant_width_instances`: replace occurrences of
double-backquoted `foo` with `<tt>foo</tt>`. -/
def _replace_constant_width_instances (line : List Char) : Option (List Char) :=
  _replace_constant_width_instances_loop (line.length + 1) line

/-- The `while` loop of `_replace_all`, with the loop variables `line` and `start`. -/
def _replace_all_loop (from_s to_s : List Char) : Nat → List Char → Nat → Option (List Char)
  | 0, _, _ => none
  | fuel + 1, line, start =>
    match find line from_s start with
    | none => some line
    | some index =>
      _replace_all_loop from_s to_s fuel (replace line index from_s.length to_s)
        (index + to_s.length)

/-- Model of `_replace_all`: replace all occurrences of a given substring. -/
def _replace_all (line from_s to_s : List Char) : Option (List Char) :=
  _replace_all_loop from_s to_s (line.length + 1) line 0

/-- The `while` loop of `_replace_internal_links`. -/
def _replace_internal_links_loop : Nat → List Char → Option (List Char)
  | 0, _ => none
  | fuel + 1, line =>
    match find line "`".toList 0 with
    | none => some line
    | some start =>
      match find line "`_".toList (start + 1) with
      | none => some line
      | some end_ =>
        match substr line 0 (some start), substr line (start + 1) (some (end_ - start - 1)),
            substr line (end_ + 2) none with
        | some before, some middle, some after =>
          _replace_internal_links_loop fuel
            (before ++ "<xref target=\"".toList ++ _anchor middle ++ "\"/>".toList ++ after)
        | _, _, _ => none

/-- Model of `_replace_internal_links`. -/
def _replace_internal_links (line : List Char) : Option (List Char) :=
  _replace_internal_links_loop (line.length + 1) line

/-- Model of `_handle_escapes`. -/
def _handle_escapes (line : List Char) : Option (List Char) :=
  -- Trim whitespace.
  let line := _trim line
  -- Unescape things RST requires to be escaped.
  match _replace_all line "\\*".toList "*".toList with
  | none => none
  | some line =>
  match _replace_all line "\\|".toList "|".toList with
  | none => none
  | some line =>
  -- Escape things XML requires to be escaped.
  match _replace_all line "&".toList "&amp;".toList with
  | none => none
  | some line =>
  match _replace_all line "<".toList "&lt;".toList with
  | none => none
  | some line =>
  match _replace_all line ">".toList "&gt;".toList with
  | none => none
  | some line =>
  match _replace_constant_width_instances line with
  | none => none
  | some line => _replace_internal_links line

/-! ## The converter state -/

/-- The enumeration `xml_context`. -/
inductive xml_context where
  | ABSTRACT
  | BACK
  | BLOCKQUOTE
  | DEFINITION_LIST
  | DEFINITION_TERM
  | DEFINITION_DESCRIPTION
  | FRONT
  | LIST_ELEMENT
  | MIDDLE
  | RFC
  | SECTION
  | SOURCE_CODE
  | TABLE
  | TABLE_HEADER
  | TABLE_BODY
  | TEXT
  | TITLE
  | UNORDERED_LIST
  deriving DecidableEq, Repr

/-- The structure `author`. -/
structure author where
  initials : List Char := []
  surname : List Char := []
  fullname : List Char := []
  role : List Char := []
  deriving DecidableEq, Repr

/-- The data members of the class `rst2rfcxml` that the code of `rst2rfcxml.cpp` uses,
together with the output stream. The stack `_contexts` is a list whose head is the top. -/
structure rst2rfcxml where
  _document_name : List Char := []
  _ipr : List Char := []
  _category : List Char := []
  _column_indices : List Nat := []
  _authors : List author := []
  _submission_type : List Char := []
  _abbreviated_title : List Char := []
  _contexts : List xml_context := []
  _previous_line : List Char := []
  output : List Char := []
  deriving DecidableEq, Repr

open xml_context

/-- Writing `text` to the output stream. -/
def emit (s : rst2rfcxml) (text : List Char) : rst2rfcxml :=
  { s with output := s.output ++ text }

/-- Model of `_contexts.push(context)`. -/
def push (s : rst2rfcxml) (context : xml_context) : rst2rfcxml :=
  { s with _contexts := context :: s._contexts }

/-- The preamble written by `output_header`. -/
def xml_preamble : List Char :=
  ("<?xml version=\"1.0\" encoding=\"UTF-8\"?>\n" ++
   "  <?xml-stylesheet type=\"text/xsl\" href=\"rfc2629.xslt\"?>\n" ++
   "  <!-- generated by https://github.com/dthaler/rst2rfcxml version 0.1 -->\n" ++
   "\n" ++
   "<!DOCTYPE rfc [\n" ++
   "]>\n" ++
   "\n" ++
   "<?rfc rfcedstyle=\"yes\"?>\n" ++
   "<?rfc toc=\"yes\"?>\n" ++
   "<?rfc tocindent=\"yes\"?>\n" ++
   "<?rfc sortrefs=\"yes\"?>\n" ++
   "<?rfc symrefs=\"yes\"?>\n" ++
   "<?rfc strict=\"yes\"?>\n" ++
   "<?rfc comments=\"yes\"?>\n" ++
   "<?rfc inline=\"yes\"?>\n" ++
   "<?rfc text-list-symbols=\"-o*+\"?>\n" ++
   "<?rfc docmapping=\"yes\"?>\n" ++
   "\n").toList

/-- Model of `rst2rfcxml::output_header`: output the XML header. -/
def output_header (s : rst2rfcxml) : rst2rfcxml :=
  let s := emit s xml_preamble
  let s := emit s ("<rfc ipr=\"".toList ++ s._ipr ++ "\" docName=\"".toList ++ s._document_name
    ++ "\" category=\"".toList ++ s._category ++ "\" submissionType=\"".toList
    ++ s._submission_type ++ "\">".toList ++ "\n\n".toList)
  let s := push s RFC
  let s := emit s "  <front>\n".toList
  push s FRONT

/-- Model of `_output_optional_attribute`, returning the text written. -/
def _output_optional_attribute (name value : List Char) : List Char :=
  if !value.isEmpty then " ".toList ++ name ++ "=\"".toList ++ value ++ "\"".toList else []

/-- The text written by one iteration of the loop of `output_authors`. -/
def output_author (a : author) : List Char :=
  "<author fullname=\"".toList ++ a.fullname ++ "\"".toList
    ++ _output_optional_attribute "initials".toList a.initials
    ++ _output_optional_attribute "surname".toList a.surname
    ++ _output_optional_attribute "role".toList a.role
    ++ "></author>\n".toList

/-- Model of `rst2rfcxml::output_authors`. -/
def output_authors (s : rst2rfcxml) : rst2rfcxml :=
  s._authors.foldl (fun s a => emit s (output_author a)) s

/-- The text written by the `switch` of `pop_context` for the context on top of the stack. -/
def closing_text : xml_context → List Char
  | ABSTRACT => "</abstract>\n".toList
  | BACK => "</back>\n".toList
  | DEFINITION_DESCRIPTION => "</dd>\n".toList
  | DEFINITION_LIST => "</dl>\n".toList
  | DEFINITION_TERM => "</dt>\n".toList
  | FRONT => "</front>\n".toList
  | LIST_ELEMENT => "</li>\n".toList
  | MIDDLE => "</middle>\n".toList
  | RFC => "</rfc>\n".toList
  | SECTION => "</section>\n".toList
  | TABLE => "</table>\n".toList
  | TABLE_BODY => "</tbody>\n".toList
  | TABLE_HEADER => "</tr></thead>\n".toList
  | TEXT => "</t>\n".toList
  | UNORDERED_LIST => "</ul>\n".toList
  | _ => []

/-- Model of `rst2rfcxml::pop_context`; `top()` of an empty stack is an error. -/
def pop_context (s : rst2rfcxml) : Option rst2rfcxml :=
  match s._contexts with
  | [] => none
  | top :: rest => some { emit s (closing_text top) with _contexts := rest }

/-- The `while` loop of `pop_contexts`. -/
def pop_contexts_loop (level : Nat) : Nat → rst2rfcxml → Option rst2rfcxml
  | 0, s => if s._contexts.length > level then none else some s
  | fuel + 1, s =>
    if s._contexts.length > level then
      match pop_context s with
      | none => none
      | some s => pop_contexts_loop level fuel s
    else some s

/-- Model of `rst2rfcxml::pop_contexts`: pop all XML contexts until we are down to a
specified XML level. -/
def pop_contexts (level : Nat) (s : rst2rfcxml) : Option rst2rfcxml :=
  pop_contexts_loop level s._contexts.length s

/-- Model of `rst2rfcxml::in_context`. -/
def in_context (s : rst2rfcxml) (context : xml_context) : Bool :=
  !s._contexts.isEmpty && s._contexts.head? = some context

/-- The constant `BASE_SECTION_LEVEL`: `<rfc><front/middle/back>`. -/
def BASE_SECTION_LEVEL : Nat := 2

/-! ## Metadata directives -/

/-- Model of `_handle_variable_initialization`: the new value of `field` when the line is
the directive for `label` (the function then returns `true`), and `some none` when the
line is not that directive (the function returns `false`). -/
def _handle_variable_initialization (line label : List Char) : Option (Option (List Char)) :=
  let pfx := ".. |".toList ++ _trim label ++ "| replace:: ".toList
  if starts_with line pfx then
    match substr line pfx.length none with
    | none => none
    | some value =>
      match _handle_escapes value with
      | none => none
      | some field => some (some field)
  else some none

/-- Assignment through the reference `_authors.back()`; `back()` of an empty vector is an
error. -/
def modify_back (f : author → author) : List author → Option (List author)
  | [] => none
  | a :: rest => some ((a :: rest).dropLast ++ [f ((a :: rest).getLast (List.cons_ne_nil a rest))])

/-- Model of `rst2rfcxml::handle_variable_initializations`: handle variable
initializations; the Boolean is `true` if input has been handled. -/
def handle_variable_initializations (s : rst2rfcxml) (line : List Char) :
    Option (Bool × rst2rfcxml) :=
  match _handle_variable_initialization line "category".toList with
  | none => none
  | some (some field) => some (true, { s with _category := field })
  | some none =>
  match _handle_variable_initialization line "docName".toList with
  | none => none
  | some (some field) => some (true, { s with _document_name := field })
  | some none =>
  match _handle_variable_initialization line "ipr".toList with
  | none => none
  | some (some field) => some (true, { s with _ipr := field })
  | some none =>
  match _handle_variable_initialization line "submissionType".toList with
  | none => none
  | some (some field) => some (true, { s with _submission_type := field })
  | some none =>
  match _handle_variable_initialization line "titleAbbr".toList with
  | none => none
  | some (some field) => some (true, { s with _abbreviated_title := field })
  | some none =>
  -- Handle author field initializations.
  let author_fullname_pfx := ".. |authorFullname| replace:: ".toList
  if starts_with line author_fullname_pfx then
    match substr line author_fullname_pfx.length none with
    | none => none
    | some value =>
      some (true, { s with _authors := s._authors ++ [{ fullname := _trim value }] })
  else
  let author_role_pfx := ".. |authorRole| replace:: ".toList
  if starts_with line author_role_pfx then
    match substr line author_role_pfx.length none with
    | none => none
    | some value =>
      match modify_back (fun a => { a with role := _trim value }) s._authors with
      | none => none
      | some authors => some (true, { s with _authors := authors })
  else
  let author_surname_pfx := ".. |authorSurname| replace:: ".toList
  if starts_with line author_surname_pfx then
    match substr line author_surname_pfx.length none with
    | none => none
    | some value =>
      match modify_back (fun a => { a with surname := _trim value }) s._authors with
      | none => none
      | some authors => some (true, { s with _authors := authors })
  else
  let author_initials_pfx := ".. |authorInitials| replace:: ".toList
  if starts_with line author_initials_pfx then
    match substr line author_initials_pfx.length none with
    | none => none
    | some value =>
      match modify_back (fun a => { a with initials := _trim value }) s._authors with
      | none => none
      | some authors => some (true, { s with _authors := authors })
  else some (false, s)

/-! ## Tables -/

/-- The first `while` loop of `handle_table_line`: close the innermost `TEXT`,
`DEFINITION_DESCRIPTION` and `DEFINITION_LIST` contexts. -/
def close_before_table_loop : Nat → rst2rfcxml → Option rst2rfcxml
  | 0, s =>
    if in_context s TEXT || in_context s DEFINITION_DESCRIPTION || in_context s DEFINITION_LIST
    then none else some s
  | fuel + 1, s =>
    if in_context s TEXT || in_context s DEFINITION_DESCRIPTION || in_context s DEFINITION_LIST
    then
      match pop_context s with
      | none => none
      | some s => close_before_table_loop fuel s
    else some s

/-- The second `while` loop of `handle_table_line`: find column indices. `index` is the
loop variable (`none` is `npos`) and `cols` the vector `_column_indices`. -/
def column_indices_loop (line : List Char) : Nat → Option Nat → List Nat → Option (List Nat)
  | 0, _, _ => none
  | _ + 1, none, cols => some cols
  | fuel + 1, some index, cols =>
    let cols := cols ++ [index]
    match find_first_not_of line "=".toList index with
    | none => some cols
    | some index => column_indices_loop line fuel (find_first_of line "=".toList index) cols

/-- The `for` loop of `handle_table_line` that processes a table header line, over the
columns not yet visited; the result is the text written. -/
def header_cells (line : List Char) : List Nat → Option (List Char)
  | [] => some []
  | start :: rest =>
    let count := match rest with
      | [] => none
      | next :: _ => some (size_sub next start)
    if line.length > start then
      match substr line start count with
      | none => none
      | some cell =>
        match _handle_escapes cell with
        | none => none
        | some value =>
          match header_cells line rest with
          | none => none
          | some out => some ("  <th>".toList ++ value ++ "</th>\n".toList ++ out)
    else header_cells line rest

/-- The `for` loop of `handle_table_line` that processes a table body line, over the
columns not yet visited; the result is the text written. -/
def body_cells (line : List Char) : List Nat → Option (List Char)
  | [] => some []
  | start :: rest =>
    let count := match rest with
      | [] => none
      | next :: _ => some (size_sub next start)
    match (if line.length ≥ start then
        match substr line start count with
        | none => none
        | some cell => _handle_escapes cell
      else some []) with
    | none => none
    | some value =>
      match body_cells line rest with
      | none => none
      | some out => some ("  <td>".toList ++ value ++ "</td>\n".toList ++ out)

/-- Model of `rst2rfcxml::handle_table_line`: perform table handling. -/
def handle_table_line (s : rst2rfcxml) (line : List Char) : Option (Bool × rst2rfcxml) :=
  -- Process column definitions.
  if (find_first_not_of line " ".toList 0).isSome &&
      (find_first_not_of line " =".toList 0).isNone then
    if in_context s TABLE_BODY then
      match pop_context s with -- TABLE_BODY
      | none => none
      | some s =>
        match pop_context s with -- TABLE
        | none => none
        | some s => some (true, { s with _column_indices := [] })
    else if in_context s TABLE_HEADER then
      match pop_context s with -- TABLE_HEADER
      | none => none
      | some s => some (true, push (emit s " <tbody>\n".toList) TABLE_BODY)
    else
      match close_before_table_loop s._contexts.length s with
      | none => none
      | some s =>
        let s := emit s "<table><thead><tr>\n".toList
        let s := push s TABLE
        let s := push s TABLE_HEADER
        -- Find column indices.
        match column_indices_loop line (line.length + 1) (find_first_of line "=".toList 0)
            s._column_indices with
        | none => none
        | some cols => some (true, { s with _column_indices := cols })
  -- Process a table header line.
  else if in_context s TABLE_HEADER then
    match header_cells line s._column_indices with
    | none => none
    | some out => some (true, emit s out)
  -- Process a table body line.
  else if in_context s TABLE_BODY then
    match body_cells line s._column_indices with
    | none => none
    | some out => some (true, emit s (" <tr>\n".toList ++ out ++ " </tr>\n".toList))
  else some (false, s)

/-! ## Titles and sections -/

/-- The statements shared by the three section-heading branches of `handle_title_line`:
the previous line is a section heading. -/
def open_section (s : rst2rfcxml) : Option rst2rfcxml :=
  match _handle_escapes s._previous_line with
  | none => none
  | some title =>
    let s := emit s ("<section anchor=\"".toList ++ _anchor title ++ "\" title=\"".toList
      ++ title ++ "\">".toList ++ "\n".toList)
    let s := push s SECTION
    some { s with _previous_line := [] }

/-- Model of `rst2rfcxml::handle_title_line`: handle document and section titles. -/
def handle_title_line (s : rst2rfcxml) (line : List Char) : Option (Bool × rst2rfcxml) :=
  if starts_with line "=".toList && (find_first_not_of line "=".toList 0).isNone then
    if in_context s TITLE then
      some (true, { s with _contexts := s._contexts.tail }) -- End of title.
    -- Title marker begins after a blank line.
    else if (find_first_not_of s._previous_line " ".toList 0).isNone then
      some (true, push s TITLE)
    else
      -- Previous line is a L1 section heading.
      match pop_contexts BASE_SECTION_LEVEL s with
      | none => none
      | some s =>
        match (if in_context s FRONT then
            match pop_contexts 1 s with
            | none => none
            | some s => some (push (emit s "<middle>\n".toList) MIDDLE)
          else some s) with
        | none => none
        | some s =>
          match open_section s with
          | none => none
          | some s => some (true, s)
  else if starts_with line "-".toList && (find_first_not_of line "-".toList 0).isNone then
    -- Previous line is a L2 section heading.
    match pop_contexts (BASE_SECTION_LEVEL + 1) s with
    | none => none
    | some s =>
      match open_section s with
      | none => none
      | some s => some (true, s)
  else if starts_with line "~".toList && (find_first_not_of line "~".toList 0).isNone then
    -- Previous line is a L3 section heading.
    match pop_contexts (BASE_SECTION_LEVEL + 2) s with
    | none => none
    | some s =>
      match open_section s with
      | none => none
      | some s => some (true, s)
  else if in_context s TITLE then
    some (true, emit s ("<title abbrev=\"".toList ++ s._abbreviated_title ++ "\">".toList
      ++ line ++ "</title>".toList ++ "\n".toList))
  else some (false, s)

/-! ## The line scheduler -/

/-- The `while` loop of `output_previous_line`: end any contexts that end at a blank
line. -/
def blank_line_loop : Nat → rst2rfcxml → Option rst2rfcxml
  | 0, s =>
    if !s._contexts.isEmpty && (in_context s DEFINITION_DESCRIPTION ||
        in_context s LIST_ELEMENT || in_context s TEXT || in_context s UNORDERED_LIST)
    then none else some s
  | fuel + 1, s =>
    if !s._contexts.isEmpty then
      if in_context s DEFINITION_DESCRIPTION || in_context s LIST_ELEMENT ||
          in_context s TEXT || in_context s UNORDERED_LIST then
        match pop_context s with
        | none => none
        | some s => blank_line_loop fuel s
      else some s
    else some s

/-- The first `if` statement of `output_previous_line` (the bullet, the non-blank and the
remaining case). -/
def output_previous_line_text (s : rst2rfcxml) : Option rst2rfcxml :=
  if starts_with s._previous_line "* ".toList then
    match (if in_context s LIST_ELEMENT then pop_context s else some s) with
    | none => none
    | some s =>
      let s := if !in_context s UNORDERED_LIST then
          push (emit s "<ul>\n".toList) UNORDERED_LIST
        else s
      match substr s._previous_line 2 none with
      | none => none
      | some item => some (push (emit s ("<li>".toList ++ _trim item ++ "\n".toList)) LIST_ELEMENT)
  else if (find_first_not_of s._previous_line " ".toList 0).isSome then
    match (if in_context s DEFINITION_TERM && starts_with s._previous_line "  ".toList then
        match pop_context s with
        | none => none
        | some s => some (push (emit s "<dd>".toList) DEFINITION_DESCRIPTION)
      else if !in_context s DEFINITION_DESCRIPTION && !in_context s DEFINITION_TERM &&
          !in_context s TEXT then
        let s := if in_context s FRONT then
            push (emit (output_authors s) "<abstract>\n".toList) ABSTRACT
          else s
        match (if in_context s DEFINITION_LIST then pop_context s else some s) with
        | none => none
        | some s => some (push (emit s "<t>\n".toList) TEXT)
      else some s) with
    | none => none
    | some s => some (emit s (_trim s._previous_line ++ "\n".toList))
  else some s

/-- Model of `rst2rfcxml::output_previous_line`: output the previous line. -/
def output_previous_line (s : rst2rfcxml) : Option rst2rfcxml :=
  match output_previous_line_text s with
  | none => none
  | some s =>
    if (find_first_not_of s._previous_line " ".toList 0).isNone then
      -- End any contexts that end at a blank line.
      blank_line_loop s._contexts.length s
    else some s

/-- Model of `rst2rfcxml::process_line`: process a new line of input. -/
def process_line (s : rst2rfcxml) (line : List Char) : Option rst2rfcxml :=
  if line = ".. contents::".toList then some s
  else if line = ".. sectnum::".toList then some s
  else if line = ".. header::".toList then some (output_header s)
  else
    -- Title lines must be handled before table lines.
    match handle_title_line s line with
    | none => none
    | some (true, s) => some s
    | some (false, s) =>
      -- Handle tables first, where escapes must be dealt with per cell.
      match handle_table_line s line with
      | none => none
      | some (true, s) => some s
      | some (false, s) =>
        match _handle_escapes line with
        | none => none
        | some line =>
          match handle_variable_initializations s line with
          | none => none
          | some (true, s) => some s
          | some (false, s) =>
            -- Handle definition lists.
            let s :=
              if starts_with line "  ".toList && (find_first_not_of line " ".toList 0).isSome &&
                  !s._previous_line.isEmpty && (s._previous_line.head?.map isalpha = some true)
              then
                let s := if !in_context s DEFINITION_LIST then
                    push (emit s "<dl>".toList) DEFINITION_LIST
                  else s
                push (emit s "<dt>".toList) DEFINITION_TERM
              else s
            match output_previous_line s with
            | none => none
            | some s => some { s with _previous_line := line }

/-- Run `process_line` over a list of lines, in order. -/
def process_lines (s : rst2rfcxml) : List (List Char) → Option rst2rfcxml
  | [] => some s
  | line :: rest =>
    match process_line s line with
    | none => none
    | some s => process_lines s rest

/-- Model of `rst2rfcxml::process_input_stream`: process all lines in an input stream
(given as the list of its lines), then the empty line. -/
def process_input_stream (s : rst2rfcxml) (input_stream : List (List Char)) :
    Option rst2rfcxml :=
  match process_lines s input_stream with
  | none => none
  | some s => process_line s []

/-- The `for` loop of `process_files`. -/
def process_streams (s : rst2rfcxml) : List (List (List Char)) → Option rst2rfcxml
  | [] => some s
  | input_file :: rest =>
    match process_input_stream s input_file with
    | none => none
    | some s => process_streams s rest

/-- Model of `rst2rfcxml::process_files`: process multiple input files (each given as the
list of its lines) that contribute to an output file. -/
def process_files (s : rst2rfcxml) (input_files : List (List (List Char))) :
    Option rst2rfcxml :=
  match process_streams s input_files with
  | none => none
  | some s => pop_contexts 0 s

/-! ## Reference definitions -/

/-- An ASCII letter. -/
def is_ascii_letter (c : Char) : Bool :=
  (65 ≤ c.toNat && c.toNat ≤ 90) || (97 ≤ c.toNat && c.toNat ≤ 122)

/-- An ASCII digit. -/
def is_ascii_digit (c : Char) : Bool := 48 ≤ c.toNat && c.toNat ≤ 57

/-- The legal anchor set of the specification: letters, digits, `_`, `:`, `-`, `.`. -/
def is_anchor_char (c : Char) : Bool :=
  is_ascii_letter c || is_ascii_digit c || c = '_' || c = ':' || c = '-' || c = '.'

/-- The anchor characters that are illegal as a first character: digits, `-`, `.`. -/
def is_not_first_char (c : Char) : Bool :=
  is_ascii_digit c || c = '-' || c = '.'

/-- The characters an anchor is made of: lower-case letters, digits, `_`, `:`, `-`, `.`. -/
def is_lower_anchor_char (c : Char) : Bool :=
  (97 ≤ c.toNat && c.toNat ≤ 122) || is_ascii_digit c || c = '_' || c = ':' || c = '-' || c = '.'

/-- The characters an anchor can start with: lower-case letters, `_`, `:`. -/
def is_lower_first_char (c : Char) : Bool :=
  (97 ≤ c.toNat && c.toNat ≤ 122) || c = '_' || c = ':'

/-- The reference definition of the anchor of `s`, following the specification: keep the
legal anchor characters, drop the longest leading run of digits, `-` and `.`, and
lower-case every letter. -/
def anchor_spec (s : List Char) : List Char :=
  (((s.filter is_anchor_char).dropWhile is_not_first_char)).map Char.toLower


/-- The replacement of one character by a string, as a function on characters. -/
def subst_char (c : Char) (to_s : List Char) (x : Char) : List Char :=
  if x = c then to_s else [x]

/-- The entity escaping of one character, following the specification: `&`, `<` and `>`
become `&amp;`, `&lt;` and `&gt;`; every other character is unchanged. -/
def escape_char (c : Char) : List Char :=
  if c = '&' then "&amp;".toList
  else if c = '<' then "&lt;".toList
  else if c = '>' then "&gt;".toList
  else [c]

/-- The start offsets of the maximal runs of `=` in a line, in increasing order: the
positions, counted from `i`, of the `=` that do not follow another `=`. The flag `prev`
tells whether the character before the line is `=`. -/
def run_starts (prev : Bool) (i : Nat) : List Char → List Nat
  | [] => []
  | c :: cs =>
    if c = '=' then
      if prev then run_starts true (i + 1) cs else i :: run_starts true (i + 1) cs
    else run_starts false (i + 1) cs

/-- The contexts that `handle_table_line` closes before it opens a table. -/
def closes_before_table (c : xml_context) : Bool :=
  c = xml_context.TEXT || c = xml_context.DEFINITION_DESCRIPTION ||
    c = xml_context.DEFINITION_LIST

/-- The characters of a body line that belong to column `i`: from the offset of column `i`
up to (not including) the offset of column `i + 1`, or to the end of the line for the last
column. -/
def body_slice (line : List Char) (cols : List Nat) (i : Nat) : List Char :=
  match cols[i]?, cols[i + 1]? with
  | some start, some next => (line.take next).drop start
  | some start, none => line.drop start
  | none, _ => []

/-- Offset `k` of a line starts a maximal run of `=`: the character at `k` is `=` and it
is the first character or the character before it is not `=`. -/
def is_run_start (l : List Char) (k : Nat) : Prop :=
  l[k]? = some '=' ∧ (k = 0 ∨ l[k - 1]? ≠ some '=')

/-- The text of one data cell. -/
def td (value : List Char) : List Char :=
  "  <td>".toList ++ value ++ "</td>\n".toList

/-- The bullet line `* t` for the item text `t`. -/
def bullet_line (t : List Char) : List Char := "* ".toList ++ t

/-- An item text of a list: not blank, and free of backquotes, backslashes, `&`, `<`
and `>`. -/
@[reducible] def is_item_text (t : List Char) : Prop :=
  (∃ c ∈ t, is_space c = false) ∧ '`' ∉ t ∧ '\\' ∉ t ∧ '&' ∉ t ∧ '<' ∉ t ∧ '>' ∉ t

/-- The contexts that end at a blank line. -/
def closes_at_blank (c : xml_context) : Bool :=
  c = xml_context.DEFINITION_DESCRIPTION || c = xml_context.LIST_ELEMENT ||
    c = xml_context.TEXT || c = xml_context.UNORDERED_LIST

/-- A line `l` that `process_line` buffers as `n`: `l` is no directive line, no underline
and no ruler, its inline transduction is `n`, and `n` is neither a metadata directive nor
indented by two spaces. -/
def buffers_as (l n : List Char) : Prop :=
  (l ≠ ".. contents::".toList ∧ l ≠ ".. sectnum::".toList ∧ l ≠ ".. header::".toList) ∧
  ¬ (l ≠ [] ∧ ∀ c ∈ l, c = '=') ∧ ¬ (l ≠ [] ∧ ∀ c ∈ l, c = '-') ∧
  ¬ (l ≠ [] ∧ ∀ c ∈ l, c = '~') ∧
  ¬ ((∀ c ∈ l, c = ' ' ∨ c = '=') ∧ '=' ∈ l) ∧
  _handle_escapes l = some n ∧ n.head? ≠ some '.' ∧ n.head? ≠ some ' '

/-- The first character of a string, if any, is no whitespace. -/
def head_not_space : List Char → Bool
  | [] => true
  | c :: _ => !is_space c

/-- The contexts pushed one at a time by `process_line`, apart from the table header and
body (pushed onto a table), the middle matter and the two contexts of the header
directive. -/
def pushable (x : xml_context) : Bool :=
  x ≠ xml_context.TABLE_HEADER && x ≠ xml_context.TABLE_BODY && x ≠ xml_context.MIDDLE &&
    x ≠ xml_context.FRONT && x ≠ xml_context.RFC

/-- The contexts that `process_line` pops after testing that they are innermost. -/
def guarded (x : xml_context) : Bool :=
  x = xml_context.TITLE || x = xml_context.LIST_ELEMENT || x = xml_context.DEFINITION_TERM ||
    x = xml_context.DEFINITION_LIST || x = xml_context.DEFINITION_DESCRIPTION ||
    x = xml_context.TEXT || x = xml_context.UNORDERED_LIST

/-- The elementary changes of the context stack made by `process_line`. The flag `hdr`
allows the pushes of the header directive and the flag `trans` the change from front to
middle matter. -/
inductive Move (hdr trans : Bool) : List xml_context → List xml_context → Prop
  | push (x : xml_context) (c : List xml_context) (hx : pushable x = true) :
      Move hdr trans c (x :: c)
  | header (c : List xml_context) (h : hdr = true) :
      Move hdr trans c (xml_context.FRONT :: xml_context.RFC :: c)
  | front_to_middle (y : xml_context) (h : trans = true) :
      Move hdr trans [xml_context.FRONT, y] [xml_context.MIDDLE, y]
  | front_alone (h : trans = true) :
      Move hdr trans [xml_context.FRONT] [xml_context.MIDDLE, xml_context.FRONT]
  | open_table (c : List xml_context) :
      Move hdr trans c (xml_context.TABLE_HEADER :: xml_context.TABLE :: c)
  | to_body (c : List xml_context) :
      Move hdr trans (xml_context.TABLE_HEADER :: c) (xml_context.TABLE_BODY :: c)
  | close_table (x : xml_context) (c : List xml_context) :
      Move hdr trans (xml_context.TABLE_BODY :: x :: c) c
  | pop_guard (x : xml_context) (c : List xml_context) (hx : guarded x = true) :
      Move hdr trans (x :: c) c
  | pop_deep (x : xml_context) (c : List xml_context) (h : 2 ≤ c.length) :
      Move hdr trans (x :: c) c

/-- A sequence of elementary changes of the context stack. -/
def Moves (hdr trans : Bool) : List xml_context → List xml_context → Prop :=
  Relation.ReflTransGen (Move hdr trans)

/-- Every table header and table body on the stack lies directly on a table. -/
def table_nested : List xml_context → Bool
  | [] => true
  | c :: rest =>
    (if c = xml_context.TABLE_HEADER ∨ c = xml_context.TABLE_BODY then
      decide (rest.head? = some xml_context.TABLE) else true) && table_nested rest

/-- The buffered line after a step: unchanged, cleared, or a transduced line. -/
def prev_rel (p p' : List Char) : Prop :=
  p' = p ∨ p' = [] ∨ ∃ l, _handle_escapes l = some p'

/-- The test of `handle_title_line` for a level-1 section heading: an underline of `=`,
outside a title, after a non-blank buffered line. -/
def is_section_heading_1 (s : rst2rfcxml) (line : List Char) : Bool :=
  (starts_with line "=".toList && (find_first_not_of line "=".toList 0).isNone) &&
    !in_context s xml_context.TITLE &&
    (find_first_not_of s._previous_line " ".toList 0).isSome

/-- What a step of the converter does to the context stack, the output and the buffered
line: the stack changes by elementary moves, the output is extended, and the buffered line
is kept, cleared or replaced by a transduced line. -/
def Post (hdr trans : Bool) (s s' : rst2rfcxml) : Prop :=
  Moves hdr trans s._contexts s'._contexts ∧ (∃ d, s'.output = s.output ++ d) ∧
    prev_rel s._previous_line s'._previous_line

/-- The front matter is open: the stack ends with `FRONT` on the root, and above them
there is no front matter, middle matter or root. -/
def front_open (c : List xml_context) : Prop :=
  ∃ upper, c = upper ++ [xml_context.FRONT, xml_context.RFC] ∧
    ∀ x ∈ upper, x ≠ xml_context.FRONT ∧ x ≠ xml_context.MIDDLE ∧ x ≠ xml_context.RFC

/-- The middle matter is open: the stack ends with `MIDDLE` on the root, and above them
there is no front matter, middle matter or root. -/
def middle_open (c : List xml_context) : Prop :=
  ∃ upper, c = upper ++ [xml_context.MIDDLE, xml_context.RFC] ∧
    ∀ x ∈ upper, x ≠ xml_context.FRONT ∧ x ≠ xml_context.MIDDLE ∧ x ≠ xml_context.RFC

/-- The last character of a string, if any, is no whitespace. -/
def last_not_space (l : List Char) : Bool := head_not_space l.reverse

/-- The text that `output_previous_line` writes for a non-blank buffered line: the trimmed
line, and for a bullet line the list item with the trimmed text after the bullet. -/
def shown_text (prev : List Char) : List Char :=
  if starts_with prev "* ".toList then "<li>".toList ++ _trim (prev.drop 2) else _trim prev

/-- The number of occurrences of `pat` in a string: the number of positions at which `pat`
is a prefix of the rest of the string. -/
def occurrences (pat : List Char) : List Char → Nat
  | [] => 0
  | c :: cs => (if pat.isPrefixOf (c :: cs) then 1 else 0) + occurrences pat cs

/-- A text with fixed-width spans: for each piece, the text before the span and the span
`<tt>`, content, `</tt>`; then the text after the last span. -/
def render_spans (pieces : List (List Char × List Char)) (tail : List Char) : List Char :=
  pieces.flatMap (fun p => p.1 ++ "<tt>".toList ++ p.2 ++ "</tt>".toList) ++ tail

/-- Every `<` of the text is followed by `x` (it starts a cross-reference element). -/
def lt_then_x : List Char → Bool
  | [] => true
  | c :: cs => (c != '<' || cs.head? == some 'x') && lt_then_x cs

/-- The text contains two adjacent backquotes. -/
def has_double_backquote : List Char → Bool
  | [] => false
  | c :: cs => (c == '`' && cs.head? == some '`') || has_double_backquote cs

/-- The markup that `output_previous_line` writes before the text of a non-blank buffered
line; it depends on the innermost contexts, on the first characters of the buffered line
and, in front matter, on the authors. -/
def flush_openings (s : rst2rfcxml) : List Char :=
  if starts_with s._previous_line "* ".toList then
    (if in_context s xml_context.LIST_ELEMENT then closing_text xml_context.LIST_ELEMENT
      else []) ++
    (if (if in_context s xml_context.LIST_ELEMENT then s._contexts.tail
        else s._contexts).head? = some xml_context.UNORDERED_LIST then []
      else "<ul>\n".toList)
  else if in_context s xml_context.DEFINITION_TERM &&
      starts_with s._previous_line "  ".toList then
    closing_text xml_context.DEFINITION_TERM ++ "<dd>".toList
  else if !in_context s xml_context.DEFINITION_DESCRIPTION &&
      !in_context s xml_context.DEFINITION_TERM && !in_context s xml_context.TEXT then
    (if in_context s xml_context.FRONT then
        s._authors.flatMap output_author ++ "<abstract>\n".toList
      else if in_context s xml_context.DEFINITION_LIST then
        closing_text xml_context.DEFINITION_LIST
      else []) ++ "<t>\n".toList
  else []

/-- The text that a call of `output_previous_line` writes: for a non-blank buffered line the
opening markup, the text of the line and the line end; for a blank one the closing text of
the innermost contexts that end at a blank line. -/
def flush_text (s : rst2rfcxml) : List Char :=
  if (find_first_not_of s._previous_line " ".toList 0).isSome then
    flush_openings s ++ shown_text s._previous_line ++ "\n".toList
  else (s._contexts.takeWhile closes_at_blank).flatMap closing_text

/-- The closing text that a section-heading branch of `handle_title_line` writes before the
section opening, for the underline `u`: the contexts above the level of the heading are
closed, and a level-1 heading in front matter closes it and opens the middle matter. -/
def heading_closings (s : rst2rfcxml) (u : List Char) : List Char :=
  if u.head? = some '=' then
    (s._contexts.take (s._contexts.length - 2)).flatMap closing_text ++
      (if (s._contexts.drop (s._contexts.length - 2)).head? = some xml_context.FRONT then
        ((s._contexts.drop (s._contexts.length - 2)).take
          ((s._contexts.drop (s._contexts.length - 2)).length - 1)).flatMap closing_text ++
          "<middle>\n".toList
      else [])
  else if u.head? = some '-' then
    (s._contexts.take (s._contexts.length - 3)).flatMap closing_text
  else (s._contexts.take (s._contexts.length - 4)).flatMap closing_text

/-- The section opening written for a heading with the transduced title `title`. -/
def section_opening (title : List Char) : List Char :=
  "<section anchor=\"".toList ++ _anchor title ++ "\" title=\"".toList ++ title ++
    "\">".toList ++ "\n".toList

/-- The incoming line is an underline that makes `handle_title_line` take a section-heading
branch: a level-1 heading, or a line of `-` or of `~`. -/
def is_heading_underline (s : rst2rfcxml) (u : List Char) : Bool :=
  is_section_heading_1 s u || (!u.isEmpty && u.all (fun c => c == '-')) ||
    (!u.isEmpty && u.all (fun c => c == '~'))

/-- The incoming line reaches the end of `process_line`: it is none of the three directive
lines, title handling and table handling return `false`, and its transduction is no
metadata directive. -/
def reaches_flush (s : rst2rfcxml) (line : List Char) : Bool :=
  decide (line ≠ ".. contents::".toList) && decide (line ≠ ".. sectnum::".toList) &&
    decide (line ≠ ".. header::".toList) &&
    decide (handle_title_line s line = some (false, s)) &&
    decide (handle_table_line s line = some (false, s)) &&
    decide ((_handle_escapes line).bind (handle_variable_initializations s)
      = some (false, s))

/-- Every line of the run is a heading underline or reaches the end of `process_line`, in
the state in which it is read. -/
def in_order (s : rst2rfcxml) : List (List Char) → Bool
  | [] => true
  | line :: rest =>
    (is_heading_underline s line || reaches_flush s line) &&
      (match process_line s line with
        | some s1 => in_order s1 rest
        | none => false)

/-- The text starts with `t`, with `x` or with `/t`: what follows the `<` of a tag that
`_handle_escapes` writes. -/
def tag_next (cs : List Char) : Bool :=
  cs.head? == some 't' || cs.head? == some 'x' ||
    (cs.head? == some '/' && cs.tail.head? == some 't')

/-- Every `<` of the text starts one of the tags that `_handle_escapes` writes: it is
followed by `t`, by `x` or by `/t`. -/
def tag_starts : List Char → Bool
  | [] => true
  | c :: cs => (c != '<' || tag_next cs) && tag_starts cs

/-- The text is empty or its last character occurs neither in `<middle` nor in `</front`:
no occurrence of `<middle>` or `</front>` begins in the text and ends after it. -/
def ends_ok (u : List Char) : Bool :=
  match u.getLast? with
  | none => true
  | some c => !("<middle".toList.contains c) && !("</front".toList.contains c)

/-- The text is empty or its first character occurs neither in `middle>` nor in
`/front>`: no occurrence of `<middle>` or `</front>` begins before the text and ends in
it. -/
def starts_ok (v : List Char) : Bool :=
  match v.head? with
  | none => true
  | some c => !("middle>".toList.contains c) && !("/front>".toList.contains c)

/-- The text contains neither `<middle>` nor `</front>`. -/
def silent (t : List Char) : Prop :=
  occurrences "<middle>".toList t = 0 ∧ occurrences "</front>".toList t = 0

/-- A text written by a step that neither contains `<middle>` or `</front>` nor can begin one
that a later text completes. -/
def quiet (d : List Char) : Prop := ends_ok d = true ∧ silent d

/-- The texts kept in the state that the converter writes later are transduced texts: the
buffered line, the abbreviated title and the fields of the authors. -/
def fields_ok (s : rst2rfcxml) : Prop :=
  tag_starts s._previous_line = true ∧ tag_starts s._abbreviated_title = true ∧
    ∀ a ∈ s._authors, tag_starts a.fullname = true ∧ tag_starts a.initials = true ∧
      tag_starts a.surname = true ∧ tag_starts a.role = true
/-! ## The anchor normalizer -/

/-- A property holds of every character once it holds of the 128 ASCII characters and
of every character beyond them. -/
theorem char_cases (P : Char → Prop) (hlow : ∀ n, n < 128 → P (Char.ofNat n))
    (hhigh : ∀ c : Char, 128 ≤ c.toNat → P c) : ∀ c, P c := by
  intro c
  by_cases h : c.toNat < 128
  · have := hlow c.toNat h
    rwa [Char.ofNat_toNat] at this
  · exact hhigh c (by omega)

theorem legal_anchor_characters_ascii : ∀ x ∈ legal_anchor_characters, x.toNat < 128 := by
  decide

theorem legal_first_character_ascii : ∀ x ∈ legal_first_character, x.toNat < 128 := by
  decide

theorem ne_of_toNat_ge {c d : Char} (hc : 128 ≤ c.toNat) (hd : d.toNat < 128) : c ≠ d := by
  rintro rfl; omega

theorem legal_anchor_characters_contains (c : Char) :
    legal_anchor_characters.contains c = is_anchor_char c := by
  revert c
  apply char_cases
  · decide
  · intro c hc
    have h1 : legal_anchor_characters.contains c = false := by
      rw [Bool.eq_false_iff]
      intro h
      have := legal_anchor_characters_ascii c (by simpa using h)
      omega
    have h2 : c ≠ '_' := ne_of_toNat_ge hc (by decide)
    have h3 : c ≠ ':' := ne_of_toNat_ge hc (by decide)
    have h4 : c ≠ '-' := ne_of_toNat_ge hc (by decide)
    have h5 : c ≠ '.' := ne_of_toNat_ge hc (by decide)
    rw [h1]
    simp [is_anchor_char, is_ascii_letter, is_ascii_digit, h2, h3, h4, h5]
    omega

theorem legal_first_character_contains (c : Char) :
    legal_first_character.contains c = (is_anchor_char c && !is_not_first_char c) := by
  revert c
  apply char_cases
  · decide
  · intro c hc
    have h1 : legal_first_character.contains c = false := by
      rw [Bool.eq_false_iff]
      intro h
      have := legal_first_character_ascii c (by simpa using h)
      omega
    have h2 : c ≠ '_' := ne_of_toNat_ge hc (by decide)
    have h3 : c ≠ ':' := ne_of_toNat_ge hc (by decide)
    have h4 : c ≠ '-' := ne_of_toNat_ge hc (by decide)
    have h5 : c ≠ '.' := ne_of_toNat_ge hc (by decide)
    rw [h1]
    simp [is_anchor_char, is_not_first_char, is_ascii_letter, is_ascii_digit, h2, h3, h4, h5]
    omega

theorem is_anchor_char_ascii {c : Char} (h : is_anchor_char c = true) : c.toNat < 128 := by
  rw [← legal_anchor_characters_contains] at h
  exact legal_anchor_characters_ascii c (by simpa using h)

theorem tolower_eq_toLower (c : Char) : (if isupper c then tolower c else c) = c.toLower := by
  simp only [tolower, isupper, Char.toLower]
  by_cases h : 65 ≤ c.toNat ∧ c.toNat ≤ 90
  · have h1 : ('A'.toNat ≤ c.toNat && c.toNat ≤ 'Z'.toNat) = true := by
      simpa using h
    simp [h1, h]
  · have h1 : ('A'.toNat ≤ c.toNat && c.toNat ≤ 'Z'.toNat) = false := by
      rw [Bool.eq_false_iff]
      simpa using h
    simp [h1, h]

/-- The loop body of `_anchor` in terms of the classes of the specification. -/
theorem _anchor_step_eq (anchor : List Char) (c : Char) :
    _anchor_step anchor c =
      if is_anchor_char c && !(anchor.isEmpty && is_not_first_char c) then anchor ++ [c.toLower]
      else anchor := by
  unfold _anchor_step
  rw [legal_anchor_characters_contains, legal_first_character_contains, tolower_eq_toLower]
  cases is_anchor_char c <;> cases anchor.isEmpty <;> cases is_not_first_char c <;> rfl

theorem foldl_anchor_step_of_ne_nil (s : List Char) :
    ∀ anchor : List Char, anchor ≠ [] →
      s.foldl _anchor_step anchor = anchor ++ (s.filter is_anchor_char).map Char.toLower := by
  induction s with
  | nil => intro anchor _; simp
  | cons c cs ih =>
    intro anchor h
    have he : anchor.isEmpty = false := by
      cases anchor with
      | nil => exact absurd rfl h
      | cons _ _ => rfl
    rw [List.foldl_cons, _anchor_step_eq, he]
    cases hc : is_anchor_char c
    · simp [hc, ih anchor h]
    · simp [hc, ih (anchor ++ [c.toLower]) (by simp)]

/-- The loop of `_anchor` computes the reference definition. -/
theorem _anchor_eq_anchor_spec (s : List Char) : _anchor s = anchor_spec s := by
  unfold _anchor anchor_spec
  induction s with
  | nil => rfl
  | cons c cs ih =>
    rw [List.foldl_cons, _anchor_step_eq]
    cases hc : is_anchor_char c
    · simp [hc, ih]
    · cases hf : is_not_first_char c
      · simp [hc, hf, foldl_anchor_step_of_ne_nil]
      · simp [hc, hf, ih]

theorem is_lower_anchor_char_toLower :
    ∀ c : Char, is_anchor_char c = true → is_lower_anchor_char c.toLower = true := by
  apply char_cases
  · decide
  · intro c hc h
    have := is_anchor_char_ascii h
    omega

theorem is_lower_first_char_toLower :
    ∀ c : Char, is_anchor_char c = true → is_not_first_char c = false →
      is_lower_first_char c.toLower = true := by
  apply char_cases
  · decide
  · intro c hc h
    have := is_anchor_char_ascii h
    omega

theorem is_lower_anchor_char_ascii :
    ∀ c : Char, is_lower_anchor_char c = true → c.toNat < 128 := by
  intro c h
  by_contra hc
  have hc : 128 ≤ c.toNat := by omega
  have h2 : c ≠ '_' := ne_of_toNat_ge hc (by decide)
  have h3 : c ≠ ':' := ne_of_toNat_ge hc (by decide)
  have h4 : c ≠ '-' := ne_of_toNat_ge hc (by decide)
  have h5 : c ≠ '.' := ne_of_toNat_ge hc (by decide)
  simp [is_lower_anchor_char, is_ascii_digit, h2, h3, h4, h5] at h
  omega

/-- A character of an anchor is a legal anchor character and is its own lower case. -/
theorem is_lower_anchor_char_fixed :
    ∀ c : Char, is_lower_anchor_char c = true → is_anchor_char c = true ∧ c.toLower = c := by
  apply char_cases
  · decide
  · intro c hc h
    have := is_lower_anchor_char_ascii c h
    omega

theorem is_lower_first_char_not_dropped :
    ∀ c : Char, is_lower_first_char c = true → is_not_first_char c = false := by
  apply char_cases
  · decide
  · intro c hc h
    have h2 : c ≠ '_' := ne_of_toNat_ge hc (by decide)
    have h3 : c ≠ ':' := ne_of_toNat_ge hc (by decide)
    simp [is_lower_first_char, h2, h3] at h
    omega

theorem anchor_spec_chars (s : List Char) :
    ∀ c ∈ anchor_spec s, is_lower_anchor_char c = true := by
  intro c hc
  simp only [anchor_spec, List.mem_map] at hc
  obtain ⟨d, hd, rfl⟩ := hc
  have := (List.dropWhile_sublist _).subset hd
  exact is_lower_anchor_char_toLower d (List.mem_filter.mp this).2

theorem anchor_spec_head (s : List Char) :
    ∀ c ∈ (anchor_spec s).head?, is_lower_first_char c = true := by
  intro c hc
  simp only [anchor_spec, List.head?_map, Option.mem_def, Option.map_eq_some'] at hc
  obtain ⟨d, hd, rfl⟩ := hc
  have hmem : d ∈ (s.filter is_anchor_char).dropWhile is_not_first_char :=
    List.mem_of_mem_head? hd
  have h1 := (List.mem_filter.mp ((List.dropWhile_sublist _).subset hmem)).2
  have hne : (s.filter is_anchor_char).dropWhile is_not_first_char ≠ [] :=
    List.ne_nil_of_mem hmem
  have h2 := List.head_dropWhile_not is_not_first_char (s.filter is_anchor_char) hne
  have h3 : ((s.filter is_anchor_char).dropWhile is_not_first_char).head hne = d := by
    rw [List.head?_eq_head hne] at hd
    exact Option.some.inj hd
  rw [h3] at h2
  exact is_lower_first_char_toLower d h1 (by simpa using h2)

/-- A string made of anchor characters that does not start with a digit, `-` or `.` is
its own anchor. -/
theorem anchor_spec_fixed (r : List Char) (h1 : ∀ c ∈ r, is_lower_anchor_char c = true)
    (h2 : ∀ c ∈ r.head?, is_lower_first_char c = true) : anchor_spec r = r := by
  unfold anchor_spec
  have hf : r.filter is_anchor_char = r :=
    List.filter_eq_self.mpr (fun c hc => (is_lower_anchor_char_fixed c (h1 c hc)).1)
  have hd : r.dropWhile is_not_first_char = r := by
    cases r with
    | nil => rfl
    | cons a t =>
      have := is_lower_first_char_not_dropped a (h2 a (by simp))
      simp [List.dropWhile_cons, this]
  rw [hf, hd]
  conv_rhs => rw [← List.map_id r]
  exact List.map_congr_left (fun c hc => (is_lower_anchor_char_fixed c (h1 c hc)).2)

/-- C1. For every string `s`, `_anchor s` equals the reference definition (keep the letters,
digits, `_`, `:`, `-`, `.`; drop the longest leading run of digits, `-`, `.`; lower-case
every letter); every character of the result is a lower-case letter, digit, `_`, `:`, `-`
or `.`, and a non-empty result starts with a lower-case letter, `_` or `:`. -/
theorem anchor_reference (s : List Char) :
    _anchor s = ((s.filter is_anchor_char).dropWhile is_not_first_char).map Char.toLower ∧
    (∀ c ∈ _anchor s, is_lower_anchor_char c = true) ∧
    (∀ c ∈ (_anchor s).head?, is_lower_first_char c = true) := by
  refine ⟨_anchor_eq_anchor_spec s, ?_, ?_⟩
  · rw [_anchor_eq_anchor_spec]; exact anchor_spec_chars s
  · rw [_anchor_eq_anchor_spec]; exact anchor_spec_head s

/-- C2. Anchor idempotence: for every string `s`, `_anchor (_anchor s) = _anchor s`. -/
theorem anchor_idempotent (s : List Char) : _anchor (_anchor s) = _anchor s := by
  rw [_anchor_eq_anchor_spec (_anchor s), _anchor_eq_anchor_spec s]
  exact anchor_spec_fixed _ (anchor_spec_chars s) (anchor_spec_head s)
/-! ## Searching and replacing -/

theorem find_at_eq_none_of_not_mem (pat : List Char) (c : Char) (hc : c ∈ pat) :
    ∀ (l : List Char) (i : Nat), c ∉ l → find_at pat l i = none := by
  intro l
  induction l with
  | nil =>
    intro i _
    cases pat with
    | nil => simp at hc
    | cons p ps => simp [find_at, List.isPrefixOf]
  | cons x xs ih =>
    intro i hx
    have hp : pat.isPrefixOf (x :: xs) = false := by
      rw [Bool.eq_false_iff]
      intro h
      exact hx ((List.isPrefixOf_iff_prefix.mp h).subset hc)
    simp only [find_at, hp]
    exact ih (i + 1) (fun h => hx (List.mem_cons_of_mem _ h))

/-- A pattern containing a character that the string lacks is not found. -/
theorem find_eq_none_of_not_mem (pat : List Char) (c : Char) (hc : c ∈ pat)
    (s : List Char) (pos : Nat) (h : c ∉ s) : find s pat pos = none := by
  unfold find
  split
  · rfl
  · exact find_at_eq_none_of_not_mem pat c hc _ _ (fun hm => h (List.mem_of_mem_drop hm))

/-- Searching a one-character pattern: either the character is absent, or the string
splits at its first occurrence. -/
theorem find_at_single (c : Char) :
    ∀ (l : List Char) (i : Nat),
      (find_at [c] l i = none ∧ c ∉ l) ∨
      (∃ l1 l2, l = l1 ++ c :: l2 ∧ c ∉ l1 ∧ find_at [c] l i = some (i + l1.length)) := by
  intro l
  induction l with
  | nil => intro i; left; simp [find_at, List.isPrefixOf]
  | cons x xs ih =>
    intro i
    by_cases hx : c = x
    · right
      refine ⟨[], xs, by simp [hx], by simp, ?_⟩
      simp [find_at, List.isPrefixOf, hx]
    · have hp : List.isPrefixOf [c] (x :: xs) = false := by
        simp [List.isPrefixOf, hx]
      rcases ih (i + 1) with ⟨h1, h2⟩ | ⟨l1, l2, h1, h2, h3⟩
      · left
        refine ⟨by simp only [find_at, hp]; simpa using h1, ?_⟩
        simp [hx, h2]
      · right
        refine ⟨x :: l1, l2, by simp [h1], ?_, ?_⟩
        · simp [hx, h2]
        · simp only [find_at, hp]
          simp [h3]; omega

theorem find_append_length (pre l pat : List Char) :
    find (pre ++ l) pat pre.length = find_at pat l pre.length := by
  simp [find]

theorem flatMap_subst_char_of_not_mem (c : Char) (to_s : List Char) (l : List Char)
    (h : c ∉ l) : l.flatMap (subst_char c to_s) = l := by
  induction l with
  | nil => rfl
  | cons x xs ih =>
    have hx : x ≠ c := fun e => h (by simp [e])
    have := ih (fun hm => h (List.mem_cons_of_mem _ hm))
    simp [List.flatMap_cons, subst_char, hx, this]

/-- The loop of `_replace_all` for a one-character pattern: started at the end of `pre`
with enough fuel, it replaces every occurrence of `c` in the rest of the line. -/
theorem _replace_all_loop_single (c : Char) (to_s : List Char) :
    ∀ (fuel : Nat) (pre l : List Char), l.length < fuel →
      _replace_all_loop [c] to_s fuel (pre ++ l) pre.length
        = some (pre ++ l.flatMap (subst_char c to_s)) := by
  intro fuel
  induction fuel with
  | zero => intro pre l h; omega
  | succ fuel ih =>
    intro pre l h
    rw [_replace_all_loop, find_append_length]
    rcases find_at_single c l pre.length with ⟨h1, h2⟩ | ⟨l1, l2, h1, h2, h3⟩
    · rw [h1, flatMap_subst_char_of_not_mem c to_s l h2]
    · rw [h3]
      have hr : replace (pre ++ l) (pre.length + l1.length) [c].length to_s
          = (pre ++ l1 ++ to_s) ++ l2 := by
        subst h1
        have e1 : pre ++ (l1 ++ c :: l2) = (pre ++ l1) ++ c :: l2 := by simp
        have e2 : pre.length + l1.length = (pre ++ l1).length := by simp
        unfold replace
        rw [e1, e2, List.take_left']
        · have : (pre ++ l1).length + [c].length = (pre ++ l1 ++ [c]).length := by
            simp only [List.length_append, List.length_singleton]
          rw [this]
          have e3 : pre ++ l1 ++ c :: l2 = (pre ++ l1 ++ [c]) ++ l2 := by simp
          rw [e3, List.drop_left']
          rfl
        · rfl
      have hs : pre.length + l1.length + to_s.length = (pre ++ l1 ++ to_s).length := by
        simp only [List.length_append]
      simp only [hr, hs]
      rw [ih (pre ++ l1 ++ to_s) l2 (by subst h1; simp at h; omega)]
      subst h1
      simp [List.flatMap_append, List.flatMap_cons, flatMap_subst_char_of_not_mem c to_s l1 h2,
        subst_char]

/-- With a one-character pattern, `_replace_all` replaces every occurrence. -/
theorem _replace_all_single (c : Char) (to_s line : List Char) :
    _replace_all line [c] to_s = some (line.flatMap (subst_char c to_s)) := by
  have := _replace_all_loop_single c to_s (line.length + 1) [] line (by omega)
  simpa [_replace_all] using this

/-- When the pattern contains a character that the line lacks, `_replace_all` leaves the
line unchanged. -/
theorem _replace_all_of_not_mem (line from_s to_s : List Char) (c : Char) (hc : c ∈ from_s)
    (h : c ∉ line) : _replace_all line from_s to_s = some line := by
  rw [_replace_all, _replace_all_loop, find_eq_none_of_not_mem from_s c hc line 0 h]

theorem _replace_constant_width_instances_of_not_mem (line : List Char) (h : '`' ∉ line) :
    _replace_constant_width_instances line = some line := by
  rw [_replace_constant_width_instances, _replace_constant_width_instances_loop,
    find_eq_none_of_not_mem "``".toList '`' (by decide) line 0 h]

theorem _replace_internal_links_of_not_mem (line : List Char) (h : '`' ∉ line) :
    _replace_internal_links line = some line := by
  rw [_replace_internal_links, _replace_internal_links_loop,
    find_eq_none_of_not_mem "`".toList '`' (by decide) line 0 h]

/-! ## The inline transducer on plain lines -/

theorem mem_of_mem_trim {c : Char} {s : List Char} (h : c ∈ _trim s) : c ∈ s := by
  unfold _trim at h
  rw [List.mem_reverse] at h
  have h1 := (List.dropWhile_sublist is_space).subset h
  rw [List.mem_reverse] at h1
  exact (List.dropWhile_sublist is_space).subset h1

theorem escape_char_eq (x : Char) :
    (((subst_char '&' "&amp;".toList x).flatMap (subst_char '<' "&lt;".toList)).flatMap
      (subst_char '>' "&gt;".toList)) = escape_char x := by
  by_cases h1 : x = '&'
  · subst h1; decide
  · by_cases h2 : x = '<'
    · subst h2; decide
    · by_cases h3 : x = '>'
      · subst h3; decide
      · simp [subst_char, escape_char, h1, h2, h3]

theorem flatMap_escape_char (l : List Char) :
    ((l.flatMap (subst_char '&' "&amp;".toList)).flatMap (subst_char '<' "&lt;".toList)).flatMap
      (subst_char '>' "&gt;".toList) = l.flatMap escape_char := by
  induction l with
  | nil => rfl
  | cons x xs ih =>
    simp only [List.flatMap_cons, List.flatMap_append, ih, escape_char_eq]

theorem mem_escape_char {c x : Char} (h : c ∈ escape_char x) :
    c = x ∨ c ∈ "&amp;lt;gt;".toList := by
  unfold escape_char at h
  split at h
  · right; revert h; revert c; decide
  · split at h
    · right; revert h; revert c; decide
    · split at h
      · right; revert h; revert c; decide
      · left; simpa using h

theorem not_mem_flatMap_escape_char {c : Char} (hc : c ∉ "&amp;lt;gt;".toList) {l : List Char}
    (h : c ∉ l) : c ∉ l.flatMap escape_char := by
  intro hm
  obtain ⟨x, hx, hcx⟩ := List.mem_flatMap.mp hm
  rcases mem_escape_char hcx with rfl | h'
  · exact h hx
  · exact hc h'

/-- The steps of `_handle_escapes` before the two substitution passes: on a line without
backslash they escape `&`, `<` and `>` of the trimmed line. -/
theorem escape_steps (line : List Char) (h : '\\' ∉ line) :
    _handle_escapes line =
      match _replace_constant_width_instances ((_trim line).flatMap escape_char) with
      | none => none
      | some line => _replace_internal_links line := by
  have ht : '\\' ∉ _trim line := fun hm => h (mem_of_mem_trim hm)
  unfold _handle_escapes
  simp only []
  rw [_replace_all_of_not_mem _ "\\*".toList _ '\\' (by decide) ht]
  simp only []
  rw [_replace_all_of_not_mem _ "\\|".toList _ '\\' (by decide) ht]
  simp only []
  have e1 : "&".toList = ['&'] := rfl
  have e2 : "<".toList = ['<'] := rfl
  have e3 : ">".toList = ['>'] := rfl
  rw [e1, e2, e3, _replace_all_single]
  simp only []
  rw [_replace_all_single]
  simp only []
  rw [_replace_all_single]
  simp only []
  rw [flatMap_escape_char]

/-- On a line without backquote and backslash, `_handle_escapes` trims the line and
escapes `&`, `<` and `>`. -/
theorem _handle_escapes_plain (line : List Char) (h1 : '`' ∉ line) (h2 : '\\' ∉ line) :
    _handle_escapes line = some ((_trim line).flatMap escape_char) := by
  have ht : '`' ∉ (_trim line).flatMap escape_char :=
    not_mem_flatMap_escape_char (by decide) (fun hm => h1 (mem_of_mem_trim hm))
  rw [escape_steps line h2, _replace_constant_width_instances_of_not_mem _ ht]
  exact _replace_internal_links_of_not_mem _ ht

/-- C3. Escaping happens exactly once: for every line that contains no backquote and no
backslash, `_handle_escapes line` is the whitespace-trimmed line in which each `&` is
replaced by `&amp;`, each `<` by `&lt;`, each `>` by `&gt;` and every other character is
unchanged; for example `&<>` yields `&amp;&lt;&gt;`. -/
theorem escaping_exactly_once (line : List Char) (h1 : '`' ∉ line) (h2 : '\\' ∉ line) :
    _handle_escapes line = some ((_trim line).flatMap escape_char) ∧
    _handle_escapes "&<>".toList = some "&amp;&lt;&gt;".toList :=
  ⟨_handle_escapes_plain line h1 h2, by decide⟩

/-- An instance of `escaping_exactly_once`: the line ` a & b<c> `. -/
theorem escaping_exactly_once_witness :
    '`' ∉ " a & b<c> ".toList ∧ '\\' ∉ " a & b<c> ".toList ∧
    _handle_escapes " a & b<c> ".toList = some "a &amp; b&lt;c&gt;".toList :=
  ⟨by decide, by decide,
    (escaping_exactly_once " a & b<c> ".toList (by decide) (by decide)).1.trans (by decide)⟩
/-! ## Line classification -/

theorem find_if_eq_none_iff (p : Char → Bool) :
    ∀ (l : List Char) (i : Nat), find_if p l i = none ↔ ∀ c ∈ l, p c = false := by
  intro l
  induction l with
  | nil => intro i; simp [find_if]
  | cons x xs ih =>
    intro i
    cases hx : p x
    · simp [find_if, hx, ih]
    · simp [find_if, hx]

/-- A line has no character outside the one-character set `g` exactly when all its
characters are `g`. -/
theorem find_first_not_of_single_eq_none_iff (l : List Char) (g : Char) :
    find_first_not_of l [g] 0 = none ↔ ∀ c ∈ l, c = g := by
  unfold find_first_not_of
  rw [List.drop_zero, find_if_eq_none_iff]
  constructor
  · intro h c hc
    have := h c hc
    simpa using this
  · intro h c hc
    simp [h c hc]

theorem starts_with_single (l : List Char) (g : Char) :
    starts_with l [g] = true ↔ l.head? = some g := by
  cases l with
  | nil => simp [starts_with, List.isPrefixOf]
  | cons x xs =>
    simp [starts_with, List.isPrefixOf]
    exact eq_comm

/-- The test of `handle_title_line` for an underline made of the glyph `g` succeeds
exactly on the non-empty lines all of whose characters are `g`. -/
theorem underline_test_iff (l : List Char) (g : Char) :
    (starts_with l [g] && (find_first_not_of l [g] 0).isNone) = true ↔
      l ≠ [] ∧ ∀ c ∈ l, c = g := by
  rw [Bool.and_eq_true, starts_with_single, Option.isNone_iff_eq_none,
    find_first_not_of_single_eq_none_iff]
  constructor
  · rintro ⟨h1, h2⟩
    exact ⟨by rintro rfl; simp at h1, h2⟩
  · rintro ⟨h1, h2⟩
    refine ⟨?_, h2⟩
    cases l with
    | nil => exact absurd rfl h1
    | cons x xs => simp [h2 x (by simp)]

theorem underline_test_false (l : List Char) (g : Char) (h : ¬ (l ≠ [] ∧ ∀ c ∈ l, c = g)) :
    (starts_with l [g] && (find_first_not_of l [g] 0).isNone) = false := by
  rw [Bool.eq_false_iff]
  exact fun h' => h ((underline_test_iff l g).mp h')

theorem in_context_iff (s : rst2rfcxml) (context : xml_context) :
    in_context s context = true ↔ s._contexts.head? = some context := by
  unfold in_context
  cases s._contexts <;> simp

theorem in_context_push (s : rst2rfcxml) (c d : xml_context) :
    in_context (push s c) d = decide (c = d) := by
  simp [in_context, push]

theorem in_context_emit (s : rst2rfcxml) (t : List Char) (d : xml_context) :
    in_context (emit s t) d = in_context s d := rfl

/-- A line all of whose characters are one glyph is none of the three directive lines that
`process_line` recognises first. -/
theorem underline_not_directive (l : List Char) (g : Char) (hg : g ≠ '.')
    (h : ∀ c ∈ l, c = g) :
    l ≠ ".. contents::".toList ∧ l ≠ ".. sectnum::".toList ∧ l ≠ ".. header::".toList := by
  refine ⟨?_, ?_, ?_⟩ <;>
  · rintro rfl
    exact hg (h '.' (by decide)).symm

/-! ## Titles -/

/-- An underline of `=` after a blank buffered line, outside a title, opens a title. -/
theorem process_line_title_open (s : rst2rfcxml) (m : List Char)
    (hm : m ≠ [] ∧ ∀ c ∈ m, c = '=') (hctx : s._contexts.head? ≠ some TITLE)
    (hblank : ∀ c ∈ s._previous_line, c = ' ') :
    process_line s m = some (push s TITLE) := by
  obtain ⟨d1, d2, d3⟩ := underline_not_directive m '=' (by decide) hm.2
  have h1 : (starts_with m "=".toList && (find_first_not_of m "=".toList 0).isNone) = true :=
    (underline_test_iff m '=').mpr hm
  have h2 : in_context s TITLE = false := by
    rw [Bool.eq_false_iff, Ne, in_context_iff]; exact hctx
  have h3 : (find_first_not_of s._previous_line " ".toList 0).isNone = true := by
    rw [Option.isNone_iff_eq_none]
    exact (find_first_not_of_single_eq_none_iff _ ' ').mpr hblank
  simp only [process_line, handle_title_line, d1, d2, d3, h1, h2, h3, if_true, if_false]
  simp

/-- An underline of `=` inside a title closes the title. -/
theorem process_line_title_close (s : rst2rfcxml) (m : List Char)
    (hm : m ≠ [] ∧ ∀ c ∈ m, c = '=') (hctx : in_context s TITLE = true) :
    process_line s m = some { s with _contexts := s._contexts.tail } := by
  obtain ⟨d1, d2, d3⟩ := underline_not_directive m '=' (by decide) hm.2
  have h1 : (starts_with m "=".toList && (find_first_not_of m "=".toList 0).isNone) = true :=
    (underline_test_iff m '=').mpr hm
  simp only [process_line, handle_title_line, d1, d2, d3, h1, hctx, if_true, if_false]

/-- Inside a title, a line that is neither a directive nor an underline is written as
the title element. -/
theorem process_line_title_text (s : rst2rfcxml) (line : List Char)
    (hctx : in_context s TITLE = true)
    (hd : line ≠ ".. contents::".toList ∧ line ≠ ".. sectnum::".toList ∧
      line ≠ ".. header::".toList)
    (h1 : ¬ (line ≠ [] ∧ ∀ c ∈ line, c = '='))
    (h2 : ¬ (line ≠ [] ∧ ∀ c ∈ line, c = '-'))
    (h3 : ¬ (line ≠ [] ∧ ∀ c ∈ line, c = '~')) :
    process_line s line = some (emit s ("<title abbrev=\"".toList ++ s._abbreviated_title
      ++ "\">".toList ++ line ++ "</title>".toList ++ "\n".toList)) := by
  have t1 : (starts_with line "=".toList && (find_first_not_of line "=".toList 0).isNone)
      = false := underline_test_false line '=' h1
  have t2 : (starts_with line "-".toList && (find_first_not_of line "-".toList 0).isNone)
      = false := underline_test_false line '-' h2
  have t3 : (starts_with line "~".toList && (find_first_not_of line "~".toList 0).isNone)
      = false := underline_test_false line '~' h3
  simp only [process_line, handle_title_line, hd.1, hd.2.1, hd.2.2, t1, t2, t3, hctx,
    if_true, if_false]
  simp

/-- C5. Title open/close round trip: from a state whose innermost context is not `TITLE`
and whose buffered line is blank, processing a non-empty line of `=`, then a text line `T`
(not one of the directive lines, not a non-empty line made of a single glyph `=`, `-` or
`~`), then a non-empty line of `=` writes exactly `<title abbrev="A">T</title>` and a line
end, `A` being the stored abbreviated title, and changes nothing else: the context stack and
the buffered line are as before. -/
theorem title_round_trip (s : rst2rfcxml) (m1 T m2 : List Char)
    (hctx : s._contexts.head? ≠ some TITLE)
    (hblank : ∀ c ∈ s._previous_line, c = ' ')
    (hm1 : m1 ≠ [] ∧ ∀ c ∈ m1, c = '=')
    (hm2 : m2 ≠ [] ∧ ∀ c ∈ m2, c = '=')
    (hd : T ≠ ".. contents::".toList ∧ T ≠ ".. sectnum::".toList ∧ T ≠ ".. header::".toList)
    (h1 : ¬ (T ≠ [] ∧ ∀ c ∈ T, c = '='))
    (h2 : ¬ (T ≠ [] ∧ ∀ c ∈ T, c = '-'))
    (h3 : ¬ (T ≠ [] ∧ ∀ c ∈ T, c = '~')) :
    process_lines s [m1, T, m2] =
      some { s with output := s.output ++ ("<title abbrev=\"".toList ++ s._abbreviated_title
        ++ "\">".toList ++ T ++ "</title>".toList ++ "\n".toList) } := by
  have e1 := process_line_title_open s m1 hm1 hctx hblank
  have e2 := process_line_title_text (push s TITLE) T (by simp [in_context_push]) hd h1 h2 h3
  have e3 := process_line_title_close (emit (push s TITLE) ("<title abbrev=\"".toList ++
    s._abbreviated_title ++ "\">".toList ++ T ++ "</title>".toList ++ "\n".toList)) m2 hm2
    (by rw [in_context_emit]; simp [in_context_push])
  simp only [process_lines, e1]
  rw [show (push s TITLE)._abbreviated_title = s._abbreviated_title from rfl] at e2
  simp only [e2, e3]
  rfl

/-- An instance of `title_round_trip`: the title `My Title` in the front matter. -/
theorem title_round_trip_witness :
    process_lines { _contexts := [FRONT, RFC], _abbreviated_title := "Abbr".toList }
        ["=====".toList, "My Title".toList, "=====".toList] =
      some { _contexts := [FRONT, RFC], _abbreviated_title := "Abbr".toList,
             output := "<title abbrev=\"Abbr\">My Title</title>\n".toList } :=
  title_round_trip { _contexts := [FRONT, RFC], _abbreviated_title := "Abbr".toList }
    "=====".toList "My Title".toList "=====".toList (by decide) (by decide) (by decide)
    (by decide) (by decide) (by decide) (by decide) (by decide)

/-! ## Section headings -/

/-- C4 (the code departs from the claim). The heading line `A & B` followed by the
underline `=====`: its inline transduction is `A &amp; B`, but the section opening that
`process_line` emits carries the title `A &amp;amp; B` and the anchor `aampampb`, because
the buffered line was already escaped when it was stored and `handle_title_line` escapes
it again. -/
theorem section_title_escaped_twice :
    _handle_escapes "A & B".toList = some "A &amp; B".toList ∧
    _anchor "A &amp; B".toList = "aampb".toList ∧
    (process_line { _contexts := [MIDDLE, RFC] } "A & B".toList).map
        (fun s => (s._previous_line, s._contexts, s.output))
      = some ("A &amp; B".toList, [MIDDLE, RFC], []) ∧
    (process_lines { _contexts := [MIDDLE, RFC] } ["A & B".toList, "=====".toList]).map
        (fun s => (s._previous_line, s._contexts, s.output))
      = some ([], [SECTION, MIDDLE, RFC],
          "<section anchor=\"aampampb\" title=\"A &amp;amp; B\">\n".toList) := by
  decide

/-! ## Tables -/

/-- The outcome of a scan: either no character satisfies `p`, or the string splits at the
first character that does. -/
theorem find_if_cases (p : Char → Bool) :
    ∀ (l : List Char) (i : Nat),
      (find_if p l i = none ∧ ∀ c ∈ l, p c = false) ∨
      (∃ l1 x l2, l = l1 ++ x :: l2 ∧ (∀ c ∈ l1, p c = false) ∧ p x = true ∧
        find_if p l i = some (i + l1.length)) := by
  intro l
  induction l with
  | nil => intro i; left; simp [find_if]
  | cons y ys ih =>
    intro i
    cases hy : p y
    · rcases ih (i + 1) with ⟨h1, h2⟩ | ⟨l1, x, l2, h1, h2, h3, h4⟩
      · left
        refine ⟨by simp [find_if, hy, h1], ?_⟩
        intro c hc
        rcases List.mem_cons.mp hc with rfl | hc
        · exact hy
        · exact h2 c hc
      · right
        refine ⟨y :: l1, x, l2, by simp [h1], ?_, h3, ?_⟩
        · intro c hc
          rcases List.mem_cons.mp hc with rfl | hc
          · exact hy
          · exact h2 c hc
        · simp [find_if, hy, h4]; omega
    · right
      exact ⟨[], y, ys, rfl, by simp, hy, by simp [find_if, hy]⟩

theorem find_first_of_append (pre l chars : List Char) :
    find_first_of (pre ++ l) chars pre.length = find_if (fun c => chars.contains c) l pre.length := by
  simp [find_first_of]

theorem find_first_not_of_append (pre l chars : List Char) :
    find_first_not_of (pre ++ l) chars pre.length
      = find_if (fun c => !chars.contains c) l pre.length := by
  simp [find_first_not_of]

theorem contains_eq_single (c : Char) : "=".toList.contains c = decide (c = '=') := by
  unfold List.contains
  rw [List.elem_eq_mem]
  show decide (c ∈ ['=']) = _
  simp

theorem run_starts_true_append_eq (l1 r : List Char) (h : ∀ c ∈ l1, c = '=') :
    ∀ i, run_starts true i (l1 ++ r) = run_starts true (i + l1.length) r := by
  induction l1 with
  | nil => intro i; rfl
  | cons x xs ih =>
    intro i
    have hx : x = '=' := h x (by simp)
    have := ih (fun c hc => h c (List.mem_cons_of_mem _ hc)) (i + 1)
    have e : i + (x :: xs).length = i + 1 + xs.length := by
      simp only [List.length_cons]; omega
    show run_starts true i (x :: (xs ++ r)) = _
    rw [run_starts, if_pos hx, if_pos rfl, this, e]

theorem run_starts_append_ne (l1 r : List Char) (h : ∀ c ∈ l1, c ≠ '=') (hne : l1 ≠ []) :
    ∀ prev i, run_starts prev i (l1 ++ r) = run_starts false (i + l1.length) r := by
  induction l1 with
  | nil => exact absurd rfl hne
  | cons x xs ih =>
    intro prev i
    have hx : x ≠ '=' := h x (by simp)
    have hxs : ∀ c ∈ xs, c ≠ '=' := fun c hc => h c (List.mem_cons_of_mem _ hc)
    show run_starts prev i (x :: (xs ++ r)) = _
    rw [run_starts, if_neg hx]
    cases xs with
    | nil => rfl
    | cons y ys =>
      rw [ih hxs (by simp) false (i + 1)]
      have e : i + (x :: y :: ys).length = i + 1 + (y :: ys).length := by
        simp only [List.length_cons]; omega
      rw [e]

theorem run_starts_false_append_ne (l1 r : List Char) (h : ∀ c ∈ l1, c ≠ '=') (i : Nat) :
    run_starts false i (l1 ++ r) = run_starts false (i + l1.length) r := by
  cases l1 with
  | nil => rfl
  | cons x xs => exact run_starts_append_ne (x :: xs) r h (by simp) false i

theorem run_starts_true_all_eq (l : List Char) (h : ∀ c ∈ l, c = '=') (i : Nat) :
    run_starts true i l = [] := by
  have := run_starts_true_append_eq l [] h i
  simpa [run_starts] using this

theorem run_starts_no_eq (l : List Char) (h : ∀ c ∈ l, c ≠ '=') (prev : Bool) (i : Nat) :
    run_starts prev i l = [] := by
  cases l with
  | nil => rfl
  | cons x xs =>
    have := run_starts_append_ne (x :: xs) [] h (by simp) prev i
    simpa [run_starts] using this

/-- The loop that finds the column indices, entered at the first `=` of a run: with enough
fuel it appends the start of every run of `=` from there on. -/
theorem column_indices_loop_spec :
    ∀ (fuel : Nat) (pre l : List Char) (cols : List Nat), l.length + 1 < fuel →
      column_indices_loop (pre ++ '=' :: l) fuel (some pre.length) cols
        = some (cols ++ pre.length :: run_starts true (pre.length + 1) l) := by
  intro fuel
  induction fuel with
  | zero => intro pre l cols h; omega
  | succ fuel ih =>
    intro pre l cols h
    rw [column_indices_loop]
    rw [find_first_not_of_append]
    have hq : (fun c => !"=".toList.contains c) = (fun c => !decide (c = '=')) := by
      funext c; rw [contains_eq_single]
    rw [hq]
    simp only [find_if, decide_True, Bool.not_true, Bool.false_eq_true, if_false]
    rcases find_if_cases (fun c => !decide (c = '=')) l (pre.length + 1) with
      ⟨h1, h2⟩ | ⟨l1, x, l2, h1, h2, h3, h4⟩
    · rw [h1]
      have hall : ∀ c ∈ l, c = '=' := fun c hc => by simpa using h2 c hc
      rw [run_starts_true_all_eq l hall]
    · rw [h4]
      simp only []
      have hl1 : ∀ c ∈ l1, c = '=' := fun c hc => by simpa using h2 c hc
      have hx : x ≠ '=' := by simpa using h3
      have e1 : pre ++ '=' :: l = (pre ++ '=' :: l1) ++ x :: l2 := by simp [h1]
      have e2 : pre.length + 1 + l1.length = (pre ++ '=' :: l1).length := by
        simp only [List.length_append, List.length_cons]; omega
      rw [e1, e2, find_first_of_append]
      have hp : (fun c => "=".toList.contains c) = (fun c => decide (c = '=')) := by
        funext c; rw [contains_eq_single]
      rw [hp]
      rcases find_if_cases (fun c => decide (c = '=')) (x :: l2) (pre ++ '=' :: l1).length with
        ⟨g1, g2⟩ | ⟨m1, y, m2, g1, g2, g3, g4⟩
      · rw [g1]
        have hno : ∀ c ∈ x :: l2, c ≠ '=' := fun c hc => by simpa using g2 c hc
        have hfuel : ∃ f, fuel = f + 1 := by
          cases fuel with
          | zero => subst h1; simp at h
          | succ f => exact ⟨f, rfl⟩
        obtain ⟨f, rfl⟩ := hfuel
        rw [column_indices_loop]
        subst h1
        rw [run_starts_true_append_eq l1 _ hl1, run_starts_no_eq _ hno]
      · rw [g4]
        have hy : y = '=' := by simpa using g3
        subst hy
        have hm1 : ∀ c ∈ m1, c ≠ '=' := fun c hc => by simpa using g2 c hc
        have hm1ne : m1 ≠ [] := by
          rintro rfl
          simp at g1
          exact hx g1.1
        have e3 : (pre ++ '=' :: l1) ++ x :: l2 = (pre ++ '=' :: l1 ++ m1) ++ '=' :: m2 := by
          rw [g1]; simp
        have e4 : (pre ++ '=' :: l1).length + m1.length = (pre ++ '=' :: l1 ++ m1).length := by
          simp only [List.length_append, List.length_cons]
        have hlen : m2.length + 1 < fuel := by
          have hl := congrArg List.length h1
          have hg := congrArg List.length g1
          simp only [List.length_append, List.length_cons] at hl hg
          omega
        rw [e3, e4, ih _ m2 _ hlen]
        have e5 : l = l1 ++ (m1 ++ '=' :: m2) := by rw [h1, g1]
        have e6 : (pre ++ '=' :: l1 ++ m1).length = pre.length + 1 + l1.length + m1.length := by
          simp only [List.length_append, List.length_cons]; omega
        rw [e5, run_starts_true_append_eq l1 _ hl1, run_starts_append_ne m1 _ hm1 hm1ne,
          run_starts, if_pos rfl, if_neg (by simp), e6]
        simp

/-- The column indices that `handle_table_line` records for a line are the start offsets
of its runs of `=`, appended to the indices already recorded. -/
theorem column_indices_loop_eq (line : List Char) (cols : List Nat) :
    column_indices_loop line (line.length + 1) (find_first_of line "=".toList 0) cols
      = some (cols ++ run_starts false 0 line) := by
  have hp : (fun c => "=".toList.contains c) = (fun c => decide (c = '=')) := by
    funext c; rw [contains_eq_single]
  have e0 := find_first_of_append [] line "=".toList
  simp only [List.nil_append, List.length_nil] at e0
  rw [e0, hp]
  rcases find_if_cases (fun c => decide (c = '=')) line 0 with
    ⟨g1, g2⟩ | ⟨m1, y, m2, g1, g2, g3, g4⟩
  · rw [g1, column_indices_loop]
    have hno : ∀ c ∈ line, c ≠ '=' := fun c hc => by simpa using g2 c hc
    rw [run_starts_no_eq _ hno]
    simp
  · rw [g4]
    have hy : y = '=' := by simpa using g3
    subst hy
    have hm1 : ∀ c ∈ m1, c ≠ '=' := fun c hc => by simpa using g2 c hc
    subst g1
    rw [Nat.zero_add, column_indices_loop_spec _ m1 m2 cols (by
      simp only [List.length_append, List.length_cons]; omega)]
    rw [run_starts_false_append_ne m1 _ hm1]
    simp [run_starts]

theorem run_starts_ge (l : List Char) :
    ∀ (prev : Bool) (i k : Nat), k ∈ run_starts prev i l → i ≤ k := by
  induction l with
  | nil => intro prev i k h; simp [run_starts] at h
  | cons c cs ih =>
    intro prev i k h
    rw [run_starts] at h
    split at h
    · split at h
      · have := ih _ _ _ h; omega
      · rcases List.mem_cons.mp h with rfl | h
        · exact Nat.le_refl _
        · have := ih _ _ _ h; omega
    · have := ih _ _ _ h; omega

/-- The start offsets of the runs are strictly increasing. -/
theorem run_starts_pairwise (l : List Char) :
    ∀ (prev : Bool) (i : Nat), (run_starts prev i l).Pairwise (· < ·) := by
  induction l with
  | nil => intro prev i; simp [run_starts]
  | cons c cs ih =>
    intro prev i
    rw [run_starts]
    split
    · split
      · exact ih _ _
      · refine List.pairwise_cons.mpr ⟨?_, ih _ _⟩
        intro k hk
        have := run_starts_ge cs _ _ _ hk
        omega
    · exact ih _ _

theorem run_starts_mem (l : List Char) :
    ∀ (prev : Bool) (i k : Nat), k ∈ run_starts prev i l ↔
      ∃ j, k = i + j ∧ l[j]? = some '=' ∧
        ((j = 0 ∧ prev = false) ∨ (0 < j ∧ l[j - 1]? ≠ some '=')) := by
  induction l with
  | nil => intro prev i k; simp [run_starts]
  | cons c cs ih =>
    intro prev i k
    have key : ∀ p : Bool, (k ∈ run_starts p (i + 1) cs ↔
        ∃ j, k = i + (j + 1) ∧ (c :: cs)[j + 1]? = some '=' ∧
          ((j = 0 ∧ p = false) ∨ (0 < j ∧ (c :: cs)[j + 1 - 1]? ≠ some '='))) := by
      intro p
      rw [ih p (i + 1) k]
      constructor
      · rintro ⟨j, h1, h2, h3⟩
        refine ⟨j, by omega, by simpa using h2, ?_⟩
        rcases h3 with h3 | ⟨h3, h4⟩
        · exact Or.inl h3
        · right
          refine ⟨h3, ?_⟩
          obtain ⟨j', rfl⟩ : ∃ j', j = j' + 1 := ⟨j - 1, by omega⟩
          simpa using h4
      · rintro ⟨j, h1, h2, h3⟩
        refine ⟨j, by omega, by simpa using h2, ?_⟩
        rcases h3 with h3 | ⟨h3, h4⟩
        · exact Or.inl h3
        · right
          refine ⟨h3, ?_⟩
          obtain ⟨j', rfl⟩ : ∃ j', j = j' + 1 := ⟨j - 1, by omega⟩
          simpa using h4
    rw [run_starts]
    by_cases hc : c = '='
    · rw [if_pos hc]
      cases prev with
      | true =>
        rw [if_pos rfl, key true]
        constructor
        · rintro ⟨j, h1, h2, h3⟩
          rcases h3 with ⟨_, h3⟩ | ⟨h3, h4⟩
          · exact absurd h3 (by simp)
          · exact ⟨j + 1, h1, h2, Or.inr ⟨by omega, h4⟩⟩
        · rintro ⟨j, h1, h2, h3⟩
          rcases h3 with ⟨_, h3⟩ | ⟨h3, h4⟩
          · exact absurd h3 (by simp)
          · obtain ⟨j', rfl⟩ : ∃ j', j = j' + 1 := ⟨j - 1, by omega⟩
            refine ⟨j', h1, h2, Or.inr ⟨?_, h4⟩⟩
            rcases Nat.eq_zero_or_pos j' with rfl | hp
            · simp [hc] at h4
            · exact hp
      | false =>
        rw [if_neg (by simp), List.mem_cons, key true]
        constructor
        · rintro (rfl | ⟨j, h1, h2, h3⟩)
          · exact ⟨0, rfl, by simp [hc], Or.inl ⟨rfl, rfl⟩⟩
          · rcases h3 with ⟨_, h3⟩ | ⟨h3, h4⟩
            · exact absurd h3 (by simp)
            · exact ⟨j + 1, h1, h2, Or.inr ⟨by omega, h4⟩⟩
        · rintro ⟨j, h1, h2, h3⟩
          rcases Nat.eq_zero_or_pos j with rfl | hp
          · left; simpa using h1
          · right
            obtain ⟨j', rfl⟩ : ∃ j', j = j' + 1 := ⟨j - 1, by omega⟩
            rcases h3 with ⟨h3, _⟩ | ⟨h3, h4⟩
            · omega
            · refine ⟨j', h1, h2, Or.inr ⟨?_, h4⟩⟩
              rcases Nat.eq_zero_or_pos j' with rfl | hp'
              · simp [hc] at h4
              · exact hp'
    · rw [if_neg hc, key false]
      constructor
      · rintro ⟨j, h1, h2, h3⟩
        rcases h3 with ⟨rfl, _⟩ | ⟨h3, h4⟩
        · exact ⟨1, h1, h2, Or.inr ⟨by omega, by simpa using hc⟩⟩
        · exact ⟨j + 1, h1, h2, Or.inr ⟨by omega, h4⟩⟩
      · rintro ⟨j, h1, h2, h3⟩
        rcases Nat.eq_zero_or_pos j with rfl | hp
        · simp [hc] at h2
        · obtain ⟨j', rfl⟩ : ∃ j', j = j' + 1 := ⟨j - 1, by omega⟩
          refine ⟨j', h1, h2, ?_⟩
          rcases Nat.eq_zero_or_pos j' with rfl | hp'
          · exact Or.inl ⟨rfl, rfl⟩
          · rcases h3 with ⟨h3, _⟩ | ⟨_, h4⟩
            · omega
            · exact Or.inr ⟨hp', h4⟩

/-- The offsets computed by `run_starts` on a whole line are exactly the offsets that start
a maximal run of `=`. -/
theorem run_starts_mem_iff (line : List Char) (k : Nat) :
    k ∈ run_starts false 0 line ↔ is_run_start line k := by
  rw [run_starts_mem, is_run_start]
  constructor
  · rintro ⟨j, h1, h2, h3⟩
    have : k = j := by omega
    subst this
    refine ⟨h2, ?_⟩
    rcases h3 with ⟨h3, _⟩ | ⟨_, h4⟩
    · exact Or.inl h3
    · exact Or.inr h4
  · rintro ⟨h1, h2⟩
    refine ⟨k, by omega, h1, ?_⟩
    rcases Nat.eq_zero_or_pos k with rfl | hp
    · exact Or.inl ⟨rfl, rfl⟩
    · rcases h2 with h2 | h2
      · omega
      · exact Or.inr ⟨hp, h2⟩

theorem run_starts_ne_nil (l : List Char) (h : '=' ∈ l) :
    ∀ i, run_starts false i l ≠ [] := by
  induction l with
  | nil => simp at h
  | cons c cs ih =>
    intro i
    rw [run_starts]
    by_cases hc : c = '='
    · rw [if_pos hc, if_neg (by simp)]; simp
    · rw [if_neg hc]
      refine ih ?_ (i + 1)
      rcases List.mem_cons.mp h with h | h
      · exact absurd h.symm hc
      · exact h

/-- The test of `handle_table_line` for a ruler succeeds exactly on the lines that contain
only spaces and `=`, with at least one `=`. -/
theorem ruler_test_iff (R : List Char) :
    ((find_first_not_of R " ".toList 0).isSome &&
      (find_first_not_of R " =".toList 0).isNone) = true ↔
      (∀ c ∈ R, c = ' ' ∨ c = '=') ∧ '=' ∈ R := by
  have h1 : (find_first_not_of R " =".toList 0).isNone = true ↔ ∀ c ∈ R, c = ' ' ∨ c = '=' := by
    rw [Option.isNone_iff_eq_none]
    unfold find_first_not_of
    rw [List.drop_zero, find_if_eq_none_iff]
    constructor
    · intro h c hc
      have := h c hc
      have e : " =".toList = [' ', '='] := rfl
      rw [e] at this
      simp at this
      by_cases hcs : c = ' '
      · exact Or.inl hcs
      · exact Or.inr (this hcs)
    · intro h c hc
      rcases h c hc with rfl | rfl <;> decide
  have h2 : (find_first_not_of R " ".toList 0).isSome = true ↔ ¬ ∀ c ∈ R, c = ' ' := by
    rw [← find_first_not_of_single_eq_none_iff, Option.isSome_iff_ne_none]
    rfl
  rw [Bool.and_eq_true, h1, h2]
  constructor
  · rintro ⟨ha, hb⟩
    refine ⟨hb, ?_⟩
    by_contra hne
    apply ha
    intro c hc
    rcases hb c hc with h | h
    · exact h
    · exact absurd (h ▸ hc) hne
  · rintro ⟨ha, hb⟩
    exact ⟨fun h => absurd (h '=' hb) (by decide), ha⟩

theorem close_before_table_test (s : rst2rfcxml) :
    (in_context s TEXT || in_context s DEFINITION_DESCRIPTION ||
      in_context s DEFINITION_LIST) =
    match s._contexts with
    | [] => false
    | c :: _ => closes_before_table c := by
  unfold in_context closes_before_table
  cases h : s._contexts with
  | nil => rfl
  | cons c cs => cases c <;> rfl

/-- The first loop of `handle_table_line` closes the innermost run of `TEXT`,
`DEFINITION_DESCRIPTION` and `DEFINITION_LIST` contexts and nothing else. -/
theorem close_before_table_loop_eq :
    ∀ (fuel : Nat) (s : rst2rfcxml), s._contexts.length ≤ fuel →
      close_before_table_loop fuel s = some { s with
        output := s.output ++ (s._contexts.takeWhile closes_before_table).flatMap closing_text,
        _contexts := s._contexts.dropWhile closes_before_table } := by
  intro fuel
  induction fuel with
  | zero =>
    intro s h
    obtain ⟨dn, ipr, cat, cols, auth, st, ab, ctx, prev, out⟩ := s
    have hnil : ctx = [] := List.length_eq_zero.mp (Nat.le_zero.mp h)
    subst hnil
    rw [close_before_table_loop, close_before_table_test]
    simp
  | succ fuel ih =>
    intro s h
    obtain ⟨dn, ipr, cat, cols, auth, st, ab, ctx, prev, out⟩ := s
    rw [close_before_table_loop, close_before_table_test]
    cases ctx with
    | nil => simp
    | cons c cs =>
      cases hcl : closes_before_table c
      · simp [List.takeWhile_cons, List.dropWhile_cons, hcl]
      · simp only [if_true, pop_context, hcl]
        rw [ih _ (by simpa using h)]
        simp [List.takeWhile_cons, List.dropWhile_cons, hcl, emit, List.flatMap_cons]

/-- A ruler met outside a table header and a table body opens a table and records the
start offsets of its runs of `=`. -/
theorem handle_table_line_open (s : rst2rfcxml) (R : List Char)
    (hR : (∀ c ∈ R, c = ' ' ∨ c = '=') ∧ '=' ∈ R)
    (hb : s._contexts.head? ≠ some TABLE_BODY) (hh : s._contexts.head? ≠ some TABLE_HEADER) :
    handle_table_line s R = some (true, { s with
      output := s.output ++ (s._contexts.takeWhile closes_before_table).flatMap closing_text
        ++ "<table><thead><tr>\n".toList,
      _contexts := TABLE_HEADER :: TABLE :: s._contexts.dropWhile closes_before_table,
      _column_indices := s._column_indices ++ run_starts false 0 R }) := by
  have h1 := (ruler_test_iff R).mpr hR
  have h2 : in_context s TABLE_BODY = false := by
    rw [Bool.eq_false_iff, Ne, in_context_iff]; exact hb
  have h3 : in_context s TABLE_HEADER = false := by
    rw [Bool.eq_false_iff, Ne, in_context_iff]; exact hh
  simp only [handle_table_line, h1, h2, h3, if_true, if_false, Bool.false_eq_true]
  rw [close_before_table_loop_eq _ s (Nat.le_refl _)]
  simp only [emit, push]
  rw [column_indices_loop_eq]

/-- C6. Column boundaries: when `handle_table_line` recognises a ruler line `R` (only
spaces and `=`, at least one `=`) while neither `TABLE_HEADER` nor `TABLE_BODY` is innermost
and the column list is empty, the recorded column list is strictly increasing, non-empty,
and its members are exactly the start offsets of the maximal runs of `=` in `R`. For
`R = "==  =====  ="` it is `[0, 4, 11]`; with these columns the header line
`A   BB     C` yields the header cells `A`, `BB`, `C` and the body line `1   22     3`
the data cells `1`, `22`, `3`. -/
theorem column_boundaries (s : rst2rfcxml) (R : List Char)
    (hR : (∀ c ∈ R, c = ' ' ∨ c = '=') ∧ '=' ∈ R)
    (hb : s._contexts.head? ≠ some TABLE_BODY) (hh : s._contexts.head? ≠ some TABLE_HEADER)
    (hcols : s._column_indices = []) :
    (∃ s', handle_table_line s R = some (true, s') ∧
      s'._column_indices.Pairwise (· < ·) ∧
      (∀ k, k ∈ s'._column_indices ↔ is_run_start R k) ∧
      s'._column_indices ≠ []) ∧
    (handle_table_line {} "==  =====  =".toList).map (fun r => r.2._column_indices)
      = some [0, 4, 11] ∧
    handle_table_line { _contexts := [TABLE_HEADER, TABLE], _column_indices := [0, 4, 11] }
        "A   BB     C".toList
      = some (true, { _contexts := [TABLE_HEADER, TABLE], _column_indices := [0, 4, 11],
                      output := "  <th>A</th>\n  <th>BB</th>\n  <th>C</th>\n".toList }) ∧
    handle_table_line { _contexts := [TABLE_BODY, TABLE], _column_indices := [0, 4, 11] }
        "1   22     3".toList
      = some (true, { _contexts := [TABLE_BODY, TABLE], _column_indices := [0, 4, 11],
                      output :=
                        " <tr>\n  <td>1</td>\n  <td>22</td>\n  <td>3</td>\n </tr>\n".toList }) := by
  refine ⟨⟨_, handle_table_line_open s R hR hb hh, ?_, ?_, ?_⟩, by decide, by decide, by decide⟩
  · simp only [hcols, List.nil_append]
    exact run_starts_pairwise R false 0
  · intro k
    simp only [hcols, List.nil_append]
    exact run_starts_mem_iff R k
  · simp only [hcols, List.nil_append]
    exact run_starts_ne_nil R hR.2 0

/-- An instance of `column_boundaries`: the ruler `==  =====  =` met inside a paragraph. -/
theorem column_boundaries_witness :
    ∃ s', handle_table_line { _contexts := [TEXT, SECTION, MIDDLE, RFC] } "==  =====  =".toList
        = some (true, s') ∧
      s'._column_indices.Pairwise (· < ·) ∧
      (∀ k, k ∈ s'._column_indices ↔ is_run_start "==  =====  =".toList k) ∧
      s'._column_indices ≠ [] :=
  (column_boundaries { _contexts := [TEXT, SECTION, MIDDLE, RFC] } "==  =====  =".toList
    (by decide) (by decide) (by decide) rfl).1

/-! ## Termination of the inline transducer -/

theorem find_at_some (pat : List Char) :
    ∀ (l : List Char) (i j : Nat), find_at pat l i = some j →
      i ≤ j ∧ pat <+: l.drop (j - i) := by
  intro l
  induction l with
  | nil =>
    intro i j h
    rw [find_at] at h
    split at h
    · rename_i hp
      cases h
      exact ⟨Nat.le_refl _, by simpa using List.isPrefixOf_iff_prefix.mp hp⟩
    · cases h
  | cons x xs ih =>
    intro i j h
    rw [find_at] at h
    split at h
    · rename_i hp
      cases h
      exact ⟨Nat.le_refl _, by simpa using List.isPrefixOf_iff_prefix.mp hp⟩
    · obtain ⟨h1, h2⟩ := ih (i + 1) j h
      refine ⟨by omega, ?_⟩
      have : j - i = (j - (i + 1)) + 1 := by omega
      rw [this, List.drop_succ_cons]
      exact h2

/-- Where `find` finds the pattern: not before `pos`, and the pattern is a prefix of the
string from there on. -/
theorem find_some {s pat : List Char} {pos j : Nat} (h : find s pat pos = some j) :
    pos ≤ j ∧ pat <+: s.drop j := by
  unfold find at h
  split at h
  · cases h
  · obtain ⟨h1, h2⟩ := find_at_some pat _ _ _ h
    refine ⟨h1, ?_⟩
    rw [List.drop_drop] at h2
    have : pos + (j - pos) = j := by omega
    rwa [this] at h2

theorem drop_eq_of_prefix {s pat : List Char} {j : Nat} (h : pat <+: s.drop j) :
    s.drop j = pat ++ s.drop (j + pat.length) := by
  obtain ⟨t, ht⟩ := h
  have : s.drop (j + pat.length) = t := by
    rw [← List.drop_drop, ← ht, List.drop_left]
  rw [this, ht]

theorem length_of_prefix_drop {s pat : List Char} {j : Nat} (h : pat <+: s.drop j)
    (hp : pat ≠ []) : j + pat.length ≤ s.length := by
  have h1 := h.length_le
  rw [List.length_drop] at h1
  have h2 : 0 < pat.length := List.length_pos.mpr hp
  omega

/-- The loop of `_replace_all` with a non-empty pattern ends before the fuel does. -/
theorem _replace_all_loop_total (from_s to_s : List Char) (hf : from_s ≠ []) :
    ∀ (fuel : Nat) (line : List Char) (start : Nat), line.length - start < fuel →
      ∃ r, _replace_all_loop from_s to_s fuel line start = some r := by
  intro fuel
  induction fuel with
  | zero => intro line start h; omega
  | succ fuel ih =>
    intro line start h
    rw [_replace_all_loop]
    cases hfind : find line from_s start with
    | none => exact ⟨line, rfl⟩
    | some index =>
      simp only []
      obtain ⟨h1, h2⟩ := find_some hfind
      have h3 := length_of_prefix_drop h2 hf
      have h4 : 0 < from_s.length := List.length_pos.mpr hf
      apply ih
      simp only [replace, List.length_append, List.length_take, List.length_drop]
      omega

theorem _replace_all_total (line from_s to_s : List Char) (hf : from_s ≠ []) :
    ∃ r, _replace_all line from_s to_s = some r :=
  _replace_all_loop_total from_s to_s hf _ line 0 (by omega)

theorem substr_some (s : List Char) (pos count : Nat) (h : pos ≤ s.length) :
    substr s pos (some count) = some ((s.drop pos).take count) := by
  simp [substr, Nat.not_lt.mpr h]

theorem substr_none (s : List Char) (pos : Nat) (h : pos ≤ s.length) :
    substr s pos none = some (s.drop pos) := by
  simp [substr, Nat.not_lt.mpr h]

theorem count_trim_le (c : Char) (s : List Char) : (_trim s).count c ≤ s.count c := by
  unfold _trim
  rw [List.count_reverse]
  refine Nat.le_trans ((List.dropWhile_sublist _).count_le c) ?_
  rw [List.count_reverse]
  exact (List.dropWhile_sublist _).count_le c

theorem count_backquote_anchor (s : List Char) : (_anchor s).count '`' = 0 := by
  rw [List.count_eq_zero, _anchor_eq_anchor_spec]
  intro h
  have := anchor_spec_chars s _ h
  revert this
  decide

/-- Every round of the loop of `_replace_constant_width_instances` removes backquotes, so
the loop ends before the fuel does. -/
theorem _replace_constant_width_instances_loop_total :
    ∀ (fuel : Nat) (line : List Char), line.count '`' < fuel →
      ∃ r, _replace_constant_width_instances_loop fuel line = some r := by
  intro fuel
  induction fuel with
  | zero => intro line h; omega
  | succ fuel ih =>
    intro line h
    rw [_replace_constant_width_instances_loop]
    cases hfind : find line "``".toList 0 with
    | none => exact ⟨line, rfl⟩
    | some index =>
      simp only []
      cases hfind2 : find line "``".toList (index + 2) with
      | none => exact ⟨line, rfl⟩
      | some next_index =>
        simp only []
        obtain ⟨-, h2⟩ := find_some hfind
        obtain ⟨h3, h4⟩ := find_some hfind2
        have l2 := length_of_prefix_drop h2 (by decide)
        have l4 := length_of_prefix_drop h4 (by decide)
        have e2 := drop_eq_of_prefix h2
        have e4 := drop_eq_of_prefix h4
        have hlen : "``".toList.length = 2 := rfl
        rw [hlen] at l2 l4 e2 e4
        rw [substr_some _ _ _ (Nat.zero_le _), substr_some _ _ _ (by omega),
          substr_none _ _ (by omega)]
        simp only [List.drop_zero]
        apply ih
        have c1 : line.count '`' = (line.take index).count '`' + (line.drop index).count '`' := by
          rw [← List.count_append, List.take_append_drop]
        have c2 : (line.drop (index + 2)).count '`'
            = ((line.drop (index + 2)).take (next_index - index - 2)).count '`'
              + (line.drop next_index).count '`' := by
          rw [← List.count_append]
          have : line.drop next_index
              = (line.drop (index + 2)).drop (next_index - index - 2) := by
            rw [List.drop_drop]; congr 1; omega
          rw [this, List.take_append_drop]
        have c3 := count_trim_le '`' ((line.drop (index + 2)).take (next_index - index - 2))
        rw [e2, List.count_append] at c1
        rw [e4, List.count_append] at c2
        have d1 : "``".toList.count '`' = 2 := by decide
        have d2 : "<tt>".toList.count '`' = 0 := by decide
        have d3 : "</tt>".toList.count '`' = 0 := by decide
        simp only [List.count_append, d2, d3]
        omega

theorem _replace_constant_width_instances_total (line : List Char) :
    ∃ r, _replace_constant_width_instances line = some r :=
  _replace_constant_width_instances_loop_total _ line
    (Nat.lt_succ_of_le (List.count_le_length _ _))

/-- Every round of the loop of `_replace_internal_links` removes backquotes, so the loop
ends before the fuel does. -/
theorem _replace_internal_links_loop_total :
    ∀ (fuel : Nat) (line : List Char), line.count '`' < fuel →
      ∃ r, _replace_internal_links_loop fuel line = some r := by
  intro fuel
  induction fuel with
  | zero => intro line h; omega
  | succ fuel ih =>
    intro line h
    rw [_replace_internal_links_loop]
    cases hfind : find line "`".toList 0 with
    | none => exact ⟨line, rfl⟩
    | some start =>
      simp only []
      cases hfind2 : find line "`_".toList (start + 1) with
      | none => exact ⟨line, rfl⟩
      | some end_ =>
        simp only []
        obtain ⟨-, h2⟩ := find_some hfind
        obtain ⟨h3, h4⟩ := find_some hfind2
        have l2 := length_of_prefix_drop h2 (by decide)
        have l4 := length_of_prefix_drop h4 (by decide)
        have e2 := drop_eq_of_prefix h2
        have hlen1 : "`".toList.length = 1 := rfl
        have hlen2 : "`_".toList.length = 2 := rfl
        rw [hlen1] at l2 e2
        rw [hlen2] at l4
        rw [substr_some _ _ _ (Nat.zero_le _), substr_some _ _ _ (by omega),
          substr_none _ _ (by omega)]
        simp only [List.drop_zero]
        apply ih
        have c1 : line.count '`' = (line.take start).count '`' + (line.drop start).count '`' := by
          rw [← List.count_append, List.take_append_drop]
        have c2 : (line.drop (end_ + 2)).count '`' ≤ (line.drop (start + 1)).count '`' := by
          have : line.drop (end_ + 2) = (line.drop (start + 1)).drop (end_ + 2 - (start + 1)) := by
            rw [List.drop_drop]; congr 1; omega
          rw [this]
          exact (List.drop_sublist _ _).count_le '`' 
        rw [e2, List.count_append] at c1
        have d1 : "`".toList.count '`' = 1 := by decide
        have d2 : "<xref target=\"".toList.count '`' = 0 := by decide
        have d3 : "\"/>".toList.count '`' = 0 := by decide
        simp only [List.count_append, d2, d3, count_backquote_anchor]
        omega

theorem _replace_internal_links_total (line : List Char) :
    ∃ r, _replace_internal_links line = some r :=
  _replace_internal_links_loop_total _ line (Nat.lt_succ_of_le (List.count_le_length _ _))

/-- The inline transducer returns a result on every line. -/
theorem _handle_escapes_total (line : List Char) : ∃ r, _handle_escapes line = some r := by
  unfold _handle_escapes
  simp only []
  obtain ⟨r1, h1⟩ := _replace_all_total (_trim line) "\\*".toList "*".toList (by decide)
  rw [h1]
  obtain ⟨r2, h2⟩ := _replace_all_total r1 "\\|".toList "|".toList (by decide)
  simp only [h2]
  obtain ⟨r3, h3⟩ := _replace_all_total r2 "&".toList "&amp;".toList (by decide)
  simp only [h3]
  obtain ⟨r4, h4⟩ := _replace_all_total r3 "<".toList "&lt;".toList (by decide)
  simp only [h4]
  obtain ⟨r5, h5⟩ := _replace_all_total r4 ">".toList "&gt;".toList (by decide)
  simp only [h5]
  obtain ⟨r6, h6⟩ := _replace_constant_width_instances_total r5
  simp only [h6]
  exact _replace_internal_links_total r6

/-! ## Table rows -/

theorem size_sub_eq (a b : Nat) (ha : a < 2 ^ 64) (hb : b ≤ a) : size_sub a b = a - b := by
  unfold size_sub
  have h1 : b % 2 ^ 64 = b := Nat.mod_eq_of_lt (by omega)
  rw [h1]
  have h2 : a + 2 ^ 64 - b = (a - b) + 2 ^ 64 := by omega
  rw [h2, Nat.add_mod_right]
  exact Nat.mod_eq_of_lt (by omega)

theorem body_slice_succ (line : List Char) (start : Nat) (rest : List Nat) (i : Nat) :
    body_slice line (start :: rest) (i + 1) = body_slice line rest i := by
  simp [body_slice]

theorem body_slice_short (line : List Char) (cols : List Nat) (i c : Nat)
    (hc : cols[i]? = some c) (h : line.length < c) : body_slice line cols i = [] := by
  unfold body_slice
  rw [hc]
  cases cols[i + 1]? with
  | none => simp; omega
  | some next => simp; omega

/-- The loop over the columns of a body line never fails: it writes one data cell per
column, holding the inline transduction of the slice of the line for that column. -/
theorem body_cells_spec (line : List Char) :
    ∀ cols : List Nat, cols.Pairwise (· < ·) → (∀ c ∈ cols, c < 2 ^ 64) →
      ∃ cells : List (List Char), cells.length = cols.length ∧
        (∀ i, i < cols.length → _handle_escapes (body_slice line cols i) = cells[i]?) ∧
        body_cells line cols = some (cells.flatMap td) := by
  intro cols
  induction cols with
  | nil => intro _ _; exact ⟨[], rfl, by simp, rfl⟩
  | cons start rest ih =>
    intro hp hb
    obtain ⟨cells, hlen, hcells, hbody⟩ :=
      ih (List.pairwise_cons.mp hp).2 (fun c hc => hb c (List.mem_cons_of_mem _ hc))
    have hval : ∃ v, (if line.length ≥ start then
        match substr line start (match rest with
          | [] => none
          | next :: _ => some (size_sub next start)) with
        | none => none
        | some cell => _handle_escapes cell
      else some []) = some v ∧ _handle_escapes (body_slice line (start :: rest) 0) = some v := by
      by_cases hl : line.length ≥ start
      · rw [if_pos hl]
        cases rest with
        | nil =>
          obtain ⟨v, hv⟩ := _handle_escapes_total (line.drop start)
          refine ⟨v, ?_, ?_⟩
          · rw [substr_none _ _ hl]; exact hv
          · simpa [body_slice] using hv
        | cons next rest' =>
          have hlt : start < next := (List.pairwise_cons.mp hp).1 next (by simp)
          have hn : next < 2 ^ 64 := hb next (by simp)
          obtain ⟨v, hv⟩ := _handle_escapes_total ((line.drop start).take (next - start))
          refine ⟨v, ?_, ?_⟩
          · simp only []
            rw [substr_some _ _ _ hl, size_sub_eq next start hn (by omega)]; exact hv
          · have : body_slice line (start :: next :: rest') 0
                = (line.drop start).take (next - start) := by
              simp [body_slice, List.drop_take]
            rw [this]; exact hv
      · rw [if_neg hl]
        refine ⟨[], rfl, ?_⟩
        rw [body_slice_short line (start :: rest) 0 start (by simp) (by omega)]
        decide
    obtain ⟨v, hv1, hv2⟩ := hval
    refine ⟨v :: cells, by simp [hlen], ?_, ?_⟩
    · intro i hi
      cases i with
      | zero => simpa using hv2
      | succ i =>
        rw [body_slice_succ]
        simpa using hcells i (by simpa using hi)
    · unfold body_cells
      simp only []
      rw [hv1]
      simp only [hbody, List.flatMap_cons, td, List.append_assoc]

theorem ruler_test_false (L : List Char) (h : ¬ ((∀ c ∈ L, c = ' ' ∨ c = '=') ∧ '=' ∈ L)) :
    ((find_first_not_of L " ".toList 0).isSome &&
      (find_first_not_of L " =".toList 0).isNone) = false := by
  rw [Bool.eq_false_iff]
  exact fun h' => h ((ruler_test_iff L).mp h')

/-- C7. Body rows are total and complete: for every strictly increasing column list
`c_0 < ... < c_(n-1)` (of `size_t` values) and every non-ruler line `L` handled by
`handle_table_line` while `TABLE_BODY` is innermost, the call succeeds and writes exactly
one row of exactly `n` data cells; cell `i` holds the inline transduction of the characters
of `L` from offset `c_i` up to (not including) `c_(i+1)` (to the end of `L` for the last
cell) and is empty when `L` is shorter than `c_i`; nothing but the output changes, so the
context stack is unchanged. -/
theorem body_row_total (s : rst2rfcxml) (L : List Char)
    (hctx : s._contexts.head? = some TABLE_BODY)
    (hL : ¬ ((∀ c ∈ L, c = ' ' ∨ c = '=') ∧ '=' ∈ L))
    (hinc : s._column_indices.Pairwise (· < ·))
    (hsize : ∀ c ∈ s._column_indices, c < 2 ^ 64) :
    ∃ cells : List (List Char), cells.length = s._column_indices.length ∧
      (∀ i, i < s._column_indices.length →
        _handle_escapes (body_slice L s._column_indices i) = cells[i]?) ∧
      (∀ i c : Nat, s._column_indices[i]? = some c → L.length < c → cells[i]? = some ([] : List Char)) ∧
      handle_table_line s L = some (true, { s with output := s.output ++
        (" <tr>\n".toList ++ cells.flatMap (fun value =>
          "  <td>".toList ++ value ++ "</td>\n".toList) ++ " </tr>\n".toList) }) := by
  obtain ⟨cells, hlen, hcells, hbody⟩ := body_cells_spec L s._column_indices hinc hsize
  refine ⟨cells, hlen, hcells, ?_, ?_⟩
  · intro i c hc hshort
    have hi : i < s._column_indices.length := by
      rcases Nat.lt_or_ge i s._column_indices.length with h | h
      · exact h
      · rw [List.getElem?_eq_none h] at hc; cases hc
    rw [← hcells i hi, body_slice_short L _ i c hc hshort]
    decide
  · have h1 := ruler_test_false L hL
    have h2 : in_context s TABLE_BODY = true := (in_context_iff s TABLE_BODY).mpr hctx
    have h3 : in_context s TABLE_HEADER = false := by
      rw [Bool.eq_false_iff, Ne, in_context_iff, hctx]; decide
    simp only [handle_table_line, h1, h2, h3, if_true, if_false, Bool.false_eq_true, hbody]
    rfl

/-- An instance of `body_row_total`: a body line shorter than the offset of the third
column. -/
theorem body_row_total_witness :
    ∃ cells : List (List Char), cells.length = 3 ∧
      (∀ i, i < 3 → _handle_escapes (body_slice "1 & 22   ".toList [0, 4, 11] i) = cells[i]?) ∧
      (∀ i c : Nat, [0, 4, 11][i]? = some c → "1 & 22   ".toList.length < c → cells[i]? = some ([] : List Char)) ∧
      handle_table_line { _contexts := [TABLE_BODY, TABLE], _column_indices := [0, 4, 11] }
          "1 & 22   ".toList
        = some (true, { _contexts := [TABLE_BODY, TABLE], _column_indices := [0, 4, 11],
                        output := [] ++ (" <tr>\n".toList ++ cells.flatMap (fun value =>
                          "  <td>".toList ++ value ++ "</td>\n".toList)
                          ++ " </tr>\n".toList) }) :=
  body_row_total { _contexts := [TABLE_BODY, TABLE], _column_indices := [0, 4, 11] }
    "1 & 22   ".toList (by decide) (by decide) (by decide) (by decide)

/-! ## The ruler step -/

/-- A line that is no underline is left to the later stages by `handle_title_line`, outside
a title. -/
theorem handle_title_line_not_handled (s : rst2rfcxml) (line : List Char)
    (h1 : ¬ (line ≠ [] ∧ ∀ c ∈ line, c = '='))
    (h2 : ¬ (line ≠ [] ∧ ∀ c ∈ line, c = '-'))
    (h3 : ¬ (line ≠ [] ∧ ∀ c ∈ line, c = '~'))
    (ht : s._contexts.head? ≠ some TITLE) :
    handle_title_line s line = some (false, s) := by
  have t1 : (starts_with line "=".toList && (find_first_not_of line "=".toList 0).isNone)
      = false := underline_test_false line '=' h1
  have t2 : (starts_with line "-".toList && (find_first_not_of line "-".toList 0).isNone)
      = false := underline_test_false line '-' h2
  have t3 : (starts_with line "~".toList && (find_first_not_of line "~".toList 0).isNone)
      = false := underline_test_false line '~' h3
  have t4 : in_context s TITLE = false := by
    rw [Bool.eq_false_iff, Ne, in_context_iff]; exact ht
  simp only [handle_title_line, t1, t2, t3, t4, if_false, Bool.false_eq_true]

/-- Outside a title, a ruler that contains a space is passed by `process_line` to
`handle_table_line`, which handles it. -/
theorem process_line_ruler (s : rst2rfcxml) (R : List Char)
    (hR : (∀ c ∈ R, c = ' ' ∨ c = '=') ∧ '=' ∈ R) (hsp : ' ' ∈ R)
    (ht : s._contexts.head? ≠ some TITLE) (s' : rst2rfcxml)
    (h : handle_table_line s R = some (true, s')) : process_line s R = some s' := by
  have d1 : R ≠ ".. contents::".toList := by
    rintro rfl; have := hR.1 '.' (by decide); revert this; decide
  have d2 : R ≠ ".. sectnum::".toList := by
    rintro rfl; have := hR.1 '.' (by decide); revert this; decide
  have d3 : R ≠ ".. header::".toList := by
    rintro rfl; have := hR.1 '.' (by decide); revert this; decide
  have h1 : ¬ (R ≠ [] ∧ ∀ c ∈ R, c = '=') := fun hh => absurd (hh.2 ' ' hsp) (by decide)
  have h2 : ¬ (R ≠ [] ∧ ∀ c ∈ R, c = '-') := fun hh => absurd (hh.2 '=' hR.2) (by decide)
  have h3 : ¬ (R ≠ [] ∧ ∀ c ∈ R, c = '~') := fun hh => absurd (hh.2 '=' hR.2) (by decide)
  simp only [process_line, d1, d2, d3, if_false,
    handle_title_line_not_handled s R h1 h2 h3 ht, h]

/-- C8 (as stated, the claim fails). The line `===` contains only spaces and `=` and at
least one `=`, but `process_line` hands it to the title handling first: with `TABLE_BODY`
innermost and a blank buffered line it pushes `TITLE` and keeps `TABLE_BODY`, `TABLE` and
the column list. And with `TITLE` innermost the ruler `== ==` is written as title text and
no table is opened. -/
theorem ruler_of_equals_is_title_marker :
    ((∀ c ∈ "===".toList, c = ' ' ∨ c = '=') ∧ '=' ∈ "===".toList) ∧
    (process_line { _contexts := [TABLE_BODY, TABLE, SECTION, MIDDLE, RFC],
                    _column_indices := [0, 4] } "===".toList).map
        (fun s => (s._contexts, s._column_indices, s.output))
      = some ([TITLE, TABLE_BODY, TABLE, SECTION, MIDDLE, RFC], [0, 4], []) ∧
    ((∀ c ∈ "== ==".toList, c = ' ' ∨ c = '=') ∧ '=' ∈ "== ==".toList) ∧
    (process_line { _contexts := [TITLE, FRONT, RFC] } "== ==".toList).map
        (fun s => (s._contexts, s._column_indices, s.output))
      = some ([TITLE, FRONT, RFC], [], "<title abbrev=\"\">== ==</title>\n".toList) := by
  decide

/-- C8 (amended). For every line `R` that contains only spaces and `=`, at least one `=`
and at least one space: processing `R` when `TABLE_BODY` is innermost with `TABLE` beneath
it removes exactly these two contexts, writing their closing text, and discards the column
list; processing `R` when `TABLE_HEADER` is innermost replaces `TABLE_HEADER` by
`TABLE_BODY`; in every other state whose innermost context is not `TITLE` it closes the
innermost `TEXT`, `DEFINITION_DESCRIPTION` and `DEFINITION_LIST` contexts, pushes `TABLE`
then `TABLE_HEADER` and records the columns of `R`. -/
theorem ruler_step (s : rst2rfcxml) (R : List Char)
    (hR : (∀ c ∈ R, c = ' ' ∨ c = '=') ∧ '=' ∈ R) (hsp : ' ' ∈ R) :
    (∀ rest, s._contexts = TABLE_BODY :: TABLE :: rest →
      process_line s R = some { s with
        output := s.output ++ "</tbody>\n".toList ++ "</table>\n".toList,
        _contexts := rest,
        _column_indices := [] }) ∧
    (∀ rest, s._contexts = TABLE_HEADER :: rest →
      process_line s R = some { s with
        output := s.output ++ "</tr></thead>\n".toList ++ " <tbody>\n".toList,
        _contexts := TABLE_BODY :: rest }) ∧
    (s._contexts.head? ≠ some TABLE_BODY → s._contexts.head? ≠ some TABLE_HEADER →
      s._contexts.head? ≠ some TITLE →
      process_line s R = some { s with
        output := s.output ++ (s._contexts.takeWhile closes_before_table).flatMap closing_text
          ++ "<table><thead><tr>\n".toList,
        _contexts := TABLE_HEADER :: TABLE :: s._contexts.dropWhile closes_before_table,
        _column_indices := s._column_indices ++ run_starts false 0 R }) := by
  have h1 := (ruler_test_iff R).mpr hR
  refine ⟨?_, ?_, ?_⟩
  · intro rest hctx
    apply process_line_ruler s R hR hsp (by rw [hctx]; simp)
    have h2 : in_context s TABLE_BODY = true := by rw [in_context_iff, hctx]; rfl
    simp only [handle_table_line, h1, h2, if_true, pop_context, hctx, emit]
    rfl
  · intro rest hctx
    apply process_line_ruler s R hR hsp (by rw [hctx]; simp)
    have h2 : in_context s TABLE_BODY = false := by
      rw [Bool.eq_false_iff, Ne, in_context_iff, hctx]; simp
    have h3 : in_context s TABLE_HEADER = true := by rw [in_context_iff, hctx]; rfl
    simp only [handle_table_line, h1, h2, h3, if_true, if_false, Bool.false_eq_true,
      pop_context, hctx, emit, push]
    rfl
  · intro hb hh ht
    exact process_line_ruler s R hR hsp ht _ (handle_table_line_open s R hR hb hh)

/-- Instances of `ruler_step`: the ruler `==  ===` in a table body, in a table header and in
a paragraph. -/
theorem ruler_step_witness :
    process_line { _contexts := [TABLE_BODY, TABLE, SECTION], _column_indices := [0, 4] }
        "==  ===".toList
      = some { _contexts := [SECTION], _column_indices := [],
               output := [] ++ "</tbody>\n".toList ++ "</table>\n".toList } ∧
    process_line { _contexts := [TABLE_HEADER, TABLE, SECTION], _column_indices := [0, 4] }
        "==  ===".toList
      = some { _contexts := [TABLE_BODY, TABLE, SECTION], _column_indices := [0, 4],
               output := [] ++ "</tr></thead>\n".toList ++ " <tbody>\n".toList } ∧
    process_line { _contexts := [TEXT, SECTION] } "==  ===".toList
      = some { _contexts := TABLE_HEADER :: TABLE :: [TEXT, SECTION].dropWhile closes_before_table,
               _column_indices := [] ++ run_starts false 0 "==  ===".toList,
               output := [] ++ ([TEXT, SECTION].takeWhile closes_before_table).flatMap closing_text
                 ++ "<table><thead><tr>\n".toList } :=
  ⟨(ruler_step { _contexts := [TABLE_BODY, TABLE, SECTION], _column_indices := [0, 4] }
      "==  ===".toList (by decide) (by decide)).1 [SECTION] rfl,
   (ruler_step { _contexts := [TABLE_HEADER, TABLE, SECTION], _column_indices := [0, 4] }
      "==  ===".toList (by decide) (by decide)).2.1 [TABLE, SECTION] rfl,
   (ruler_step { _contexts := [TEXT, SECTION] } "==  ===".toList (by decide) (by decide)).2.2
      (by decide) (by decide) (by decide)⟩

/-! ## Trimming -/

/-- Removing the trailing whitespace of a string. -/
theorem trim_eq (s : List Char) :
    _trim s = ((s.dropWhile is_space).reverse.dropWhile is_space).reverse := rfl

theorem rtrim_cons (p : Char → Bool) (x : Char) (t : List Char)
    (h : ((t.reverse.dropWhile p).reverse ≠ []) ∨ p x = false) :
    ((x :: t).reverse.dropWhile p).reverse = x :: (t.reverse.dropWhile p).reverse := by
  rw [List.reverse_cons, List.dropWhile_append]
  split
  · rename_i he
    have hnil : t.reverse.dropWhile p = [] := by simpa using he
    rcases h with h | h
    · exact absurd (by simp [hnil]) h
    · simp [hnil, List.dropWhile_cons, h]
  · simp

theorem rtrim_ne_nil (p : Char → Bool) (t : List Char) (h : ∃ c ∈ t, p c = false) :
    (t.reverse.dropWhile p).reverse ≠ [] := by
  intro he
  have hnil : t.reverse.dropWhile p = [] := by simpa using he
  rw [List.dropWhile_eq_nil_iff] at hnil
  obtain ⟨c, hc, hpc⟩ := h
  have := hnil c (List.mem_reverse.mpr hc)
  rw [hpc] at this
  cases this

/-- Trimming a bullet line keeps the bullet and removes the trailing whitespace of the
item text. -/
theorem trim_bullet_line (t : List Char) (h : ∃ c ∈ t, is_space c = false) :
    _trim (bullet_line t) = "* ".toList ++ (t.reverse.dropWhile is_space).reverse := by
  have e : bullet_line t = '*' :: ' ' :: t := rfl
  rw [trim_eq, e, List.dropWhile_cons_of_neg (by decide),
    rtrim_cons _ _ _ (Or.inr (by decide)),
    rtrim_cons _ _ _ (Or.inl (rtrim_ne_nil _ t h))]
  rfl

theorem dropWhile_rtrim (p : Char → Bool) (t : List Char) :
    ((t.reverse.dropWhile p).reverse).dropWhile p
      = ((t.dropWhile p).reverse.dropWhile p).reverse := by
  induction t with
  | nil => rfl
  | cons x r ih =>
    cases hx : p x
    · rw [rtrim_cons p x r (Or.inr hx), List.dropWhile_cons_of_neg (by simp [hx]),
        List.dropWhile_cons_of_neg (by simp [hx]), rtrim_cons p x r (Or.inr hx)]
    · rw [List.dropWhile_cons_of_pos hx, ← ih]
      by_cases hr : (r.reverse.dropWhile p).reverse = []
      · have hnil : r.reverse.dropWhile p = [] := by simpa using hr
        have : (x :: r).reverse.dropWhile p = [] := by
          rw [List.reverse_cons, List.dropWhile_append, hnil]
          simp [List.dropWhile_cons, hx]
        rw [this, hr]
        rfl
      · rw [rtrim_cons p x r (Or.inl hr), List.dropWhile_cons_of_pos hx]

theorem dropWhile_dropWhile (p : Char → Bool) (l : List Char) :
    (l.dropWhile p).dropWhile p = l.dropWhile p := by
  induction l with
  | nil => rfl
  | cons x r ih =>
    cases hx : p x
    · rw [List.dropWhile_cons_of_neg (by simp [hx]), List.dropWhile_cons_of_neg (by simp [hx])]
    · rw [List.dropWhile_cons_of_pos hx, ih]

/-- Trimming after the trailing whitespace has been removed is trimming. -/
theorem trim_rtrim (t : List Char) :
    _trim ((t.reverse.dropWhile is_space).reverse) = _trim t := by
  have h1 := dropWhile_rtrim is_space t
  rw [trim_eq, h1, List.reverse_reverse ((t.dropWhile is_space).reverse.dropWhile is_space),
    dropWhile_dropWhile]
  rfl

theorem trim_nil_of_blank (b : List Char) (h : ∀ c ∈ b, c = ' ') : _trim b = [] := by
  have : b.dropWhile is_space = [] := by
    rw [List.dropWhile_eq_nil_iff]
    intro c hc
    rw [h c hc]; rfl
  rw [trim_eq, this]
  rfl

theorem flatMap_escape_char_of_plain (l : List Char) (h1 : '&' ∉ l) (h2 : '<' ∉ l)
    (h3 : '>' ∉ l) : l.flatMap escape_char = l := by
  induction l with
  | nil => rfl
  | cons x r ih =>
    have hx1 : x ≠ '&' := fun e => h1 (by simp [e])
    have hx2 : x ≠ '<' := fun e => h2 (by simp [e])
    have hx3 : x ≠ '>' := fun e => h3 (by simp [e])
    rw [List.flatMap_cons, ih (fun h => h1 (List.mem_cons_of_mem _ h))
      (fun h => h2 (List.mem_cons_of_mem _ h)) (fun h => h3 (List.mem_cons_of_mem _ h))]
    simp [escape_char, hx1, hx2, hx3]

theorem mem_bullet_line {c : Char} {t : List Char} (h : c ∈ bullet_line t) :
    c = '*' ∨ c = ' ' ∨ c ∈ t := by
  have e : bullet_line t = '*' :: ' ' :: t := rfl
  rw [e] at h
  simpa using h

/-- A bullet line with an item text is buffered as its trimmed form. -/
theorem buffers_as_bullet (t : List Char) (h : is_item_text t) :
    buffers_as (bullet_line t) (_trim (bullet_line t)) := by
  obtain ⟨hne, hq, hbs, ha, hl, hg⟩ := h
  have e : bullet_line t = '*' :: ' ' :: t := rfl
  have hnot : ∀ c : Char, c ≠ '*' → c ≠ ' ' → c ∉ t → c ∉ bullet_line t := by
    intro c h1 h2 h3 hm
    rcases mem_bullet_line hm with h | h | h
    · exact h1 h
    · exact h2 h
    · exact h3 h
  have hstar : '*' ∈ bullet_line t := by rw [e]; simp
  refine ⟨⟨?_, ?_, ?_⟩, ?_, ?_, ?_, ?_, ?_, ?_, ?_⟩
  · rw [e]; intro h; cases h
  · rw [e]; intro h; cases h
  · rw [e]; intro h; cases h
  · exact fun hh => absurd (hh.2 '*' hstar) (by decide)
  · exact fun hh => absurd (hh.2 '*' hstar) (by decide)
  · exact fun hh => absurd (hh.2 '*' hstar) (by decide)
  · intro hh
    rcases hh.1 '*' hstar with h | h <;> revert h <;> decide
  · rw [_handle_escapes_plain _ (hnot _ (by decide) (by decide) hq)
      (hnot _ (by decide) (by decide) hbs)]
    rw [flatMap_escape_char_of_plain _
      (fun hm => hnot _ (by decide) (by decide) ha (mem_of_mem_trim hm))
      (fun hm => hnot _ (by decide) (by decide) hl (mem_of_mem_trim hm))
      (fun hm => hnot _ (by decide) (by decide) hg (mem_of_mem_trim hm))]
  · rw [trim_bullet_line t hne]
    show ('*' :: ' ' :: _).head? ≠ _
    simp
  · rw [trim_bullet_line t hne]
    show ('*' :: ' ' :: _).head? ≠ _
    simp

/-- A blank line is buffered as the empty line. -/
theorem buffers_as_blank (b : List Char) (h : ∀ c ∈ b, c = ' ') : buffers_as b [] := by
  have hnot : ∀ c : Char, c ≠ ' ' → c ∉ b := fun c hc hm => hc (h c hm)
  refine ⟨⟨?_, ?_, ?_⟩, ?_, ?_, ?_, ?_, ?_, ?_, ?_⟩
  · rintro rfl; exact absurd (h '.' (by decide)) (by decide)
  · rintro rfl; exact absurd (h '.' (by decide)) (by decide)
  · rintro rfl; exact absurd (h '.' (by decide)) (by decide)
  · rintro ⟨h1, h2⟩
    cases b with
    | nil => exact h1 rfl
    | cons x r => exact absurd ((h2 x (by simp)).symm.trans (h x (by simp))) (by decide)
  · rintro ⟨h1, h2⟩
    cases b with
    | nil => exact h1 rfl
    | cons x r => exact absurd ((h2 x (by simp)).symm.trans (h x (by simp))) (by decide)
  · rintro ⟨h1, h2⟩
    cases b with
    | nil => exact h1 rfl
    | cons x r => exact absurd ((h2 x (by simp)).symm.trans (h x (by simp))) (by decide)
  · rintro ⟨_, h2⟩
    exact hnot '=' (by decide) h2
  · rw [_handle_escapes_plain _ (hnot _ (by decide)) (hnot _ (by decide)),
      trim_nil_of_blank b h]
    rfl
  · simp
  · simp

/-! ## Buffered lines -/

theorem starts_with_false_of_head (n : List Char) (x : Char) (p : List Char)
    (h : n.head? ≠ some x) : starts_with n (x :: p) = false := by
  cases n with
  | nil => rfl
  | cons y r =>
    have : x ≠ y := fun e => h (by simp [e])
    simp [starts_with, List.isPrefixOf, this]

theorem _handle_variable_initialization_none (n label : List Char) (h : n.head? ≠ some '.') :
    _handle_variable_initialization n label = some none := by
  unfold _handle_variable_initialization
  simp only []
  have : starts_with n (".. |".toList ++ _trim label ++ "| replace:: ".toList) = false :=
    starts_with_false_of_head n '.' _ h
  rw [this]
  rfl

/-- A line that does not start with a dot is no metadata directive. -/
theorem handle_variable_initializations_not_handled (s : rst2rfcxml) (n : List Char)
    (h : n.head? ≠ some '.') : handle_variable_initializations s n = some (false, s) := by
  have a1 : starts_with n ".. |authorFullname| replace:: ".toList = false :=
    starts_with_false_of_head n '.' _ h
  have a2 : starts_with n ".. |authorRole| replace:: ".toList = false :=
    starts_with_false_of_head n '.' _ h
  have a3 : starts_with n ".. |authorSurname| replace:: ".toList = false :=
    starts_with_false_of_head n '.' _ h
  have a4 : starts_with n ".. |authorInitials| replace:: ".toList = false :=
    starts_with_false_of_head n '.' _ h
  simp only [handle_variable_initializations, _handle_variable_initialization_none n _ h,
    a1, a2, a3, a4, if_false, Bool.false_eq_true]

/-- A line that is no ruler is left to the later stages by `handle_table_line`, outside a
table header and a table body. -/
theorem handle_table_line_not_handled (s : rst2rfcxml) (line : List Char)
    (hL : ¬ ((∀ c ∈ line, c = ' ' ∨ c = '=') ∧ '=' ∈ line))
    (hh : s._contexts.head? ≠ some TABLE_HEADER) (hb : s._contexts.head? ≠ some TABLE_BODY) :
    handle_table_line s line = some (false, s) := by
  have h1 := ruler_test_false line hL
  have h2 : in_context s TABLE_BODY = false := by
    rw [Bool.eq_false_iff, Ne, in_context_iff]; exact hb
  have h3 : in_context s TABLE_HEADER = false := by
    rw [Bool.eq_false_iff, Ne, in_context_iff]; exact hh
  simp only [handle_table_line, h1, h2, h3, if_false, Bool.false_eq_true]

/-- Outside a title, a table header and a table body, a line that is buffered as `n` makes
`process_line` output the previous line and buffer `n`. -/
theorem process_line_buffers (s : rst2rfcxml) (l n : List Char) (h : buffers_as l n)
    (ht : s._contexts.head? ≠ some TITLE) (hh : s._contexts.head? ≠ some TABLE_HEADER)
    (hb : s._contexts.head? ≠ some TABLE_BODY) :
    process_line s l =
      match output_previous_line s with
      | none => none
      | some s => some { s with _previous_line := n } := by
  obtain ⟨⟨d1, d2, d3⟩, u1, u2, u3, hr, he, hdot, hsp⟩ := h
  have hdl : starts_with n "  ".toList = false := starts_with_false_of_head n ' ' _ hsp
  simp only [process_line, d1, d2, d3, if_false, handle_title_line_not_handled s l u1 u2 u3 ht,
    handle_table_line_not_handled s l hr hh hb, he,
    handle_variable_initializations_not_handled s n hdot, hdl, Bool.false_and,
    Bool.false_eq_true]

theorem blank_line_test (s : rst2rfcxml) :
    (in_context s DEFINITION_DESCRIPTION || in_context s LIST_ELEMENT ||
      in_context s TEXT || in_context s UNORDERED_LIST) =
    match s._contexts with
    | [] => false
    | c :: _ => closes_at_blank c := by
  unfold in_context closes_at_blank
  cases h : s._contexts with
  | nil => rfl
  | cons c cs => cases c <;> rfl

/-- The loop of `output_previous_line` closes the innermost run of
`DEFINITION_DESCRIPTION`, `LIST_ELEMENT`, `TEXT` and `UNORDERED_LIST` contexts and nothing
else. -/
theorem blank_line_loop_eq :
    ∀ (fuel : Nat) (s : rst2rfcxml), s._contexts.length ≤ fuel →
      blank_line_loop fuel s = some { s with
        output := s.output ++ (s._contexts.takeWhile closes_at_blank).flatMap closing_text,
        _contexts := s._contexts.dropWhile closes_at_blank } := by
  intro fuel
  induction fuel with
  | zero =>
    intro s h
    obtain ⟨dn, ipr, cat, cols, auth, st, ab, ctx, prev, out⟩ := s
    have hnil : ctx = [] := List.length_eq_zero.mp (Nat.le_zero.mp h)
    subst hnil
    rw [blank_line_loop]
    simp
  | succ fuel ih =>
    intro s h
    obtain ⟨dn, ipr, cat, cols, auth, st, ab, ctx, prev, out⟩ := s
    rw [blank_line_loop, blank_line_test]
    cases ctx with
    | nil => simp
    | cons c cs =>
      cases hcl : closes_at_blank c
      · simp [List.takeWhile_cons, List.dropWhile_cons, hcl]
      · simp only [if_true, pop_context, hcl]
        rw [ih _ (by simpa using h)]
        simp [List.takeWhile_cons, List.dropWhile_cons, hcl, emit, List.flatMap_cons]

/-- With an empty buffered line, `output_previous_line` only closes the contexts that end
at a blank line. -/
theorem output_previous_line_empty (s : rst2rfcxml) (hp : s._previous_line = []) :
    output_previous_line s = some { s with
      output := s.output ++ (s._contexts.takeWhile closes_at_blank).flatMap closing_text,
      _contexts := s._contexts.dropWhile closes_at_blank } := by
  unfold output_previous_line output_previous_line_text
  rw [hp]
  have e1 : starts_with [] "* ".toList = false := rfl
  have e2 : find_first_not_of [] " ".toList 0 = none := rfl
  simp only [e1, e2, Option.isSome_none, Option.isNone_none, if_true, if_false,
    Bool.false_eq_true, hp]
  rw [blank_line_loop_eq _ s (Nat.le_refl _), hp]

/-! ## Lists -/

theorem bullet_facts (t : List Char) (h : ∃ c ∈ t, is_space c = false) :
    starts_with (_trim (bullet_line t)) "* ".toList = true ∧
    substr (_trim (bullet_line t)) 2 none = some ((t.reverse.dropWhile is_space).reverse) ∧
    (find_first_not_of (_trim (bullet_line t)) " ".toList 0).isNone = false := by
  rw [trim_bullet_line t h]
  refine ⟨?_, ?_, ?_⟩
  · show starts_with ('*' :: ' ' :: _) ['*', ' '] = true
    simp [starts_with, List.isPrefixOf]
  · show substr ('*' :: ' ' :: _) 2 none = _
    simp [substr]
  · show (find_first_not_of ('*' :: ' ' :: _) [' '] 0).isNone = false
    simp [find_first_not_of, find_if]

/-- Output of a buffered bullet line when no list is open: the list and its first item are
opened. -/
theorem output_previous_line_first_bullet (s : rst2rfcxml) (t : List Char)
    (h : ∃ c ∈ t, is_space c = false) (hp : s._previous_line = _trim (bullet_line t))
    (h1 : s._contexts.head? ≠ some LIST_ELEMENT) (h2 : s._contexts.head? ≠ some UNORDERED_LIST) :
    output_previous_line s = some { s with
      output := s.output ++ "<ul>\n".toList ++ ("<li>".toList ++ _trim t ++ "\n".toList),
      _contexts := LIST_ELEMENT :: UNORDERED_LIST :: s._contexts } := by
  obtain ⟨f1, f2, f3⟩ := bullet_facts t h
  have c1 : in_context s LIST_ELEMENT = false := by
    rw [Bool.eq_false_iff, Ne, in_context_iff]; exact h1
  have c2 : in_context s UNORDERED_LIST = false := by
    rw [Bool.eq_false_iff, Ne, in_context_iff]; exact h2
  obtain ⟨dn, ipr, cat, cols, auth, st, ab, ctx, prev, out⟩ := s
  simp only at hp
  subst hp
  simp only [output_previous_line, output_previous_line_text, f1, f2, f3, c1, c2, if_true,
    if_false, Bool.false_eq_true, Bool.not_false, emit, push, trim_rtrim]

/-- Output of a buffered bullet line when an item is open: the item is closed and the next
one opened. -/
theorem output_previous_line_next_bullet (s : rst2rfcxml) (t : List Char)
    (h : ∃ c ∈ t, is_space c = false) (hp : s._previous_line = _trim (bullet_line t))
    (rest : List xml_context) (hc : s._contexts = LIST_ELEMENT :: UNORDERED_LIST :: rest) :
    output_previous_line s = some { s with
      output := s.output ++ "</li>\n".toList ++ ("<li>".toList ++ _trim t ++ "\n".toList) } := by
  obtain ⟨f1, f2, f3⟩ := bullet_facts t h
  have f4 : ¬ (find_first_not_of (_trim (bullet_line t)) [' '] 0 = none) := by
    intro h0
    have e : " ".toList = [' '] := rfl
    rw [e, h0] at f3
    cases f3
  obtain ⟨dn, ipr, cat, cols, auth, st, ab, ctx, prev, out⟩ := s
  simp only at hp hc
  subst hp hc
  simp only [output_previous_line, output_previous_line_text, f1, if_true,
    if_false, Bool.false_eq_true, emit, push, in_context, pop_context]
  simp [closing_text, f2, f4, trim_rtrim]

theorem closes_at_blank_base (ctx : List xml_context)
    (h : ∃ c, ctx.head? = some c ∧ (c = SECTION ∨ c = FRONT ∨ c = MIDDLE)) :
    ctx.takeWhile closes_at_blank = [] ∧ ctx.dropWhile closes_at_blank = ctx ∧
    ctx.head? ≠ some TITLE ∧ ctx.head? ≠ some TABLE_HEADER ∧ ctx.head? ≠ some TABLE_BODY ∧
    ctx.head? ≠ some LIST_ELEMENT ∧ ctx.head? ≠ some UNORDERED_LIST := by
  obtain ⟨c, hc, hall⟩ := h
  cases ctx with
  | nil => simp at hc
  | cons d r =>
    have : d = c := by simpa using hc
    subst this
    rcases hall with rfl | rfl | rfl <;>
      simp [List.takeWhile_cons, List.dropWhile_cons, closes_at_blank]

/-- The last two lines of a list, a blank line and the final empty line, processed while
an item is open and a bullet line is buffered: the item is closed, the last item written,
and the item and the list are closed. -/
theorem process_lines_list_end (s : rst2rfcxml) (t b : List Char)
    (ht : ∃ c ∈ t, is_space c = false) (rest : List xml_context)
    (hc : s._contexts = LIST_ELEMENT :: UNORDERED_LIST :: rest)
    (hrest : ∃ c, rest.head? = some c ∧ (c = SECTION ∨ c = FRONT ∨ c = MIDDLE))
    (hp : s._previous_line = _trim (bullet_line t)) (hb : ∀ c ∈ b, c = ' ') :
    process_lines s [b, []] = some { s with
      output := s.output ++ ("</li>\n".toList ++ ("<li>".toList ++ _trim t ++ "\n".toList))
        ++ "</li>\n</ul>\n".toList,
      _contexts := rest, _previous_line := [] } := by
  obtain ⟨k1, k2, -, -, -, -, -⟩ := closes_at_blank_base rest hrest
  have e1 := process_line_buffers s b [] (buffers_as_blank b hb)
    (by rw [hc]; simp) (by rw [hc]; simp) (by rw [hc]; simp)
  rw [output_previous_line_next_bullet s t ht hp rest hc] at e1
  simp only [] at e1
  obtain ⟨dn, ipr, cat, cols, auth, st, ab, ctx, prev, out⟩ := s
  simp only at hp hc e1
  subst hp hc
  have e2 := process_line_buffers
    { _document_name := dn, _ipr := ipr, _category := cat, _column_indices := cols,
      _authors := auth, _submission_type := st, _abbreviated_title := ab,
      _contexts := LIST_ELEMENT :: UNORDERED_LIST :: rest, _previous_line := [],
      output := out ++ "</li>\n".toList ++ ("<li>".toList ++ _trim t ++ "\n".toList) }
    [] [] (buffers_as_blank [] (by simp)) (by simp) (by simp) (by simp)
  rw [output_previous_line_empty _ rfl] at e2
  simp only [process_lines, e1, e2]
  simp [List.takeWhile_cons, List.dropWhile_cons, closes_at_blank, k1, k2, closing_text]

/-- The lines of a list after a buffered bullet line, processed while an item is open. -/
theorem process_lines_list_tail (b : List Char) (hb : ∀ c ∈ b, c = ' ')
    (rest : List xml_context)
    (hrest : ∃ c, rest.head? = some c ∧ (c = SECTION ∨ c = FRONT ∨ c = MIDDLE)) :
    ∀ (items : List (List Char)) (s : rst2rfcxml) (t : List Char),
      (∃ c ∈ t, is_space c = false) → (∀ x ∈ items, is_item_text x) →
      s._contexts = LIST_ELEMENT :: UNORDERED_LIST :: rest →
      s._previous_line = _trim (bullet_line t) →
      process_lines s (items.map bullet_line ++ [b, []]) = some { s with
        output := s.output ++ (t :: items).flatMap (fun x =>
          "</li>\n".toList ++ ("<li>".toList ++ _trim x ++ "\n".toList))
          ++ "</li>\n</ul>\n".toList,
        _contexts := rest, _previous_line := [] } := by
  intro items
  induction items with
  | nil =>
    intro s t ht _ hc hp
    have := process_lines_list_end s t b ht rest hc hrest hp hb
    simpa using this
  | cons x xs ih =>
    intro s t ht hitems hc hp
    have hx : is_item_text x := hitems x (by simp)
    have e1 := process_line_buffers s (bullet_line x) _ (buffers_as_bullet x hx)
      (by rw [hc]; simp) (by rw [hc]; simp) (by rw [hc]; simp)
    rw [output_previous_line_next_bullet s t ht hp rest hc] at e1
    simp only [] at e1
    have e2 := ih { s with
        _previous_line := _trim (bullet_line x),
        output := s.output ++ "</li>\n".toList ++ ("<li>".toList ++ _trim t ++ "\n".toList) }
      x hx.1 (fun y hy => hitems y (List.mem_cons_of_mem _ hy)) hc rfl
    rw [List.map_cons, List.cons_append, process_lines, e1]
    simp only []
    rw [e2]
    simp [List.flatMap_cons]

theorem list_text_regroup (items : List (List Char)) :
    ∀ t : List Char,
      ("<li>".toList ++ _trim t ++ "\n".toList) ++ items.flatMap (fun x =>
          "</li>\n".toList ++ ("<li>".toList ++ _trim x ++ "\n".toList)) ++ "</li>\n".toList
        = (t :: items).flatMap (fun x =>
          "<li>".toList ++ _trim x ++ "\n".toList ++ "</li>\n".toList) := by
  induction items with
  | nil => intro t; simp
  | cons x xs ih =>
    intro t
    have := ih x
    simp only [List.flatMap_cons] at this ⊢
    rw [← this]
    simp only [List.append_assoc]

/-- The lines of a list, a blank line and the final empty line, processed from a state
with an empty buffered line whose innermost context is a section or front or middle
matter. -/
theorem process_lines_list (s : rst2rfcxml) (items : List (List Char)) (b : List Char)
    (hne : items ≠ []) (hitems : ∀ t ∈ items, is_item_text t)
    (hp : s._previous_line = [])
    (hctx : ∃ c, s._contexts.head? = some c ∧ (c = SECTION ∨ c = FRONT ∨ c = MIDDLE))
    (hb : ∀ c ∈ b, c = ' ') :
    process_lines s (items.map bullet_line ++ [b, []]) = some { s with
      output := s.output ++ "<ul>\n".toList ++ items.flatMap (fun t =>
        "<li>".toList ++ _trim t ++ "\n".toList ++ "</li>\n".toList) ++ "</ul>\n".toList } := by
  obtain ⟨k1, k2, k3, k4, k5, k6, k7⟩ := closes_at_blank_base s._contexts hctx
  cases items with
  | nil => exact absurd rfl hne
  | cons t1 xs =>
    have h1 : is_item_text t1 := hitems t1 (by simp)
    have e0 := process_line_buffers s (bullet_line t1) _ (buffers_as_bullet t1 h1) k3 k4 k5
    rw [output_previous_line_empty s hp, k1, k2] at e0
    simp only [List.flatMap_nil, List.append_nil] at e0
    have e1 := output_previous_line_first_bullet
      { s with _previous_line := _trim (bullet_line t1) } t1 h1.1 rfl k6 k7
    rw [List.map_cons, List.cons_append, process_lines, e0]
    simp only []
    cases xs with
    | nil =>
      have e2 := process_line_buffers { s with _previous_line := _trim (bullet_line t1) }
        b [] (buffers_as_blank b hb) k3 k4 k5
      rw [e1] at e2
      simp only [] at e2
      have e3 := process_line_buffers { s with
          output := s.output ++ "<ul>\n".toList ++ ("<li>".toList ++ _trim t1 ++ "\n".toList),
          _contexts := LIST_ELEMENT :: UNORDERED_LIST :: s._contexts,
          _previous_line := [] }
        [] [] (buffers_as_blank [] (by simp)) (by simp) (by simp) (by simp)
      rw [output_previous_line_empty _ rfl] at e3
      simp only [List.map_nil, List.nil_append, process_lines, e2, e3]
      obtain ⟨dn, ipr, cat, cols, auth, st, ab, ctx, prev, out⟩ := s
      simp only at hp k1 k2
      subst hp
      simp [List.takeWhile_cons, List.dropWhile_cons, closes_at_blank, k1, k2, closing_text]
    | cons x xs' =>
      have hx : is_item_text x := hitems x (by simp)
      have e2 := process_line_buffers { s with _previous_line := _trim (bullet_line t1) }
        (bullet_line x) _ (buffers_as_bullet x hx) k3 k4 k5
      rw [e1] at e2
      simp only [] at e2
      have e3 := process_lines_list_tail b hb s._contexts hctx xs' { s with
          output := s.output ++ "<ul>\n".toList ++ ("<li>".toList ++ _trim t1 ++ "\n".toList),
          _contexts := LIST_ELEMENT :: UNORDERED_LIST :: s._contexts,
          _previous_line := _trim (bullet_line x) }
        x hx.1 (fun y hy => hitems y (by simp [hy])) rfl rfl
      rw [List.map_cons, List.cons_append, process_lines, e2]
      simp only []
      rw [e3]
      have hr := list_text_regroup (x :: xs') t1
      have hsplit : "</li>\n</ul>\n".toList = "</li>\n".toList ++ "</ul>\n".toList := rfl
      obtain ⟨dn, ipr, cat, cols, auth, st, ab, ctx, prev, out⟩ := s
      simp only at hp
      subst hp
      simp only [Option.some.injEq, rst2rfcxml.mk.injEq, true_and, and_true]
      rw [← hr, hsplit]
      simp only [List.append_assoc]


theorem flatMap_item_congr (items : List (List Char)) (h : ∀ t ∈ items, _trim t = t) :
    items.flatMap (fun t => "<li>".toList ++ _trim t ++ "\n".toList ++ "</li>\n".toList)
      = items.flatMap (fun t => "<li>".toList ++ t ++ "\n".toList ++ "</li>\n".toList) := by
  induction items with
  | nil => rfl
  | cons x xs ih =>
    rw [List.flatMap_cons, List.flatMap_cons, ih (fun t ht => h t (List.mem_cons_of_mem _ ht)),
      h x (by simp)]

/-- C9 (as stated, the claim fails). The item text ` x` (a space, then `x`) is non-blank
and free of backquotes, backslashes, `&`, `<` and `>`, but the bullet line `*  x` followed by
a blank line and the final empty line writes the item as `<li>x`, not as `<li> x`:
`output_previous_line` trims the remainder of the bullet line. -/
theorem list_item_text_is_trimmed :
    is_item_text " x".toList ∧
    (process_lines { _contexts := [SECTION, MIDDLE, RFC] }
        [bullet_line " x".toList, [], []]).map (fun s => s.output)
      = some "<ul>\n<li>x\n</li>\n</ul>\n".toList ∧
    "<ul>\n<li>x\n</li>\n</ul>\n".toList ≠ "<ul>\n<li> x\n</li>\n</ul>\n".toList := by
  decide

/-- C9 (amended). List grouping: for every `n ≥ 1` and item texts `t_1 .. t_n` (each with a
non-whitespace character, free of backquotes, backslashes, `&`, `<`, `>`), from a state with
an empty buffered line whose innermost context is a section or front or middle matter,
processing the lines `* t_1`, ..., `* t_n`, then a blank line, then the final empty line
writes exactly one `<ul>`, then for each item in order `<li>` with the text of the item
without its leading and trailing whitespace (so `t_i` itself when it has none) followed by
its `</li>`, then one `</ul>`; nothing but the output changes, so the context stack is the
same as before the first bullet. -/
theorem list_grouping (s : rst2rfcxml) (items : List (List Char)) (b : List Char)
    (hne : items ≠ []) (hitems : ∀ t ∈ items, is_item_text t)
    (hp : s._previous_line = [])
    (hctx : ∃ c, s._contexts.head? = some c ∧ (c = SECTION ∨ c = FRONT ∨ c = MIDDLE))
    (hb : ∀ c ∈ b, c = ' ') :
    process_lines s (items.map bullet_line ++ [b, []]) = some { s with
      output := s.output ++ "<ul>\n".toList ++ items.flatMap (fun t =>
        "<li>".toList ++ _trim t ++ "\n".toList ++ "</li>\n".toList) ++ "</ul>\n".toList } ∧
    ((∀ t ∈ items, _trim t = t) →
      process_lines s (items.map bullet_line ++ [b, []]) = some { s with
        output := s.output ++ "<ul>\n".toList ++ items.flatMap (fun t =>
          "<li>".toList ++ t ++ "\n".toList ++ "</li>\n".toList) ++ "</ul>\n".toList }) := by
  refine ⟨process_lines_list s items b hne hitems hp hctx hb, fun h => ?_⟩
  rw [process_lines_list s items b hne hitems hp hctx hb, flatMap_item_congr items h]

/-- An instance of `list_grouping`: three `* item` lines, a blank line and the final empty
line. -/
theorem list_grouping_witness :
    process_lines { _contexts := [SECTION, MIDDLE, RFC] }
        ["* item".toList, "* item".toList, "* item".toList, [], []]
      = some { _contexts := [SECTION, MIDDLE, RFC],
               output :=
                 "<ul>\n<li>item\n</li>\n<li>item\n</li>\n<li>item\n</li>\n</ul>\n".toList } :=
  ((list_grouping { _contexts := [SECTION, MIDDLE, RFC] }
    ["item".toList, "item".toList, "item".toList] [] (by decide)
    (by decide) rfl ⟨SECTION, rfl, Or.inl rfl⟩ (by decide)).2 (by decide)).trans (by decide)

/-! ## Definition lists -/

/-! ## The first character of a transduced line -/

theorem head_not_space_append {a : List Char} (b : List Char) (h : head_not_space a = true)
    (hne : a ≠ []) : head_not_space (a ++ b) = true := by
  cases a with
  | nil => exact absurd rfl hne
  | cons x r => exact h

theorem head_not_space_take_append {l : List Char} (n : Nat) (x y : List Char)
    (h : head_not_space l = true) (hl : l ≠ []) (hx : head_not_space x = true) (hxne : x ≠ []) :
    head_not_space (l.take n ++ x ++ y) = true := by
  cases n with
  | zero =>
    rw [List.take_zero, List.nil_append]
    exact head_not_space_append y hx hxne
  | succ n =>
    cases l with
    | nil => exact absurd rfl hl
    | cons c r => exact h

theorem head_not_space_trim (l : List Char) : head_not_space (_trim l) = true := by
  rw [trim_eq]
  cases hd : l.dropWhile is_space with
  | nil => rfl
  | cons x r =>
    have hne : (x :: r) ≠ [] := by simp
    have hx := List.head_dropWhile_not is_space l (by rw [hd]; exact hne)
    simp only [hd, List.head_cons] at hx
    have hx' : is_space x = false := by simpa using hx
    rw [rtrim_cons is_space x r (Or.inr hx')]
    simp [head_not_space, hx']

theorem ne_nil_of_find {line pat : List Char} {pos j : Nat} (h : find line pat pos = some j)
    (hp : pat ≠ []) : line ≠ [] := by
  have := length_of_prefix_drop (find_some h).2 hp
  have h2 : 0 < pat.length := List.length_pos.mpr hp
  intro e
  rw [e, List.length_nil] at this
  omega

/-- The loop of `_replace_all` keeps the first character of the line from being
whitespace when the replacement does not start with whitespace. -/
theorem _replace_all_loop_head (from_s to_s : List Char) (hf : from_s ≠ [])
    (ht : head_not_space to_s = true) (htne : to_s ≠ []) :
    ∀ (fuel : Nat) (line : List Char) (start : Nat) (r : List Char), head_not_space line = true →
      _replace_all_loop from_s to_s fuel line start = some r → head_not_space r = true := by
  intro fuel
  induction fuel with
  | zero => intro line start r _ h; cases h
  | succ fuel ih =>
    intro line start r hl h
    rw [_replace_all_loop] at h
    cases hfind : find line from_s start with
    | none =>
      rw [hfind] at h
      cases h
      exact hl
    | some index =>
      rw [hfind] at h
      simp only [] at h
      refine ih _ _ r ?_ h
      exact head_not_space_take_append index to_s _ hl (ne_nil_of_find hfind hf) ht htne

theorem substr_zero {line before : List Char} {index : Nat}
    (h : substr line 0 (some index) = some before) : before = line.take index := by
  simp [substr] at h
  exact h.symm

theorem _replace_constant_width_instances_loop_head :
    ∀ (fuel : Nat) (line r : List Char), head_not_space line = true →
      _replace_constant_width_instances_loop fuel line = some r → head_not_space r = true := by
  intro fuel
  induction fuel with
  | zero => intro line r _ h; cases h
  | succ fuel ih =>
    intro line r hl h
    rw [_replace_constant_width_instances_loop] at h
    cases hfind : find line "``".toList 0 with
    | none => rw [hfind] at h; cases h; exact hl
    | some index =>
      rw [hfind] at h
      simp only [] at h
      cases hfind2 : find line "``".toList (index + 2) with
      | none => rw [hfind2] at h; cases h; exact hl
      | some next_index =>
        rw [hfind2] at h
        simp only [] at h
        cases h1 : substr line 0 (some index) with
        | none => rw [h1] at h; cases h
        | some before =>
          cases h2 : substr line (index + 2) (some (next_index - index - 2)) with
          | none => rw [h1, h2] at h; cases h
          | some middle =>
            cases h3 : substr line (next_index + 2) none with
            | none => rw [h1, h2, h3] at h; cases h
            | some after =>
              rw [h1, h2, h3] at h
              simp only [] at h
              refine ih _ r ?_ h
              rw [substr_zero h1, List.append_assoc _ (_trim middle), List.append_assoc _ _ after]
              exact head_not_space_take_append index "<tt>".toList _ hl
                (ne_nil_of_find hfind (by decide)) (by decide) (by decide)

theorem _replace_internal_links_loop_head :
    ∀ (fuel : Nat) (line r : List Char), head_not_space line = true →
      _replace_internal_links_loop fuel line = some r → head_not_space r = true := by
  intro fuel
  induction fuel with
  | zero => intro line r _ h; cases h
  | succ fuel ih =>
    intro line r hl h
    rw [_replace_internal_links_loop] at h
    cases hfind : find line "`".toList 0 with
    | none => rw [hfind] at h; cases h; exact hl
    | some start =>
      rw [hfind] at h
      simp only [] at h
      cases hfind2 : find line "`_".toList (start + 1) with
      | none => rw [hfind2] at h; cases h; exact hl
      | some end_ =>
        rw [hfind2] at h
        simp only [] at h
        cases h1 : substr line 0 (some start) with
        | none => rw [h1] at h; cases h
        | some before =>
          cases h2 : substr line (start + 1) (some (end_ - start - 1)) with
          | none => rw [h1, h2] at h; cases h
          | some middle =>
            cases h3 : substr line (end_ + 2) none with
            | none => rw [h1, h2, h3] at h; cases h
            | some after =>
              rw [h1, h2, h3] at h
              simp only [] at h
              refine ih _ r ?_ h
              rw [substr_zero h1, List.append_assoc _ (_anchor middle),
                List.append_assoc _ _ after]
              exact head_not_space_take_append start "<xref target=\"".toList _ hl
                (ne_nil_of_find hfind (by decide)) (by decide) (by decide)

/-- The result of `_handle_escapes` never starts with whitespace. -/
theorem _handle_escapes_head (line r : List Char) (h : _handle_escapes line = some r) :
    head_not_space r = true := by
  unfold _handle_escapes at h
  simp only [] at h
  cases h1 : _replace_all (_trim line) "\\*".toList "*".toList with
  | none => rw [h1] at h; cases h
  | some l1 =>
  rw [h1] at h; simp only [] at h
  cases h2 : _replace_all l1 "\\|".toList "|".toList with
  | none => rw [h2] at h; cases h
  | some l2 =>
  rw [h2] at h; simp only [] at h
  cases h3 : _replace_all l2 "&".toList "&amp;".toList with
  | none => rw [h3] at h; cases h
  | some l3 =>
  rw [h3] at h; simp only [] at h
  cases h4 : _replace_all l3 "<".toList "&lt;".toList with
  | none => rw [h4] at h; cases h
  | some l4 =>
  rw [h4] at h; simp only [] at h
  cases h5 : _replace_all l4 ">".toList "&gt;".toList with
  | none => rw [h5] at h; cases h
  | some l5 =>
  rw [h5] at h; simp only [] at h
  cases h6 : _replace_constant_width_instances l5 with
  | none => rw [h6] at h; cases h
  | some l6 =>
  rw [h6] at h; simp only [] at h
  have p0 := head_not_space_trim line
  have p1 := _replace_all_loop_head _ _ (by decide) (by decide) (by decide) _ _ _ _ p0 h1
  have p2 := _replace_all_loop_head _ _ (by decide) (by decide) (by decide) _ _ _ _ p1 h2
  have p3 := _replace_all_loop_head _ _ (by decide) (by decide) (by decide) _ _ _ _ p2 h3
  have p4 := _replace_all_loop_head _ _ (by decide) (by decide) (by decide) _ _ _ _ p3 h4
  have p5 := _replace_all_loop_head _ _ (by decide) (by decide) (by decide) _ _ _ _ p4 h5
  have p6 := _replace_constant_width_instances_loop_head _ _ _ p5 h6
  exact _replace_internal_links_loop_head _ _ _ p6 h

/-- The indentation test of the definition-list branch of `process_line` fails on every
transduced line. -/
theorem starts_with_two_spaces_false (line r : List Char) (h : _handle_escapes line = some r) :
    starts_with r "  ".toList = false := by
  apply starts_with_false_of_head r ' ' [' ']
  intro he
  have := _handle_escapes_head line r h
  cases r with
  | nil => cases he
  | cons c t =>
    simp only [List.head?_cons, Option.some.injEq] at he
    subst he
    exact absurd this (by simp [head_not_space, is_space])

/-- C10 (the code departs from the claim). `process_line` tests the two-space indentation of
the incoming line after `_handle_escapes` has trimmed it, so the test fails on every line and
the branch that opens a definition list and a definition term is never taken. With the
buffered line `Term` and the innermost context `SECTION`, the incoming line `  definition`
(two spaces, then text) opens no definition list and no definition term: `Term` is written
as a paragraph. -/
theorem definition_term_never_opened :
    (∀ line, ∃ r, _handle_escapes line = some r ∧ starts_with r "  ".toList = false) ∧
    (process_line { _contexts := [SECTION, MIDDLE, RFC], _previous_line := "Term".toList }
        "  definition".toList).map (fun s => (s._previous_line, s._contexts, s.output))
      = some ("definition".toList, [TEXT, SECTION, MIDDLE, RFC], "<t>\nTerm\n".toList) := by
  refine ⟨fun line => ?_, by decide⟩
  obtain ⟨r, hr⟩ := _handle_escapes_total line
  exact ⟨r, hr, starts_with_two_spaces_false line r hr⟩

/-! ## Headings in the front matter -/

/-- C11 (the code departs from the claim). After the header directive and the heading text
`Intro`, the level-2 underline `-----` opens the section inside the front matter: `FRONT`
stays on the stack and neither `</front>` nor `<middle>` is written; the same holds for the
level-3 underline `~~~~~`. Only the level-1 branch of `handle_title_line` closes the front
matter and opens the middle matter. -/
theorem section_below_level_1_keeps_front_open :
    (process_lines {} [".. header::".toList, "Intro".toList, "-----".toList]).map
        (fun s => s._contexts) = some [SECTION, FRONT, RFC] ∧
    (process_line { _contexts := [FRONT, RFC], _previous_line := "Intro".toList }
        "-----".toList).map (fun s => (s._contexts, s.output))
      = some ([SECTION, FRONT, RFC], "<section anchor=\"intro\" title=\"Intro\">\n".toList) ∧
    (process_line { _contexts := [FRONT, RFC], _previous_line := "Intro".toList }
        "~~~~~".toList).map (fun s => (s._contexts, s.output))
      = some ([SECTION, FRONT, RFC], "<section anchor=\"intro\" title=\"Intro\">\n".toList) ∧
    (process_line { _contexts := [FRONT, RFC], _previous_line := "Intro".toList }
        "=====".toList).map (fun s => (s._contexts, s.output))
      = some ([SECTION, MIDDLE, RFC],
          "</front>\n<middle>\n<section anchor=\"intro\" title=\"Intro\">\n".toList) := by
  decide

/-! ## Metadata directives -/

/-- C14 (the code departs from the claim). The value `A & B` has the inline transduction
`A &amp; B`, but each scalar directive stores `A &amp;amp; B`: `process_line` passes the
whole line through `_handle_escapes` and `_handle_variable_initialization` passes the value
through it again. Nothing is written and the context stack is unchanged. -/
theorem scalar_value_escaped_twice :
    _handle_escapes "A & B".toList = some "A &amp; B".toList ∧
    (process_line { _contexts := [FRONT, RFC] } ".. |category| replace:: A & B".toList).map
        (fun s => (s._category, s.output, s._contexts))
      = some ("A &amp;amp; B".toList, [], [FRONT, RFC]) ∧
    (process_line { _contexts := [FRONT, RFC] } ".. |docName| replace:: A & B".toList).map
        (fun s => (s._document_name, s.output, s._contexts))
      = some ("A &amp;amp; B".toList, [], [FRONT, RFC]) ∧
    (process_line { _contexts := [FRONT, RFC] } ".. |ipr| replace:: A & B".toList).map
        (fun s => (s._ipr, s.output, s._contexts))
      = some ("A &amp;amp; B".toList, [], [FRONT, RFC]) ∧
    (process_line { _contexts := [FRONT, RFC] }
        ".. |submissionType| replace:: A & B".toList).map
        (fun s => (s._submission_type, s.output, s._contexts))
      = some ("A &amp;amp; B".toList, [], [FRONT, RFC]) ∧
    (process_line { _contexts := [FRONT, RFC] } ".. |titleAbbr| replace:: A & B".toList).map
        (fun s => (s._abbreviated_title, s.output, s._contexts))
      = some ("A &amp;amp; B".toList, [], [FRONT, RFC]) := by
  refine ⟨by decide, by decide, by decide, by decide, by decide, by decide⟩

/-! ## Stale column indices -/

/-- C18 (the code departs from the claim). From the initial state, the lines
`.. header::`, `x`, `== ==`, `==` open a table and then close it by a level-1 heading: the
table contexts are gone but the column list is still `[0, 3]`, because only the ruler that
closes a table body clears it. A later ruler `=  = =` appends to the stale list, which is
then `[0, 3, 0, 3, 5]` and not strictly increasing. -/
theorem columns_survive_heading :
    (process_lines {} [".. header::".toList, "x".toList, "== ==".toList, "==".toList]).map
        (fun s => (s._contexts, s._column_indices))
      = some ([SECTION, MIDDLE, RFC], [0, 3]) ∧
    (process_lines {} [".. header::".toList, "x".toList, "== ==".toList, "==".toList, [],
        "=  = =".toList]).map (fun s => (s._contexts, s._column_indices))
      = some ([TABLE_HEADER, TABLE, SECTION, MIDDLE, RFC], [0, 3, 0, 3, 5]) ∧
    ¬ ([0, 3, 0, 3, 5] : List Nat).Pairwise (· < ·) := by
  decide

/-! ## Unwinding the context stack -/

/-- The loop of `pop_contexts` never fails: it writes the closing text of the contexts
above `level`, innermost first, and leaves the bottom `level` contexts. -/
theorem pop_contexts_loop_eq (level : Nat) :
    ∀ (fuel : Nat) (s : rst2rfcxml), s._contexts.length ≤ fuel →
      pop_contexts_loop level fuel s = some { s with
        output := s.output ++
          (s._contexts.take (s._contexts.length - level)).flatMap closing_text,
        _contexts := s._contexts.drop (s._contexts.length - level) } := by
  intro fuel
  induction fuel with
  | zero =>
    intro s h
    obtain ⟨dn, ipr, cat, cols, auth, st, ab, ctx, prev, out⟩ := s
    have hnil : ctx = [] := List.length_eq_zero.mp (Nat.le_zero.mp h)
    subst hnil
    simp [pop_contexts_loop]
  | succ fuel ih =>
    intro s h
    obtain ⟨dn, ipr, cat, cols, auth, st, ab, ctx, prev, out⟩ := s
    rw [pop_contexts_loop]
    by_cases hl : ctx.length > level
    · cases ctx with
      | nil => simp at hl
      | cons c cs =>
        simp only [hl, if_true, pop_context]
        rw [ih _ (by simpa using h)]
        have e : (c :: cs).length - level = (cs.length - level) + 1 := by
          simp only [List.length_cons] at hl ⊢; omega
        simp only [emit, e, List.take_succ_cons, List.drop_succ_cons, List.flatMap_cons,
          List.append_assoc]
    · have e : ctx.length - level = 0 := by omega
      simp [hl, e]

theorem pop_contexts_eq (level : Nat) (s : rst2rfcxml) :
    pop_contexts level s = some { s with
      output := s.output ++
        (s._contexts.take (s._contexts.length - level)).flatMap closing_text,
      _contexts := s._contexts.drop (s._contexts.length - level) } :=
  pop_contexts_loop_eq level _ s (Nat.le_refl _)

/-- C13. Balance at end of input: whenever the lines of the inputs have been processed,
`process_files` ends with `pop_contexts(0)`, which writes the closing text of every context
still open, innermost first, from the fixed table `closing_text` (a context without closing
text, such as `TITLE`, is removed silently) and leaves the context stack empty. In general
`pop_contexts(k)` on a stack of height `h` never fails, writes the closing text of the top
`h - k` contexts and leaves exactly the bottom `min h k` contexts, unchanged. -/
theorem balance_at_end (s : rst2rfcxml) (input_files : List (List (List Char))) (k : Nat) :
    process_files s input_files = (process_streams s input_files).map (fun t =>
      { t with output := t.output ++ t._contexts.flatMap closing_text, _contexts := [] }) ∧
    closing_text TITLE = [] ∧
    (∃ s', pop_contexts k s = some s' ∧
      s'.output = s.output ++ (s._contexts.take (s._contexts.length - k)).flatMap closing_text ∧
      s'._contexts = s._contexts.drop (s._contexts.length - k) ∧
      s'._contexts.length = min s._contexts.length k ∧
      s'._contexts <:+ s._contexts) ∧
    (process_files { _contexts := [FRONT, RFC] }
        [["Intro".toList, "===".toList], ["* a".toList]]).map (fun t => (t._contexts, t.output))
      = some ([], ("</front>\n<middle>\n<section anchor=\"intro\" title=\"Intro\">\n" ++
          "<ul>\n<li>a\n</li>\n</ul>\n</section>\n</middle>\n</rfc>\n").toList) := by
  refine ⟨?_, rfl, ⟨_, pop_contexts_eq k s, rfl, rfl, ?_, ?_⟩, by decide⟩
  · unfold process_files
    cases process_streams s input_files with
    | none => rfl
    | some t =>
      simp only [Option.map_some', pop_contexts_eq 0 t]
      simp
  · simp only [List.length_drop]; omega
  · exact List.drop_suffix _ _

/-! ## Author directives -/

theorem trim_labels :
    _trim "category".toList = "category".toList ∧ _trim "docName".toList = "docName".toList ∧
    _trim "ipr".toList = "ipr".toList ∧
    _trim "submissionType".toList = "submissionType".toList ∧
    _trim "titleAbbr".toList = "titleAbbr".toList := by
  decide

theorem starts_with_append_self (p v : List Char) : starts_with (p ++ v) p = true := by
  unfold starts_with
  rw [List.isPrefixOf_iff_prefix]
  exact List.prefix_append p v

theorem substr_append_length (p v : List Char) : substr (p ++ v) p.length none = some v := by
  simp [substr]

/-- A line that starts with `.. |author` is none of the five scalar directives. -/
theorem scalar_directives_skip_author (t : List Char) (label : List Char)
    (h : label = "category".toList ∨ label = "docName".toList ∨ label = "ipr".toList ∨
      label = "submissionType".toList ∨ label = "titleAbbr".toList) :
    _handle_variable_initialization (".. |author".toList ++ t) label = some none := by
  obtain ⟨t1, t2, t3, t4, t5⟩ := trim_labels
  unfold _handle_variable_initialization
  rcases h with rfl | rfl | rfl | rfl | rfl
  · simp only [t1]; rfl
  · simp only [t2]; rfl
  · simp only [t3]; rfl
  · simp only [t4]; rfl
  · simp only [t5]; rfl

theorem modify_back_append (f : author → author) (init : List author) (a : author) :
    modify_back f (init ++ [a]) = some (init ++ [f a]) := by
  cases h : init ++ [a] with
  | nil => simp at h
  | cons x r =>
    rw [modify_back]
    have key := (List.dropLast_append_getLast (List.cons_ne_nil x r)).trans h.symm
    obtain ⟨h1, h2⟩ := List.append_inj' key rfl
    have h3 : (x :: r).getLast (List.cons_ne_nil x r) = a := List.singleton_inj.mp h2
    rw [h1, h3]

/-- The effect of the three directives that change the last author, and of the full-name
directive. -/
theorem handle_author_directives (s : rst2rfcxml) (v : List Char) :
    handle_variable_initializations s (".. |authorFullname| replace:: ".toList ++ v)
      = some (true, { s with _authors := s._authors ++ [{ fullname := _trim v }] }) ∧
    handle_variable_initializations s (".. |authorRole| replace:: ".toList ++ v)
      = (match modify_back (fun a => { a with role := _trim v }) s._authors with
        | none => none
        | some authors => some (true, { s with _authors := authors })) ∧
    handle_variable_initializations s (".. |authorSurname| replace:: ".toList ++ v)
      = (match modify_back (fun a => { a with surname := _trim v }) s._authors with
        | none => none
        | some authors => some (true, { s with _authors := authors })) ∧
    handle_variable_initializations s (".. |authorInitials| replace:: ".toList ++ v)
      = (match modify_back (fun a => { a with initials := _trim v }) s._authors with
        | none => none
        | some authors => some (true, { s with _authors := authors })) := by
  have k : ∀ (t label : List Char), (label = "category".toList ∨ label = "docName".toList ∨
      label = "ipr".toList ∨ label = "submissionType".toList ∨ label = "titleAbbr".toList) →
      _handle_variable_initialization (".. |author".toList ++ t ++ v) label = some none := by
    intro t label h
    rw [List.append_assoc]
    exact scalar_directives_skip_author (t ++ v) label h
  have e1 : ".. |authorFullname| replace:: ".toList
      = ".. |author".toList ++ "Fullname| replace:: ".toList := rfl
  have e2 : ".. |authorRole| replace:: ".toList
      = ".. |author".toList ++ "Role| replace:: ".toList := rfl
  have e3 : ".. |authorSurname| replace:: ".toList
      = ".. |author".toList ++ "Surname| replace:: ".toList := rfl
  have e4 : ".. |authorInitials| replace:: ".toList
      = ".. |author".toList ++ "Initials| replace:: ".toList := rfl
  refine ⟨?_, ?_, ?_, ?_⟩
  · unfold handle_variable_initializations
    simp only [e1, k _ _ (Or.inl rfl), k _ _ (Or.inr (Or.inl rfl)),
      k _ _ (Or.inr (Or.inr (Or.inl rfl))), k _ _ (Or.inr (Or.inr (Or.inr (Or.inl rfl)))),
      k _ _ (Or.inr (Or.inr (Or.inr (Or.inr rfl))))]
    simp only [← e1, starts_with_append_self, if_true, substr_append_length]
  · unfold handle_variable_initializations
    simp only [e2, k _ _ (Or.inl rfl), k _ _ (Or.inr (Or.inl rfl)),
      k _ _ (Or.inr (Or.inr (Or.inl rfl))), k _ _ (Or.inr (Or.inr (Or.inr (Or.inl rfl)))),
      k _ _ (Or.inr (Or.inr (Or.inr (Or.inr rfl))))]
    have n1 : starts_with (".. |author".toList ++ "Role| replace:: ".toList ++ v)
        ".. |authorFullname| replace:: ".toList = false := rfl
    simp only [n1, Bool.false_eq_true, if_false]
    simp only [← e2, starts_with_append_self, if_true, substr_append_length]
  · unfold handle_variable_initializations
    simp only [e3, k _ _ (Or.inl rfl), k _ _ (Or.inr (Or.inl rfl)),
      k _ _ (Or.inr (Or.inr (Or.inl rfl))), k _ _ (Or.inr (Or.inr (Or.inr (Or.inl rfl)))),
      k _ _ (Or.inr (Or.inr (Or.inr (Or.inr rfl))))]
    have n1 : starts_with (".. |author".toList ++ "Surname| replace:: ".toList ++ v)
        ".. |authorFullname| replace:: ".toList = false := rfl
    have n2 : starts_with (".. |author".toList ++ "Surname| replace:: ".toList ++ v)
        ".. |authorRole| replace:: ".toList = false := rfl
    simp only [n1, n2, Bool.false_eq_true, if_false]
    simp only [← e3, starts_with_append_self, if_true, substr_append_length]
  · unfold handle_variable_initializations
    simp only [e4, k _ _ (Or.inl rfl), k _ _ (Or.inr (Or.inl rfl)),
      k _ _ (Or.inr (Or.inr (Or.inl rfl))), k _ _ (Or.inr (Or.inr (Or.inr (Or.inl rfl)))),
      k _ _ (Or.inr (Or.inr (Or.inr (Or.inr rfl))))]
    have n1 : starts_with (".. |author".toList ++ "Initials| replace:: ".toList ++ v)
        ".. |authorFullname| replace:: ".toList = false := rfl
    have n2 : starts_with (".. |author".toList ++ "Initials| replace:: ".toList ++ v)
        ".. |authorRole| replace:: ".toList = false := rfl
    have n3 : starts_with (".. |author".toList ++ "Initials| replace:: ".toList ++ v)
        ".. |authorSurname| replace:: ".toList = false := rfl
    simp only [n1, n2, n3, Bool.false_eq_true, if_false]
    simp only [← e4, starts_with_append_self, if_true, substr_append_length]

/-- C15. Author mutation: for every value `v`, each of the role, surname and initials
directives fails in `handle_variable_initializations` exactly when the author list is
empty; on a list `init ++ [a]` it replaces the last author `a` by `a` with the named field
set to the trimmed `v`, so the number of authors, the earlier authors `init` and the other
fields of `a` (its full name included) are unchanged. The full-name directive always
succeeds and appends one author with the trimmed `v` as full name. -/
theorem author_mutation (s : rst2rfcxml) (v : List Char) :
    ((handle_variable_initializations s (".. |authorRole| replace:: ".toList ++ v) = none ↔
        s._authors = []) ∧
     (handle_variable_initializations s (".. |authorSurname| replace:: ".toList ++ v) = none ↔
        s._authors = []) ∧
     (handle_variable_initializations s (".. |authorInitials| replace:: ".toList ++ v) = none ↔
        s._authors = [])) ∧
    (∀ (init : List author) (a : author), s._authors = init ++ [a] →
      handle_variable_initializations s (".. |authorRole| replace:: ".toList ++ v)
        = some (true, { s with _authors := init ++ [{ a with role := _trim v }] }) ∧
      handle_variable_initializations s (".. |authorSurname| replace:: ".toList ++ v)
        = some (true, { s with _authors := init ++ [{ a with surname := _trim v }] }) ∧
      handle_variable_initializations s (".. |authorInitials| replace:: ".toList ++ v)
        = some (true, { s with _authors := init ++ [{ a with initials := _trim v }] })) ∧
    handle_variable_initializations s (".. |authorFullname| replace:: ".toList ++ v)
      = some (true, { s with _authors := s._authors ++ [{ fullname := _trim v }] }) := by
  obtain ⟨hf, hr, hs, hi⟩ := handle_author_directives s v
  have hcases : ∀ f : author → author,
      (modify_back f s._authors = none ↔ s._authors = []) := by
    intro f
    cases h : s._authors with
    | nil => simp [modify_back]
    | cons x r => simp [modify_back]
  refine ⟨⟨?_, ?_, ?_⟩, ?_, hf⟩
  · rw [hr, ← hcases (fun a => { a with role := _trim v })]
    cases modify_back (fun a => { a with role := _trim v }) s._authors <;> simp
  · rw [hs, ← hcases (fun a => { a with surname := _trim v })]
    cases modify_back (fun a => { a with surname := _trim v }) s._authors <;> simp
  · rw [hi, ← hcases (fun a => { a with initials := _trim v })]
    cases modify_back (fun a => { a with initials := _trim v }) s._authors <;> simp
  · intro init a ha
    rw [hr, hs, hi, ha]
    simp only [modify_back_append]
    exact ⟨trivial, trivial, trivial⟩

/-- An instance of `author_mutation`: the role directive after two full-name directives
changes the second author only; with no author it fails. -/
theorem author_mutation_witness :
    (handle_variable_initializations {} (".. |authorRole| replace:: ".toList ++
        "editor ".toList) = none) ∧
    handle_variable_initializations
        { _authors := [{ fullname := "A".toList }, { fullname := "B".toList }] }
        (".. |authorRole| replace:: ".toList ++ "editor ".toList)
      = some (true, { _authors := [{ fullname := "A".toList }] ++
          [{ fullname := "B".toList, role := _trim "editor ".toList }] }) :=
  ⟨((author_mutation {} "editor ".toList).1.1).mpr rfl,
   ((author_mutation { _authors := [{ fullname := "A".toList }, { fullname := "B".toList }] }
      "editor ".toList).2.1 [{ fullname := "A".toList }] { fullname := "B".toList } rfl).1⟩

/-! ## The shape of the context stack -/

theorem Move_mono {h t h' t' : Bool} (hh : h = true → h' = true) (ht : t = true → t' = true)
    {c c' : List xml_context} (m : Move h t c c') : Move h' t' c c' := by
  induction m with
  | push x c hx => exact Move.push x c hx
  | header c h0 => exact Move.header c (hh h0)
  | front_to_middle y h0 => exact Move.front_to_middle y (ht h0)
  | front_alone h0 => exact Move.front_alone (ht h0)
  | open_table c => exact Move.open_table c
  | to_body c => exact Move.to_body c
  | close_table x c => exact Move.close_table x c
  | pop_guard x c hx => exact Move.pop_guard x c hx
  | pop_deep x c h0 => exact Move.pop_deep x c h0

theorem Moves_mono {h t h' t' : Bool} (hh : h = true → h' = true) (ht : t = true → t' = true)
    {c c' : List xml_context} (m : Moves h t c c') : Moves h' t' c c' := by
  induction m with
  | refl => exact Relation.ReflTransGen.refl
  | tail _ m1 ih => exact Relation.ReflTransGen.tail ih (Move_mono hh ht m1)

theorem Moves_one {h t : Bool} {c c' : List xml_context} (m : Move h t c c') : Moves h t c c' :=
  Relation.ReflTransGen.single m

theorem Moves_comp {h t : Bool} {a b c : List xml_context} (m1 : Moves h t a b)
    (m2 : Moves h t b c) : Moves h t a c :=
  Relation.ReflTransGen.trans m1 m2

theorem table_nested_tail {x : xml_context} {c : List xml_context}
    (h : table_nested (x :: c) = true) : table_nested c = true := by
  rw [table_nested, Bool.and_eq_true] at h
  exact h.2

theorem table_nested_body {x : xml_context} {c : List xml_context}
    (h : table_nested (TABLE_BODY :: x :: c) = true) : x = TABLE := by
  rw [table_nested, Bool.and_eq_true] at h
  simpa using h.1

theorem table_nested_push {x : xml_context} {c : List xml_context}
    (hx : x ≠ TABLE_HEADER ∧ x ≠ TABLE_BODY) (h : table_nested c = true) :
    table_nested (x :: c) = true := by
  rw [table_nested, Bool.and_eq_true]
  refine ⟨?_, h⟩
  rw [if_neg (by rintro (e | e); exact hx.1 e; exact hx.2 e)]

/-- The nesting of tables is kept by every elementary move. -/
theorem Move_table_nested {h t : Bool} {c c' : List xml_context} (m : Move h t c c') :
    table_nested c = true → table_nested c' = true := by
  induction m with
  | push x c hx =>
    intro hc
    refine table_nested_push ?_ hc
    revert hx; cases x <;> decide
  | header c h0 =>
    intro hc
    exact table_nested_push (by decide) (table_nested_push (by decide) hc)
  | front_to_middle y h0 =>
    intro hc
    have h1 := table_nested_tail hc
    exact table_nested_push (by decide) h1
  | front_alone h0 => intro _; rfl
  | open_table c =>
    intro hc
    rw [table_nested, Bool.and_eq_true]
    exact ⟨by simp, table_nested_push (by decide) hc⟩
  | to_body c =>
    intro hc
    rw [table_nested, Bool.and_eq_true] at hc ⊢
    exact ⟨by simpa using hc.1, hc.2⟩
  | close_table x c => intro hc; exact table_nested_tail (table_nested_tail hc)
  | pop_guard x c hx => intro hc; exact table_nested_tail hc
  | pop_deep x c h0 => intro hc; exact table_nested_tail hc

theorem Moves_table_nested {h t : Bool} {c c' : List xml_context} (m : Moves h t c c')
    (hc : table_nested c = true) : table_nested c' = true := by
  induction m with
  | refl => exact hc
  | tail _ m1 ih => exact Move_table_nested m1 ih

theorem getLast?_cons_of_ne_nil {x : xml_context} {c : List xml_context} (h : c ≠ []) :
    (x :: c).getLast? = c.getLast? := by
  cases c with
  | nil => exact absurd rfl h
  | cons y r => simp [List.getLast?_cons_cons]

theorem ne_nil_of_getLast? {c : List xml_context} {x : xml_context}
    (h : c.getLast? = some x) : c ≠ [] := by
  rintro rfl; simp at h

/-- The bottom context, when it is the root, is kept by every elementary move on a stack
with nested tables. -/
theorem Move_bottom {h t : Bool} {c c' : List xml_context} (m : Move h t c c') :
    table_nested c = true → c.getLast? = some RFC → c'.getLast? = some RFC := by
  induction m with
  | push x c hx =>
    intro _ hb
    rw [getLast?_cons_of_ne_nil (ne_nil_of_getLast? hb)]; exact hb
  | header c h0 =>
    intro _ hb
    rw [getLast?_cons_of_ne_nil (by simp), getLast?_cons_of_ne_nil (ne_nil_of_getLast? hb)]
    exact hb
  | front_to_middle y h0 => intro _ hb; simpa using hb
  | front_alone h0 => intro _ hb; simp at hb
  | open_table c =>
    intro _ hb
    rw [getLast?_cons_of_ne_nil (by simp), getLast?_cons_of_ne_nil (ne_nil_of_getLast? hb)]
    exact hb
  | to_body c =>
    intro _ hb
    cases c with
    | nil => simp at hb
    | cons y r =>
      rw [getLast?_cons_of_ne_nil (by simp)] at hb ⊢; exact hb
  | close_table x c =>
    intro hn hb
    have hx := table_nested_body hn
    subst hx
    cases c with
    | nil => simp at hb
    | cons y r =>
      rw [getLast?_cons_of_ne_nil (by simp), getLast?_cons_of_ne_nil (by simp)] at hb
      exact hb
  | pop_guard x c hx =>
    intro _ hb
    cases c with
    | nil =>
      simp at hb
      subst hb
      revert hx; decide
    | cons y r => rw [getLast?_cons_of_ne_nil (by simp)] at hb; exact hb
  | pop_deep x c h0 =>
    intro _ hb
    cases c with
    | nil => simp at h0
    | cons y r => rw [getLast?_cons_of_ne_nil (by simp)] at hb; exact hb

theorem Moves_bottom {h t : Bool} {c c' : List xml_context} (m : Moves h t c c')
    (hn : table_nested c = true) (hb : c.getLast? = some RFC) : c'.getLast? = some RFC := by
  induction m with
  | refl => exact hb
  | tail m0 m1 ih => exact Move_bottom m1 (Moves_table_nested m0 hn) ih

/-! ## One step of the converter -/

theorem Post_refl (h t : Bool) (s : rst2rfcxml) : Post h t s s :=
  ⟨Relation.ReflTransGen.refl, ⟨[], by simp⟩, Or.inl rfl⟩

theorem prev_rel_trans {a b c : List Char} (h1 : prev_rel a b) (h2 : prev_rel b c) :
    prev_rel a c := by
  rcases h2 with h | h | h
  · rw [h]; exact h1
  · exact Or.inr (Or.inl h)
  · exact Or.inr (Or.inr h)

theorem Post_trans {h t : Bool} {a b c : rst2rfcxml} (p1 : Post h t a b) (p2 : Post h t b c) :
    Post h t a c := by
  obtain ⟨m1, ⟨d1, o1⟩, r1⟩ := p1
  obtain ⟨m2, ⟨d2, o2⟩, r2⟩ := p2
  exact ⟨Moves_comp m1 m2, ⟨d1 ++ d2, by rw [o2, o1, List.append_assoc]⟩, prev_rel_trans r1 r2⟩

theorem Post_mono {h t h' t' : Bool} (hh : h = true → h' = true) (ht : t = true → t' = true)
    {a b : rst2rfcxml} (p : Post h t a b) : Post h' t' a b :=
  ⟨Moves_mono hh ht p.1, p.2.1, p.2.2⟩

theorem Post_emit (h t : Bool) (s : rst2rfcxml) (d : List Char) : Post h t s (emit s d) :=
  ⟨Relation.ReflTransGen.refl, ⟨d, rfl⟩, Or.inl rfl⟩

theorem Post_push (h t : Bool) (s : rst2rfcxml) (x : xml_context) (hx : pushable x = true) :
    Post h t s (push s x) :=
  ⟨Moves_one (Move.push x _ hx), ⟨[], by simp [push]⟩, Or.inl rfl⟩

theorem in_context_cons {s : rst2rfcxml} {x : xml_context} (h : in_context s x = true) :
    ∃ c, s._contexts = x :: c := by
  rw [in_context_iff] at h
  cases hc : s._contexts with
  | nil => rw [hc] at h; cases h
  | cons y c =>
    rw [hc] at h
    simp only [List.head?_cons, Option.some.injEq] at h
    exact ⟨c, by rw [h]⟩

theorem pop_context_cons {s : rst2rfcxml} {x : xml_context} {c : List xml_context}
    (h : s._contexts = x :: c) :
    pop_context s = some { emit s (closing_text x) with _contexts := c } := by
  unfold pop_context
  simp only [h]

theorem pop_context_guarded (s : rst2rfcxml) (x : xml_context) (hin : in_context s x = true)
    (hx : guarded x = true) :
    ∃ s', pop_context s = some s' ∧ Post false false s s' ∧
      s'._previous_line = s._previous_line := by
  obtain ⟨c, hc⟩ := in_context_cons hin
  refine ⟨_, pop_context_cons hc, ⟨?_, ⟨closing_text x, rfl⟩, Or.inl rfl⟩, rfl⟩
  show Moves false false s._contexts c
  rw [hc]
  exact Moves_one (Move.pop_guard x c hx)

theorem Moves_dropWhile (p : xml_context → Bool) (hp : ∀ x, p x = true → guarded x = true)
    (c : List xml_context) : Moves false false c (c.dropWhile p) := by
  induction c with
  | nil => exact Relation.ReflTransGen.refl
  | cons x c ih =>
    by_cases h : p x = true
    · rw [List.dropWhile_cons_of_pos h]
      exact Relation.ReflTransGen.head (Move.pop_guard x c (hp x h)) ih
    · rw [List.dropWhile_cons_of_neg h]
      exact Relation.ReflTransGen.refl

theorem Moves_drop (c : List xml_context) :
    ∀ n, (n = 0 ∨ 2 ≤ (c.drop n).length) → Moves false false c (c.drop n) := by
  induction c with
  | nil => intro n _; rw [List.drop_nil]; exact Relation.ReflTransGen.refl
  | cons x c ih =>
    intro n hn
    cases n with
    | zero => exact Relation.ReflTransGen.refl
    | succ n =>
      rw [List.drop_succ_cons] at hn ⊢
      have h2 : 2 ≤ (c.drop n).length := by
        rcases hn with h | h
        · cases h
        · exact h
      have h3 : 2 ≤ c.length := by
        rw [List.length_drop] at h2; omega
      exact Relation.ReflTransGen.head (Move.pop_deep x c h3) (ih n (Or.inr h2))

/-- Unwinding to a level of at least two. -/
theorem pop_contexts_post (k : Nat) (hk : 2 ≤ k) (s : rst2rfcxml) :
    ∃ s', pop_contexts k s = some s' ∧ Post false false s s' ∧
      s'._previous_line = s._previous_line ∧ s'._contexts.length ≤ k := by
  refine ⟨_, pop_contexts_eq k s, ⟨?_, ⟨_, rfl⟩, Or.inl rfl⟩, rfl, ?_⟩
  · show Moves false false s._contexts (s._contexts.drop (s._contexts.length - k))
    apply Moves_drop
    rw [List.length_drop]
    omega
  · show (s._contexts.drop (s._contexts.length - k)).length ≤ k
    rw [List.length_drop]
    omega

theorem open_section_post (s : rst2rfcxml) :
    ∃ s', open_section s = some s' ∧ Post false false s s' := by
  obtain ⟨title, ht⟩ := _handle_escapes_total s._previous_line
  unfold open_section
  rw [ht]
  refine ⟨_, rfl, ⟨?_, ⟨_, rfl⟩, Or.inr (Or.inl rfl)⟩⟩
  exact Moves_one (Move.push SECTION _ (by decide))

/-- The change from front to middle matter in the level-1 heading branch. -/
theorem front_to_middle_post (s : rst2rfcxml) (hl : s._contexts.length ≤ 2)
    (hf : in_context s FRONT = true) :
    ∃ s1, pop_contexts 1 s = some s1 ∧
      Post false true s (push (emit s1 "<middle>\n".toList) MIDDLE) ∧
      s1._previous_line = s._previous_line := by
  obtain ⟨c, hc⟩ := in_context_cons hf
  refine ⟨_, pop_contexts_eq 1 s, ⟨?_, ⟨_, by simp [push, emit]; rfl⟩, Or.inl rfl⟩, rfl⟩
  show Moves false true s._contexts
    (MIDDLE :: s._contexts.drop (s._contexts.length - 1))
  rw [hc] at hl ⊢
  match c, hl with
  | [], _ => exact Moves_one (Move.front_alone rfl)
  | [y], _ => exact Moves_one (Move.front_to_middle y rfl)

theorem heading_branch_post (k : Nat) (hk : 2 ≤ k) (s : rst2rfcxml) :
    ∃ s1 s2, pop_contexts k s = some s1 ∧ open_section s1 = some s2 ∧
      Post false false s s2 := by
  obtain ⟨s1, h1, p1, _, _⟩ := pop_contexts_post k hk s
  obtain ⟨s2, h2, p2⟩ := open_section_post s1
  exact ⟨s1, s2, h1, h2, Post_trans p1 p2⟩

/-- Title handling never fails; it changes the state by elementary moves, and only a
recognised level-1 heading can change front matter into middle matter. -/
theorem handle_title_line_post (s : rst2rfcxml) (line : List Char) :
    ∃ b s', handle_title_line s line = some (b, s') ∧
      Post false (is_section_heading_1 s line) s s' ∧ (b = false → s' = s) := by
  unfold handle_title_line
  by_cases u1 : (starts_with line "=".toList &&
      (find_first_not_of line "=".toList 0).isNone) = true
  · rw [if_pos u1]
    by_cases t1 : in_context s TITLE = true
    · rw [if_pos t1]
      obtain ⟨c, hc⟩ := in_context_cons t1
      refine ⟨true, _, rfl, ⟨?_, ⟨[], by simp⟩, Or.inl rfl⟩, by intro h; cases h⟩
      show Moves false _ s._contexts s._contexts.tail
      rw [hc]
      exact Moves_one (Move.pop_guard TITLE c (by decide))
    · rw [if_neg t1]
      by_cases b1 : (find_first_not_of s._previous_line " ".toList 0).isNone = true
      · rw [if_pos b1]
        exact ⟨true, _, rfl, Post_push _ _ s TITLE (by decide), by intro h; cases h⟩
      · rw [if_neg b1]
        have hflag : is_section_heading_1 s line = true := by
          unfold is_section_heading_1
          rw [u1]
          simp only [Bool.not_eq_true] at t1 b1
          rw [t1]
          cases hh : find_first_not_of s._previous_line " ".toList 0 with
          | none => rw [hh] at b1; cases b1
          | some j => rfl
        rw [hflag]
        obtain ⟨s1, h1, p1, e1, l1⟩ := pop_contexts_post 2 (Nat.le_refl 2) s
        have hb : BASE_SECTION_LEVEL = 2 := rfl
        rw [hb, h1]
        simp only []
        by_cases hf : in_context s1 FRONT = true
        · obtain ⟨s2, h2, p2, e2⟩ := front_to_middle_post s1 l1 hf
          obtain ⟨s3, h3, p3⟩ := open_section_post (push (emit s2 "<middle>\n".toList) MIDDLE)
          rw [if_pos hf, h2]
          simp only []
          rw [h3]
          exact ⟨true, s3, rfl,
            Post_trans (Post_trans (Post_mono (by simp) (by simp) p1) p2)
              (Post_mono (by simp) (by simp) p3), by intro h; cases h⟩
        · obtain ⟨s3, h3, p3⟩ := open_section_post s1
          rw [if_neg hf]
          simp only []
          rw [h3]
          exact ⟨true, s3, rfl,
            Post_trans (Post_mono (by simp) (by simp) p1)
              (Post_mono (by simp) (by simp) p3), by intro h; cases h⟩
  · rw [if_neg u1]
    by_cases u2 : (starts_with line "-".toList &&
        (find_first_not_of line "-".toList 0).isNone) = true
    · rw [if_pos u2]
      obtain ⟨s1, s', h1, h2, p1⟩ := heading_branch_post (BASE_SECTION_LEVEL + 1) (by decide) s
      rw [h1]
      simp only []
      rw [h2]
      exact ⟨true, s', rfl, Post_mono (by simp) (by simp) p1, by intro h; cases h⟩
    · rw [if_neg u2]
      by_cases u3 : (starts_with line "~".toList &&
          (find_first_not_of line "~".toList 0).isNone) = true
      · rw [if_pos u3]
        obtain ⟨s1, s', h1, h2, p1⟩ := heading_branch_post (BASE_SECTION_LEVEL + 2) (by decide) s
        rw [h1]
        simp only []
        rw [h2]
        exact ⟨true, s', rfl, Post_mono (by simp) (by simp) p1, by intro h; cases h⟩
      · rw [if_neg u3]
        by_cases t1 : in_context s TITLE = true
        · rw [if_pos t1]
          exact ⟨true, _, rfl, Post_emit _ _ s _, by intro h; cases h⟩
        · rw [if_neg t1]
          exact ⟨false, s, rfl, Post_refl _ _ s, fun _ => rfl⟩

theorem header_cells_total (line : List Char) :
    ∀ cols, ∃ out, header_cells line cols = some out := by
  intro cols
  induction cols with
  | nil => exact ⟨[], rfl⟩
  | cons start rest ih =>
    obtain ⟨out, ho⟩ := ih
    by_cases hl : line.length > start
    · cases rest with
      | nil =>
        obtain ⟨v, hv⟩ := _handle_escapes_total (line.drop start)
        rw [header_cells]
        rw [if_pos hl, substr_none _ _ (Nat.le_of_lt hl)]
        simp only []
        rw [hv]
        simp only []
        rw [ho]
        exact ⟨_, rfl⟩
      | cons next rest =>
        obtain ⟨v, hv⟩ := _handle_escapes_total ((line.drop start).take (size_sub next start))
        rw [header_cells]
        rw [if_pos hl, substr_some _ _ _ (Nat.le_of_lt hl)]
        simp only []
        rw [hv]
        simp only []
        rw [ho]
        exact ⟨_, rfl⟩
    · unfold header_cells
      simp only []
      rw [if_neg hl]
      exact ⟨out, ho⟩

theorem body_cells_total (line : List Char) :
    ∀ cols, ∃ out, body_cells line cols = some out := by
  intro cols
  induction cols with
  | nil => exact ⟨[], rfl⟩
  | cons start rest ih =>
    obtain ⟨out, ho⟩ := ih
    by_cases hl : line.length ≥ start
    · cases rest with
      | nil =>
        obtain ⟨v, hv⟩ := _handle_escapes_total (line.drop start)
        rw [body_cells]
        rw [if_pos hl, substr_none _ _ hl]
        simp only []
        rw [hv]
        simp only []
        rw [ho]
        exact ⟨_, rfl⟩
      | cons next rest =>
        obtain ⟨v, hv⟩ := _handle_escapes_total ((line.drop start).take (size_sub next start))
        rw [body_cells]
        rw [if_pos hl, substr_some _ _ _ hl]
        simp only []
        rw [hv]
        simp only []
        rw [ho]
        exact ⟨_, rfl⟩
    · unfold body_cells
      simp only []
      rw [if_neg hl]
      simp only []
      rw [ho]
      exact ⟨_, rfl⟩

theorem closes_before_table_guarded (x : xml_context) (h : closes_before_table x = true) :
    guarded x = true := by
  revert h; cases x <;> decide

theorem closes_at_blank_guarded (x : xml_context) (h : closes_at_blank x = true) :
    guarded x = true := by
  revert h; cases x <;> decide

/-- Table handling does not fail on a stack with nested tables; it changes the state by
elementary moves. -/
theorem handle_table_line_post (s : rst2rfcxml) (line : List Char)
    (hn : table_nested s._contexts = true) :
    ∃ b s', handle_table_line s line = some (b, s') ∧ Post false false s s' ∧
      (b = false → s' = s) := by
  unfold handle_table_line
  by_cases r : ((find_first_not_of line " ".toList 0).isSome &&
      (find_first_not_of line " =".toList 0).isNone) = true
  · rw [if_pos r]
    by_cases tb : in_context s TABLE_BODY = true
    · rw [if_pos tb]
      obtain ⟨c, hc⟩ := in_context_cons tb
      rw [hc] at hn
      cases c with
      | nil => simp [table_nested] at hn
      | cons x c =>
        rw [pop_context_cons hc]
        simp only []
        rw [pop_context_cons (x := x) (c := c) rfl]
        simp only []
        refine ⟨true, _, rfl, ⟨?_, ⟨closing_text TABLE_BODY ++ closing_text x, ?_⟩, Or.inl rfl⟩,
          by intro h; cases h⟩
        · show Moves false false s._contexts c
          rw [hc]
          exact Moves_one (Move.close_table x c)
        · simp [emit]
    · rw [if_neg tb]
      by_cases th : in_context s TABLE_HEADER = true
      · rw [if_pos th]
        obtain ⟨c, hc⟩ := in_context_cons th
        rw [pop_context_cons hc]
        simp only []
        refine ⟨true, _, rfl, ⟨?_, ⟨closing_text TABLE_HEADER ++ " <tbody>\n".toList, ?_⟩,
          Or.inl rfl⟩, by intro h; cases h⟩
        · show Moves false false s._contexts (TABLE_BODY :: c)
          rw [hc]
          exact Moves_one (Move.to_body c)
        · simp [emit, push]
      · rw [if_neg th, close_before_table_loop_eq _ s (Nat.le_refl _)]
        simp only []
        rw [show (push (push (emit { s with
            output := s.output ++ (s._contexts.takeWhile closes_before_table).flatMap closing_text,
            _contexts := s._contexts.dropWhile closes_before_table }
            "<table><thead><tr>\n".toList) TABLE) TABLE_HEADER)._column_indices
            = s._column_indices from rfl, column_indices_loop_eq]
        simp only []
        refine ⟨true, _, rfl, ⟨?_, ⟨(s._contexts.takeWhile closes_before_table).flatMap
          closing_text ++ "<table><thead><tr>\n".toList, ?_⟩, Or.inl rfl⟩, by intro h; cases h⟩
        · show Moves false false s._contexts
            (TABLE_HEADER :: TABLE :: s._contexts.dropWhile closes_before_table)
          exact Moves_comp (Moves_dropWhile _ closes_before_table_guarded _)
            (Moves_one (Move.open_table _))
        · simp [emit, push]
  · rw [if_neg r]
    by_cases th : in_context s TABLE_HEADER = true
    · rw [if_pos th]
      obtain ⟨out, ho⟩ := header_cells_total line s._column_indices
      rw [ho]
      exact ⟨true, _, rfl, Post_emit _ _ s _, by intro h; cases h⟩
    · rw [if_neg th]
      by_cases tb : in_context s TABLE_BODY = true
      · rw [if_pos tb]
        obtain ⟨out, ho⟩ := body_cells_total line s._column_indices
        rw [ho]
        exact ⟨true, _, rfl, Post_emit _ _ s _, by intro h; cases h⟩
      · rw [if_neg tb]
        exact ⟨false, s, rfl, Post_refl _ _ s, fun _ => rfl⟩

theorem starts_with_length {s p : List Char} (h : starts_with s p = true) :
    p.length ≤ s.length := by
  unfold starts_with at h
  rw [List.isPrefixOf_iff_prefix] at h
  exact h.length_le

theorem substr_pfx_ne_none {s p : List Char} (h : starts_with s p = true) :
    substr s p.length none ≠ none := by
  rw [substr_none _ _ (starts_with_length h)]
  exact Option.some_ne_none _

theorem _handle_variable_initialization_ne_none (line label : List Char) :
    _handle_variable_initialization line label ≠ none := by
  unfold _handle_variable_initialization
  simp only []
  split
  · rename_i h
    rw [substr_none _ _ (starts_with_length h)]
    simp only []
    obtain ⟨r, hr⟩ := _handle_escapes_total
      (line.drop (".. |".toList ++ _trim label ++ "| replace:: ".toList).length)
    rw [hr]
    exact Option.some_ne_none _
  · exact Option.some_ne_none _

theorem modify_back_none {f : author → author} {l : List author}
    (h : modify_back f l = none) : l = [] := by
  cases l with
  | nil => rfl
  | cons a r => simp [modify_back] at h

/-- The metadata directives leave the context stack, the output and the buffered line
unchanged; a call fails only when the author list is empty. -/
theorem handle_variable_initializations_post (s : rst2rfcxml) (l : List Char) :
    (handle_variable_initializations s l = none ∧ s._authors = []) ∨
    ∃ b s', handle_variable_initializations s l = some (b, s') ∧
      s'._contexts = s._contexts ∧ s'.output = s.output ∧
      s'._previous_line = s._previous_line ∧ (b = false → s' = s) := by
  unfold handle_variable_initializations
  simp only []
  repeat' split
  all_goals first
    | exact absurd ‹_handle_variable_initialization _ _ = none›
        (_handle_variable_initialization_ne_none _ _)
    | exact absurd ‹substr _ _ none = none› (substr_pfx_ne_none ‹_›)
    | exact Or.inl ⟨rfl, modify_back_none ‹_›⟩
    | exact Or.inr ⟨_, _, rfl, rfl, rfl, rfl, by first | exact fun _ => rfl | exact fun h => nomatch h⟩

theorem Moves_pop_push (s : rst2rfcxml) (x y : xml_context) (hin : in_context s x = true)
    (hx : guarded x = true) (hy : pushable y = true) :
    ∃ c, s._contexts = x :: c ∧ Moves false false s._contexts (y :: c) := by
  obtain ⟨c, hc⟩ := in_context_cons hin
  refine ⟨c, hc, ?_⟩
  rw [hc]
  exact Moves_comp (Moves_one (Move.pop_guard x c hx)) (Moves_one (Move.push y c hy))

theorem pop_if_post (s : rst2rfcxml) (x : xml_context) (hx : guarded x = true) :
    ∃ s', (if in_context s x then pop_context s else some s) = some s' ∧
      Post false false s s' ∧ s'._previous_line = s._previous_line ∧
      s'._authors = s._authors := by
  by_cases h : in_context s x = true
  · rw [if_pos h]
    obtain ⟨c, hc⟩ := in_context_cons h
    rw [pop_context_cons hc]
    refine ⟨_, rfl, ⟨?_, ⟨closing_text x, rfl⟩, Or.inl rfl⟩, rfl, rfl⟩
    show Moves false false s._contexts c
    rw [hc]
    exact Moves_one (Move.pop_guard x c hx)
  · rw [if_neg h]
    exact ⟨s, rfl, Post_refl _ _ s, rfl, rfl⟩

theorem output_authors_post (s : rst2rfcxml) :
    Post false false s (output_authors s) ∧
      (output_authors s)._previous_line = s._previous_line ∧
      (output_authors s)._contexts = s._contexts := by
  unfold output_authors
  generalize s._authors = l
  induction l generalizing s with
  | nil => exact ⟨Post_refl _ _ s, rfl, rfl⟩
  | cons a r ih =>
    rw [List.foldl_cons]
    obtain ⟨p, e1, e2⟩ := ih (emit s (output_author a))
    exact ⟨Post_trans (Post_emit _ _ s _) p, e1, e2⟩

theorem Post_output {h t : Bool} {a b : rst2rfcxml} (p : Post h t a b) :
    ∃ d, b.output = a.output ++ d := p.2.1

/-- The first statement of `output_previous_line` never fails; for a non-blank buffered
line the last thing it writes is the text of that line. -/
theorem output_previous_line_text_post (s : rst2rfcxml) :
    ∃ s', output_previous_line_text s = some s' ∧ Post false false s s' ∧
      s'._previous_line = s._previous_line ∧
      ((find_first_not_of s._previous_line " ".toList 0).isSome = true →
        ∃ pre, s'.output = s.output ++ pre ++ shown_text s._previous_line ++ "\n".toList) := by
  unfold output_previous_line_text
  by_cases hb : starts_with s._previous_line "* ".toList = true
  · rw [if_pos hb]
    obtain ⟨s1, h1, p1, e1, _⟩ := pop_if_post s LIST_ELEMENT (by decide)
    obtain ⟨d1, o1⟩ := Post_output p1
    have hlen : 2 ≤ s._previous_line.length := starts_with_length hb
    rw [h1]
    simp only []
    by_cases hu : in_context s1 UNORDERED_LIST = true
    · simp only [hu, Bool.not_true, Bool.false_eq_true, if_false]
      rw [e1, substr_none _ _ hlen]
      simp only []
      refine ⟨_, rfl, Post_trans p1 (Post_trans (Post_emit _ _ s1 _)
        (Post_push _ _ _ LIST_ELEMENT (by decide))), e1, ?_⟩
      intro _
      refine ⟨d1, ?_⟩
      unfold shown_text
      rw [if_pos hb]
      simp [push, emit, o1]
    · simp only [Bool.not_eq_true] at hu
      simp only [hu, Bool.not_false, if_true]
      rw [show (push (emit s1 "<ul>\n".toList) UNORDERED_LIST)._previous_line
        = s1._previous_line from rfl, e1, substr_none _ _ hlen]
      simp only []
      refine ⟨_, rfl, Post_trans p1 (Post_trans (Post_trans (Post_emit _ _ s1 _)
        (Post_push _ _ _ UNORDERED_LIST (by decide))) (Post_trans (Post_emit _ _ _ _)
        (Post_push _ _ _ LIST_ELEMENT (by decide)))), e1, ?_⟩
      intro _
      refine ⟨d1 ++ "<ul>\n".toList, ?_⟩
      unfold shown_text
      rw [if_pos hb]
      simp [push, emit, o1]
  · rw [if_neg hb]
    by_cases nb : (find_first_not_of s._previous_line " ".toList 0).isSome = true
    · rw [if_pos nb]
      have key : ∀ s2 : rst2rfcxml, Post false false s s2 →
          s2._previous_line = s._previous_line →
          ∃ s', some (emit s2 (_trim s2._previous_line ++ "\n".toList)) = some s' ∧
            Post false false s s' ∧ s'._previous_line = s._previous_line ∧
            ((find_first_not_of s._previous_line " ".toList 0).isSome = true →
              ∃ pre, s'.output = s.output ++ pre ++ shown_text s._previous_line
                ++ "\n".toList) := by
        intro s2 p2 e2
        obtain ⟨d2, o2⟩ := Post_output p2
        refine ⟨_, rfl, Post_trans p2 (Post_emit _ _ s2 _), e2, ?_⟩
        intro _
        refine ⟨d2, ?_⟩
        unfold shown_text
        rw [if_neg hb]
        simp [emit, o2, e2]
      by_cases c1 : (in_context s DEFINITION_TERM &&
          starts_with s._previous_line "  ".toList) = true
      · rw [if_pos c1]
        rw [Bool.and_eq_true] at c1
        obtain ⟨s1, h1, p1, e1⟩ := pop_context_guarded s DEFINITION_TERM c1.1 (by decide)
        rw [h1]
        simp only []
        exact key _ (Post_trans p1 (Post_trans (Post_emit _ _ s1 _)
          (Post_push _ _ _ DEFINITION_DESCRIPTION (by decide)))) e1
      · rw [if_neg c1]
        by_cases c2 : (!in_context s DEFINITION_DESCRIPTION && !in_context s DEFINITION_TERM &&
            !in_context s TEXT) = true
        · rw [if_pos c2]
          simp only []
          by_cases hf : in_context s FRONT = true
          · rw [if_pos hf]
            obtain ⟨pa, ea, _⟩ := output_authors_post s
            obtain ⟨s1, h1, p1, e1, _⟩ := pop_if_post
              (push (emit (output_authors s) "<abstract>\n".toList) ABSTRACT)
              DEFINITION_LIST (by decide)
            rw [h1]
            simp only []
            exact key _ (Post_trans (Post_trans pa (Post_trans (Post_emit _ _ _ _)
              (Post_push _ _ _ ABSTRACT (by decide)))) (Post_trans p1
              (Post_trans (Post_emit _ _ s1 _) (Post_push _ _ _ TEXT (by decide)))))
              (e1.trans ea)
          · rw [if_neg hf]
            obtain ⟨s1, h1, p1, e1, _⟩ := pop_if_post s DEFINITION_LIST (by decide)
            rw [h1]
            simp only []
            exact key _ (Post_trans p1
              (Post_trans (Post_emit _ _ s1 _) (Post_push _ _ _ TEXT (by decide)))) e1
        · rw [if_neg c2]
          simp only []
          exact key s (Post_refl _ _ s) rfl
    · rw [if_neg nb]
      exact ⟨s, rfl, Post_refl _ _ s, rfl, fun h => absurd h nb⟩

/-- Writing the buffered line never fails; for a non-blank buffered line the last thing
written is the text of that line. -/
theorem output_previous_line_post (s : rst2rfcxml) :
    ∃ s', output_previous_line s = some s' ∧ Post false false s s' ∧
      s'._previous_line = s._previous_line ∧
      ((find_first_not_of s._previous_line " ".toList 0).isSome = true →
        ∃ pre, s'.output = s.output ++ pre ++ shown_text s._previous_line ++ "\n".toList) := by
  obtain ⟨s1, h1, p1, e1, o1⟩ := output_previous_line_text_post s
  unfold output_previous_line
  rw [h1]
  simp only []
  by_cases hb : (find_first_not_of s1._previous_line " ".toList 0).isNone = true
  · rw [if_pos hb, blank_line_loop_eq _ s1 (Nat.le_refl _)]
    refine ⟨_, rfl, Post_trans p1 ⟨?_, ⟨_, rfl⟩, Or.inl rfl⟩, e1, ?_⟩
    · exact Moves_dropWhile _ closes_at_blank_guarded _
    · intro h
      rw [e1] at hb
      cases hh : find_first_not_of s._previous_line " ".toList 0 with
      | none => rw [hh] at h; cases h
      | some j => rw [hh] at hb; cases hb
  · rw [if_neg hb]
    exact ⟨s1, rfl, p1, e1, o1⟩

theorem Post_set_previous_line {h t : Bool} {s s2 : rst2rfcxml} (p : Post h t s s2)
    (line l : List Char) (he : _handle_escapes line = some l) :
    Post h t s { s2 with _previous_line := l } :=
  ⟨p.1, p.2.1, Or.inr (Or.inr ⟨line, he⟩)⟩

/-- The flush at the end of `process_line`: the definition-list test fails on a transduced
line, the buffered line is written and the transduced line is buffered. -/
theorem process_line_flush (s : rst2rfcxml) (line l : List Char)
    (he : _handle_escapes line = some l) :
    ∃ s2, output_previous_line s = some s2 ∧
      (match output_previous_line
          (if starts_with l "  ".toList && (find_first_not_of l " ".toList 0).isSome &&
              !s._previous_line.isEmpty && (s._previous_line.head?.map isalpha = some true)
            then
              push (emit (if !in_context s DEFINITION_LIST then
                  push (emit s "<dl>".toList) DEFINITION_LIST
                else s) "<dt>".toList) DEFINITION_TERM
            else s) with
        | none => none
        | some s => some { s with _previous_line := l })
        = some { s2 with _previous_line := l } := by
  obtain ⟨s2, h2, _⟩ := output_previous_line_post s
  refine ⟨s2, h2, ?_⟩
  rw [starts_with_two_spaces_false line l he]
  simp only [Bool.false_and, Bool.false_eq_true, if_false]
  rw [h2]

/-- One call of `process_line` on a stack with nested tables: either it returns, having
changed the stack by elementary moves, extended the output and kept, cleared or replaced
the buffered line, or the line is a directive that changes the last author and there is
no author. -/
theorem process_line_post (s : rst2rfcxml) (line : List Char)
    (hn : table_nested s._contexts = true) :
    (∃ s', process_line s line = some s' ∧
      Post (decide (line = ".. header::".toList)) (is_section_heading_1 s line) s s') ∨
    (process_line s line = none ∧ s._authors = [] ∧
      ∃ l, _handle_escapes line = some l ∧ handle_variable_initializations s l = none) := by
  unfold process_line
  by_cases d1 : line = ".. contents::".toList
  · rw [if_pos d1]
    exact Or.inl ⟨s, rfl, Post_refl _ _ s⟩
  rw [if_neg d1]
  by_cases d2 : line = ".. sectnum::".toList
  · rw [if_pos d2]
    exact Or.inl ⟨s, rfl, Post_refl _ _ s⟩
  rw [if_neg d2]
  by_cases d3 : line = ".. header::".toList
  · rw [if_pos d3]
    refine Or.inl ⟨_, rfl, ?_, ⟨xml_preamble ++ (("<rfc ipr=\"".toList ++ s._ipr ++
      "\" docName=\"".toList ++ s._document_name ++ "\" category=\"".toList ++ s._category ++
      "\" submissionType=\"".toList ++ s._submission_type ++ "\">".toList ++ "\n\n".toList) ++
      "  <front>\n".toList), ?_⟩, Or.inl rfl⟩
    · show Moves _ _ s._contexts (FRONT :: RFC :: s._contexts)
      exact Moves_one (Move.header _ (by simp [d3]))
    · simp only [output_header, emit, push, List.append_assoc]
  rw [if_neg d3]
  obtain ⟨b1, s1, h1, p1, e1⟩ := handle_title_line_post s line
  rw [h1]
  cases b1 with
  | true => exact Or.inl ⟨s1, rfl, Post_mono (by simp) id p1⟩
  | false =>
    have := e1 rfl
    subst this
    simp only []
    obtain ⟨b2, s2, h2, p2, e2⟩ := handle_table_line_post s1 line hn
    rw [h2]
    cases b2 with
    | true => exact Or.inl ⟨s2, rfl, Post_mono (by simp) (by simp) p2⟩
    | false =>
      have := e2 rfl
      subst this
      simp only []
      obtain ⟨l, he⟩ := _handle_escapes_total line
      rw [he]
      simp only []
      rcases handle_variable_initializations_post s2 l with ⟨hv, ha⟩ | ⟨b3, s3, hv, c3, o3, r3, e3⟩
      · rw [hv]
        exact Or.inr ⟨rfl, ha, l, rfl, hv⟩
      · rw [hv]
        cases b3 with
        | true =>
          refine Or.inl ⟨s3, rfl, ?_, ⟨[], by rw [o3, List.append_nil]⟩, Or.inl r3⟩
          rw [c3]
          exact Relation.ReflTransGen.refl
        | false =>
          have := e3 rfl
          subst this
          simp only []
          obtain ⟨s4, h4, p4, _, _⟩ := output_previous_line_post s3
          obtain ⟨s5, h5, h6⟩ := process_line_flush s3 line l he
          rw [h4] at h5
          cases h5
          refine Or.inl ⟨_, h6, ?_⟩
          exact Post_set_previous_line (Post_mono (by simp) (by simp) p4) line l he

/-! ## The last character of a transduced line -/

theorem head_not_space_of_append {a b : List Char} (h : head_not_space (a ++ b) = true)
    (hne : a ≠ []) : head_not_space a = true := by
  cases a with
  | nil => exact absurd rfl hne
  | cons x r => exact h

theorem last_not_space_append_drop (pre x l : List Char) (n : Nat)
    (hl : last_not_space l = true) (hx : last_not_space x = true) (hxne : x ≠ []) :
    last_not_space (pre ++ x ++ l.drop n) = true := by
  unfold last_not_space at *
  rw [List.reverse_append, List.reverse_append]
  by_cases hd : l.drop n = []
  · rw [hd, List.reverse_nil, List.nil_append]
    exact head_not_space_append _ hx (by simpa using hxne)
  · have e : l.reverse = (l.drop n).reverse ++ (l.take n).reverse := by
      rw [← List.reverse_append, List.take_append_drop]
    rw [e] at hl
    have h1 := head_not_space_of_append hl (by simpa using hd)
    exact head_not_space_append _ h1 (by simpa using hd)

theorem last_not_space_trim (l : List Char) : last_not_space (_trim l) = true := by
  unfold last_not_space
  rw [trim_eq, List.reverse_reverse]
  cases hd : (l.dropWhile is_space).reverse.dropWhile is_space with
  | nil => rfl
  | cons x r =>
    have hx := List.head_dropWhile_not is_space (l.dropWhile is_space).reverse
      (by rw [hd]; simp)
    simp only [hd, List.head_cons] at hx
    simpa [head_not_space] using hx

theorem substr_end {line after : List Char} {n : Nat}
    (h : substr line n none = some after) : after = line.drop n := by
  unfold substr at h
  split at h
  · cases h
  · simp only [Option.some.injEq] at h
    exact h.symm

/-- The loop of `_replace_all` keeps the last character of the line from being
whitespace when the replacement does not end with whitespace. -/
theorem _replace_all_loop_last (from_s to_s : List Char)
    (ht : last_not_space to_s = true) (htne : to_s ≠ []) :
    ∀ (fuel : Nat) (line : List Char) (start : Nat) (r : List Char), last_not_space line = true →
      _replace_all_loop from_s to_s fuel line start = some r → last_not_space r = true := by
  intro fuel
  induction fuel with
  | zero => intro line start r _ h; cases h
  | succ fuel ih =>
    intro line start r hl h
    rw [_replace_all_loop] at h
    cases hfind : find line from_s start with
    | none =>
      rw [hfind] at h
      cases h
      exact hl
    | some index =>
      rw [hfind] at h
      simp only [] at h
      refine ih _ _ r ?_ h
      unfold replace
      exact last_not_space_append_drop _ to_s line _ hl ht htne

theorem _replace_constant_width_instances_loop_last :
    ∀ (fuel : Nat) (line r : List Char), last_not_space line = true →
      _replace_constant_width_instances_loop fuel line = some r → last_not_space r = true := by
  intro fuel
  induction fuel with
  | zero => intro line r _ h; cases h
  | succ fuel ih =>
    intro line r hl h
    rw [_replace_constant_width_instances_loop] at h
    cases hfind : find line "``".toList 0 with
    | none => rw [hfind] at h; cases h; exact hl
    | some index =>
      rw [hfind] at h
      simp only [] at h
      cases hfind2 : find line "``".toList (index + 2) with
      | none => rw [hfind2] at h; cases h; exact hl
      | some next_index =>
        rw [hfind2] at h
        simp only [] at h
        cases h1 : substr line 0 (some index) with
        | none => rw [h1] at h; cases h
        | some before =>
          cases h2 : substr line (index + 2) (some (next_index - index - 2)) with
          | none => rw [h1, h2] at h; cases h
          | some middle =>
            cases h3 : substr line (next_index + 2) none with
            | none => rw [h1, h2, h3] at h; cases h
            | some after =>
              rw [h1, h2, h3] at h
              simp only [] at h
              refine ih _ r ?_ h
              rw [substr_end h3]
              exact last_not_space_append_drop _ "</tt>".toList line _ hl (by decide) (by decide)

theorem _replace_internal_links_loop_last :
    ∀ (fuel : Nat) (line r : List Char), last_not_space line = true →
      _replace_internal_links_loop fuel line = some r → last_not_space r = true := by
  intro fuel
  induction fuel with
  | zero => intro line r _ h; cases h
  | succ fuel ih =>
    intro line r hl h
    rw [_replace_internal_links_loop] at h
    cases hfind : find line "`".toList 0 with
    | none => rw [hfind] at h; cases h; exact hl
    | some start =>
      rw [hfind] at h
      simp only [] at h
      cases hfind2 : find line "`_".toList (start + 1) with
      | none => rw [hfind2] at h; cases h; exact hl
      | some end_ =>
        rw [hfind2] at h
        simp only [] at h
        cases h1 : substr line 0 (some start) with
        | none => rw [h1] at h; cases h
        | some before =>
          cases h2 : substr line (start + 1) (some (end_ - start - 1)) with
          | none => rw [h1, h2] at h; cases h
          | some middle =>
            cases h3 : substr line (end_ + 2) none with
            | none => rw [h1, h2, h3] at h; cases h
            | some after =>
              rw [h1, h2, h3] at h
              simp only [] at h
              refine ih _ r ?_ h
              rw [substr_end h3]
              exact last_not_space_append_drop _ "\"/>".toList line _ hl (by decide) (by decide)

/-- The result of `_handle_escapes` never ends with whitespace. -/
theorem _handle_escapes_last (line r : List Char) (h : _handle_escapes line = some r) :
    last_not_space r = true := by
  unfold _handle_escapes at h
  simp only [] at h
  cases h1 : _replace_all (_trim line) "\\*".toList "*".toList with
  | none => rw [h1] at h; cases h
  | some l1 =>
  rw [h1] at h; simp only [] at h
  cases h2 : _replace_all l1 "\\|".toList "|".toList with
  | none => rw [h2] at h; cases h
  | some l2 =>
  rw [h2] at h; simp only [] at h
  cases h3 : _replace_all l2 "&".toList "&amp;".toList with
  | none => rw [h3] at h; cases h
  | some l3 =>
  rw [h3] at h; simp only [] at h
  cases h4 : _replace_all l3 "<".toList "&lt;".toList with
  | none => rw [h4] at h; cases h
  | some l4 =>
  rw [h4] at h; simp only [] at h
  cases h5 : _replace_all l4 ">".toList "&gt;".toList with
  | none => rw [h5] at h; cases h
  | some l5 =>
  rw [h5] at h; simp only [] at h
  cases h6 : _replace_constant_width_instances l5 with
  | none => rw [h6] at h; cases h
  | some l6 =>
  rw [h6] at h; simp only [] at h
  have p0 := last_not_space_trim line
  have p1 := _replace_all_loop_last _ _ (by decide) (by decide) _ _ _ _ p0 h1
  have p2 := _replace_all_loop_last _ _ (by decide) (by decide) _ _ _ _ p1 h2
  have p3 := _replace_all_loop_last _ _ (by decide) (by decide) _ _ _ _ p2 h3
  have p4 := _replace_all_loop_last _ _ (by decide) (by decide) _ _ _ _ p3 h4
  have p5 := _replace_all_loop_last _ _ (by decide) (by decide) _ _ _ _ p4 h5
  have p6 := _replace_constant_width_instances_loop_last _ _ _ p5 h6
  exact _replace_internal_links_loop_last _ _ _ p6 h

/-! ## Reachable states -/

theorem process_line_some_post {s s' : rst2rfcxml} {line : List Char}
    (hn : table_nested s._contexts = true) (h : process_line s line = some s') :
    Post (decide (line = ".. header::".toList)) (is_section_heading_1 s line) s s' := by
  rcases process_line_post s line hn with ⟨s2, h2, p2⟩ | ⟨h2, _⟩
  · rw [h2] at h
    cases h
    exact p2
  · rw [h2] at h
    cases h

theorem prev_rel_transduced {p p' : List Char} (h : prev_rel p p')
    (hp : p = [] ∨ ∃ l, _handle_escapes l = some p) :
    p' = [] ∨ ∃ l, _handle_escapes l = some p' := by
  rcases h with h | h | h
  · rw [h]; exact hp
  · exact Or.inl h
  · exact Or.inr h

/-- Every state reached by `process_line` from a state with nested tables and a transduced
(or empty) buffered line has nested tables and a transduced (or empty) buffered line. -/
theorem process_lines_reach :
    ∀ (lines : List (List Char)) (s s' : rst2rfcxml), table_nested s._contexts = true →
      (s._previous_line = [] ∨ ∃ l, _handle_escapes l = some s._previous_line) →
      process_lines s lines = some s' →
      table_nested s'._contexts = true ∧
        (s'._previous_line = [] ∨ ∃ l, _handle_escapes l = some s'._previous_line) := by
  intro lines
  induction lines with
  | nil =>
    intro s s' hn hp h
    cases h
    exact ⟨hn, hp⟩
  | cons line rest ih =>
    intro s s' hn hp h
    rw [process_lines] at h
    cases h1 : process_line s line with
    | none => rw [h1] at h; cases h
    | some s1 =>
      rw [h1] at h
      have p := process_line_some_post hn h1
      exact ih s1 s' (Moves_table_nested p.1 hn) (prev_rel_transduced p.2.2 hp) h

theorem transduced_facts {p : List Char} (hp : p = [] ∨ ∃ l, _handle_escapes l = some p) :
    head_not_space p = true ∧ last_not_space p = true := by
  rcases hp with rfl | ⟨l, hl⟩
  · exact ⟨rfl, rfl⟩
  · exact ⟨_handle_escapes_head l p hl, _handle_escapes_last l p hl⟩

/-- C19. Stack underflow is unreachable and the root is never popped while input remains.
In every state `s` reached from the initial state by `process_line`, every table header and
table body on the stack lies directly on a table (so the second pop of a ruler that closes
a table body finds `TABLE`), and a further call of `process_line` either returns, keeping
the bottom context when that is the root `RFC`, or it fails without touching the stack: the
line is a directive that changes the last author and the author list is empty. The final
unwind `pop_contexts(0)` empties the stack. -/
theorem stack_underflow_unreachable (lines : List (List Char)) (s : rst2rfcxml)
    (hs : process_lines {} lines = some s) (line : List Char) :
    table_nested s._contexts = true ∧
    (∀ c, s._contexts = TABLE_BODY :: c → ∃ c', c = TABLE :: c') ∧
    ((∃ s', process_line s line = some s' ∧
        (s._contexts.getLast? = some RFC → s'._contexts.getLast? = some RFC)) ∨
      (process_line s line = none ∧ s._authors = [] ∧
        ∃ l, _handle_escapes line = some l ∧ handle_variable_initializations s l = none)) ∧
    ∃ s', pop_contexts 0 s = some s' ∧ s'._contexts = [] := by
  have hn : table_nested s._contexts = true :=
    (process_lines_reach lines {} s rfl (Or.inl rfl) hs).1
  refine ⟨hn, ?_, ?_, ?_⟩
  · intro c hc
    rw [hc] at hn
    cases c with
    | nil => simp [table_nested] at hn
    | cons x c => exact ⟨c, by rw [table_nested_body hn]⟩
  · rcases process_line_post s line hn with ⟨s', h, p⟩ | h
    · exact Or.inl ⟨s', h, Moves_bottom p.1 hn⟩
    · exact Or.inr h
  · refine ⟨_, pop_contexts_eq 0 s, ?_⟩
    show s._contexts.drop (s._contexts.length - 0) = []
    simp

set_option maxRecDepth 100000 in
theorem stack_underflow_unreachable_witness :
    process_lines {} [".. header::".toList, "H".toList, "===".toList, "== ==".toList,
        "A  B".toList, "== ==".toList, "1  2".toList] =
      some { _contexts := [TABLE_BODY, TABLE, SECTION, MIDDLE, RFC], _column_indices := [0, 3],
             output := xml_preamble ++ ("<rfc ipr=\"\" docName=\"\" category=\"\" " ++
               "submissionType=\"\">\n\n  <front>\n</front>\n<middle>\n" ++
               "<section anchor=\"h\" title=\"H\">\n<table><thead><tr>\n  <th>A</th>\n" ++
               "  <th>B</th>\n</tr></thead>\n <tbody>\n <tr>\n  <td>1</td>\n  <td>2</td>\n" ++
               " </tr>\n").toList } ∧
    ∀ c, [TABLE_BODY, TABLE, SECTION, MIDDLE, RFC] = TABLE_BODY :: c → ∃ c', c = TABLE :: c' :=
  ⟨by decide,
   (stack_underflow_unreachable
    [".. header::".toList, "H".toList, "===".toList, "== ==".toList, "A  B".toList,
      "== ==".toList, "1  2".toList]
    { _contexts := [TABLE_BODY, TABLE, SECTION, MIDDLE, RFC], _column_indices := [0, 3],
      output := xml_preamble ++ ("<rfc ipr=\"\" docName=\"\" category=\"\" " ++
        "submissionType=\"\">\n\n  <front>\n</front>\n<middle>\n" ++
        "<section anchor=\"h\" title=\"H\">\n<table><thead><tr>\n  <th>A</th>\n" ++
        "  <th>B</th>\n</tr></thead>\n <tbody>\n <tr>\n  <td>1</td>\n  <td>2</td>\n" ++
        " </tr>\n").toList }
    (by decide) "== ==".toList).2.1⟩

/-- C20. Buffered-line invariant: for every line, `_handle_escapes` returns a string that
neither begins nor ends with a whitespace character; in every state reached from the
initial state by `process_line`, the buffered previous line neither begins nor ends with a
whitespace character, a buffered line made of whitespace only (in particular one that
passes the blank test of the code) is the empty string, and the buffered line does not
begin with two spaces. -/
theorem buffered_line_invariant (line : List Char) (lines : List (List Char))
    (s : rst2rfcxml) (hs : process_lines {} lines = some s) :
    (∃ r, _handle_escapes line = some r ∧ head_not_space r = true ∧
      last_not_space r = true) ∧
    head_not_space s._previous_line = true ∧ last_not_space s._previous_line = true ∧
    ((∀ c ∈ s._previous_line, is_space c = true) → s._previous_line = []) ∧
    ((find_first_not_of s._previous_line " ".toList 0).isNone = true →
      s._previous_line = []) ∧
    starts_with s._previous_line "  ".toList = false := by
  obtain ⟨r, hr⟩ := _handle_escapes_total line
  have hp := (process_lines_reach lines {} s rfl (Or.inl rfl) hs).2
  obtain ⟨hh, hl⟩ := transduced_facts hp
  have hw : (∀ c ∈ s._previous_line, is_space c = true) → s._previous_line = [] := by
    intro hall
    cases hc : s._previous_line with
    | nil => rfl
    | cons x t =>
      rw [hc] at hh hall
      have := hall x (by simp)
      simp [head_not_space, this] at hh
  refine ⟨⟨r, hr, _handle_escapes_head line r hr, _handle_escapes_last line r hr⟩, hh, hl,
    hw, ?_, ?_⟩
  · intro hb
    apply hw
    rw [Option.isNone_iff_eq_none] at hb
    intro c hc
    rw [(find_first_not_of_single_eq_none_iff _ ' ').mp hb c hc]
    rfl
  · rcases hp with h | ⟨l, h⟩
    · rw [h]; rfl
    · exact starts_with_two_spaces_false l _ h

theorem buffered_line_invariant_witness :
    process_lines {} ["x".toList, "   * a \t ".toList] =
      some { _contexts := [TEXT], _previous_line := "* a".toList,
             output := "<t>\nx\n".toList } ∧
    ∃ r, _handle_escapes " \t ``b``  ".toList = some r ∧ head_not_space r = true ∧
      last_not_space r = true :=
  ⟨by decide,
   (buffered_line_invariant " \t ``b``  ".toList ["x".toList, "   * a \t ".toList]
    { _contexts := [TEXT], _previous_line := "* a".toList, output := "<t>\nx\n".toList }
    (by decide)).1⟩

/-! ## Front matter and middle matter -/

/-- A stack that ends with `b` on the root, with no front matter, middle matter or root
above them, keeps this shape under every elementary move other than the pushes of the
header directive and, when `b` is the front matter, the change to middle matter. -/
theorem Move_phase (b : xml_context) (hb : b = FRONT ∨ b = MIDDLE) {h t : Bool}
    {c c' : List xml_context} (m : Move h t c c') (hh : h = false)
    (ht : t = true → b = MIDDLE) :
    table_nested c = true →
    (∃ upper, c = upper ++ [b, RFC] ∧ ∀ x ∈ upper, x ≠ FRONT ∧ x ≠ MIDDLE ∧ x ≠ RFC) →
    ∃ upper, c' = upper ++ [b, RFC] ∧ ∀ x ∈ upper, x ≠ FRONT ∧ x ≠ MIDDLE ∧ x ≠ RFC := by
  induction m with
  | push x c hx =>
    rintro _ ⟨upper, e, hu⟩
    refine ⟨x :: upper, by rw [e]; rfl, ?_⟩
    intro y hy
    rcases List.mem_cons.mp hy with rfl | hy
    · revert hx; cases y <;> decide
    · exact hu y hy
  | header c h0 => rw [hh] at h0; cases h0
  | front_to_middle y h0 =>
    rintro _ ⟨upper, e, _⟩
    have hb2 := ht h0
    subst hb2
    match upper, e with
    | [], e => cases e
    | [_], e => cases e
    | _ :: _ :: _ :: _, e => simp at e
  | front_alone h0 =>
    rintro _ ⟨upper, e, _⟩
    match upper, e with
    | [], e => cases e
    | [_], e => cases e
    | _ :: _ :: _, e => simp at e
  | open_table c =>
    rintro _ ⟨upper, e, hu⟩
    refine ⟨TABLE_HEADER :: TABLE :: upper, by rw [e]; rfl, ?_⟩
    intro y hy
    rcases List.mem_cons.mp hy with rfl | hy
    · decide
    · rcases List.mem_cons.mp hy with rfl | hy
      · decide
      · exact hu y hy
  | to_body c =>
    rintro _ ⟨upper, e, hu⟩
    cases upper with
    | nil =>
      simp only [List.nil_append, List.cons.injEq] at e
      rcases hb with rfl | rfl <;> exact absurd e.1 (by decide)
    | cons u us =>
      simp only [List.cons_append, List.cons.injEq] at e
      refine ⟨TABLE_BODY :: us, by rw [e.2]; rfl, ?_⟩
      intro y hy
      rcases List.mem_cons.mp hy with rfl | hy
      · decide
      · exact hu y (List.mem_cons_of_mem _ hy)
  | close_table x c =>
    rintro hn ⟨upper, e, hu⟩
    have hx := table_nested_body hn
    subst hx
    match upper, e, hu with
    | [], e, _ =>
      simp only [List.nil_append, List.cons.injEq] at e
      rcases hb with rfl | rfl <;> exact absurd e.1 (by decide)
    | [u], e, _ =>
      simp only [List.cons_append, List.nil_append, List.cons.injEq] at e
      rcases hb with rfl | rfl <;> exact absurd e.2.1 (by decide)
    | u1 :: u2 :: us, e, hu =>
      simp only [List.cons_append, List.cons.injEq] at e
      exact ⟨us, e.2.2, fun y hy => hu y (List.mem_cons_of_mem _ (List.mem_cons_of_mem _ hy))⟩
  | pop_guard x c hx =>
    rintro _ ⟨upper, e, hu⟩
    cases upper with
    | nil =>
      simp only [List.nil_append, List.cons.injEq] at e
      rw [e.1] at hx
      rcases hb with rfl | rfl <;> exact absurd hx (by decide)
    | cons u us =>
      simp only [List.cons_append, List.cons.injEq] at e
      exact ⟨us, e.2, fun y hy => hu y (List.mem_cons_of_mem _ hy)⟩
  | pop_deep x c h0 =>
    rintro _ ⟨upper, e, hu⟩
    cases upper with
    | nil =>
      simp only [List.nil_append, List.cons.injEq] at e
      rw [e.2] at h0
      simp at h0
    | cons u us =>
      simp only [List.cons_append, List.cons.injEq] at e
      exact ⟨us, e.2, fun y hy => hu y (List.mem_cons_of_mem _ hy)⟩

theorem Moves_front_open {c c' : List xml_context} (m : Moves false false c c')
    (hn : table_nested c = true) (hf : front_open c) : front_open c' := by
  induction m with
  | refl => exact hf
  | tail m0 m1 ih =>
    exact Move_phase FRONT (Or.inl rfl) m1 rfl (fun h => nomatch h)
      (Moves_table_nested m0 hn) ih

theorem Moves_middle_open {t : Bool} {c c' : List xml_context} (m : Moves false t c c')
    (hn : table_nested c = true) (hf : middle_open c) : middle_open c' := by
  induction m with
  | refl => exact hf
  | tail m0 m1 ih =>
    exact Move_phase MIDDLE (Or.inr rfl) m1 rfl (fun _ => rfl)
      (Moves_table_nested m0 hn) ih

theorem not_front_and_middle (c : List xml_context) : ¬ (front_open c ∧ middle_open c) := by
  rintro ⟨⟨u1, e1, _⟩, ⟨u2, e2, _⟩⟩
  have h := e1.symm.trans e2
  have hl : u1.length = u2.length := by
    have := congrArg List.length h
    simp at this
    exact this
  have := (List.append_inj h hl).2
  cases this

/-- The step of a recognised level-1 heading when the front matter is open: the contexts
above the front matter are closed, the front matter is closed, the middle matter and the
section are opened. -/
theorem process_line_heading_1 (s : rst2rfcxml) (line : List Char) (upper : List xml_context)
    (hc : s._contexts = upper ++ [FRONT, RFC]) (hh : is_section_heading_1 s line = true) :
    ∃ title, _handle_escapes s._previous_line = some title ∧
      process_line s line = some { s with
        output := s.output ++ upper.flatMap closing_text ++ "</front>\n".toList ++
          "<middle>\n".toList ++ ("<section anchor=\"".toList ++ _anchor title ++
          "\" title=\"".toList ++ title ++ "\">".toList ++ "\n".toList),
        _contexts := [SECTION, MIDDLE, RFC],
        _previous_line := [] } := by
  obtain ⟨title, ht⟩ := _handle_escapes_total s._previous_line
  refine ⟨title, ht, ?_⟩
  unfold is_section_heading_1 at hh
  rw [Bool.and_eq_true, Bool.and_eq_true] at hh
  obtain ⟨⟨u1, t1⟩, b1⟩ := hh
  have hall := ((underline_test_iff line '=').mp u1).2
  obtain ⟨d1, d2, d3⟩ := underline_not_directive line '=' (by decide) hall
  have t1' : in_context s TITLE = false := by simpa using t1
  have b1' : (find_first_not_of s._previous_line " ".toList 0).isNone = false := by
    cases hf : find_first_not_of s._previous_line " ".toList 0 with
    | none => rw [hf] at b1; cases b1
    | some j => rfl
  have hb : BASE_SECTION_LEVEL = 2 := rfl
  have e1 : (upper ++ [FRONT, RFC]).length - 2 = upper.length := by simp
  unfold process_line
  rw [if_neg d1, if_neg d2, if_neg d3]
  unfold handle_title_line
  rw [if_pos u1, t1', b1', hb, pop_contexts_eq]
  simp only [Bool.false_eq_true, if_false, hc, e1, List.take_left', List.drop_left']
  have hf : in_context { s with
      output := s.output ++ upper.flatMap closing_text,
      _contexts := [FRONT, RFC] } FRONT = true := rfl
  rw [hf, if_pos rfl, pop_contexts_eq]
  simp only [open_section, push, emit, ht]
  simp [closing_text]

theorem process_lines_append (a b : List (List Char)) :
    ∀ s : rst2rfcxml, process_lines s (a ++ b) =
      (process_lines s a).bind (fun s1 => process_lines s1 b) := by
  induction a with
  | nil => intro s; rfl
  | cons l a ih =>
    intro s
    rw [List.cons_append, process_lines, process_lines]
    cases process_line s l with
    | none => rfl
    | some s1 => exact ih s1

theorem process_input_stream_eq (s : rst2rfcxml) (f : List (List Char)) :
    process_input_stream s f = process_lines s (f ++ [[]]) := by
  rw [process_lines_append]
  unfold process_input_stream
  cases process_lines s f with
  | none => rfl
  | some s1 =>
    show process_line s1 [] = process_lines s1 [[]]
    rw [process_lines]
    cases process_line s1 [] <;> rfl

/-- The sources are processed as one sequence of lines: the lines of each source followed
by its empty line. -/
theorem process_streams_eq (files : List (List (List Char))) :
    ∀ s : rst2rfcxml, process_streams s files =
      process_lines s (files.flatMap (fun f => f ++ [[]])) := by
  induction files with
  | nil => intro s; rfl
  | cons f files ih =>
    intro s
    rw [process_streams, List.flatMap_cons, process_lines_append, process_input_stream_eq]
    cases process_lines s (f ++ [[]]) with
    | none => rfl
    | some s1 => exact ih s1

/-- The states reached after the header directive by lines other than the header
directive: tables are nested and either the front matter or the middle matter is open. -/
theorem process_lines_phase :
    ∀ (lines : List (List Char)) (s s' : rst2rfcxml),
      (∀ l ∈ lines, l ≠ ".. header::".toList) → table_nested s._contexts = true →
      (front_open s._contexts ∨ middle_open s._contexts) →
      process_lines s lines = some s' →
      table_nested s'._contexts = true ∧
        (front_open s'._contexts ∨ middle_open s'._contexts) := by
  intro lines
  induction lines with
  | nil =>
    intro s s' _ hn hp h
    cases h
    exact ⟨hn, hp⟩
  | cons line rest ih =>
    intro s s' hl hn hp h
    rw [process_lines] at h
    cases h1 : process_line s line with
    | none => rw [h1] at h; cases h
    | some s1 =>
      rw [h1] at h
      have p := process_line_some_post hn h1
      have hd : decide (line = ".. header::".toList) = false :=
        decide_eq_false (hl line (List.mem_cons_self _ _))
      rw [hd] at p
      refine ih s1 s' (fun l hl' => hl l (List.mem_cons_of_mem _ hl'))
        (Moves_table_nested p.1 hn) ?_ h
      rcases hp with hf | hm
      · cases hh : is_section_heading_1 s line with
        | false =>
          rw [hh] at p
          exact Or.inl (Moves_front_open p.1 hn hf)
        | true =>
          obtain ⟨upper, hc, _⟩ := hf
          obtain ⟨title, _, hr⟩ := process_line_heading_1 s line upper hc hh
          rw [hr] at h1
          cases h1
          exact Or.inr ⟨[SECTION], rfl, by decide⟩
      · exact Or.inr (Moves_middle_open p.1 hn hm)

theorem process_lines_snoc {s s' : rst2rfcxml} {p : List (List Char)} {l : List Char}
    (h : process_lines s (p ++ [l]) = some s') :
    ∃ sp, process_lines s p = some sp ∧ process_line sp l = some s' := by
  rw [process_lines_append] at h
  cases hp : process_lines s p with
  | none => rw [hp] at h; cases h
  | some sp =>
    rw [hp] at h
    refine ⟨sp, rfl, ?_⟩
    change process_lines sp [l] = some s' at h
    rw [process_lines] at h
    cases h1 : process_line sp l with
    | none => rw [h1] at h; cases h
    | some s1 => rw [h1] at h; exact h

theorem process_lines_header (a : List (List Char)) (s : rst2rfcxml) :
    process_lines s (".. header::".toList :: a) = process_lines (output_header s) a := by
  rw [process_lines]
  have h : process_line s ".. header::".toList = some (output_header s) := by
    unfold process_line
    rw [if_neg (by decide), if_neg (by decide), if_pos rfl]
  rw [h]

theorem front_open_after_header : front_open (output_header {})._contexts :=
  ⟨[], rfl, fun _ h => nomatch h⟩

/-- After the header directive and lines other than the header directive, the middle
matter is open exactly when a level-1 heading has been recognised. -/
theorem middle_open_iff_heading (pre : List (List Char)) :
    ∀ s : rst2rfcxml, (∀ l ∈ pre, l ≠ ".. header::".toList) →
      process_lines {} (".. header::".toList :: pre) = some s →
      (middle_open s._contexts ↔ ∃ a line b sa, pre = a ++ line :: b ∧
        process_lines {} (".. header::".toList :: a) = some sa ∧
        is_section_heading_1 sa line = true) := by
  induction pre using List.reverseRecOn with
  | nil =>
    intro s _ hs
    rw [process_lines_header] at hs
    cases hs
    constructor
    · intro hm
      exact absurd ⟨front_open_after_header, hm⟩ (not_front_and_middle _)
    · rintro ⟨a, line, b, _, e, _⟩
      simp at e
  | append_singleton p l ih =>
    intro s hl hs
    rw [← List.cons_append] at hs
    obtain ⟨sp, hp, hstep⟩ := process_lines_snoc hs
    have hlp : ∀ x ∈ p, x ≠ ".. header::".toList :=
      fun x hx => hl x (List.mem_append_left _ hx)
    have hll : l ≠ ".. header::".toList := hl l (by simp)
    have ihp := ih sp hlp hp
    have hp0 := hp
    rw [process_lines_header] at hp0
    obtain ⟨hn, hph⟩ := process_lines_phase p (output_header {}) sp hlp
      (by decide) (Or.inl front_open_after_header) hp0
    have post := process_line_some_post hn hstep
    rw [decide_eq_false hll] at post
    rcases hph with hf | hm
    · cases hh : is_section_heading_1 sp l with
      | true =>
        have hmid : middle_open s._contexts := by
          obtain ⟨upper, hc, _⟩ := hf
          obtain ⟨title, _, hr⟩ := process_line_heading_1 sp l upper hc hh
          rw [hr] at hstep
          cases hstep
          exact ⟨[SECTION], rfl, by decide⟩
        exact ⟨fun _ => ⟨p, l, [], sp, rfl, hp, hh⟩, fun _ => hmid⟩
      | false =>
        rw [hh] at post
        have hfr : front_open s._contexts := Moves_front_open post.1 hn hf
        constructor
        · intro hm
          exact absurd ⟨hfr, hm⟩ (not_front_and_middle _)
        · rintro ⟨a, line, b, sa, e, ha, hha⟩
          exfalso
          rcases List.eq_nil_or_concat b with rfl | ⟨b', x, rfl⟩
          · have e2 : p ++ [l] = a ++ [line] := e
            obtain ⟨e3, e4⟩ := List.append_inj' e2 rfl
            cases e4
            subst e3
            rw [hp] at ha
            cases ha
            rw [hh] at hha
            cases hha
          · rw [List.concat_eq_append, ← List.cons_append, ← List.append_assoc] at e
            obtain ⟨e3, _⟩ := List.append_inj' e rfl
            exact not_front_and_middle _ ⟨hf, ihp.mpr ⟨a, line, b', sa, e3, ha, hha⟩⟩
    · have hmid : middle_open s._contexts := Moves_middle_open post.1 hn hm
      obtain ⟨a, line, b, sa, e, ha, hha⟩ := ihp.mp hm
      exact ⟨fun _ => ⟨a, line, b ++ [l], sa, by rw [e]; simp, ha, hha⟩, fun _ => hmid⟩

set_option maxRecDepth 100000 in

/-! ## The order of the output -/

theorem open_section_eq (s : rst2rfcxml) (title : List Char)
    (ht : _handle_escapes s._previous_line = some title) :
    open_section s = some { s with
      output := s.output ++ ("<section anchor=\"".toList ++ _anchor title ++
        "\" title=\"".toList ++ title ++ "\">".toList ++ "\n".toList),
      _contexts := SECTION :: s._contexts,
      _previous_line := [] } := by
  unfold open_section
  rw [ht]
  rfl

theorem not_both_glyphs {line : List Char} {g g' : Char} (hg : g ≠ g')
    (h : line ≠ [] ∧ ∀ c ∈ line, c = g) : ¬ (line ≠ [] ∧ ∀ c ∈ line, c = g') := by
  rintro ⟨_, h2⟩
  cases line with
  | nil => exact h.1 rfl
  | cons x t =>
    have a := h.2 x (by simp)
    have b := h2 x (by simp)
    exact hg (a.symm.trans b)

/-- A heading underline consumes the buffered line: the section opening with the
transduced buffered line as title is the last thing written, and the buffer is cleared. -/
theorem process_line_heading_consumes (s : rst2rfcxml) (line : List Char)
    (hu : is_section_heading_1 s line = true ∨ (line ≠ [] ∧ ∀ c ∈ line, c = '-') ∨
      (line ≠ [] ∧ ∀ c ∈ line, c = '~')) :
    ∃ s' title pre, process_line s line = some s' ∧
      _handle_escapes s._previous_line = some title ∧ s'._previous_line = [] ∧
      s'.output = s.output ++ pre ++ ("<section anchor=\"".toList ++ _anchor title ++
        "\" title=\"".toList ++ title ++ "\">".toList ++ "\n".toList) := by
  obtain ⟨title, ht⟩ := _handle_escapes_total s._previous_line
  have hb : BASE_SECTION_LEVEL = 2 := rfl
  rcases hu with hh | hm | hm
  · unfold is_section_heading_1 at hh
    rw [Bool.and_eq_true, Bool.and_eq_true] at hh
    obtain ⟨⟨u1, t1⟩, b1⟩ := hh
    have hall := ((underline_test_iff line '=').mp u1).2
    obtain ⟨d1, d2, d3⟩ := underline_not_directive line '=' (by decide) hall
    have t1' : in_context s TITLE = false := by simpa using t1
    have b1' : (find_first_not_of s._previous_line " ".toList 0).isNone = false := by
      cases hf : find_first_not_of s._previous_line " ".toList 0 with
      | none => rw [hf] at b1; cases b1
      | some j => rfl
    unfold process_line
    rw [if_neg d1, if_neg d2, if_neg d3]
    unfold handle_title_line
    obtain ⟨s1, h1, p1, e1, _⟩ := pop_contexts_post 2 (Nat.le_refl 2) s
    obtain ⟨dd, o1⟩ := Post_output p1
    rw [if_pos u1, t1', b1', hb, h1]
    simp only [Bool.false_eq_true, if_false]
    by_cases hf : in_context s1 FRONT = true
    · rw [if_pos hf, pop_contexts_eq]
      simp only []
      rw [open_section_eq (push (emit { s1 with
        output := s1.output ++ (s1._contexts.take (s1._contexts.length - 1)).flatMap closing_text,
        _contexts := s1._contexts.drop (s1._contexts.length - 1) } "<middle>\n".toList) MIDDLE)
        title (by rw [← e1] at ht; exact ht)]
      refine ⟨_, title, dd ++ (s1._contexts.take (s1._contexts.length - 1)).flatMap
        closing_text ++ "<middle>\n".toList, rfl, ht, rfl, ?_⟩
      simp only [push, emit, o1, List.append_assoc]
    · rw [if_neg hf]
      simp only []
      rw [open_section_eq s1 title (by rw [e1]; exact ht)]
      refine ⟨_, title, dd, rfl, ht, rfl, ?_⟩
      simp only [o1]
  · obtain ⟨d1, d2, d3⟩ := underline_not_directive line '-' (by decide) hm.2
    have u1 : (starts_with line "=".toList && (find_first_not_of line "=".toList 0).isNone)
        = false := underline_test_false line '=' (not_both_glyphs (by decide) hm)
    have u2 : (starts_with line "-".toList && (find_first_not_of line "-".toList 0).isNone)
        = true := (underline_test_iff line '-').mpr hm
    unfold process_line
    rw [if_neg d1, if_neg d2, if_neg d3]
    unfold handle_title_line
    rw [u1]
    simp only [Bool.false_eq_true, if_false]
    obtain ⟨s1, h1, p1, e1, _⟩ := pop_contexts_post (BASE_SECTION_LEVEL + 1) (by decide) s
    obtain ⟨dd, o1⟩ := Post_output p1
    rw [if_pos u2, h1]
    simp only []
    rw [open_section_eq s1 title (by rw [e1]; exact ht)]
    refine ⟨_, title, dd, rfl, ht, rfl, ?_⟩
    simp only [o1]
  · obtain ⟨d1, d2, d3⟩ := underline_not_directive line '~' (by decide) hm.2
    have u1 : (starts_with line "=".toList && (find_first_not_of line "=".toList 0).isNone)
        = false := underline_test_false line '=' (not_both_glyphs (by decide) hm)
    have u2 : (starts_with line "-".toList && (find_first_not_of line "-".toList 0).isNone)
        = false := underline_test_false line '-' (not_both_glyphs (by decide) hm)
    have u3 : (starts_with line "~".toList && (find_first_not_of line "~".toList 0).isNone)
        = true := (underline_test_iff line '~').mpr hm
    unfold process_line
    rw [if_neg d1, if_neg d2, if_neg d3]
    unfold handle_title_line
    rw [u1, u2]
    simp only [Bool.false_eq_true, if_false]
    obtain ⟨s1, h1, p1, e1, _⟩ := pop_contexts_post (BASE_SECTION_LEVEL + 2) (by decide) s
    obtain ⟨dd, o1⟩ := Post_output p1
    rw [if_pos u3, h1]
    simp only []
    rw [open_section_eq s1 title (by rw [e1]; exact ht)]
    refine ⟨_, title, dd, rfl, ht, rfl, ?_⟩
    simp only [o1]

/-- A line that reaches the end of `process_line` makes it write the buffered line and
buffer the transduced line. -/
theorem process_line_reaches_flush (s : rst2rfcxml) (line l : List Char)
    (hd : line ≠ ".. contents::".toList ∧ line ≠ ".. sectnum::".toList ∧
      line ≠ ".. header::".toList)
    (ht : handle_title_line s line = some (false, s))
    (hb : handle_table_line s line = some (false, s))
    (he : _handle_escapes line = some l)
    (hv : handle_variable_initializations s l = some (false, s)) :
    ∃ s', process_line s line = some s' ∧ s'._previous_line = l ∧
      (∃ d, s'.output = s.output ++ d) ∧
      ((find_first_not_of s._previous_line " ".toList 0).isSome = true →
        ∃ pre, s'.output = s.output ++ pre ++ shown_text s._previous_line ++ "\n".toList) := by
  obtain ⟨s2, h2, h3⟩ := process_line_flush s line l he
  obtain ⟨s4, h4, p4, _, o4⟩ := output_previous_line_post s
  have e : s2 = s4 := by
    rw [h4] at h2
    exact (Option.some.inj h2).symm
  subst e
  obtain ⟨d4, od4⟩ := Post_output p4
  refine ⟨{ s2 with _previous_line := l }, ?_, rfl, ⟨d4, od4⟩, o4⟩
  unfold process_line
  rw [if_neg hd.1, if_neg hd.2.1, if_neg hd.2.2, ht]
  simp only []
  rw [hb]
  simp only []
  rw [he]
  simp only []
  rw [hv]
  exact h3

/-! ## Fixed-width spans and cross-references -/

theorem occurrences_append_of_not_mem (pat : List Char) (c : Char) (hc : pat.head? = some c)
    (u v : List Char) (hu : c ∉ u) : occurrences pat (u ++ v) = occurrences pat v := by
  induction u with
  | nil => rfl
  | cons x u ih =>
    have hx : x ≠ c := fun e => hu (by simp [e])
    have hp : pat.isPrefixOf (x :: (u ++ v)) = false := by
      cases pat with
      | nil => cases hc
      | cons p ps =>
        simp only [List.head?_cons, Option.some.injEq] at hc
        subst hc
        simp [List.isPrefixOf, Ne.symm hx]
    rw [List.cons_append, occurrences, hp, ih (fun h => hu (List.mem_cons_of_mem _ h))]
    simp

theorem occurrences_of_lt_then_x (pat : List Char)
    (hp : pat = "<tt>".toList ∨ pat = "</tt>".toList) :
    ∀ l, lt_then_x l = true → occurrences pat l = 0 := by
  intro l
  induction l with
  | nil => intro _; rfl
  | cons c cs ih =>
    intro h
    rw [lt_then_x, Bool.and_eq_true] at h
    rw [occurrences, ih h.2]
    have h1 := h.1
    have : pat.isPrefixOf (c :: cs) = false := by
      rcases hp with rfl | rfl
      · cases cs with
        | nil => simp [List.isPrefixOf]
        | cons d ds =>
          simp only [List.head?_cons] at h1
          by_cases hc : c = '<'
          · subst hc
            have hd : d = 'x' := by simpa using h1
            subst hd
            rfl
          · simp [List.isPrefixOf, Ne.symm hc]
      · cases cs with
        | nil => simp [List.isPrefixOf]
        | cons d ds =>
          simp only [List.head?_cons] at h1
          by_cases hc : c = '<'
          · subst hc
            have hd : d = 'x' := by simpa using h1
            subst hd
            rfl
          · simp [List.isPrefixOf, Ne.symm hc]
    rw [this]
    rfl

theorem occurrences_open_span (m w : List Char) (hm : '<' ∉ m) :
    occurrences "<tt>".toList ("<tt>".toList ++ m ++ "</tt>".toList ++ w)
      = 1 + occurrences "<tt>".toList w ∧
    occurrences "</tt>".toList ("<tt>".toList ++ m ++ "</tt>".toList ++ w)
      = 1 + occurrences "</tt>".toList w := by
  have e1 : "<tt>".toList ++ m ++ "</tt>".toList ++ w
      = '<' :: (("tt>".toList ++ m) ++ ('<' :: ("/tt>".toList ++ w))) := by simp
  have hn : '<' ∉ "tt>".toList ++ m := by
    intro h
    rcases List.mem_append.mp h with h | h
    · revert h; decide
    · exact hm h
  have hn2 : '<' ∉ "/tt>".toList := by decide
  constructor
  · rw [e1, occurrences, occurrences_append_of_not_mem "<tt>".toList '<' rfl _ _ hn,
      occurrences, occurrences_append_of_not_mem "<tt>".toList '<' rfl _ _ hn2]
    have a1 : "<tt>".toList.isPrefixOf ('<' :: ("tt>".toList ++ m ++ '<' :: ("/tt>".toList ++ w)))
        = true := by simp [List.isPrefixOf]
    have a2 : "<tt>".toList.isPrefixOf ('<' :: ("/tt>".toList ++ w)) = false := by
      simp [List.isPrefixOf]
    rw [a1, a2]
    simp
  · rw [e1, occurrences, occurrences_append_of_not_mem "</tt>".toList '<' rfl _ _ hn,
      occurrences, occurrences_append_of_not_mem "</tt>".toList '<' rfl _ _ hn2]
    have a1 : "</tt>".toList.isPrefixOf
        ('<' :: ("tt>".toList ++ m ++ '<' :: ("/tt>".toList ++ w))) = false := by
      simp [List.isPrefixOf]
    have a2 : "</tt>".toList.isPrefixOf ('<' :: ("/tt>".toList ++ w)) = true := by
      simp [List.isPrefixOf]
    rw [a1, a2]
    simp

/-- In a text with fixed-width spans whose parts contain no `<` and whose tail has `<` only
at the start of cross-references, `<tt>` and `</tt>` occur once for each span. -/
theorem occurrences_render_spans (pieces : List (List Char × List Char)) (tail : List Char)
    (hp : ∀ p ∈ pieces, '<' ∉ p.1 ∧ '<' ∉ p.2) (ht : lt_then_x tail = true) :
    occurrences "<tt>".toList (render_spans pieces tail) = pieces.length ∧
    occurrences "</tt>".toList (render_spans pieces tail) = pieces.length := by
  induction pieces with
  | nil =>
    exact ⟨occurrences_of_lt_then_x _ (Or.inl rfl) tail ht,
      occurrences_of_lt_then_x _ (Or.inr rfl) tail ht⟩
  | cons p ps ih =>
    obtain ⟨i1, i2⟩ := ih (fun q hq => hp q (List.mem_cons_of_mem _ hq))
    obtain ⟨h1, h2⟩ := hp p (List.mem_cons_self _ _)
    have e : render_spans (p :: ps) tail
        = p.1 ++ ("<tt>".toList ++ p.2 ++ "</tt>".toList ++ render_spans ps tail) := by
      simp [render_spans, List.flatMap_cons]
    obtain ⟨o1, o2⟩ := occurrences_open_span p.2 (render_spans ps tail) h2
    rw [e, occurrences_append_of_not_mem "<tt>".toList '<' rfl _ _ h1,
      occurrences_append_of_not_mem "</tt>".toList '<' rfl _ _ h1, o1, o2, i1, i2]
    simp [Nat.add_comm]

theorem lt_then_x_of_not_mem : ∀ u : List Char, '<' ∉ u → lt_then_x u = true := by
  intro u
  induction u with
  | nil => intro _; rfl
  | cons c cs ih =>
    intro h
    have hc : c ≠ '<' := fun e => h (by simp [e])
    rw [lt_then_x, ih (fun hm => h (List.mem_cons_of_mem _ hm))]
    simp [hc]

theorem lt_then_x_append : ∀ u v : List Char, lt_then_x u = true → lt_then_x v = true →
    lt_then_x (u ++ v) = true := by
  intro u
  induction u with
  | nil => intro v _ hv; exact hv
  | cons c cs ih =>
    intro v hu hv
    rw [lt_then_x, Bool.and_eq_true] at hu
    rw [List.cons_append, lt_then_x, ih v hu.2 hv, Bool.and_true]
    cases cs with
    | nil =>
      have h1 := hu.1
      simp only [List.head?_nil] at h1
      have hc : (c != '<') = true := by
        cases hcc : (c != '<') with
        | true => rfl
        | false => rw [hcc] at h1; cases h1
      rw [hc]
      rfl
    | cons d ds => exact hu.1

theorem lt_then_x_suffix : ∀ u v : List Char, lt_then_x (u ++ v) = true →
    lt_then_x v = true := by
  intro u
  induction u with
  | nil => intro v h; exact h
  | cons c cs ih =>
    intro v h
    rw [List.cons_append, lt_then_x, Bool.and_eq_true] at h
    exact ih v h.2

theorem lt_then_x_drop (l : List Char) (n : Nat) (h : lt_then_x l = true) :
    lt_then_x (l.drop n) = true := by
  rw [← List.take_append_drop n l] at h
  exact lt_then_x_suffix _ _ h

theorem lt_then_x_prefix (c : Char) (hc : c ≠ 'x') : ∀ u v : List Char,
    lt_then_x (u ++ c :: v) = true → lt_then_x u = true := by
  intro u
  induction u with
  | nil => intro v _; rfl
  | cons d ds ih =>
    intro v h
    rw [List.cons_append, lt_then_x, Bool.and_eq_true] at h
    rw [lt_then_x, ih v h.2, Bool.and_true]
    cases ds with
    | nil =>
      have h1 := h.1
      simp only [List.nil_append, List.head?_cons] at h1
      have hd : (d != '<') = true := by
        cases hdd : (d != '<') with
        | true => rfl
        | false =>
          rw [hdd] at h1
          simp at h1
          exact absurd h1 hc
      rw [hd]
      rfl
    | cons e es => exact h.1

theorem lt_then_x_xref (m : List Char) :
    lt_then_x ("<xref target=\"".toList ++ _anchor m ++ "\"/>".toList) = true := by
  refine lt_then_x_append _ _ (lt_then_x_append _ _ (by decide) ?_) (by decide)
  apply lt_then_x_of_not_mem
  rw [_anchor_eq_anchor_spec]
  intro h
  have := anchor_spec_chars m _ h
  revert this
  decide

theorem take_append_of_le {D X : List Char} {n : Nat} (h : D.length ≤ n) :
    (D ++ X).take n = D ++ X.take (n - D.length) := by
  rw [List.take_append_eq_append_take, List.take_of_length_le h]

theorem drop_append_of_le {D X : List Char} {n : Nat} (h : D.length ≤ n) :
    (D ++ X).drop n = X.drop (n - D.length) := by
  rw [List.drop_append_eq_append_drop, List.drop_of_length_le h, List.nil_append]

theorem length_le_of_find_backquote {D X : List Char} {start : Nat} (hD : '`' ∉ D)
    (h : "`".toList <+: (D ++ X).drop start) : D.length ≤ start := by
  by_contra hlt
  have hlt : start < D.length := Nat.lt_of_not_le hlt
  rw [List.drop_append_of_le_length (Nat.le_of_lt hlt)] at h
  obtain ⟨t, ht⟩ := h
  have hmem : '`' ∈ D.drop start := by
    have : D.drop start ≠ [] := by
      intro e
      have := congrArg List.length e
      rw [List.length_drop] at this
      simp at this
      omega
    cases hd : D.drop start with
    | nil => exact absurd hd this
    | cons x xs =>
      rw [hd] at ht
      simp at ht
      rw [← ht.1]
      simp
  exact hD (List.mem_of_mem_drop hmem)

/-- The loop of `_replace_internal_links` leaves a prefix without backquotes unchanged,
and in the rest of the line every `<` it writes starts a cross-reference element. -/
theorem _replace_internal_links_loop_spans :
    ∀ (fuel : Nat) (D X r : List Char), '`' ∉ D → lt_then_x X = true →
      _replace_internal_links_loop fuel (D ++ X) = some r →
      ∃ X', r = D ++ X' ∧ lt_then_x X' = true := by
  intro fuel
  induction fuel with
  | zero => intro D X r _ _ h; cases h
  | succ fuel ih =>
    intro D X r hD hX h
    rw [_replace_internal_links_loop] at h
    cases hfind : find (D ++ X) "`".toList 0 with
    | none => rw [hfind] at h; cases h; exact ⟨X, rfl, hX⟩
    | some start =>
      rw [hfind] at h
      simp only [] at h
      cases hfind2 : find (D ++ X) "`_".toList (start + 1) with
      | none => rw [hfind2] at h; cases h; exact ⟨X, rfl, hX⟩
      | some end_ =>
        rw [hfind2] at h
        simp only [] at h
        cases h1 : substr (D ++ X) 0 (some start) with
        | none => rw [h1] at h; cases h
        | some before =>
          cases h2 : substr (D ++ X) (start + 1) (some (end_ - start - 1)) with
          | none => rw [h1, h2] at h; cases h
          | some middle =>
            cases h3 : substr (D ++ X) (end_ + 2) none with
            | none => rw [h1, h2, h3] at h; cases h
            | some after =>
              rw [h1, h2, h3] at h
              simp only [] at h
              obtain ⟨-, p1⟩ := find_some hfind
              obtain ⟨q1, -⟩ := find_some hfind2
              have hle := length_le_of_find_backquote hD p1
              have eb : before = D ++ X.take (start - D.length) := by
                rw [substr_zero h1, take_append_of_le hle]
              have ea : after = X.drop (end_ + 2 - D.length) := by
                rw [substr_end h3, drop_append_of_le (by omega)]
              have hx1 : lt_then_x (X.take (start - D.length)) = true := by
                rw [drop_append_of_le hle] at p1
                obtain ⟨t, ht⟩ := p1
                have e : X = X.take (start - D.length) ++ '`' :: t := by
                  conv_lhs => rw [← List.take_append_drop (start - D.length) X]
                  rw [← ht]
                  rfl
                rw [e] at hX
                exact lt_then_x_prefix '`' (by decide) _ _ hX
              have e : before ++ "<xref target=\"".toList ++ _anchor middle ++ "\"/>".toList
                  ++ after = D ++ (X.take (start - D.length) ++
                    ("<xref target=\"".toList ++ _anchor middle ++ "\"/>".toList) ++
                    X.drop (end_ + 2 - D.length)) := by
                rw [eb, ea]
                simp only [List.append_assoc]
              rw [e] at h
              exact ih D _ r hD (lt_then_x_append _ _ (lt_then_x_append _ _ hx1
                (lt_then_x_xref middle)) (lt_then_x_drop _ _ hX)) h

theorem find_at_shift (pat : List Char) (k : Nat) :
    ∀ (l : List Char) (i : Nat), find_at pat l (i + k) = (find_at pat l i).map (· + k) := by
  intro l
  induction l with
  | nil =>
    intro i
    rw [find_at, find_at]
    split <;> rfl
  | cons c cs ih =>
    intro i
    rw [find_at, find_at]
    split
    · rfl
    · have := ih (i + 1)
      rw [show i + 1 + k = i + k + 1 by omega] at this
      exact this

theorem find_zero (l pat : List Char) : find l pat 0 = find_at pat l 0 := by
  simp [find]

theorem beq_backquote_comm (c : Char) : ('`' == c) = (c == '`') := by
  by_cases h : c = '`'
  · subst h; rfl
  · rw [beq_false_of_ne h, beq_false_of_ne (Ne.symm h)]

theorem some_beq_backquote (d : Char) : (some d == some '`') = (d == '`') := by
  by_cases h : d = '`'
  · subst h; rfl
  · rw [beq_false_of_ne h, beq_false_of_ne (fun e => h (Option.some.inj e))]

theorem isPrefixOf_double_backquote (c : Char) (cs : List Char) :
    "``".toList.isPrefixOf (c :: cs) = (c == '`' && cs.head? == some '`') := by
  have e : "``".toList = ['`', '`'] := rfl
  rw [e]
  cases cs with
  | nil =>
    show ('`' == c && false) = (c == '`' && ((none : Option Char) == some '`'))
    rw [Bool.and_false, show ((none : Option Char) == some '`') = false from rfl,
      Bool.and_false]
  | cons d ds =>
    simp only [List.isPrefixOf, List.head?_cons]
    rw [beq_backquote_comm c, beq_backquote_comm d, some_beq_backquote, Bool.and_true]

theorem has_double_backquote_append : ∀ u v : List Char,
    has_double_backquote (u ++ v) = (has_double_backquote u || has_double_backquote v ||
      (u.getLast? == some '`' && v.head? == some '`')) := by
  intro u
  induction u with
  | nil =>
    intro v
    show has_double_backquote v = (false || has_double_backquote v ||
      (((none : Option Char) == some '`') && v.head? == some '`'))
    rw [show ((none : Option Char) == some '`') = false from rfl]
    simp
  | cons c u ih =>
    intro v
    cases u with
    | nil =>
      show ((c == '`' && v.head? == some '`') || has_double_backquote v) =
        (((c == '`' && ((none : Option Char) == some '`')) || false) ||
          has_double_backquote v || ((some c == some '`') && v.head? == some '`'))
      rw [show ((none : Option Char) == some '`') = false from rfl, some_beq_backquote]
      generalize (c == '`') = x
      generalize (v.head? == some '`') = y
      generalize has_double_backquote v = z
      cases x <;> cases y <;> cases z <;> rfl
    | cons d ds =>
      have h := ih v
      show ((c == '`' && (some d == some '`')) || has_double_backquote (d :: ds ++ v)) =
        (((c == '`' && (some d == some '`')) || has_double_backquote (d :: ds)) ||
          has_double_backquote v || ((c :: d :: ds).getLast? == some '`' &&
            v.head? == some '`'))
      rw [h, List.getLast?_cons_cons]
      generalize (c == '`' && (some d == some '`')) = x
      generalize has_double_backquote (d :: ds) = y
      generalize has_double_backquote v = z
      generalize ((d :: ds).getLast? == some '`' && v.head? == some '`') = w
      cases x <;> cases y <;> cases z <;> cases w <;> rfl

theorem has_double_backquote_parts {u v : List Char}
    (h : has_double_backquote (u ++ v) = false) :
    has_double_backquote u = false ∧ has_double_backquote v = false := by
  rw [has_double_backquote_append] at h
  cases h1 : has_double_backquote u <;> cases h2 : has_double_backquote v <;>
    simp [h1, h2] at h ⊢

/-- Appending to a text that has no double backquote and does not end with a backquote. -/
theorem has_double_backquote_after {u v : List Char}
    (hu : has_double_backquote (u ++ ['`']) = false)
    (hv : has_double_backquote v = false) : has_double_backquote (u ++ v) = false := by
  rw [has_double_backquote_append] at hu ⊢
  have h1 : has_double_backquote u = false := by
    cases h : has_double_backquote u
    · rfl
    · rw [h] at hu; simp at hu
  have h2 : (u.getLast? == some '`') = false := by
    cases h : (u.getLast? == some '`')
    · rfl
    · rw [h] at hu; simp at hu
  rw [h1, hv, h2]
  rfl

/-- Appending a text that does not start with a backquote. -/
theorem has_double_backquote_before {u v : List Char}
    (hu : has_double_backquote u = false) (hv : has_double_backquote v = false)
    (hh : v.head? ≠ some '`') : has_double_backquote (u ++ v) = false := by
  rw [has_double_backquote_append, hu, hv]
  have : (v.head? == some '`') = false := by
    cases h : (v.head? == some '`')
    · rfl
    · exact absurd (by simpa using h) hh
  rw [this]
  simp

theorem trim_infix (m : List Char) : ∃ p s, m = p ++ _trim m ++ s := by
  obtain ⟨p, hp⟩ := List.dropWhile_suffix is_space (l := m)
  have h2 : (((m.dropWhile is_space).reverse.dropWhile is_space).reverse)
      <+: (m.dropWhile is_space) := by
    have := List.dropWhile_suffix is_space (l := (m.dropWhile is_space).reverse)
    have := List.reverse_prefix.mpr this
    rwa [List.reverse_reverse] at this
  obtain ⟨s, hs⟩ := h2
  refine ⟨p, s, ?_⟩
  rw [trim_eq, List.append_assoc, hs, hp]

theorem has_double_backquote_trim {m : List Char} (h : has_double_backquote m = false) :
    has_double_backquote (_trim m) = false := by
  obtain ⟨p, s, e⟩ := trim_infix m
  rw [e] at h
  exact (has_double_backquote_parts (has_double_backquote_parts h).1).2

/-- Searching two backquotes: the string splits at the first occurrence, and the text
before it has no double backquote and does not end with a backquote. -/
theorem find_at_double_backquote : ∀ (l : List Char) (i : Nat),
    find_at "``".toList l 0 = some i →
    ∃ a b, l = a ++ "``".toList ++ b ∧ i = a.length ∧
      has_double_backquote (a ++ ['`']) = false := by
  intro l
  induction l with
  | nil => intro i h; simp [find_at, List.isPrefixOf] at h
  | cons c cs ih =>
    intro i h
    rw [find_at] at h
    by_cases hp : "``".toList.isPrefixOf (c :: cs) = true
    · rw [if_pos hp] at h
      cases h
      obtain ⟨b, hb⟩ := List.isPrefixOf_iff_prefix.mp hp
      exact ⟨[], b, by rw [← hb]; rfl, rfl, by decide⟩
    · rw [if_neg hp] at h
      have hs := find_at_shift "``".toList 1 cs 0
      rw [Nat.zero_add] at hs
      rw [hs] at h
      cases h0 : find_at "``".toList cs 0 with
      | none => rw [h0] at h; cases h
      | some j =>
        rw [h0] at h
        simp only [Option.map_some', Option.some.injEq] at h
        obtain ⟨a, b, e, ej, ha⟩ := ih j h0
        refine ⟨c :: a, b, by rw [e]; rfl, by rw [← h, ej]; rfl, ?_⟩
        rw [List.cons_append, has_double_backquote, ha, Bool.or_false]
        rw [isPrefixOf_double_backquote, e] at hp
        have hh : (a ++ ['`']).head? = (a ++ "``".toList ++ b).head? := by
          cases a <;> rfl
        rw [hh]
        simpa using hp

/-- A prefix that has no double backquote and does not end with a backquote is skipped by
the search. -/
theorem find_at_skip : ∀ (D rest : List Char), has_double_backquote (D ++ ['`']) = false →
    find_at "``".toList (D ++ rest) 0 = (find_at "``".toList rest 0).map (· + D.length) := by
  intro D
  induction D with
  | nil =>
    intro rest _
    rw [List.nil_append]
    cases find_at "``".toList rest 0 <;> rfl
  | cons c D ih =>
    intro rest h
    rw [List.cons_append, has_double_backquote, Bool.or_eq_false_iff] at h
    have hp : "``".toList.isPrefixOf (c :: (D ++ rest)) = false := by
      rw [isPrefixOf_double_backquote]
      have hh : (D ++ rest).head? = some '`' → (D ++ ['`']).head? = some '`' := by
        cases D with
        | nil => intro _; rfl
        | cons d ds => exact id
      cases hc : (c == '`')
      · rfl
      · cases hd : ((D ++ rest).head? == some '`')
        · rfl
        · have h1 := h.1
          rw [hc, hh (by simpa using hd)] at h1
          simp at h1
    have hs := find_at_shift "``".toList 1 (D ++ rest) 0
    rw [Nat.zero_add] at hs
    rw [List.cons_append, find_at, hp, hs, ih rest h.2]
    cases find_at "``".toList rest 0 with
    | none => rfl
    | some j =>
      simp only [Option.map_some', List.length_cons, Option.some.injEq, Bool.false_eq_true,
        if_false]
      omega

theorem render_spans_cons (a m : List Char) (pieces : List (List Char × List Char))
    (tail : List Char) :
    render_spans ((a, m) :: pieces) tail
      = a ++ "<tt>".toList ++ m ++ "</tt>".toList ++ render_spans pieces tail := by
  simp [render_spans, List.flatMap_cons]

/-- The loop of `_replace_constant_width_instances` on a line without `<` after a prefix
that has no double backquote and does not end with a backquote: the prefix is kept and the
rest becomes a text with fixed-width spans. -/
theorem _replace_constant_width_instances_loop_spans :
    ∀ (fuel : Nat) (D rest r : List Char), has_double_backquote (D ++ ['`']) = false →
      '<' ∉ rest → _replace_constant_width_instances_loop fuel (D ++ rest) = some r →
      ∃ pieces tail, r = D ++ render_spans pieces tail ∧
        (∀ p ∈ pieces, '<' ∉ p.1 ∧ '<' ∉ p.2) ∧ '<' ∉ tail := by
  intro fuel
  induction fuel with
  | zero => intro D rest r _ _ h; cases h
  | succ fuel ih =>
    intro D rest r hD hr h
    have keep : ∃ pieces tail, D ++ rest = D ++ render_spans pieces tail ∧
        (∀ p ∈ pieces, '<' ∉ p.1 ∧ '<' ∉ p.2) ∧ '<' ∉ tail :=
      ⟨[], rest, by simp [render_spans], fun _ h => absurd h (List.not_mem_nil _), hr⟩
    rw [_replace_constant_width_instances_loop, find_zero, find_at_skip D rest hD] at h
    cases h0 : find_at "``".toList rest 0 with
    | none =>
      rw [h0] at h
      cases h
      exact keep
    | some i =>
      rw [h0] at h
      simp only [Option.map_some'] at h
      obtain ⟨a, b, e, ei, ha⟩ := find_at_double_backquote rest i h0
      have hl : D ++ rest = (D ++ a ++ "``".toList) ++ b := by
        rw [e]; simp only [List.append_assoc]
      have hlen : (D ++ a ++ "``".toList).length = i + D.length + 2 := by
        rw [ei]; simp; omega
      have hf2 : find (D ++ rest) "``".toList (i + D.length + 2)
          = (find_at "``".toList b 0).map (· + (i + D.length + 2)) := by
        rw [hl, ← hlen, find_append_length, ← find_at_shift]
        simp
      rw [hf2] at h
      cases h1 : find_at "``".toList b 0 with
      | none =>
        rw [h1] at h
        cases h
        exact keep
      | some j =>
        rw [h1] at h
        simp only [Option.map_some'] at h
        obtain ⟨m, c, e2, ej, hm⟩ := find_at_double_backquote b j h1
        have hline : D ++ rest = (D ++ a) ++ ("``".toList ++ (m ++ ("``".toList ++ c))) := by
          rw [e, e2]; simp only [List.append_assoc]
        have hlen1 : (D ++ a).length = i + D.length := by
          rw [ei]; simp; omega
        have t1 : (D ++ rest).take (i + D.length) = D ++ a := by
          rw [hline]; exact List.take_left' hlen1
        have t2 : ((D ++ rest).drop (i + D.length + 2)).take
            (j + (i + D.length + 2) - (i + D.length) - 2) = m := by
          have : D ++ rest = (D ++ a ++ "``".toList) ++ (m ++ ("``".toList ++ c)) := by
            rw [hline]; simp only [List.append_assoc]
          rw [this, List.drop_left' hlen]
          exact List.take_left' (by rw [ej]; omega)
        have t3 : (D ++ rest).drop (j + (i + D.length + 2) + 2) = c := by
          have : D ++ rest = (D ++ a ++ "``".toList ++ m ++ "``".toList) ++ c := by
            rw [hline]; simp only [List.append_assoc]
          rw [this]
          exact List.drop_left' (by rw [ei, ej]; simp; omega)
        have b1 : i + D.length + 2 ≤ (D ++ rest).length := by
          rw [hl, List.length_append, hlen]; omega
        have b2 : j + (i + D.length + 2) + 2 ≤ (D ++ rest).length := by
          have : D ++ rest = (D ++ a ++ "``".toList ++ m ++ "``".toList) ++ c := by
            rw [hline]; simp only [List.append_assoc]
          rw [this, List.length_append]
          have : (D ++ a ++ "``".toList ++ m ++ "``".toList).length
              = j + (i + D.length + 2) + 2 := by rw [ei, ej]; simp; omega
          omega
        rw [substr_some _ _ _ (Nat.zero_le _), substr_some _ _ _ b1,
          substr_none _ _ b2] at h
        simp only [List.drop_zero] at h
        rw [t1, t2, t3] at h
        have hra : '<' ∉ a := fun hm => hr (by rw [e]; simp [hm])
        have hrb : '<' ∉ b := fun hm => hr (by rw [e]; simp [hm])
        have hrm : '<' ∉ m := fun hx => hrb (by rw [e2]; simp [hx])
        have hrc : '<' ∉ c := fun hx => hrb (by rw [e2]; simp [hx])
        have hrt : '<' ∉ _trim m := fun hx => hrm (mem_of_mem_trim hx)
        have hm0 : has_double_backquote (_trim m) = false :=
          has_double_backquote_trim (has_double_backquote_parts hm).1
        have hD' : has_double_backquote
            ((D ++ a ++ "<tt>".toList ++ _trim m ++ "</tt>".toList) ++ ['`']) = false := by
          have s1 : has_double_backquote (_trim m ++ ("</tt>".toList ++ ['`'])) = false :=
            has_double_backquote_before hm0 (by decide) (by decide)
          have s2 : has_double_backquote ("<tt>".toList ++ (_trim m ++ ("</tt>".toList ++ ['`'])))
              = false := has_double_backquote_after (by decide) s1
          have s3 := has_double_backquote_after ha s2
          have s4 := has_double_backquote_after hD s3
          simp only [List.append_assoc] at s4 ⊢
          exact s4
        obtain ⟨pieces, tail, er, hp, ht⟩ := ih _ c r hD' hrc h
        refine ⟨(a, _trim m) :: pieces, tail, ?_, ?_, ht⟩
        · rw [er, render_spans_cons]
          simp only [List.append_assoc]
        · intro p hp'
          rcases List.mem_cons.mp hp' with rfl | hp'
          · exact ⟨hra, hrt⟩
          · exact hp p hp'

theorem not_mem_flatMap_subst {c : Char} {to_s l : List Char} {x : Char}
    (hto : x ∉ to_s) (hl : x ∉ l) : x ∉ l.flatMap (subst_char c to_s) := by
  intro h
  obtain ⟨d, hd, hx⟩ := List.mem_flatMap.mp h
  unfold subst_char at hx
  split at hx
  · exact hto hx
  · simp only [List.mem_singleton] at hx
    rw [hx] at hl
    exact hl hd

theorem not_mem_flatMap_subst_self {c : Char} {to_s l : List Char} (hto : c ∉ to_s) :
    c ∉ l.flatMap (subst_char c to_s) := by
  intro h
  obtain ⟨d, hd, hx⟩ := List.mem_flatMap.mp h
  unfold subst_char at hx
  split at hx
  · exact hto hx
  · rename_i hne
    simp only [List.mem_singleton] at hx
    exact hne hx.symm

/-- The text that reaches the two substitution steps of `_handle_escapes` contains no
`<`. -/
theorem _handle_escapes_steps (line : List Char) :
    ∃ x, '<' ∉ x ∧ _handle_escapes line =
      (_replace_constant_width_instances x).bind _replace_internal_links := by
  obtain ⟨l1, h1⟩ := _replace_all_total (_trim line) "\\*".toList "*".toList (by decide)
  obtain ⟨l2, h2⟩ := _replace_all_total l1 "\\|".toList "|".toList (by decide)
  have h3 : _replace_all l2 "&".toList "&amp;".toList = some _ :=
    _replace_all_single '&' "&amp;".toList l2
  have h4 : _replace_all (l2.flatMap (subst_char '&' "&amp;".toList)) "<".toList
      "&lt;".toList = some _ := _replace_all_single '<' "&lt;".toList _
  have h5 : _replace_all ((l2.flatMap (subst_char '&' "&amp;".toList)).flatMap
      (subst_char '<' "&lt;".toList)) ">".toList "&gt;".toList = some _ :=
    _replace_all_single '>' "&gt;".toList _
  refine ⟨((l2.flatMap (subst_char '&' "&amp;".toList)).flatMap
    (subst_char '<' "&lt;".toList)).flatMap (subst_char '>' "&gt;".toList), ?_, ?_⟩
  rotate_left
  · unfold _handle_escapes
    simp only []
    rw [h1]
    simp only []
    rw [h2]
    simp only []
    rw [h3]
    simp only []
    rw [h4]
    simp only []
    rw [h5]
    simp only []
    cases _replace_constant_width_instances (((l2.flatMap (subst_char '&' "&amp;".toList)).flatMap
      (subst_char '<' "&lt;".toList)).flatMap (subst_char '>' "&gt;".toList)) <;> rfl
  · exact not_mem_flatMap_subst (by decide) (not_mem_flatMap_subst_self (by decide))

theorem trim_trim (l : List Char) : _trim (_trim l) = _trim l := by
  have h := trim_rtrim (l.dropWhile is_space)
  rw [← trim_eq l] at h
  rw [h, trim_eq (l.dropWhile is_space), dropWhile_dropWhile]
  rfl

theorem trim_id (l : List Char) (h1 : head_not_space l = true)
    (h2 : last_not_space l = true) : _trim l = l := by
  have d1 : l.dropWhile is_space = l := by
    cases l with
    | nil => rfl
    | cons x t =>
      have hx : is_space x = false := by simpa [head_not_space] using h1
      exact List.dropWhile_cons_of_neg (by simp [hx])
  have d2 : l.reverse.dropWhile is_space = l.reverse := by
    unfold last_not_space at h2
    cases hr : l.reverse with
    | nil => rfl
    | cons x t =>
      rw [hr] at h2
      have hx : is_space x = false := by simpa [head_not_space] using h2
      exact List.dropWhile_cons_of_neg (by simp [hx])
  rw [trim_eq, d1, d2, List.reverse_reverse]

theorem is_anchor_char_of_space (c : Char) (h : is_space c = true) :
    is_anchor_char c = false := by
  unfold is_space at h
  simp only [Bool.or_eq_true, decide_eq_true_eq] at h
  rcases h with ((((h | h) | h) | h) | h) | h <;> subst h <;> decide

theorem filter_dropWhile_space (l : List Char) :
    (l.dropWhile is_space).filter is_anchor_char = l.filter is_anchor_char := by
  induction l with
  | nil => rfl
  | cons x t ih =>
    cases hx : is_space x
    · rw [List.dropWhile_cons_of_neg (by simp [hx])]
    · rw [List.dropWhile_cons_of_pos hx, ih, List.filter_cons_of_neg]
      simp [is_anchor_char_of_space x hx]

/-- The anchor does not depend on the whitespace around the text. -/
theorem _anchor_trim (l : List Char) : _anchor (_trim l) = _anchor l := by
  rw [_anchor_eq_anchor_spec, _anchor_eq_anchor_spec]
  unfold anchor_spec
  rw [trim_eq, List.filter_reverse, filter_dropWhile_space, List.filter_reverse,
    List.reverse_reverse, filter_dropWhile_space]

theorem has_double_backquote_of_not_mem : ∀ l : List Char, '`' ∉ l →
    has_double_backquote l = false := by
  intro l
  induction l with
  | nil => intro _; rfl
  | cons c cs ih =>
    intro h
    have hc : (c == '`') = false := beq_false_of_ne (fun e => h (by simp [e]))
    rw [has_double_backquote, hc, ih (fun hm => h (List.mem_cons_of_mem _ hm))]
    rfl

theorem find_at_none_of_no_double_backquote (l : List Char)
    (h : has_double_backquote l = false) : find_at "``".toList l 0 = none := by
  cases hf : find_at "``".toList l 0 with
  | none => rfl
  | some i =>
    obtain ⟨a, b, e, _, _⟩ := find_at_double_backquote l i hf
    rw [e, has_double_backquote_append, has_double_backquote_append] at h
    have : has_double_backquote "``".toList = true := by decide
    rw [this] at h
    simp at h

/-- A text without backquote between a backquote and a backquote with an underscore
contains no double backquote, unless it is empty. -/
theorem link_line_no_double_backquote (H : List Char) (hne : H ≠ []) (h1 : '`' ∉ H) :
    has_double_backquote ("`".toList ++ H ++ "`_".toList) = false := by
  have a1 : has_double_backquote (H ++ ['`']) = false := by
    rw [has_double_backquote_append, has_double_backquote_of_not_mem H h1]
    have : (H.getLast? == some '`') = false := by
      cases hl : H.getLast? with
      | none => rfl
      | some x =>
        have hx : x ∈ H := List.mem_of_mem_getLast? (Option.mem_def.mpr hl)
        rw [some_beq_backquote]
        exact beq_false_of_ne (fun e => h1 (e ▸ hx))
    rw [this]
    rfl
  have a2 : has_double_backquote (H ++ "`_".toList) = false :=
    has_double_backquote_after a1 (by decide)
  have a3 := has_double_backquote_before (u := "`".toList) (by decide) a2 (by
    cases H with
    | nil => exact absurd rfl hne
    | cons x t =>
      intro e
      simp only [List.cons_append, List.head?_cons, Option.some.injEq] at e
      exact h1 (by simp [e]))
  rw [List.append_assoc]
  exact a3

theorem find_at_link_end : ∀ (H : List Char) (i : Nat), '`' ∉ H →
    find_at "`_".toList (H ++ "`_".toList) i = some (i + H.length) := by
  intro H
  induction H with
  | nil => intro i _; rfl
  | cons c cs ih =>
    intro i h
    have hc : c ≠ '`' := fun e => h (by simp [e])
    have hp : "`_".toList.isPrefixOf (c :: (cs ++ "`_".toList)) = false := by
      have e : "`_".toList = ['`', '_'] := rfl
      rw [e]
      simp [List.isPrefixOf, Ne.symm hc]
    rw [List.cons_append, find_at, hp, ih (i + 1) (fun hm => h (List.mem_cons_of_mem _ hm))]
    simp only [Bool.false_eq_true, if_false, List.length_cons, Option.some.injEq]
    omega

theorem _replace_internal_links_loop_of_not_mem (fuel : Nat) (line : List Char)
    (h : '`' ∉ line) : _replace_internal_links_loop (fuel + 1) line = some line := by
  rw [_replace_internal_links_loop, find_eq_none_of_not_mem "`".toList '`' (by decide) line 0 h]

/-- The cross-reference step on a backquote, a text without backquote, a backquote and an
underscore. -/
theorem _replace_internal_links_single (H : List Char) (h1 : '`' ∉ H) :
    _replace_internal_links ("`".toList ++ H ++ "`_".toList)
      = some ("<xref target=\"".toList ++ _anchor H ++ "\"/>".toList) := by
  have e0 : "`".toList ++ H ++ "`_".toList = '`' :: (H ++ "`_".toList) := by simp
  have hlen : ('`' :: (H ++ "`_".toList)).length + 1 = (H.length + 2) + 1 + 1 := by simp
  have f1 : find ('`' :: (H ++ "`_".toList)) "`".toList 0 = some 0 := by
    have e : "`".toList = ['`'] := rfl
    rw [find_zero, e, find_at]
    simp [List.isPrefixOf]
  have f2 : find ('`' :: (H ++ "`_".toList)) "`_".toList (0 + 1) = some (1 + H.length) := by
    have := find_append_length ['`'] (H ++ "`_".toList) "`_".toList
    rw [show ['`'] ++ (H ++ "`_".toList) = '`' :: (H ++ "`_".toList) from rfl] at this
    rw [show (0 + 1 : Nat) = ['`'].length from rfl, this]
    exact find_at_link_end H _ h1
  have s1 : substr ('`' :: (H ++ "`_".toList)) 0 (some 0) = some [] := by
    rw [substr_some _ _ _ (Nat.zero_le _)]; rfl
  have s2 : substr ('`' :: (H ++ "`_".toList)) (0 + 1) (some (1 + H.length - 0 - 1))
      = some H := by
    rw [substr_some _ _ _ (by simp)]
    have : 1 + H.length - 0 - 1 = H.length := by omega
    rw [this]
    simp
  have s3 : substr ('`' :: (H ++ "`_".toList)) (1 + H.length + 2) none = some [] := by
    rw [substr_none _ _ (by simp; omega)]
    congr 1
    apply List.drop_of_length_le
    simp; omega
  have hq : '`' ∉ [] ++ "<xref target=\"".toList ++ _anchor H ++ "\"/>".toList ++ [] := by
    intro hm
    simp only [List.nil_append, List.append_nil, List.mem_append] at hm
    rcases hm with (hm | hm) | hm
    · revert hm; decide
    · have := List.count_pos_iff.mpr hm
      rw [count_backquote_anchor] at this
      omega
    · revert hm; decide
  unfold _replace_internal_links
  rw [e0, hlen, _replace_internal_links_loop, f1]
  simp only []
  rw [f2]
  simp only []
  rw [s1, s2, s3]
  simp only []
  rw [_replace_internal_links_loop_of_not_mem _ _ hq]
  simp

theorem _handle_escapes_plain_text (H : List Char) (h1 : '`' ∉ H) (h2 : '\\' ∉ H)
    (h3 : '&' ∉ H) (h4 : '<' ∉ H) (h5 : '>' ∉ H) : _handle_escapes H = some (_trim H) := by
  rw [_handle_escapes_plain H h1 h2, flatMap_escape_char_of_plain _
    (fun h => h3 (mem_of_mem_trim h)) (fun h => h4 (mem_of_mem_trim h))
    (fun h => h5 (mem_of_mem_trim h))]

/-- The inline transduction of a backquote, a non-empty text without backquote, backslash,
`&`, `<` and `>`, a backquote and an underscore is the cross-reference to the anchor of
the text. -/
theorem _handle_escapes_link (H : List Char) (hne : H ≠ []) (h1 : '`' ∉ H) (h2 : '\\' ∉ H)
    (h3 : '&' ∉ H) (h4 : '<' ∉ H) (h5 : '>' ∉ H) :
    _handle_escapes ("`".toList ++ H ++ "`_".toList)
      = some ("<xref target=\"".toList ++ _anchor H ++ "\"/>".toList) := by
  have hm : ∀ c : Char, c ≠ '`' → c ≠ '_' → c ∉ H → c ∉ "`".toList ++ H ++ "`_".toList := by
    intro c c1 c2 c3 h
    simp only [List.mem_append] at h
    rcases h with (h | h) | h
    · have : c = '`' := by simpa using h
      exact c1 this
    · exact c3 h
    · have : c = '`' ∨ c = '_' := by simpa using h
      rcases this with e | e
      · exact c1 e
      · exact c2 e
  have ht : _trim ("`".toList ++ H ++ "`_".toList) = "`".toList ++ H ++ "`_".toList := by
    apply trim_id
    · rfl
    · unfold last_not_space
      have : ("`".toList ++ H ++ "`_".toList).reverse = '_' :: '`' :: (H.reverse ++ ['`']) := by
        simp
      rw [this]
      rfl
  have hcw : _replace_constant_width_instances ("`".toList ++ H ++ "`_".toList)
      = some ("`".toList ++ H ++ "`_".toList) := by
    unfold _replace_constant_width_instances
    rw [_replace_constant_width_instances_loop, find_zero,
      find_at_none_of_no_double_backquote _ (link_line_no_double_backquote H hne h1)]
  rw [escape_steps _ (hm '\\' (by decide) (by decide) h2), ht,
    flatMap_escape_char_of_plain _ (hm '&' (by decide) (by decide) h3)
      (hm '<' (by decide) (by decide) h4) (hm '>' (by decide) (by decide) h5), hcw]
  exact _replace_internal_links_single H h1

/-- For a heading text without backquote, backslash, `&`, `<` and `>`, the cross-reference
target and the section anchor are both the anchor of the text: the line is buffered as the
trimmed text, a heading underline opens the section with the anchor of the text, and the
cross-reference to the text has the same target. -/
theorem plain_heading_anchor_is_target (H : List Char) (hne : H ≠ []) (h1 : '`' ∉ H)
    (h2 : '\\' ∉ H) (h3 : '&' ∉ H) (h4 : '<' ∉ H) (h5 : '>' ∉ H) :
    _handle_escapes ("`".toList ++ H ++ "`_".toList)
      = some ("<xref target=\"".toList ++ _anchor H ++ "\"/>".toList) ∧
    _handle_escapes H = some (_trim H) ∧
    ∀ (s : rst2rfcxml) (u : List Char), s._previous_line = _trim H →
      (is_section_heading_1 s u = true ∨ (u ≠ [] ∧ ∀ c ∈ u, c = '-') ∨
        (u ≠ [] ∧ ∀ c ∈ u, c = '~')) →
      ∃ s' pre, process_line s u = some s' ∧
        s'.output = s.output ++ pre ++ ("<section anchor=\"".toList ++ _anchor H ++
          "\" title=\"".toList ++ _trim H ++ "\">".toList ++ "\n".toList) := by
  refine ⟨_handle_escapes_link H hne h1 h2 h3 h4 h5,
    _handle_escapes_plain_text H h1 h2 h3 h4 h5, ?_⟩
  intro s u hs hu
  obtain ⟨s', title, pre, hp, ht, _, ho⟩ := process_line_heading_consumes s u hu
  have e : _handle_escapes (_trim H) = some (_trim H) := by
    have := _handle_escapes_plain_text (_trim H) (fun h => h1 (mem_of_mem_trim h))
      (fun h => h2 (mem_of_mem_trim h)) (fun h => h3 (mem_of_mem_trim h))
      (fun h => h4 (mem_of_mem_trim h)) (fun h => h5 (mem_of_mem_trim h))
    rw [trim_trim] at this
    exact this
  rw [hs, e] at ht
  cases ht
  refine ⟨s', pre, hp, ?_⟩
  rw [ho, _anchor_trim]

set_option maxRecDepth 100000 in
/-- C21 (the code departs from the claim). For the heading text `A & B` the anchor of the
section and the target of the cross-reference differ. The document `.. header::`, `A & B`,
`=====`, then a line with the cross-reference to `A & B`, is written (after the header) as
a section with the anchor `aampampb` and a cross-reference with the target `aampb`:
`process_line` buffers the heading already transduced (`A &amp; B`) and
`handle_title_line` transduces it again before taking the anchor, while the
cross-reference takes the anchor of the text transduced once. For every heading text
without `&`, `<` and `>` (non-empty, without backquote and backslash) the two agree: both
are the anchor of the text. -/
theorem cross_reference_misses_section_anchor :
    (process_input_stream {} [".. header::".toList, "A & B".toList, "=====".toList,
        "See `A & B`_.".toList]).map
      (fun t => t.output.drop (output_header {}).output.length) =
      some ("</front>\n<middle>\n<section anchor=\"aampampb\" title=\"A &amp;amp; B\">\n" ++
        "<t>\nSee <xref target=\"aampb\"/>.\n").toList ∧
    process_lines { _contexts := [MIDDLE, RFC] } ["A & B".toList, "=====".toList] =
      some { _contexts := [SECTION, MIDDLE, RFC],
             output := "<section anchor=\"aampampb\" title=\"A &amp;amp; B\">\n".toList } ∧
    _handle_escapes "`A & B`_".toList = some "<xref target=\"aampb\"/>".toList ∧
    (∀ H : List Char, H ≠ [] → '`' ∉ H → '\\' ∉ H → '&' ∉ H → '<' ∉ H → '>' ∉ H →
      _handle_escapes ("`".toList ++ H ++ "`_".toList)
        = some ("<xref target=\"".toList ++ _anchor H ++ "\"/>".toList) ∧
      _handle_escapes H = some (_trim H) ∧
      ∀ (s : rst2rfcxml) (u : List Char), s._previous_line = _trim H →
        (is_section_heading_1 s u = true ∨ (u ≠ [] ∧ ∀ c ∈ u, c = '-') ∨
          (u ≠ [] ∧ ∀ c ∈ u, c = '~')) →
        ∃ s' pre, process_line s u = some s' ∧
          s'.output = s.output ++ pre ++ ("<section anchor=\"".toList ++ _anchor H ++
            "\" title=\"".toList ++ _trim H ++ "\">".toList ++ "\n".toList)) := by
  refine ⟨by decide, by decide, by decide, ?_⟩
  intro H hne h1 h2 h3 h4 h5
  exact plain_heading_anchor_is_target H hne h1 h2 h3 h4 h5

/-! ## The fixed-width tags and the cross-reference step -/

/-- A pattern that is not a prefix of `w` is not a prefix of `w ++ v` either, when `v` does
not start with a character of the pattern. -/
theorem isPrefixOf_append_of_head : ∀ (ps w v : List Char),
    (∀ x, v.head? = some x → x ∉ ps) →
    ps.isPrefixOf (w ++ v) = ps.isPrefixOf w := by
  intro ps
  induction ps with
  | nil => intro w v _; simp [List.isPrefixOf]
  | cons p ps ih =>
    intro w v hv
    cases w with
    | nil =>
      cases v with
      | nil => rfl
      | cons x v =>
        have hx : x ≠ p := fun e => hv x rfl (by simp [e])
        simp [List.isPrefixOf, Ne.symm hx]
    | cons c w =>
      have := ih w v (fun x hx => fun hm => hv x hx (List.mem_cons_of_mem _ hm))
      show (p == c && ps.isPrefixOf (w ++ v)) = (p == c && ps.isPrefixOf w)
      rw [this]

theorem isPrefixOf_cons_append (p : Char) (ps : List Char) (c : Char) (w v : List Char)
    (hv : ∀ x, v.head? = some x → x ∉ ps) :
    (p :: ps).isPrefixOf (c :: (w ++ v)) = (p :: ps).isPrefixOf (c :: w) := by
  show (p == c && ps.isPrefixOf (w ++ v)) = (p == c && ps.isPrefixOf w)
  rw [isPrefixOf_append_of_head ps w v hv]

theorem output_authors_eq (s : rst2rfcxml) :
    output_authors s = { s with output := s.output ++ s._authors.flatMap output_author } := by
  unfold output_authors
  have key : ∀ (l : List author) (t : rst2rfcxml),
      l.foldl (fun s a => emit s (output_author a)) t
        = { t with output := t.output ++ l.flatMap output_author } := by
    intro l
    induction l with
    | nil => intro t; simp
    | cons a r ih =>
      intro t
      rw [List.foldl_cons, ih]
      simp [emit, List.flatMap_cons]
  exact key _ s

theorem blank_of_not_some {p : List Char}
    (h : ¬ (find_first_not_of p " ".toList 0).isSome = true) :
    (find_first_not_of p " ".toList 0).isNone = true := by
  cases hh : find_first_not_of p " ".toList 0 with
  | none => rfl
  | some j => rw [hh] at h; exact absurd rfl h

theorem not_blank_of_some {p : List Char}
    (h : (find_first_not_of p " ".toList 0).isSome = true) :
    (find_first_not_of p " ".toList 0).isNone = false := by
  cases hh : find_first_not_of p " ".toList 0 with
  | none => rw [hh] at h; cases h
  | some j => rfl

set_option maxHeartbeats 1000000 in
/-- The first statement of `output_previous_line` on a non-blank buffered line writes the
opening markup, the text of the line and the line end. -/
theorem output_previous_line_text_full (s : rst2rfcxml)
    (nb : (find_first_not_of s._previous_line " ".toList 0).isSome = true) :
    ∃ s', output_previous_line_text s = some s' ∧
      s'._previous_line = s._previous_line ∧
      s'.output = s.output ++ flush_openings s ++ shown_text s._previous_line
        ++ "\n".toList ∧
      s'._abbreviated_title = s._abbreviated_title ∧ s'._authors = s._authors := by
  unfold output_previous_line_text flush_openings shown_text
  by_cases hb : starts_with s._previous_line "* ".toList = true
  · rw [if_pos hb, if_pos hb, if_pos hb]
    have hlen : 2 ≤ s._previous_line.length := starts_with_length hb
    by_cases hl : in_context s LIST_ELEMENT = true
    · obtain ⟨c, hc⟩ := in_context_cons hl
      rw [if_pos hl, if_pos hl, if_pos hl, pop_context_cons hc]
      simp only []
      by_cases hu : c.head? = some UNORDERED_LIST
      · have hu2 : in_context { emit s (closing_text LIST_ELEMENT) with _contexts := c }
            UNORDERED_LIST = true := (in_context_iff _ _).mpr hu
        rw [hu2]
        simp only [Bool.not_true, Bool.false_eq_true, if_false]
        rw [show ({ emit s (closing_text LIST_ELEMENT) with _contexts := c } :
          rst2rfcxml)._previous_line = s._previous_line from rfl, substr_none _ _ hlen]
        simp only []
        refine ⟨_, rfl, rfl, ?_, rfl, rfl⟩
        rw [hc, List.tail_cons, if_pos hu]
        simp [push, emit]
      · have hu2 : in_context { emit s (closing_text LIST_ELEMENT) with _contexts := c }
            UNORDERED_LIST = false := by
          rw [Bool.eq_false_iff, Ne, in_context_iff]; exact hu
        rw [hu2]
        simp only [Bool.not_false, if_true]
        rw [show (push (emit { emit s (closing_text LIST_ELEMENT) with _contexts := c }
          "<ul>\n".toList) UNORDERED_LIST)._previous_line = s._previous_line from rfl,
          substr_none _ _ hlen]
        simp only []
        refine ⟨_, rfl, rfl, ?_, rfl, rfl⟩
        rw [hc, List.tail_cons, if_neg hu]
        simp [push, emit]
    · rw [if_neg hl, if_neg hl, if_neg hl]
      simp only []
      by_cases hu : s._contexts.head? = some UNORDERED_LIST
      · have hu2 : in_context s UNORDERED_LIST = true := (in_context_iff _ _).mpr hu
        rw [hu2]
        simp only [Bool.not_true, Bool.false_eq_true, if_false]
        rw [substr_none _ _ hlen]
        simp only []
        refine ⟨_, rfl, rfl, ?_, rfl, rfl⟩
        rw [if_pos hu]
        simp [push, emit]
      · have hu2 : in_context s UNORDERED_LIST = false := by
          rw [Bool.eq_false_iff, Ne, in_context_iff]; exact hu
        rw [hu2]
        simp only [Bool.not_false, if_true]
        rw [show (push (emit s "<ul>\n".toList) UNORDERED_LIST)._previous_line
          = s._previous_line from rfl, substr_none _ _ hlen]
        simp only []
        refine ⟨_, rfl, rfl, ?_, rfl, rfl⟩
        rw [if_neg hu]
        simp [push, emit]
  · rw [if_neg hb, if_neg hb, if_neg hb, if_pos nb]
    by_cases c1 : (in_context s DEFINITION_TERM &&
        starts_with s._previous_line "  ".toList) = true
    · rw [if_pos c1, if_pos c1]
      rw [Bool.and_eq_true] at c1
      obtain ⟨c, hc⟩ := in_context_cons c1.1
      rw [pop_context_cons hc]
      simp only []
      refine ⟨_, rfl, rfl, ?_, rfl, rfl⟩
      simp [push, emit]
    · rw [if_neg c1, if_neg c1]
      by_cases c2 : (!in_context s DEFINITION_DESCRIPTION && !in_context s DEFINITION_TERM &&
          !in_context s TEXT) = true
      · rw [if_pos c2, if_pos c2]
        simp only []
        by_cases hf : in_context s FRONT = true
        · rw [if_pos hf, if_pos hf]
          have hd : in_context (push (emit (output_authors s) "<abstract>\n".toList) ABSTRACT)
              DEFINITION_LIST = false := by
            rw [in_context_push]; rfl
          rw [hd]
          simp only [Bool.false_eq_true, if_false]
          refine ⟨_, rfl, ?_, ?_, ?_, ?_⟩
          · rw [output_authors_eq]; rfl
          · rw [output_authors_eq]
            simp [push, emit]
          · show (output_authors s)._abbreviated_title = s._abbreviated_title
            rw [output_authors_eq]
          · show (output_authors s)._authors = s._authors
            rw [output_authors_eq]
        · rw [if_neg hf, if_neg hf]
          by_cases hdl : in_context s DEFINITION_LIST = true
          · obtain ⟨c, hc⟩ := in_context_cons hdl
            rw [if_pos hdl, if_pos hdl, pop_context_cons hc]
            simp only []
            refine ⟨_, rfl, rfl, ?_, rfl, rfl⟩
            simp [push, emit]
          · rw [if_neg hdl, if_neg hdl]
            simp only []
            refine ⟨_, rfl, rfl, ?_, rfl, rfl⟩
            simp [push, emit]
      · rw [if_neg c2, if_neg c2]
        simp only []
        refine ⟨_, rfl, rfl, ?_, rfl, rfl⟩
        simp [emit]

theorem output_previous_line_text_exact (s : rst2rfcxml)
    (nb : (find_first_not_of s._previous_line " ".toList 0).isSome = true) :
    ∃ s', output_previous_line_text s = some s' ∧
      s'._previous_line = s._previous_line ∧
      s'.output = s.output ++ flush_openings s ++ shown_text s._previous_line
        ++ "\n".toList := by
  obtain ⟨s1, h1, e1, o1, _, _⟩ := output_previous_line_text_full s nb
  exact ⟨s1, h1, e1, o1⟩

/-- Writing the buffered line never fails, keeps the buffered line and writes exactly
`flush_text`. -/
theorem output_previous_line_full (s : rst2rfcxml) :
    ∃ s', output_previous_line s = some s' ∧ s'._previous_line = s._previous_line ∧
      s'.output = s.output ++ flush_text s ∧
      s'._abbreviated_title = s._abbreviated_title ∧ s'._authors = s._authors := by
  unfold flush_text
  by_cases nb : (find_first_not_of s._previous_line " ".toList 0).isSome = true
  · obtain ⟨s1, h1, e1, o1, f1, f2⟩ := output_previous_line_text_full s nb
    unfold output_previous_line
    rw [h1]
    simp only []
    rw [e1, not_blank_of_some nb, if_pos nb]
    simp only [Bool.false_eq_true, if_false]
    exact ⟨s1, rfl, e1, by rw [o1]; simp, f1, f2⟩
  · have hb : starts_with s._previous_line "* ".toList = false := by
      rw [Bool.eq_false_iff]
      intro hb
      apply nb
      cases hh : find_first_not_of s._previous_line " ".toList 0 with
      | some j => rfl
      | none =>
        have e : " ".toList = [' '] := rfl
        rw [e, find_first_not_of_single_eq_none_iff] at hh
        unfold starts_with at hb
        rw [List.isPrefixOf_iff_prefix] at hb
        obtain ⟨t, ht⟩ := hb
        have := hh '*' (by rw [← ht]; simp)
        exact absurd this (by decide)
    unfold output_previous_line output_previous_line_text
    rw [hb]
    simp only [Bool.false_eq_true, if_false]
    rw [if_neg nb]
    simp only []
    rw [blank_of_not_some nb, if_pos rfl, blank_line_loop_eq _ s (Nat.le_refl _), if_neg nb]
    exact ⟨_, rfl, rfl, rfl, rfl, rfl⟩

theorem output_previous_line_exact (s : rst2rfcxml) :
    ∃ s', output_previous_line s = some s' ∧ s'._previous_line = s._previous_line ∧
      s'.output = s.output ++ flush_text s := by
  obtain ⟨s1, h1, e1, o1, _, _⟩ := output_previous_line_full s
  exact ⟨s1, h1, e1, o1⟩

theorem head_of_glyphs {u : List Char} {g : Char} (h : u ≠ [] ∧ ∀ c ∈ u, c = g) :
    u.head? = some g := by
  cases u with
  | nil => exact absurd rfl h.1
  | cons x t => rw [List.head?_cons, h.2 x (by simp)]

theorem glyphs_of_all {u : List Char} {g : Char}
    (h : (!u.isEmpty && u.all (fun c => c == g)) = true) : u ≠ [] ∧ ∀ c ∈ u, c = g := by
  rw [Bool.and_eq_true] at h
  constructor
  · rintro rfl
    simp at h
  · intro c hc
    have := List.all_eq_true.mp h.2 c hc
    simpa using this

theorem is_heading_underline_cases {s : rst2rfcxml} {u : List Char}
    (h : is_heading_underline s u = true) :
    is_section_heading_1 s u = true ∨ (u ≠ [] ∧ ∀ c ∈ u, c = '-') ∨
      (u ≠ [] ∧ ∀ c ∈ u, c = '~') := by
  unfold is_heading_underline at h
  rw [Bool.or_eq_true, Bool.or_eq_true] at h
  rcases h with (h | h) | h
  · exact Or.inl h
  · exact Or.inr (Or.inl (glyphs_of_all h))
  · exact Or.inr (Or.inr (glyphs_of_all h))

/-- A heading underline makes `process_line` write the closing text of the contexts above
the level of the heading and the section opening with the transduced buffered line as
title, and clear the buffer. -/
theorem process_line_heading_full (s : rst2rfcxml) (line : List Char)
    (hu : is_heading_underline s line = true) :
    ∃ s' title, process_line s line = some s' ∧
      _handle_escapes s._previous_line = some title ∧ s'._previous_line = [] ∧
      s'.output = s.output ++ heading_closings s line ++ section_opening title ∧
      s'._abbreviated_title = s._abbreviated_title ∧ s'._authors = s._authors := by
  obtain ⟨title, ht⟩ := _handle_escapes_total s._previous_line
  have hb : BASE_SECTION_LEVEL = 2 := rfl
  unfold section_opening heading_closings
  rcases is_heading_underline_cases hu with hh | hm | hm
  · unfold is_section_heading_1 at hh
    rw [Bool.and_eq_true, Bool.and_eq_true] at hh
    obtain ⟨⟨u1, t1⟩, b1⟩ := hh
    have hg := (underline_test_iff line '=').mp u1
    have hall := hg.2
    obtain ⟨d1, d2, d3⟩ := underline_not_directive line '=' (by decide) hall
    have t1' : in_context s TITLE = false := by simpa using t1
    have b1' : (find_first_not_of s._previous_line " ".toList 0).isNone = false :=
      not_blank_of_some b1
    unfold process_line
    rw [if_neg d1, if_neg d2, if_neg d3]
    unfold handle_title_line
    rw [if_pos u1, t1', b1', hb, pop_contexts_eq 2 s, if_pos (head_of_glyphs hg)]
    simp only [Bool.false_eq_true, if_false]
    by_cases hf : (s._contexts.drop (s._contexts.length - 2)).head? = some FRONT
    · have hf2 : in_context { s with
          output := s.output ++ (s._contexts.take (s._contexts.length - 2)).flatMap
            closing_text,
          _contexts := s._contexts.drop (s._contexts.length - 2) } FRONT = true :=
        (in_context_iff _ _).mpr hf
      rw [if_pos hf2, pop_contexts_eq, if_pos hf]
      simp only []
      rw [open_section_eq _ title (by exact ht)]
      refine ⟨_, title, rfl, ht, rfl, ?_, rfl, rfl⟩
      simp [push, emit, List.append_assoc]
    · have hf2 : in_context { s with
          output := s.output ++ (s._contexts.take (s._contexts.length - 2)).flatMap
            closing_text,
          _contexts := s._contexts.drop (s._contexts.length - 2) } FRONT = false := by
        rw [Bool.eq_false_iff, Ne, in_context_iff]; exact hf
      rw [hf2, if_neg hf]
      simp only [Bool.false_eq_true, if_false]
      rw [open_section_eq _ title (by exact ht)]
      refine ⟨_, title, rfl, ht, rfl, ?_, rfl, rfl⟩
      simp [List.append_assoc]
  · obtain ⟨d1, d2, d3⟩ := underline_not_directive line '-' (by decide) hm.2
    have u1 : (starts_with line "=".toList && (find_first_not_of line "=".toList 0).isNone)
        = false := underline_test_false line '=' (not_both_glyphs (by decide) hm)
    have u2 : (starts_with line "-".toList && (find_first_not_of line "-".toList 0).isNone)
        = true := (underline_test_iff line '-').mpr hm
    have g1 : line.head? ≠ some '=' := by rw [head_of_glyphs hm]; decide
    unfold process_line
    rw [if_neg d1, if_neg d2, if_neg d3]
    unfold handle_title_line
    rw [u1]
    simp only [Bool.false_eq_true, if_false]
    rw [if_pos u2, pop_contexts_eq, if_neg g1, if_pos (head_of_glyphs hm)]
    simp only []
    rw [open_section_eq _ title (by exact ht)]
    exact ⟨_, title, rfl, ht, rfl, rfl, rfl, rfl⟩
  · obtain ⟨d1, d2, d3⟩ := underline_not_directive line '~' (by decide) hm.2
    have u1 : (starts_with line "=".toList && (find_first_not_of line "=".toList 0).isNone)
        = false := underline_test_false line '=' (not_both_glyphs (by decide) hm)
    have u2 : (starts_with line "-".toList && (find_first_not_of line "-".toList 0).isNone)
        = false := underline_test_false line '-' (not_both_glyphs (by decide) hm)
    have u3 : (starts_with line "~".toList && (find_first_not_of line "~".toList 0).isNone)
        = true := (underline_test_iff line '~').mpr hm
    have g1 : line.head? ≠ some '=' := by rw [head_of_glyphs hm]; decide
    have g2 : line.head? ≠ some '-' := by rw [head_of_glyphs hm]; decide
    unfold process_line
    rw [if_neg d1, if_neg d2, if_neg d3]
    unfold handle_title_line
    rw [u1, u2]
    simp only [Bool.false_eq_true, if_false]
    rw [if_pos u3, pop_contexts_eq, if_neg g1, if_neg g2]
    simp only []
    rw [open_section_eq _ title (by exact ht)]
    exact ⟨_, title, rfl, ht, rfl, rfl, rfl, rfl⟩

theorem process_line_heading_exact (s : rst2rfcxml) (line : List Char)
    (hu : is_heading_underline s line = true) :
    ∃ s' title, process_line s line = some s' ∧
      _handle_escapes s._previous_line = some title ∧ s'._previous_line = [] ∧
      s'.output = s.output ++ heading_closings s line ++ section_opening title := by
  obtain ⟨s1, title, h1, h2, h3, h4, _, _⟩ := process_line_heading_full s line hu
  exact ⟨s1, title, h1, h2, h3, h4⟩

/-- A line that reaches the end of `process_line` makes it write the buffered line, as
`output_previous_line` does in the state before the call, and buffer the transduced
line. -/
theorem process_line_flush_exact (s : rst2rfcxml) (line : List Char)
    (h : reaches_flush s line = true) :
    ∃ s2 l, _handle_escapes line = some l ∧ output_previous_line s = some s2 ∧
      s2._previous_line = s._previous_line ∧ s2.output = s.output ++ flush_text s ∧
      process_line s line = some { s2 with _previous_line := l } := by
  unfold reaches_flush at h
  simp only [Bool.and_eq_true, decide_eq_true_eq] at h
  obtain ⟨⟨⟨⟨⟨d1, d2⟩, d3⟩, ht⟩, hb⟩, hv⟩ := h
  obtain ⟨l, he⟩ := _handle_escapes_total line
  rw [he] at hv
  have hv2 : handle_variable_initializations s l = some (false, s) := hv
  obtain ⟨s2, h2, e2, o2⟩ := output_previous_line_exact s
  obtain ⟨s3, h3, h4⟩ := process_line_flush s line l he
  have e : s3 = s2 := by
    rw [h2] at h3
    exact (Option.some.inj h3).symm
  subst e
  refine ⟨s3, l, he, h2, e2, o2, ?_⟩
  unfold process_line
  rw [if_neg d1, if_neg d2, if_neg d3, ht]
  simp only []
  rw [hb]
  simp only []
  rw [he]
  simp only []
  rw [hv2]
  exact h4

theorem is_heading_underline_of_cases {s : rst2rfcxml} {u : List Char}
    (h : is_section_heading_1 s u = true ∨ (u ≠ [] ∧ ∀ c ∈ u, c = '-') ∨
      (u ≠ [] ∧ ∀ c ∈ u, c = '~')) : is_heading_underline s u = true := by
  have all_of : ∀ g : Char, (u ≠ [] ∧ ∀ c ∈ u, c = g) →
      (!u.isEmpty && u.all (fun c => c == g)) = true := by
    intro g hg
    rw [Bool.and_eq_true]
    constructor
    · cases u with
      | nil => exact absurd rfl hg.1
      | cons x t => rfl
    · rw [List.all_eq_true]
      intro c hc
      simpa using hg.2 c hc
  unfold is_heading_underline
  rw [Bool.or_eq_true, Bool.or_eq_true]
  rcases h with h | h | h
  · exact Or.inl (Or.inl h)
  · exact Or.inl (Or.inr (all_of '-' h))
  · exact Or.inr (all_of '~' h)

theorem in_order_cons {s : rst2rfcxml} {line : List Char} {rest : List (List Char)}
    (h : in_order s (line :: rest) = true) :
    (is_heading_underline s line = true ∨ reaches_flush s line = true) ∧
      ∃ s1, process_line s line = some s1 ∧ in_order s1 rest = true := by
  rw [in_order, Bool.and_eq_true, Bool.or_eq_true] at h
  refine ⟨h.1, ?_⟩
  cases hp : process_line s line with
  | none => rw [hp] at h; exact absurd h.2 (by simp)
  | some s1 => rw [hp] at h; exact ⟨s1, rfl, h.2⟩

/-- A heading underline and a line that reaches the end of `process_line` only append to
the output. -/
theorem in_order_step_output {s s1 : rst2rfcxml} {line : List Char}
    (h : is_heading_underline s line = true ∨ reaches_flush s line = true)
    (hp : process_line s line = some s1) : ∃ d, s1.output = s.output ++ d := by
  rcases h with h | h
  · obtain ⟨s', title, e1, _, _, o⟩ := process_line_heading_exact s line h
    rw [e1] at hp
    cases hp
    exact ⟨_, by rw [o, List.append_assoc]⟩
  · obtain ⟨s2, l, _, _, _, o, e1⟩ := process_line_flush_exact s line h
    rw [e1] at hp
    cases hp
    exact ⟨_, o⟩

theorem in_order_run : ∀ (lines : List (List Char)) (s : rst2rfcxml),
    in_order s lines = true →
    ∃ sN, process_lines s lines = some sN ∧ ∃ tail, sN.output = s.output ++ tail := by
  intro lines
  induction lines with
  | nil => intro s _; exact ⟨s, rfl, [], by simp⟩
  | cons line rest ih =>
    intro s h
    obtain ⟨h1, s1, hp, h2⟩ := in_order_cons h
    obtain ⟨sN, e, tail, o⟩ := ih s1 h2
    obtain ⟨d, od⟩ := in_order_step_output h1 hp
    refine ⟨sN, ?_, d ++ tail, ?_⟩
    · rw [process_lines, hp]
      exact e
    · rw [o, od, List.append_assoc]

theorem in_order_append : ∀ (a : List (List Char)) (s : rst2rfcxml) (b : List (List Char)),
    in_order s (a ++ b) = true →
    ∃ sa, process_lines s a = some sa ∧ in_order sa b = true := by
  intro a
  induction a with
  | nil => intro s b h; exact ⟨s, rfl, h⟩
  | cons line rest ih =>
    intro s b h
    rw [List.cons_append] at h
    obtain ⟨_, s1, hp, h2⟩ := in_order_cons h
    obtain ⟨sa, e, h3⟩ := ih s1 b h2
    refine ⟨sa, ?_, h3⟩
    rw [process_lines, hp]
    exact e

/-- Two consecutive lines of a run in which every line is a heading underline or reaches
the end of `process_line`: the run returns; the text that the call for the second line
writes is determined by the state in which that line is read, and everything written for
later lines follows it. -/
theorem in_order_pair (s : rst2rfcxml) (a : List (List Char)) (y x : List Char)
    (b : List (List Char)) (h : in_order s (a ++ y :: x :: b) = true) :
    ∃ sa sy sx sN,
      process_lines s a = some sa ∧ process_line sa y = some sy ∧
      process_line sy x = some sx ∧ process_lines sx b = some sN ∧
      process_lines s (a ++ y :: x :: b) = some sN ∧
      (∃ tail, sN.output = sx.output ++ tail) ∧
      (reaches_flush sa y = true → _handle_escapes y = some sy._previous_line) ∧
      (is_heading_underline sa y = true → sy._previous_line = []) ∧
      (reaches_flush sy x = true →
        sx.output = sy.output ++ flush_text sy ∧
          _handle_escapes x = some sx._previous_line) ∧
      (is_heading_underline sy x = true →
        ∃ title, _handle_escapes sy._previous_line = some title ∧
          sx.output = sy.output ++ heading_closings sy x ++ section_opening title ∧
          sx._previous_line = []) := by
  obtain ⟨sa, ea, h1⟩ := in_order_append a s _ h
  obtain ⟨_, sy, ey, h2⟩ := in_order_cons h1
  obtain ⟨_, sx, ex, h3⟩ := in_order_cons h2
  obtain ⟨sN, eN, tail, oN⟩ := in_order_run b sx h3
  refine ⟨sa, sy, sx, sN, ea, ey, ex, eN, ?_, ⟨tail, oN⟩, ?_, ?_, ?_, ?_⟩
  · rw [process_lines_append, ea]
    show process_lines sa (y :: x :: b) = some sN
    rw [process_lines, ey]
    show process_lines sy (x :: b) = some sN
    rw [process_lines, ex]
    exact eN
  · intro hf
    obtain ⟨s2, l, he, _, _, _, e1⟩ := process_line_flush_exact sa y hf
    rw [e1] at ey
    cases ey
    exact he
  · intro hh
    obtain ⟨s', title, e1, _, p, _⟩ := process_line_heading_exact sa y hh
    rw [e1] at ey
    cases ey
    exact p
  · intro hf
    obtain ⟨s2, l, he, _, _, o, e1⟩ := process_line_flush_exact sy x hf
    rw [e1] at ex
    cases ex
    exact ⟨o, he⟩
  · intro hh
    obtain ⟨s', title, e1, ht, p, o⟩ := process_line_heading_exact sy x hh
    rw [e1] at ex
    cases ex
    exact ⟨title, ht, o, p⟩

/-- The empty line that ends a source, in a run in which every line is a heading underline
or reaches the end of `process_line`: the buffered line is written and the buffer is empty
afterwards. -/
theorem in_order_final (s : rst2rfcxml) (a : List (List Char)) (y : List Char)
    (h : in_order s (a ++ [y, []]) = true) :
    ∃ sy sN, process_lines s (a ++ [y]) = some sy ∧
      process_input_stream s (a ++ [y]) = some sN ∧
      sN.output = sy.output ++ flush_text sy ∧ sN._previous_line = [] := by
  have e : a ++ [y, []] = (a ++ [y]) ++ [[]] := by simp
  rw [e] at h
  obtain ⟨sy, ey, h1⟩ := in_order_append (a ++ [y]) s _ h
  obtain ⟨hk, sN, eN, _⟩ := in_order_cons h1
  have hf : reaches_flush sy [] = true := by
    rcases hk with hk | hk
    · rcases is_heading_underline_cases hk with k | k | k
      · unfold is_section_heading_1 at k
        simp [starts_with] at k
      · exact absurd rfl k.1
      · exact absurd rfl k.1
    · exact hk
  obtain ⟨s2, l, he, _, _, o, e1⟩ := process_line_flush_exact sy [] hf
  have hl : l = [] := by
    have : _handle_escapes [] = some [] := by decide
    rw [this] at he
    exact (Option.some.inj he).symm
  subst hl
  refine ⟨sy, { s2 with _previous_line := [] }, ey, ?_, o, rfl⟩
  rw [process_input_stream_eq, process_lines_append, ey]
  show process_lines sy [[]] = _
  rw [process_lines, e1]
  rfl

/-! ## The order of the output: the flush and runs of text lines and headings -/

/-- C16 (as stated, the claim fails). A ruler overtakes the buffered line. From the initial state the
lines `abc`, `== ==` leave `abc` buffered and unwritten while the table opening of the
second line has been written; the implicit final empty line is then taken as a table
header line, so `abc` is still buffered and unwritten at the end of the source; and when
the table is completed and followed by the line `x`, the text `abc` of the first line is
written after the whole table. A header directive overtakes the buffered line as well:
after `abc` and the header directive the text of the header has been written while `abc`
is buffered, and `abc` is written after it. After `abc` and the contents directive, or a
metadata directive, the call has returned and `abc` is buffered and unwritten. -/
theorem ruler_overtakes_buffered_line :
    process_lines {} ["abc".toList, "== ==".toList] =
      some { _contexts := [TABLE_HEADER, TABLE], _column_indices := [0, 3],
             _previous_line := "abc".toList, output := "<table><thead><tr>\n".toList } ∧
    process_input_stream {} ["abc".toList, "== ==".toList] =
      some { _contexts := [TABLE_HEADER, TABLE], _column_indices := [0, 3],
             _previous_line := "abc".toList, output := "<table><thead><tr>\n".toList } ∧
    process_input_stream {} ["abc".toList, "== ==".toList, "A  B".toList, "== ==".toList,
        "1  2".toList, "== ==".toList, "x".toList] =
      some { _contexts := [TEXT],
             output := ("<table><thead><tr>\n  <th>A</th>\n  <th>B</th>\n</tr></thead>\n" ++
               " <tbody>\n <tr>\n  <td>1</td>\n  <td>2</td>\n </tr>\n</tbody>\n</table>\n" ++
               "<t>\nabc\nx\n").toList } ∧
    process_lines {} ["abc".toList, ".. header::".toList] =
      some { output_header {} with _previous_line := "abc".toList } ∧
    (process_lines {} ["abc".toList, ".. header::".toList, []]).map (fun s => s.output) =
      some ((output_header {}).output ++ "<abstract>\n<t>\nabc\n".toList) ∧
    "<?xml".toList.isPrefixOf (output_header {}).output = true ∧
    process_lines {} ["abc".toList, ".. contents::".toList] =
      some { _previous_line := "abc".toList, output := [] } ∧
    process_lines {} ["abc".toList, ".. |ipr| replace:: x".toList] =
      some { _previous_line := "abc".toList, _ipr := "x".toList, output := [] } := by
  refine ⟨by decide, by decide, by decide, ?_, ?_, ?_, by decide, by decide⟩
  · set_option maxRecDepth 100000 in decide
  · set_option maxRecDepth 100000 in decide
  · set_option maxRecDepth 100000 in decide

/-- C16 (amended). Output order mirrors input order for text lines and headings. A line
reaches the end of `process_line` when it is none of the three directive lines, title
handling and table handling return `false`, and its transduction is no metadata directive.
For such an incoming line the call returns; what it writes is what `output_previous_line`
writes in the state before the call (`flush_text`: for a non-blank buffered line the
opening markup fixed by that state, the text of the buffered line and the line end), so the
buffered line has been written and nothing of the incoming line, whichever line it is; the
transduced incoming line is then buffered. A heading underline consumes the buffered line:
the call writes the closing text of the contexts above the heading and the section opening
with the transduced buffered line as title, and clears the buffer. The empty line that ends
a source reaches the end of `process_line` whenever the innermost context is not a title, a
table header or a table body; the buffered line is then written and the buffer is empty. In
a run in which every line is a heading underline or reaches the end of `process_line`
(`in_order`), for two consecutive lines `y`, `x`: all calls return; after the call for `y`
the buffer holds the transduction of `y` (or is empty, `y` being an underline); the call
for `x` writes that buffered text as above, after everything written before and before
everything written for later lines; and after the final empty line of a source the last
line has been written and the buffer is empty. On a stack with nested tables every call of
`process_line` that returns only appends to the output. -/
theorem buffered_line_written_at_flush (s : rst2rfcxml) (line l : List Char)
    (hd : line ≠ ".. contents::".toList ∧ line ≠ ".. sectnum::".toList ∧
      line ≠ ".. header::".toList)
    (ht : handle_title_line s line = some (false, s))
    (hb : handle_table_line s line = some (false, s))
    (he : _handle_escapes line = some l)
    (hv : handle_variable_initializations s l = some (false, s)) :
    (∃ s2, output_previous_line s = some s2 ∧
      process_line s line = some { s2 with _previous_line := l } ∧
      s2.output = s.output ++ flush_text s ∧
      ((find_first_not_of s._previous_line " ".toList 0).isSome = true →
        s2.output = s.output ++ flush_openings s ++ shown_text s._previous_line
          ++ "\n".toList) ∧
      (∀ line2 : List Char, reaches_flush s line2 = true →
        ∃ l2, _handle_escapes line2 = some l2 ∧
          process_line s line2 = some { s2 with _previous_line := l2 })) ∧
    (∀ u : List Char, (is_section_heading_1 s u = true ∨ (u ≠ [] ∧ ∀ c ∈ u, c = '-') ∨
        (u ≠ [] ∧ ∀ c ∈ u, c = '~')) →
      ∃ s' title, process_line s u = some s' ∧
        _handle_escapes s._previous_line = some title ∧ s'._previous_line = [] ∧
        s'.output = s.output ++ heading_closings s u ++ section_opening title) ∧
    (s._contexts.head? ≠ some TITLE → s._contexts.head? ≠ some TABLE_HEADER →
      s._contexts.head? ≠ some TABLE_BODY →
      ∃ s2, output_previous_line s = some s2 ∧
        process_line s [] = some { s2 with _previous_line := [] } ∧
        s2.output = s.output ++ flush_text s) ∧
    (∀ (a : List (List Char)) (y x : List Char) (b : List (List Char)),
      in_order s (a ++ y :: x :: b) = true →
      ∃ sa sy sx sN,
        process_lines s a = some sa ∧ process_line sa y = some sy ∧
        process_line sy x = some sx ∧ process_lines sx b = some sN ∧
        process_lines s (a ++ y :: x :: b) = some sN ∧
        (∃ tail, sN.output = sx.output ++ tail) ∧
        (reaches_flush sa y = true → _handle_escapes y = some sy._previous_line) ∧
        (is_heading_underline sa y = true → sy._previous_line = []) ∧
        (reaches_flush sy x = true →
          sx.output = sy.output ++ flush_text sy ∧
            _handle_escapes x = some sx._previous_line) ∧
        (is_heading_underline sy x = true →
          ∃ title, _handle_escapes sy._previous_line = some title ∧
            sx.output = sy.output ++ heading_closings sy x ++ section_opening title ∧
            sx._previous_line = [])) ∧
    (∀ (a : List (List Char)) (y : List Char), in_order s (a ++ [y, []]) = true →
      ∃ sy sN, process_lines s (a ++ [y]) = some sy ∧
        process_input_stream s (a ++ [y]) = some sN ∧
        sN.output = sy.output ++ flush_text sy ∧ sN._previous_line = []) ∧
    (table_nested s._contexts = true → ∀ (u : List Char) (s' : rst2rfcxml),
      process_line s u = some s' → ∃ d, s'.output = s.output ++ d) := by
  have flush : ∀ (x lx : List Char),
      (x ≠ ".. contents::".toList ∧ x ≠ ".. sectnum::".toList ∧ x ≠ ".. header::".toList) →
      handle_title_line s x = some (false, s) → handle_table_line s x = some (false, s) →
      _handle_escapes x = some lx →
      handle_variable_initializations s lx = some (false, s) →
      reaches_flush s x = true := by
    intro x lx h1 h2 h3 h4 h5
    unfold reaches_flush
    simp only [Bool.and_eq_true, decide_eq_true_eq]
    refine ⟨⟨⟨⟨⟨h1.1, h1.2.1⟩, h1.2.2⟩, h2⟩, h3⟩, ?_⟩
    rw [h4]
    exact h5
  have step : ∀ x : List Char, reaches_flush s x = true →
      ∀ s2, output_previous_line s = some s2 →
        ∃ l2, _handle_escapes x = some l2 ∧
          process_line s x = some { s2 with _previous_line := l2 } := by
    intro x hx s2 h2
    obtain ⟨s3, l2, e1, e2, _, _, e3⟩ := process_line_flush_exact s x hx
    rw [h2] at e2
    cases e2
    exact ⟨l2, e1, e3⟩
  obtain ⟨s2, h2, _, o2⟩ := output_previous_line_exact s
  refine ⟨⟨s2, h2, ?_, o2, ?_, fun x hx => step x hx s2 h2⟩, ?_, ?_,
    fun a y x b h => in_order_pair s a y x b h, fun a y h => in_order_final s a y h, ?_⟩
  · obtain ⟨l2, e1, e3⟩ := step line (flush line l hd ht hb he hv) s2 h2
    rw [he] at e1
    cases e1
    exact e3
  · intro nb
    rw [o2]
    unfold flush_text
    rw [if_pos nb]
    simp only [List.append_assoc]
  · intro u hu
    exact process_line_heading_exact s u (is_heading_underline_of_cases hu)
  · intro h1 h2' h3
    obtain ⟨l2, e1, e3⟩ := step [] (flush [] [] (by decide)
      (handle_title_line_not_handled s [] (by simp) (by simp) (by simp) h1)
      (handle_table_line_not_handled s [] (by simp) h2' h3) (by decide)
      (handle_variable_initializations_not_handled s [] (by simp))) s2 h2
    have : _handle_escapes [] = some [] := by decide
    rw [this] at e1
    cases e1
    exact ⟨s2, h2, e3, o2⟩
  · intro hn u s' hu
    exact Post_output (process_line_some_post hn hu)

theorem buffered_line_written_at_flush_witness :
    (∃ s2, output_previous_line
        { _contexts := [TEXT, SECTION, MIDDLE, RFC], _previous_line := "abc".toList,
          output := "<t>\n".toList } = some s2 ∧
      process_line
        { _contexts := [TEXT, SECTION, MIDDLE, RFC], _previous_line := "abc".toList,
          output := "<t>\n".toList }
        "  d & e  ".toList = some { s2 with _previous_line := "d &amp; e".toList } ∧
      s2.output = "<t>\n".toList ++ flush_text
        { _contexts := [TEXT, SECTION, MIDDLE, RFC], _previous_line := "abc".toList,
          output := "<t>\n".toList } ∧
      ((find_first_not_of "abc".toList " ".toList 0).isSome = true →
        s2.output = "<t>\n".toList ++ flush_openings
          { _contexts := [TEXT, SECTION, MIDDLE, RFC], _previous_line := "abc".toList,
            output := "<t>\n".toList } ++ shown_text "abc".toList ++ "\n".toList) ∧
      (∀ line2 : List Char, reaches_flush
          { _contexts := [TEXT, SECTION, MIDDLE, RFC], _previous_line := "abc".toList,
            output := "<t>\n".toList } line2 = true →
        ∃ l2, _handle_escapes line2 = some l2 ∧
          process_line
            { _contexts := [TEXT, SECTION, MIDDLE, RFC], _previous_line := "abc".toList,
              output := "<t>\n".toList } line2 = some { s2 with _previous_line := l2 })) ∧
    in_order
      { _contexts := [TEXT, SECTION, MIDDLE, RFC], _previous_line := "abc".toList,
        output := "<t>\n".toList }
      ["  d & e  ".toList, "Next".toList, "----".toList, "* x".toList, "f".toList, []]
      = true ∧
    process_input_stream
      { _contexts := [TEXT, SECTION, MIDDLE, RFC], _previous_line := "abc".toList,
        output := "<t>\n".toList }
      ["  d & e  ".toList, "Next".toList, "----".toList, "* x".toList, "f".toList] =
      some { _contexts := [TEXT, LIST_ELEMENT, UNORDERED_LIST, SECTION, SECTION, MIDDLE, RFC],
             output := ("<t>\nabc\nd &amp; e\n</t>\n" ++
               "<section anchor=\"next\" title=\"Next\">\n<ul>\n<li>x\n<t>\nf\n").toList } :=
  ⟨(buffered_line_written_at_flush
    { _contexts := [TEXT, SECTION, MIDDLE, RFC], _previous_line := "abc".toList,
      output := "<t>\n".toList }
    "  d & e  ".toList "d &amp; e".toList (by decide) (by decide) (by decide) (by decide)
    (by decide)).1, by decide, by decide⟩

/-! ## Occurrences of the tags of the front and middle matter -/

theorem isPrefixOf_append_of_last : ∀ (ps w v : List Char), w ≠ [] →
    (∀ x, w.getLast? = some x → x ∉ ps.dropLast) →
    ps.isPrefixOf (w ++ v) = ps.isPrefixOf w := by
  intro ps
  induction ps with
  | nil => intro w v _ _; simp [List.isPrefixOf]
  | cons p ps ih =>
    intro w v hw hl
    cases w with
    | nil => exact absurd rfl hw
    | cons x w =>
      show (p == x && ps.isPrefixOf (w ++ v)) = (p == x && ps.isPrefixOf w)
      cases w with
      | nil =>
        cases ps with
        | nil => simp [List.isPrefixOf]
        | cons q qs =>
          have hx : x ∉ (p :: q :: qs).dropLast := hl x rfl
          have : p ≠ x := by
            rintro rfl
            exact hx (by simp [List.dropLast])
          simp [this]
      | cons y w =>
        rw [ih (y :: w) v (by simp)]
        intro z hz hm
        apply hl z (by rw [List.getLast?_cons_cons]; exact hz)
        cases ps with
        | nil => simp [List.dropLast] at hm
        | cons q qs =>
          rw [List.dropLast_cons₂]
          exact List.mem_cons_of_mem _ hm

theorem occurrences_append_left (p : List Char) :
    ∀ (u v : List Char), (∀ x, u.getLast? = some x → x ∉ p.dropLast) →
      occurrences p (u ++ v) = occurrences p u + occurrences p v := by
  intro u
  induction u with
  | nil => intro v _; simp [occurrences]
  | cons c u ih =>
    intro v hl
    have h1 : p.isPrefixOf (c :: (u ++ v)) = p.isPrefixOf (c :: u) :=
      isPrefixOf_append_of_last p (c :: u) v (by simp) hl
    have h2 : occurrences p (u ++ v) = occurrences p u + occurrences p v := by
      cases u with
      | nil => simp [occurrences]
      | cons y u =>
        apply ih
        intro x hx
        exact hl x (by rw [List.getLast?_cons_cons]; exact hx)
    show (if p.isPrefixOf (c :: (u ++ v)) then 1 else 0) + occurrences p (u ++ v) = _
    rw [h1, h2]
    show _ = ((if p.isPrefixOf (c :: u) then 1 else 0) + occurrences p u) + _
    omega

theorem occurrences_append_right (p : Char) (ps : List Char) :
    ∀ (u v : List Char), (∀ x, v.head? = some x → x ∉ ps) →
      occurrences (p :: ps) (u ++ v) = occurrences (p :: ps) u + occurrences (p :: ps) v := by
  intro u
  induction u with
  | nil => intro v _; simp [occurrences]
  | cons c u ih =>
    intro v hv
    show (if (p :: ps).isPrefixOf (c :: (u ++ v)) then 1 else 0)
      + occurrences (p :: ps) (u ++ v) = _
    rw [isPrefixOf_cons_append p ps c u v hv, ih v hv]
    show _ = ((if (p :: ps).isPrefixOf (c :: u) then 1 else 0) + occurrences (p :: ps) u) + _
    omega

theorem ends_ok_last {u : List Char} (h : ends_ok u = true) :
    (∀ x, u.getLast? = some x → x ∉ "<middle>".toList.dropLast) ∧
    (∀ x, u.getLast? = some x → x ∉ "</front>".toList.dropLast) := by
  unfold ends_ok at h
  constructor
  · intro x hx
    rw [hx] at h
    simp only [Bool.and_eq_true, Bool.not_eq_true', List.contains_eq_any_beq] at h
    intro hm
    have : ("<middle".toList.any fun a => x == a) = true := by
      rw [List.any_eq_true]
      exact ⟨x, hm, by simp⟩
    rw [this] at h
    exact absurd h.1 (by simp)
  · intro x hx
    rw [hx] at h
    simp only [Bool.and_eq_true, Bool.not_eq_true', List.contains_eq_any_beq] at h
    intro hm
    have : ("</front".toList.any fun a => x == a) = true := by
      rw [List.any_eq_true]
      exact ⟨x, hm, by simp⟩
    rw [this] at h
    exact absurd h.2 (by simp)

theorem starts_ok_head {v : List Char} (h : starts_ok v = true) :
    (∀ x, v.head? = some x → x ∉ "middle>".toList) ∧
    (∀ x, v.head? = some x → x ∉ "/front>".toList) := by
  unfold starts_ok at h
  constructor
  · intro x hx
    rw [hx] at h
    simp only [Bool.and_eq_true, Bool.not_eq_true', List.contains_eq_any_beq] at h
    intro hm
    have : ("middle>".toList.any fun a => x == a) = true := by
      rw [List.any_eq_true]
      exact ⟨x, hm, by simp⟩
    rw [this] at h
    exact absurd h.1 (by simp)
  · intro x hx
    rw [hx] at h
    simp only [Bool.and_eq_true, Bool.not_eq_true', List.contains_eq_any_beq] at h
    intro hm
    have : ("/front>".toList.any fun a => x == a) = true := by
      rw [List.any_eq_true]
      exact ⟨x, hm, by simp⟩
    rw [this] at h
    exact absurd h.2 (by simp)

/-- After a text that ends a tag or a line, the occurrences add up. -/
theorem occurrences_after_ends_ok {u : List Char} (h : ends_ok u = true) (v : List Char) :
    occurrences "<middle>".toList (u ++ v)
      = occurrences "<middle>".toList u + occurrences "<middle>".toList v ∧
    occurrences "</front>".toList (u ++ v)
      = occurrences "</front>".toList u + occurrences "</front>".toList v :=
  ⟨occurrences_append_left _ u v (ends_ok_last h).1,
   occurrences_append_left _ u v (ends_ok_last h).2⟩

/-- Before a text that starts with a character of neither tag, the occurrences add up. -/
theorem occurrences_before_starts_ok (u : List Char) {v : List Char}
    (h : starts_ok v = true) :
    occurrences "<middle>".toList (u ++ v)
      = occurrences "<middle>".toList u + occurrences "<middle>".toList v ∧
    occurrences "</front>".toList (u ++ v)
      = occurrences "</front>".toList u + occurrences "</front>".toList v :=
  ⟨occurrences_append_right '<' "middle>".toList u v (starts_ok_head h).1,
   occurrences_append_right '<' "/front>".toList u v (starts_ok_head h).2⟩

theorem ends_ok_append {u v : List Char} (hu : ends_ok u = true) (hv : ends_ok v = true) :
    ends_ok (u ++ v) = true := by
  cases v with
  | nil => rw [List.append_nil]; exact hu
  | cons x v =>
    unfold ends_ok at hv ⊢
    rw [List.getLast?_append_of_ne_nil _ (by simp)]
    exact hv

theorem ends_ok_append_of_ne_nil (u : List Char) {v : List Char} (hn : v ≠ [])
    (hv : ends_ok v = true) : ends_ok (u ++ v) = true := by
  unfold ends_ok at hv ⊢
  rw [List.getLast?_append_of_ne_nil _ hn]
  exact hv

theorem quiet_nil : quiet [] := ⟨rfl, rfl, rfl⟩

theorem quiet_append {u v : List Char} (hu : quiet u) (hv : quiet v) : quiet (u ++ v) := by
  obtain ⟨a, b⟩ := occurrences_after_ends_ok hu.1 v
  refine ⟨ends_ok_append hu.1 hv.1, ?_, ?_⟩
  · rw [a, hu.2.1, hv.2.1]
  · rw [b, hu.2.2, hv.2.2]

/-- A text without the two tags between a quiet text and a quiet text that starts
with a character of neither tag. -/
theorem quiet_wrap {a t b : List Char} (ha : quiet a) (ht : silent t) (hb : quiet b)
    (hn : b ≠ []) (hs : starts_ok b = true) : quiet (a ++ t ++ b) := by
  rw [List.append_assoc]
  obtain ⟨a1, a2⟩ := occurrences_after_ends_ok ha.1 (t ++ b)
  obtain ⟨b1, b2⟩ := occurrences_before_starts_ok t hs
  refine ⟨ends_ok_append_of_ne_nil _ (by simp [hn]) (ends_ok_append_of_ne_nil _ hn hb.1),
    ?_, ?_⟩
  · rw [a1, b1, ha.2.1, ht.1, hb.2.1]
  · rw [a2, b2, ha.2.2, ht.2, hb.2.2]

theorem quiet_flatMap {α : Type} (f : α → List Char) (l : List α)
    (h : ∀ x ∈ l, quiet (f x)) : quiet (l.flatMap f) := by
  induction l with
  | nil => exact quiet_nil
  | cons x l ih =>
    rw [List.flatMap_cons]
    exact quiet_append (h x (by simp)) (ih (fun y hy => h y (by simp [hy])))

theorem quiet_closing_text (x : xml_context) (hx : x ≠ FRONT) : quiet (closing_text x) := by
  cases x <;> first
    | exact absurd rfl hx
    | exact ⟨by decide, by decide, by decide⟩

theorem quiet_closings (c : List xml_context) (h : FRONT ∉ c) :
    quiet (c.flatMap closing_text) :=
  quiet_flatMap _ c (fun x hx => quiet_closing_text x (fun e => h (e ▸ hx)))

/-! ## Transduced texts contain only the tags of `_handle_escapes` -/

theorem tag_starts_of_not_mem {t : List Char} (h : '<' ∉ t) : tag_starts t = true := by
  induction t with
  | nil => rfl
  | cons c cs ih =>
    have hc : c ≠ '<' := fun e => h (by simp [e])
    rw [tag_starts, ih (fun hm => h (List.mem_cons_of_mem _ hm))]
    simp [hc]

theorem tag_next_append {cs : List Char} (v : List Char) (h : tag_next cs = true) :
    tag_next (cs ++ v) = true := by
  cases cs with
  | nil => exact absurd h (by decide)
  | cons a cs =>
    cases cs with
    | nil =>
      have : tag_next [a] = (a == 't' || a == 'x') := by
        simp [tag_next]
      rw [this] at h
      simp only [tag_next, List.cons_append, List.head?_cons, List.nil_append, List.tail_cons]
      simp only [Bool.or_eq_true, beq_iff_eq] at h
      rcases h with h | h <;> simp [h]
    | cons b cs => exact h

theorem tag_next_of_append {u v : List Char} {c : Char} (hc : c ≠ 't' ∧ c ≠ 'x' ∧ c ≠ '/')
    (h : tag_next (u ++ c :: v) = true) : tag_next u = true := by
  cases u with
  | nil =>
    simp only [tag_next, List.nil_append, List.head?_cons, List.tail_cons] at h
    simp [hc.1, hc.2.1, hc.2.2] at h
  | cons a u =>
    cases u with
    | nil =>
      simp only [tag_next, List.cons_append, List.nil_append, List.head?_cons,
        List.tail_cons] at h
      simp only [tag_next, List.head?_cons, List.tail_cons, List.head?_nil]
      simp only [Bool.or_eq_true, Bool.and_eq_true, beq_iff_eq, Option.some.injEq] at h ⊢
      rcases h with (h | h) | h
      · exact Or.inl (Or.inl h)
      · exact Or.inl (Or.inr h)
      · exact absurd h.2 hc.1
    | cons b u => exact h

theorem tag_starts_append {u v : List Char} (hu : tag_starts u = true)
    (hv : tag_starts v = true) : tag_starts (u ++ v) = true := by
  induction u with
  | nil => exact hv
  | cons c cs ih =>
    rw [tag_starts, Bool.and_eq_true] at hu
    rw [List.cons_append, tag_starts, Bool.and_eq_true]
    refine ⟨?_, ih hu.2⟩
    rw [Bool.or_eq_true] at hu ⊢
    rcases hu.1 with h | h
    · exact Or.inl h
    · exact Or.inr (tag_next_append v h)

theorem tag_starts_suffix (u : List Char) {v : List Char} (h : tag_starts (u ++ v) = true) :
    tag_starts v = true := by
  induction u with
  | nil => exact h
  | cons c cs ih =>
    rw [List.cons_append, tag_starts, Bool.and_eq_true] at h
    exact ih h.2

theorem tag_starts_before {u v : List Char} {c : Char} (hc : c ≠ 't' ∧ c ≠ 'x' ∧ c ≠ '/')
    (h : tag_starts (u ++ c :: v) = true) : tag_starts u = true := by
  induction u with
  | nil => rfl
  | cons a u ih =>
    rw [List.cons_append, tag_starts, Bool.and_eq_true] at h
    rw [tag_starts, Bool.and_eq_true]
    refine ⟨?_, ih h.2⟩
    rw [Bool.or_eq_true] at h ⊢
    rcases h.1 with h1 | h1
    · exact Or.inl h1
    · exact Or.inr (tag_next_of_append hc h1)

theorem tag_starts_drop (n : Nat) {t : List Char} (h : tag_starts t = true) :
    tag_starts (t.drop n) = true := by
  apply tag_starts_suffix (t.take n)
  rw [List.take_append_drop]
  exact h

theorem rtrim_split (l : List Char) :
    ∃ s, l = (l.reverse.dropWhile is_space).reverse ++ s ∧
      ∀ x, s.head? = some x → is_space x = true := by
  refine ⟨(l.reverse.takeWhile is_space).reverse, ?_, ?_⟩
  · rw [← List.reverse_append, List.takeWhile_append_dropWhile, List.reverse_reverse]
  · intro x hx
    have hm : x ∈ (l.reverse.takeWhile is_space).reverse := List.mem_of_mem_head? hx
    rw [List.mem_reverse] at hm
    exact List.mem_takeWhile_imp hm

theorem is_space_not_tag {x : Char} (h : is_space x = true) : x ≠ 't' ∧ x ≠ 'x' ∧ x ≠ '/' := by
  refine ⟨?_, ?_, ?_⟩ <;>
  · rintro rfl
    exact absurd h (by decide)

theorem tag_starts_trim {t : List Char} (h : tag_starts t = true) :
    tag_starts (_trim t) = true := by
  rw [trim_eq]
  have h1 : tag_starts (t.dropWhile is_space) = true := by
    obtain ⟨p, hp⟩ := List.dropWhile_suffix is_space (l := t)
    apply tag_starts_suffix p
    rw [hp]
    exact h
  obtain ⟨s, hs, hx⟩ := rtrim_split (t.dropWhile is_space)
  cases s with
  | nil =>
    rw [List.append_nil] at hs
    rw [← hs]
    exact h1
  | cons c v =>
    rw [hs] at h1
    exact tag_starts_before (is_space_not_tag (hx c rfl)) h1

theorem tag_starts_silent {t : List Char} (h : tag_starts t = true) : silent t := by
  induction t with
  | nil => exact ⟨rfl, rfl⟩
  | cons c cs ih =>
    rw [tag_starts, Bool.and_eq_true] at h
    obtain ⟨i1, i2⟩ := ih h.2
    have key : ∀ (a : Char) (ps : List Char), a ≠ 't' → a ≠ 'x' →
        (a = '/' → ∃ b qs, ps = b :: qs ∧ b ≠ 't') →
        ('<' :: a :: ps).isPrefixOf (c :: cs) = false := by
      intro a ps h1 h2 h3
      cases hp : ('<' :: a :: ps).isPrefixOf (c :: cs) with
      | false => rfl
      | true =>
        exfalso
        cases cs with
        | nil => simp [List.isPrefixOf] at hp
        | cons d ds =>
          simp only [List.isPrefixOf, Bool.and_eq_true, beq_iff_eq] at hp
          obtain ⟨e1, e2, e3⟩ := hp
          subst e1 e2
          have hn : tag_next (a :: ds) = true := by simpa using h.1
          simp only [tag_next, List.head?_cons, List.tail_cons, Bool.or_eq_true,
            Bool.and_eq_true, beq_iff_eq, Option.some.injEq] at hn
          rcases hn with (hn | hn) | hn
          · exact h1 hn
          · exact h2 hn
          · obtain ⟨b, qs, rfl, hb⟩ := h3 hn.1
            cases ds with
            | nil => simp [List.isPrefixOf] at e3
            | cons e es =>
              simp only [List.isPrefixOf, Bool.and_eq_true, beq_iff_eq] at e3
              simp only [List.head?_cons, Option.some.injEq] at hn
              exact hb (e3.1.trans hn.2)
    constructor
    · show (if "<middle>".toList.isPrefixOf (c :: cs) then 1 else 0)
        + occurrences "<middle>".toList cs = 0
      have : "<middle>".toList.isPrefixOf (c :: cs) = false :=
        key 'm' "iddle>".toList (by decide) (by decide) (fun e => absurd e (by decide))
      rw [this, i1]
      rfl
    · show (if "</front>".toList.isPrefixOf (c :: cs) then 1 else 0)
        + occurrences "</front>".toList cs = 0
      have : "</front>".toList.isPrefixOf (c :: cs) = false :=
        key '/' "front>".toList (by decide) (by decide)
          (fun _ => ⟨'f', "ront>".toList, rfl, by decide⟩)
      rw [this, i2]
      rfl

theorem not_lt_mem_anchor (t : List Char) : '<' ∉ _anchor t := by
  intro h
  rw [_anchor_eq_anchor_spec] at h
  exact absurd (anchor_spec_chars t '<' h) (by decide)

theorem tag_starts_xref (middle : List Char) :
    tag_starts ("<xref target=\"".toList ++ _anchor middle ++ "\"/>".toList) = true :=
  tag_starts_append (tag_starts_append (by decide)
    (tag_starts_of_not_mem (not_lt_mem_anchor middle))) (by decide)

theorem tag_starts_render_spans (pieces : List (List Char × List Char)) (tail : List Char)
    (hp : ∀ p ∈ pieces, '<' ∉ p.1 ∧ '<' ∉ p.2) (ht : '<' ∉ tail) :
    tag_starts (render_spans pieces tail) = true := by
  unfold render_spans
  apply tag_starts_append _ (tag_starts_of_not_mem ht)
  induction pieces with
  | nil => rfl
  | cons p ps ih =>
    rw [List.flatMap_cons]
    obtain ⟨a, b⟩ := hp p (by simp)
    exact tag_starts_append (tag_starts_append (tag_starts_append (tag_starts_append
      (tag_starts_of_not_mem a) (by decide)) (tag_starts_of_not_mem b)) (by decide))
      (ih (fun q hq => hp q (by simp [hq])))

/-- The loop of `_replace_internal_links` keeps the property that every `<` starts a tag of
`_handle_escapes`. -/
theorem _replace_internal_links_loop_tag_starts :
    ∀ (fuel : Nat) (line r : List Char), tag_starts line = true →
      _replace_internal_links_loop fuel line = some r → tag_starts r = true := by
  intro fuel
  induction fuel with
  | zero => intro line r _ h; cases h
  | succ fuel ih =>
    intro line r hl h
    rw [_replace_internal_links_loop] at h
    cases hfind : find line "`".toList 0 with
    | none => rw [hfind] at h; cases h; exact hl
    | some start =>
      rw [hfind] at h
      simp only [] at h
      cases hfind2 : find line "`_".toList (start + 1) with
      | none => rw [hfind2] at h; cases h; exact hl
      | some end_ =>
        rw [hfind2] at h
        simp only [] at h
        cases h1 : substr line 0 (some start) with
        | none => rw [h1] at h; cases h
        | some before =>
          cases h2 : substr line (start + 1) (some (end_ - start - 1)) with
          | none => rw [h1, h2] at h; cases h
          | some middle =>
            cases h3 : substr line (end_ + 2) none with
            | none => rw [h1, h2, h3] at h; cases h
            | some after =>
              rw [h1, h2, h3] at h
              simp only [] at h
              obtain ⟨-, p1⟩ := find_some hfind
              have d1 := drop_eq_of_prefix p1
              rw [show "`".toList.length = 1 from rfl] at d1
              have eb := substr_zero h1
              have ea := substr_end h3
              have s1 : line = before ++ '`' :: line.drop (start + 1) := by
                have := (List.take_append_drop start line).symm
                rw [d1, ← eb] at this
                exact this
              have tb : tag_starts before = true := by
                rw [s1] at hl
                exact tag_starts_before (by decide) hl
              have ta : tag_starts after = true := by
                rw [ea]
                exact tag_starts_drop _ hl
              apply ih _ r _ h
              have : before ++ "<xref target=\"".toList ++ _anchor middle ++ "\"/>".toList
                  ++ after = before ++ (("<xref target=\"".toList ++ _anchor middle ++
                    "\"/>".toList) ++ after) := by simp only [List.append_assoc]
              rw [this]
              exact tag_starts_append tb (tag_starts_append (tag_starts_xref middle) ta)

/-- In a transduced text every `<` starts a tag written by `_handle_escapes`. -/
theorem _handle_escapes_tag_starts {line r : List Char} (h : _handle_escapes line = some r) :
    tag_starts r = true := by
  obtain ⟨x, hx, he⟩ := _handle_escapes_steps line
  obtain ⟨r1, h1⟩ := _replace_constant_width_instances_total x
  obtain ⟨pieces, tail, e1, hp, ht⟩ := _replace_constant_width_instances_loop_spans
    (x.length + 1) [] x r1 (by decide) hx h1
  rw [List.nil_append] at e1
  subst e1
  rw [he, h1] at h
  exact _replace_internal_links_loop_tag_starts _ _ r
    (tag_starts_render_spans pieces tail hp ht) h

/-! ## What one call of `process_line` writes -/

theorem process_line_flush_full (s : rst2rfcxml) (line : List Char)
    (h : reaches_flush s line = true) :
    ∃ (s2 : rst2rfcxml) (l : List Char), _handle_escapes line = some l ∧
      process_line s line = some { s2 with _previous_line := l } ∧
      s2.output = s.output ++ flush_text s ∧
      s2._abbreviated_title = s._abbreviated_title ∧ s2._authors = s._authors := by
  obtain ⟨s2, l, he, h2, _, _, e1⟩ := process_line_flush_exact s line h
  obtain ⟨s3, h3, _, o3, f1, f2⟩ := output_previous_line_full s
  rw [h2] at h3
  cases h3
  exact ⟨s2, l, he, e1, o3, f1, f2⟩

theorem quiet_optional_attribute (name value : List Char)
    (hn : quiet (" ".toList ++ name ++ "=\"".toList)) (hv : tag_starts value = true) :
    quiet (_output_optional_attribute name value) := by
  unfold _output_optional_attribute
  split
  · exact quiet_wrap hn (tag_starts_silent hv) ⟨by decide, by decide, by decide⟩
      (by decide) (by decide)
  · exact quiet_nil

theorem quiet_output_author (a : author)
    (h : tag_starts a.fullname = true ∧ tag_starts a.initials = true ∧
      tag_starts a.surname = true ∧ tag_starts a.role = true) :
    quiet (output_author a) := by
  unfold output_author
  refine quiet_append (quiet_append (quiet_append (quiet_append ?_ ?_) ?_) ?_) ?_
  · exact quiet_wrap ⟨by decide, by decide, by decide⟩ (tag_starts_silent h.1)
      ⟨by decide, by decide, by decide⟩ (by decide) (by decide)
  · exact quiet_optional_attribute _ _ ⟨by decide, by decide, by decide⟩ h.2.1
  · exact quiet_optional_attribute _ _ ⟨by decide, by decide, by decide⟩ h.2.2.1
  · exact quiet_optional_attribute _ _ ⟨by decide, by decide, by decide⟩ h.2.2.2
  · exact ⟨by decide, by decide, by decide⟩

theorem quiet_ite (p : Prop) [Decidable p] {a b : List Char} (ha : quiet a) (hb : quiet b) :
    quiet (if p then a else b) := by
  split
  · exact ha
  · exact hb

theorem quiet_flush_openings (s : rst2rfcxml) (hf : fields_ok s) :
    quiet (flush_openings s) := by
  unfold flush_openings
  refine quiet_ite _ (quiet_append (quiet_ite _ ⟨by decide, by decide, by decide⟩ quiet_nil)
    (quiet_ite _ quiet_nil ⟨by decide, by decide, by decide⟩))
    (quiet_ite _ ⟨by decide, by decide, by decide⟩
      (quiet_ite _ (quiet_append (quiet_ite _ ?_
        (quiet_ite _ ⟨by decide, by decide, by decide⟩ quiet_nil))
        ⟨by decide, by decide, by decide⟩) quiet_nil))
  exact quiet_append (quiet_flatMap _ _ (fun a ha => quiet_output_author a
    (hf.2.2 a ha))) ⟨by decide, by decide, by decide⟩

theorem not_front_of_closes_at_blank (c : List xml_context) :
    FRONT ∉ c.takeWhile closes_at_blank := by
  intro h
  exact absurd (List.mem_takeWhile_imp h) (by decide)

theorem quiet_flush_text (s : rst2rfcxml) (hf : fields_ok s) : quiet (flush_text s) := by
  unfold flush_text
  split
  · unfold shown_text
    split
    · have e : flush_openings s ++ ("<li>".toList ++ _trim (s._previous_line.drop 2))
          ++ "\n".toList
          = (flush_openings s ++ "<li>".toList) ++ _trim (s._previous_line.drop 2)
            ++ "\n".toList := by simp only [List.append_assoc]
      rw [e]
      exact quiet_wrap (quiet_append (quiet_flush_openings s hf)
        ⟨by decide, by decide, by decide⟩)
        (tag_starts_silent (tag_starts_trim (tag_starts_drop 2 hf.1)))
        ⟨by decide, by decide, by decide⟩ (by decide) (by decide)
    · exact quiet_wrap (quiet_flush_openings s hf)
        (tag_starts_silent (tag_starts_trim hf.1))
        ⟨by decide, by decide, by decide⟩ (by decide) (by decide)
  · exact quiet_closings _ (not_front_of_closes_at_blank _)

theorem quiet_section_opening (title : List Char) (h : tag_starts title = true) :
    quiet (section_opening title) := by
  unfold section_opening
  exact quiet_append (quiet_wrap (quiet_wrap ⟨by decide, by decide, by decide⟩
    (tag_starts_silent (tag_starts_of_not_mem (not_lt_mem_anchor title)))
    ⟨by decide, by decide, by decide⟩ (by decide) (by decide))
    (tag_starts_silent h) ⟨by decide, by decide, by decide⟩ (by decide) (by decide))
    ⟨by decide, by decide, by decide⟩

theorem not_front_of_take {c : List xml_context} (hph : front_open c ∨ middle_open c)
    (k : Nat) (hk : 2 ≤ k) : FRONT ∉ c.take (c.length - k) := by
  have key : ∀ (upper : List xml_context) (b : xml_context), c = upper ++ [b, RFC] →
      (∀ x ∈ upper, x ≠ FRONT ∧ x ≠ MIDDLE ∧ x ≠ RFC) → FRONT ∉ c.take (c.length - k) := by
    intro upper b hc hu hm
    rw [hc] at hm
    have hlen : (upper ++ [b, RFC]).length - k ≤ upper.length := by
      simp only [List.length_append, List.length_cons, List.length_nil]
      omega
    rw [List.take_append_of_le_length hlen] at hm
    exact (hu FRONT (List.mem_of_mem_take hm)).1 rfl
  rcases hph with ⟨upper, hc, hu⟩ | ⟨upper, hc, hu⟩
  · exact key upper FRONT hc hu
  · exact key upper MIDDLE hc hu

theorem middle_open_drop {c : List xml_context} (h : middle_open c) :
    c.drop (c.length - 2) = [MIDDLE, RFC] := by
  obtain ⟨upper, hc, _⟩ := h
  rw [hc]
  have : (upper ++ [MIDDLE, RFC]).length - 2 = upper.length := by simp
  rw [this, List.drop_left]

theorem quiet_heading (s : rst2rfcxml) (line : List Char)
    (hph : front_open s._contexts ∨ middle_open s._contexts)
    (hno : ¬ (front_open s._contexts ∧ is_section_heading_1 s line = true))
    (hu : is_heading_underline s line = true) :
    quiet (heading_closings s line) := by
  unfold heading_closings
  split
  · rename_i he
    have h1 : is_section_heading_1 s line = true := by
      rcases is_heading_underline_cases hu with k | k | k
      · exact k
      · rw [head_of_glyphs k] at he
        exact absurd he (by decide)
      · rw [head_of_glyphs k] at he
        exact absurd he (by decide)
    have hm : middle_open s._contexts := by
      rcases hph with hf | hm
      · exact absurd ⟨hf, h1⟩ hno
      · exact hm
    rw [middle_open_drop hm]
    simp only [List.head?_cons, Option.some.injEq, reduceCtorEq, if_false, List.append_nil]
    exact quiet_closings _ (not_front_of_take hph 2 (Nat.le_refl 2))
  · split
    · exact quiet_closings _ (not_front_of_take hph 3 (by decide))
    · exact quiet_closings _ (not_front_of_take hph 4 (by decide))

theorem quiet_cell (a value b : List Char) (ha : quiet a) (hb : quiet b) (hn : b ≠ [])
    (hs : starts_ok b = true) (v : List Char) (hv : _handle_escapes v = some value) :
    quiet (a ++ value ++ b) :=
  quiet_wrap ha (tag_starts_silent (_handle_escapes_tag_starts hv)) hb hn hs

theorem header_cells_quiet (line : List Char) :
    ∀ cols, ∃ out, header_cells line cols = some out ∧ quiet out := by
  intro cols
  induction cols with
  | nil => exact ⟨[], rfl, quiet_nil⟩
  | cons start rest ih =>
    obtain ⟨out, ho, qo⟩ := ih
    by_cases hl : line.length > start
    · cases rest with
      | nil =>
        obtain ⟨v, hv⟩ := _handle_escapes_total (line.drop start)
        rw [header_cells]
        rw [if_pos hl, substr_none _ _ (Nat.le_of_lt hl)]
        simp only []
        rw [hv]
        simp only []
        rw [ho]
        exact ⟨_, rfl, quiet_append (quiet_cell _ v _ ⟨by decide, by decide, by decide⟩
          ⟨by decide, by decide, by decide⟩ (by decide) (by decide) _ hv) qo⟩
      | cons next rest =>
        obtain ⟨v, hv⟩ := _handle_escapes_total ((line.drop start).take (size_sub next start))
        rw [header_cells]
        rw [if_pos hl, substr_some _ _ _ (Nat.le_of_lt hl)]
        simp only []
        rw [hv]
        simp only []
        rw [ho]
        exact ⟨_, rfl, quiet_append (quiet_cell _ v _ ⟨by decide, by decide, by decide⟩
          ⟨by decide, by decide, by decide⟩ (by decide) (by decide) _ hv) qo⟩
    · unfold header_cells
      simp only []
      rw [if_neg hl]
      exact ⟨out, ho, qo⟩

theorem body_cells_quiet (line : List Char) :
    ∀ cols, ∃ out, body_cells line cols = some out ∧ quiet out := by
  intro cols
  induction cols with
  | nil => exact ⟨[], rfl, quiet_nil⟩
  | cons start rest ih =>
    obtain ⟨out, ho, qo⟩ := ih
    by_cases hl : line.length ≥ start
    · cases rest with
      | nil =>
        obtain ⟨v, hv⟩ := _handle_escapes_total (line.drop start)
        rw [body_cells]
        rw [if_pos hl, substr_none _ _ hl]
        simp only []
        rw [hv]
        simp only []
        rw [ho]
        exact ⟨_, rfl, quiet_append (quiet_cell _ v _ ⟨by decide, by decide, by decide⟩
          ⟨by decide, by decide, by decide⟩ (by decide) (by decide) _ hv) qo⟩
      | cons next rest =>
        obtain ⟨v, hv⟩ := _handle_escapes_total ((line.drop start).take (size_sub next start))
        rw [body_cells]
        rw [if_pos hl, substr_some _ _ _ hl]
        simp only []
        rw [hv]
        simp only []
        rw [ho]
        exact ⟨_, rfl, quiet_append (quiet_cell _ v _ ⟨by decide, by decide, by decide⟩
          ⟨by decide, by decide, by decide⟩ (by decide) (by decide) _ hv) qo⟩
    · unfold body_cells
      simp only []
      rw [if_neg hl]
      simp only []
      rw [ho]
      exact ⟨_, rfl, quiet_append (quiet_wrap ⟨by decide, by decide, by decide⟩
        ⟨rfl, rfl⟩ ⟨by decide, by decide, by decide⟩ (by decide) (by decide)) qo⟩

theorem not_front_of_closes_before_table (c : List xml_context) :
    FRONT ∉ c.takeWhile closes_before_table := by
  intro h
  exact absurd (List.mem_takeWhile_imp h) (by decide)

/-- Table handling on a stack with nested tables returns; what it writes contains neither
`<middle>` nor `</front>`, and it keeps the buffered line, the abbreviated title and the
authors. -/
theorem handle_table_line_quiet (s : rst2rfcxml) (line : List Char)
    (hn : table_nested s._contexts = true) :
    ∃ b s', handle_table_line s line = some (b, s') ∧
      (∃ d, s'.output = s.output ++ d ∧ quiet d) ∧
      s'._previous_line = s._previous_line ∧
      s'._abbreviated_title = s._abbreviated_title ∧ s'._authors = s._authors ∧
      (b = false → s' = s) := by
  unfold handle_table_line
  by_cases r : ((find_first_not_of line " ".toList 0).isSome &&
      (find_first_not_of line " =".toList 0).isNone) = true
  · rw [if_pos r]
    by_cases tb : in_context s TABLE_BODY = true
    · rw [if_pos tb]
      obtain ⟨c, hc⟩ := in_context_cons tb
      rw [hc] at hn
      cases c with
      | nil => simp [table_nested] at hn
      | cons x c =>
        have hx : x = TABLE := table_nested_body hn
        subst hx
        rw [pop_context_cons hc]
        simp only []
        rw [pop_context_cons (x := TABLE) (c := c) rfl]
        simp only []
        refine ⟨true, _, rfl, ⟨closing_text TABLE_BODY ++ closing_text TABLE, ?_,
          ⟨by decide, by decide, by decide⟩⟩, rfl, rfl, rfl, by intro h; cases h⟩
        simp [emit]
    · rw [if_neg tb]
      by_cases th : in_context s TABLE_HEADER = true
      · rw [if_pos th]
        obtain ⟨c, hc⟩ := in_context_cons th
        rw [pop_context_cons hc]
        simp only []
        refine ⟨true, _, rfl, ⟨closing_text TABLE_HEADER ++ " <tbody>\n".toList, ?_,
          ⟨by decide, by decide, by decide⟩⟩, rfl, rfl, rfl, by intro h; cases h⟩
        simp [emit, push]
      · rw [if_neg th, close_before_table_loop_eq _ s (Nat.le_refl _)]
        simp only []
        rw [show (push (push (emit { s with
            output := s.output ++ (s._contexts.takeWhile closes_before_table).flatMap closing_text,
            _contexts := s._contexts.dropWhile closes_before_table }
            "<table><thead><tr>\n".toList) TABLE) TABLE_HEADER)._column_indices
            = s._column_indices from rfl, column_indices_loop_eq]
        simp only []
        refine ⟨true, _, rfl, ⟨(s._contexts.takeWhile closes_before_table).flatMap
          closing_text ++ "<table><thead><tr>\n".toList, ?_,
          quiet_append (quiet_closings _ (not_front_of_closes_before_table _))
            ⟨by decide, by decide, by decide⟩⟩, rfl, rfl, rfl, by intro h; cases h⟩
        simp [emit, push]
  · rw [if_neg r]
    by_cases th : in_context s TABLE_HEADER = true
    · rw [if_pos th]
      obtain ⟨out, ho, qo⟩ := header_cells_quiet line s._column_indices
      rw [ho]
      exact ⟨true, _, rfl, ⟨out, rfl, qo⟩, rfl, rfl, rfl, by intro h; cases h⟩
    · rw [if_neg th]
      by_cases tb : in_context s TABLE_BODY = true
      · rw [if_pos tb]
        obtain ⟨out, ho, qo⟩ := body_cells_quiet line s._column_indices
        rw [ho]
        exact ⟨true, _, rfl, ⟨_, rfl, quiet_append (quiet_append
          ⟨by decide, by decide, by decide⟩ qo) ⟨by decide, by decide, by decide⟩⟩,
          rfl, rfl, rfl, by intro h; cases h⟩
      · rw [if_neg tb]
        exact ⟨false, s, rfl, ⟨[], by simp, quiet_nil⟩, rfl, rfl, rfl, fun _ => rfl⟩

theorem _handle_variable_initialization_tag_starts {line label field : List Char}
    (h : _handle_variable_initialization line label = some (some field)) :
    tag_starts field = true := by
  unfold _handle_variable_initialization at h
  simp only [] at h
  split at h
  · split at h
    · cases h
    · split at h
      · cases h
      · rename_i he
        cases h
        exact _handle_escapes_tag_starts he
  · cases h

theorem modify_back_mem {f : author → author} {l l' : List author}
    (h : modify_back f l = some l') : ∀ a ∈ l', a ∈ l ∨ ∃ a0 ∈ l, a = f a0 := by
  cases l with
  | nil => cases h
  | cons x r =>
    rw [modify_back] at h
    cases h
    intro a ha
    rw [List.mem_append] at ha
    rcases ha with ha | ha
    · exact Or.inl (List.mem_of_mem_dropLast ha)
    · rw [List.mem_singleton] at ha
      exact Or.inr ⟨_, List.getLast_mem _, ha⟩

theorem fields_ok_add_author {s : rst2rfcxml} {l value : List Char} {n : Nat}
    (hf : fields_ok s) (hl : tag_starts l = true) (hv : substr l n none = some value) :
    fields_ok { s with _authors := s._authors ++ [{ fullname := _trim value }] } := by
  refine ⟨hf.1, hf.2.1, ?_⟩
  intro a ha
  rw [show ({ s with _authors := s._authors ++ [{ fullname := _trim value }] } :
    rst2rfcxml)._authors = s._authors ++ [{ fullname := _trim value }] from rfl,
    List.mem_append] at ha
  rcases ha with ha | ha
  · exact hf.2.2 a ha
  · rw [List.mem_singleton] at ha
    subst ha
    rw [substr_end hv]
    exact ⟨tag_starts_trim (tag_starts_drop _ hl), rfl, rfl, rfl⟩

theorem fields_ok_modify {s : rst2rfcxml} {f : author → author} {authors : List author}
    (hf : fields_ok s) (hm : modify_back f s._authors = some authors)
    (hok : ∀ a, (tag_starts a.fullname = true ∧ tag_starts a.initials = true ∧
        tag_starts a.surname = true ∧ tag_starts a.role = true) →
      (tag_starts (f a).fullname = true ∧ tag_starts (f a).initials = true ∧
        tag_starts (f a).surname = true ∧ tag_starts (f a).role = true)) :
    fields_ok { s with _authors := authors } := by
  refine ⟨hf.1, hf.2.1, ?_⟩
  intro a ha
  rcases modify_back_mem hm a ha with h | ⟨a0, h0, rfl⟩
  · exact hf.2.2 a h
  · exact hok a0 (hf.2.2 a0 h0)

/-- The metadata directives keep transduced texts in the state. -/
theorem handle_variable_initializations_fields (s : rst2rfcxml) (l : List Char)
    (hl : tag_starts l = true) (hf : fields_ok s) :
    ∀ r, handle_variable_initializations s l = some r → fields_ok r.2 := by
  intro r h
  unfold handle_variable_initializations at h
  simp only [] at h
  repeat' split at h
  all_goals first
    | (cases h; done)
    | (cases h; exact hf)
    | (cases h
       exact ⟨hf.1, _handle_variable_initialization_tag_starts
         ‹_handle_variable_initialization _ "titleAbbr".toList = some (some _)›, hf.2.2⟩)
    | (cases h; exact fields_ok_add_author hf hl ‹substr _ _ none = some _›)
    | (cases h
       have hv := substr_end ‹substr _ _ none = some _›
       refine fields_ok_modify hf ‹modify_back _ _ = some _› ?_
       intro a ha
       rw [hv]
       first
         | exact ⟨ha.1, ha.2.1, ha.2.2.1, tag_starts_trim (tag_starts_drop _ hl)⟩
         | exact ⟨ha.1, ha.2.1, tag_starts_trim (tag_starts_drop _ hl), ha.2.2.2⟩
         | exact ⟨ha.1, tag_starts_trim (tag_starts_drop _ hl), ha.2.2.1, ha.2.2.2⟩)

theorem blank_of_not_heading {s : rst2rfcxml} {line : List Char}
    (he : line ≠ [] ∧ ∀ c ∈ line, c = '=') (ht : ¬ in_context s TITLE = true)
    (hu : ¬ is_heading_underline s line = true) : ∀ c ∈ s._previous_line, c = ' ' := by
  have e : " ".toList = [' '] := rfl
  rw [← find_first_not_of_single_eq_none_iff, ← e]
  cases hh : find_first_not_of s._previous_line " ".toList 0 with
  | none => rfl
  | some j =>
    exfalso
    apply hu
    apply is_heading_underline_of_cases
    left
    unfold is_section_heading_1
    have u1 : (starts_with line "=".toList && (find_first_not_of line "=".toList 0).isNone)
        = true := (underline_test_iff line '=').mpr he
    rw [u1, hh]
    simp only [Bool.not_eq_true] at ht
    rw [ht]
    rfl

/-- One call of `process_line` that does not change front matter into middle matter, on a
line other than the header directive: what it writes contains neither `<middle>` nor
`</front>`, provided a line written as title text contains neither. -/
theorem process_line_quiet (s : rst2rfcxml) (line : List Char) (s' : rst2rfcxml)
    (hn : table_nested s._contexts = true)
    (hph : front_open s._contexts ∨ middle_open s._contexts)
    (hf : fields_ok s)
    (hl : line ≠ ".. header::".toList)
    (htt : in_context s TITLE = true → silent line)
    (hno : ¬ (front_open s._contexts ∧ is_section_heading_1 s line = true))
    (h : process_line s line = some s') :
    ∃ d, s'.output = s.output ++ d ∧ quiet d ∧ fields_ok s' := by
  have same : ∀ t : rst2rfcxml, t = s' → t.output = s.output →
      t._previous_line = s._previous_line → t._abbreviated_title = s._abbreviated_title →
      t._authors = s._authors → ∃ d, s'.output = s.output ++ d ∧ quiet d ∧ fields_ok s' := by
    intro t e o p a b
    subst e
    refine ⟨[], by rw [o, List.append_nil], quiet_nil, ?_⟩
    unfold fields_ok
    rw [p, a, b]
    exact hf
  by_cases d1 : line = ".. contents::".toList
  · unfold process_line at h
    rw [if_pos d1] at h
    exact same s (Option.some.inj h) rfl rfl rfl rfl
  by_cases d2 : line = ".. sectnum::".toList
  · unfold process_line at h
    rw [if_neg d1, if_pos d2] at h
    exact same s (Option.some.inj h) rfl rfl rfl rfl
  by_cases hu : is_heading_underline s line = true
  · obtain ⟨s1, title, e1, ht, p1, o1, a1, b1⟩ := process_line_heading_full s line hu
    rw [e1] at h
    cases h
    refine ⟨heading_closings s line ++ section_opening title,
      by rw [o1, List.append_assoc],
      quiet_append (quiet_heading s line hph hno hu)
        (quiet_section_opening title (_handle_escapes_tag_starts ht)), ?_⟩
    unfold fields_ok
    rw [p1, a1, b1]
    exact ⟨rfl, hf.2.1, hf.2.2⟩
  have h2 : ¬ (line ≠ [] ∧ ∀ c ∈ line, c = '-') :=
    fun k => hu (is_heading_underline_of_cases (Or.inr (Or.inl k)))
  have h3 : ¬ (line ≠ [] ∧ ∀ c ∈ line, c = '~') :=
    fun k => hu (is_heading_underline_of_cases (Or.inr (Or.inr k)))
  by_cases he : line ≠ [] ∧ ∀ c ∈ line, c = '='
  · by_cases t : in_context s TITLE = true
    · rw [process_line_title_close s line he t] at h
      exact same _ (Option.some.inj h) rfl rfl rfl rfl
    · rw [process_line_title_open s line he
        (fun k => t ((in_context_iff _ _).mpr k)) (blank_of_not_heading he t hu)] at h
      exact same _ (Option.some.inj h) rfl rfl rfl rfl
  by_cases t : in_context s TITLE = true
  · rw [process_line_title_text s line t ⟨d1, d2, hl⟩ he h2 h3] at h
    cases h
    refine ⟨_, rfl, ?_, hf⟩
    exact quiet_append (quiet_wrap (quiet_wrap ⟨by decide, by decide, by decide⟩
      (tag_starts_silent hf.2.1) ⟨by decide, by decide, by decide⟩ (by decide) (by decide))
      (htt t) ⟨by decide, by decide, by decide⟩ (by decide) (by decide))
      ⟨by decide, by decide, by decide⟩
  have ht := handle_title_line_not_handled s line he h2 h3
    (fun k => t ((in_context_iff _ _).mpr k))
  unfold process_line at h
  rw [if_neg d1, if_neg d2, if_neg hl, ht] at h
  simp only [] at h
  obtain ⟨b2, s2, hb, ⟨d, od, qd⟩, p2, a2, c2, e2⟩ := handle_table_line_quiet s line hn
  rw [hb] at h
  cases b2 with
  | true =>
    simp only [] at h
    cases h
    refine ⟨d, od, qd, ?_⟩
    unfold fields_ok
    rw [p2, a2, c2]
    exact hf
  | false =>
    have := e2 rfl
    subst this
    simp only [] at h
    obtain ⟨l, hl2⟩ := _handle_escapes_total line
    rw [hl2] at h
    simp only [] at h
    rcases handle_variable_initializations_post s2 l with ⟨hv, _⟩ | ⟨b3, s3, hv, c3, o3, r3, e3⟩
    · rw [hv] at h
      cases h
    · have f3 := handle_variable_initializations_fields s2 l
        (_handle_escapes_tag_starts hl2) hf _ hv
      cases b3 with
      | true =>
        rw [hv] at h
        simp only [] at h
        cases h
        exact ⟨[], by rw [o3, List.append_nil], quiet_nil, f3⟩
      | false =>
        have := e3 rfl
        subst this
        have hr : reaches_flush s3 line = true := by
          unfold reaches_flush
          simp only [Bool.and_eq_true, decide_eq_true_eq]
          refine ⟨⟨⟨⟨⟨d1, d2⟩, hl⟩, ht⟩, hb⟩, ?_⟩
          rw [hl2]
          exact hv
        obtain ⟨s4, l4, e4, p4, o4, a4, b4⟩ := process_line_flush_full s3 line hr
        rw [hl2] at e4
        cases e4
        have h' : process_line s3 line = some s' := by
          unfold process_line
          rw [if_neg d1, if_neg d2, if_neg hl, ht]
          simp only []
          rw [hb]
          simp only []
          rw [hl2]
          simp only []
          exact h
        rw [p4] at h'
        cases h'
        refine ⟨flush_text s3, o4, quiet_flush_text s3 hf, ?_⟩
        exact ⟨_handle_escapes_tag_starts hl2, a4 ▸ hf.2.1, b4 ▸ hf.2.2⟩

theorem occurrences_transition {x rest : List Char} (hx : quiet x) (hr : quiet rest) :
    occurrences "<middle>".toList (x ++ "</front>\n".toList ++ "<middle>\n".toList ++ rest) = 1 ∧
    occurrences "</front>".toList (x ++ "</front>\n".toList ++ "<middle>\n".toList ++ rest) = 1 ∧
    ends_ok (x ++ "</front>\n".toList ++ "<middle>\n".toList ++ rest) = true := by
  have e : x ++ "</front>\n".toList ++ "<middle>\n".toList ++ rest
      = x ++ ("</front>\n".toList ++ ("<middle>\n".toList ++ rest)) := by
    simp only [List.append_assoc]
  have f : ends_ok "</front>\n".toList = true := by decide
  have m : ends_ok "<middle>\n".toList = true := by decide
  obtain ⟨a1, a2⟩ := occurrences_after_ends_ok hx.1 ("</front>\n".toList ++
    ("<middle>\n".toList ++ rest))
  obtain ⟨b1, b2⟩ := occurrences_after_ends_ok f ("<middle>\n".toList ++ rest)
  obtain ⟨c1, c2⟩ := occurrences_after_ends_ok m rest
  have v1 : occurrences "<middle>".toList "</front>\n".toList = 0 := by decide
  have v2 : occurrences "<middle>".toList "<middle>\n".toList = 1 := by decide
  have v3 : occurrences "</front>".toList "</front>\n".toList = 1 := by decide
  have v4 : occurrences "</front>".toList "<middle>\n".toList = 0 := by decide
  rw [e]
  refine ⟨?_, ?_, ?_⟩
  · rw [a1, b1, c1, hx.2.1, hr.2.1, v1, v2]
  · rw [a2, b2, c2, hx.2.2, hr.2.2, v3, v4]
  · exact ends_ok_append hx.1 (ends_ok_append f (ends_ok_append m hr.1))

set_option maxRecDepth 100000 in
theorem quiet_output_header : quiet (output_header {}).output :=
  ⟨by decide, by decide, by decide⟩

theorem fields_ok_output_header : fields_ok (output_header {}) :=
  ⟨rfl, rfl, fun _ h => absurd h (List.not_mem_nil _)⟩

/-- The output after the header directive and lines other than the header directive, when
no line written as title text contains `<middle>` or `</front>`: while the front matter is
open the output contains neither; once the middle matter is open the output is the output
before the first recognised level-1 heading, the closing text of the contexts above the
front matter, `</front>`, `<middle>` and a text, and only these two tags occur in it. -/
theorem process_lines_output (pre : List (List Char)) :
    ∀ s : rst2rfcxml, (∀ l ∈ pre, l ≠ ".. header::".toList) →
      (∀ a line b sa, pre = a ++ line :: b →
        process_lines {} (".. header::".toList :: a) = some sa →
        in_context sa TITLE = true → silent line) →
      process_lines {} (".. header::".toList :: pre) = some s →
      fields_ok s ∧ ends_ok s.output = true ∧
      (front_open s._contexts → silent s.output) ∧
      (middle_open s._contexts → ∃ a line b sa upper rest, pre = a ++ line :: b ∧
        process_lines {} (".. header::".toList :: a) = some sa ∧
        sa._contexts = upper ++ [FRONT, RFC] ∧ front_open sa._contexts ∧
        is_section_heading_1 sa line = true ∧
        s.output = sa.output ++ upper.flatMap closing_text ++ "</front>\n".toList ++
          "<middle>\n".toList ++ rest ∧
        quiet (sa.output ++ upper.flatMap closing_text) ∧ quiet rest) := by
  induction pre using List.reverseRecOn with
  | nil =>
    intro s _ _ hs
    rw [process_lines_header] at hs
    cases hs
    refine ⟨fields_ok_output_header, quiet_output_header.1, fun _ => quiet_output_header.2, ?_⟩
    intro hm
    exact absurd ⟨front_open_after_header, hm⟩ (not_front_and_middle _)
  | append_singleton p l ih =>
    intro s hh htt hs
    have hs0 : process_lines {} ((".. header::".toList :: p) ++ [l]) = some s := hs
    obtain ⟨sp, hp, hstep⟩ := process_lines_snoc hs0
    have hhp : ∀ x ∈ p, x ≠ ".. header::".toList :=
      fun x hx => hh x (List.mem_append_left _ hx)
    have hl : l ≠ ".. header::".toList := hh l (by simp)
    obtain ⟨fp, ep, hfr, hmid⟩ := ih sp hhp
      (fun a line b sa e => htt a line (b ++ [l]) sa (by rw [e]; simp)) hp
    have hp0 := hp
    rw [process_lines_header] at hp0
    obtain ⟨hn, hph⟩ := process_lines_phase p (output_header {}) sp hhp
      (by decide) (Or.inl front_open_after_header) hp0
    have post := process_line_some_post hn hstep
    rw [decide_eq_false hl] at post
    by_cases htr : front_open sp._contexts ∧ is_section_heading_1 sp l = true
    · obtain ⟨⟨upper, hc, hup⟩, hyes⟩ := htr
      obtain ⟨title, ht, hr⟩ := process_line_heading_1 sp l upper hc hyes
      rw [hr] at hstep
      cases hstep
      have qx : quiet (sp.output ++ upper.flatMap closing_text) :=
        quiet_append ⟨ep, hfr ⟨upper, hc, hup⟩⟩
          (quiet_closings upper (fun hm => (hup FRONT hm).1 rfl))
      have qr := quiet_section_opening title (_handle_escapes_tag_starts ht)
      have hmo : middle_open [SECTION, MIDDLE, RFC] :=
        ⟨[SECTION], rfl, by intro x hx; simp at hx; subst hx; decide⟩
      refine ⟨⟨rfl, fp.2.1, fp.2.2⟩, (occurrences_transition qx qr).2.2, ?_, ?_⟩
      · intro hfo
        exact absurd ⟨hfo, hmo⟩ (not_front_and_middle _)
      · intro _
        exact ⟨p, l, [], sp, upper, _, rfl, hp, hc, ⟨upper, hc, hup⟩, hyes, rfl, qx, qr⟩
    · obtain ⟨d, od, qd, fd⟩ := process_line_quiet sp l s hn hph fp hl
        (htt p l [] sp rfl hp) htr hstep
      have keepm : middle_open sp._contexts → middle_open s._contexts :=
        fun hm => Moves_middle_open post.1 hn hm
      have keepf : front_open sp._contexts → front_open s._contexts := by
        intro hf
        have hno : is_section_heading_1 sp l = false := by
          cases hv : is_section_heading_1 sp l with
          | false => rfl
          | true => exact absurd ⟨hf, hv⟩ htr
        rw [hno] at post
        exact Moves_front_open post.1 hn hf
      refine ⟨fd, by rw [od]; exact ends_ok_append ep qd.1, ?_, ?_⟩
      · intro hfo
        rcases hph with hf | hm
        · rw [od]
          exact (quiet_append ⟨ep, hfr hf⟩ qd).2
        · exact absurd ⟨hfo, keepm hm⟩ (not_front_and_middle _)
      · intro hmo
        rcases hph with hf | hm
        · exact absurd ⟨keepf hf, hmo⟩ (not_front_and_middle _)
        · obtain ⟨a, line, b, sa, upper, rest, e1, e2, e3, e4, e5, e6, e7, e8⟩ := hmid hm
          refine ⟨a, line, b ++ [l], sa, upper, rest ++ d, by rw [e1]; simp, e2, e3, e4, e5,
            ?_, e7, quiet_append e8 qd⟩
          rw [od, e6]
          simp only [List.append_assoc]

/-! ## The one-time change from front matter to middle matter -/

set_option maxRecDepth 100000 in
/-- C12 (as stated, the claim fails). With a second header directive the closing of the front matter
is not written exactly once at the first level-1 heading. After the lines `.. header::`,
`.. header::`, `H` the stack is `[FRONT, RFC, FRONT, RFC]`, and the heading underline `===`
writes `</front>` twice. After the lines `.. header::`, `H`, `===`, `.. header::`, `G` the
stack is `[FRONT, RFC, SECTION, MIDDLE, RFC]`, and the underline `===` of the second heading
writes `</front>` again. A title text is written as it is: after the lines `.. header::`,
`===`, `<middle>`, `===`, `H`, `===` the output contains `<middle>` twice, once in the
title and once at the heading. -/
theorem second_header_closes_front_again :
    (process_lines {} [".. header::".toList, ".. header::".toList, "H".toList]).bind
      (fun s => (process_line s "===".toList).map
        (fun t => (s._contexts, t._contexts, t.output.drop s.output.length))) =
      some ([FRONT, RFC, FRONT, RFC], [SECTION, MIDDLE, RFC],
        "</front>\n</rfc>\n</front>\n<middle>\n<section anchor=\"h\" title=\"H\">\n".toList) ∧
    (process_lines {} [".. header::".toList, "H".toList, "===".toList, ".. header::".toList,
        "G".toList]).bind
      (fun s => (process_line s "===".toList).map
        (fun t => (s._contexts, t._contexts, t.output.drop s.output.length))) =
      some ([FRONT, RFC, SECTION, MIDDLE, RFC], [SECTION, MIDDLE, RFC],
        "</front>\n</rfc>\n</section>\n<section anchor=\"g\" title=\"G\">\n".toList) ∧
    (process_lines {} [".. header::".toList, "===".toList, "<middle>".toList, "===".toList,
        "H".toList, "===".toList]).map
      (fun s => (s._contexts, s.output.drop (output_header {}).output.length,
        occurrences "<middle>".toList s.output, occurrences "</front>".toList s.output)) =
      some ([SECTION, MIDDLE, RFC],
        ("<title abbrev=\"\"><middle></title>\n</front>\n<middle>\n" ++
          "<section anchor=\"h\" title=\"H\">\n").toList, 2, 1) := by
  refine ⟨by decide, by decide, by decide⟩

/-- C12 (amended). One-time front-to-middle transition, for input in which the header
directive is the first line and does not occur again. In every state `s` reached after the
header directive, exactly one of the front matter and the middle matter is open (the stack
ends with `FRONT` or with `MIDDLE` on the root `RFC`, with no `FRONT`, `MIDDLE` or `RFC`
above), and the middle matter is open exactly when a level-1 section heading has been
recognised by an earlier line. For a next line other than the header directive: once the
middle matter is open it stays open (there is no front matter on the stack to close
again); while the front matter is open, a line that is not a recognised level-1 heading
leaves it open, and a recognised level-1 heading closes the contexts above the front
matter, writes `</front>` and `<middle>` once, and opens the section. The sources are
processed as one sequence of lines, each source followed by its empty line, so the
division of the lines among sources does not matter. When moreover no line written as
title text contains `<middle>` or `</front>`, the output says the same: while the front
matter is open the output contains neither tag, and a line that is no recognised level-1
heading writes neither; once the middle matter is open `<middle>` and `</front>` each occur
exactly once in the output, written at the first recognised level-1 heading (no earlier
line was one) after the output so far and the closing text of the contexts above the front
matter; every later line writes a text that contains neither tag, so each still occurs
exactly once, and so it is after the closing texts written at the end of the input. -/
theorem front_to_middle_once (pre : List (List Char)) (s : rst2rfcxml)
    (hh : ∀ l ∈ pre, l ≠ ".. header::".toList)
    (hs : process_lines {} (".. header::".toList :: pre) = some s) :
    ((front_open s._contexts ∨ middle_open s._contexts) ∧
      ¬ (front_open s._contexts ∧ middle_open s._contexts)) ∧
    (middle_open s._contexts ↔ ∃ a line b sa, pre = a ++ line :: b ∧
      process_lines {} (".. header::".toList :: a) = some sa ∧
      is_section_heading_1 sa line = true) ∧
    (∀ line s', line ≠ ".. header::".toList → process_line s line = some s' →
      (middle_open s._contexts → middle_open s'._contexts) ∧
      (front_open s._contexts → is_section_heading_1 s line = false →
        front_open s'._contexts) ∧
      (front_open s._contexts → is_section_heading_1 s line = true →
        ∃ upper title, s._contexts = upper ++ [FRONT, RFC] ∧
          _handle_escapes s._previous_line = some title ∧
          s' = { s with
            output := s.output ++ upper.flatMap closing_text ++ "</front>\n".toList ++
              "<middle>\n".toList ++ ("<section anchor=\"".toList ++ _anchor title ++
              "\" title=\"".toList ++ title ++ "\">".toList ++ "\n".toList),
            _contexts := [SECTION, MIDDLE, RFC],
            _previous_line := [] })) ∧
    (∀ (s0 : rst2rfcxml) (files : List (List (List Char))),
      process_streams s0 files = process_lines s0 (files.flatMap (fun f => f ++ [[]]))) ∧
    ((∀ a line b sa, pre = a ++ line :: b →
        process_lines {} (".. header::".toList :: a) = some sa →
        in_context sa TITLE = true →
        occurrences "<middle>".toList line = 0 ∧ occurrences "</front>".toList line = 0) →
      (front_open s._contexts →
        (occurrences "<middle>".toList s.output = 0 ∧
          occurrences "</front>".toList s.output = 0) ∧
        (∀ line s', line ≠ ".. header::".toList →
          (in_context s TITLE = true →
            occurrences "<middle>".toList line = 0 ∧
              occurrences "</front>".toList line = 0) →
          is_section_heading_1 s line = false → process_line s line = some s' →
          ∃ d, s'.output = s.output ++ d ∧
            occurrences "<middle>".toList d = 0 ∧ occurrences "</front>".toList d = 0 ∧
            occurrences "<middle>".toList s'.output = 0 ∧
            occurrences "</front>".toList s'.output = 0)) ∧
      (middle_open s._contexts →
        (occurrences "<middle>".toList s.output = 1 ∧
          occurrences "</front>".toList s.output = 1) ∧
        (∃ a line b sa upper rest, pre = a ++ line :: b ∧
          process_lines {} (".. header::".toList :: a) = some sa ∧
          sa._contexts = upper ++ [FRONT, RFC] ∧ is_section_heading_1 sa line = true ∧
          (∀ a1 l1 b1 s1, a = a1 ++ l1 :: b1 →
            process_lines {} (".. header::".toList :: a1) = some s1 →
            is_section_heading_1 s1 l1 = false) ∧
          s.output = sa.output ++ upper.flatMap closing_text ++ "</front>\n".toList ++
            "<middle>\n".toList ++ rest ∧
          occurrences "<middle>".toList (sa.output ++ upper.flatMap closing_text) = 0 ∧
          occurrences "</front>".toList (sa.output ++ upper.flatMap closing_text) = 0 ∧
          occurrences "<middle>".toList rest = 0 ∧
          occurrences "</front>".toList rest = 0) ∧
        (∀ line s', line ≠ ".. header::".toList →
          (in_context s TITLE = true →
            occurrences "<middle>".toList line = 0 ∧
              occurrences "</front>".toList line = 0) →
          process_line s line = some s' →
          ∃ d, s'.output = s.output ++ d ∧
            occurrences "<middle>".toList d = 0 ∧ occurrences "</front>".toList d = 0 ∧
            occurrences "<middle>".toList s'.output = 1 ∧
            occurrences "</front>".toList s'.output = 1) ∧
        (∀ sf, pop_contexts 0 s = some sf →
          occurrences "<middle>".toList sf.output = 1 ∧
            occurrences "</front>".toList sf.output = 1))) := by
  have hs0 := hs
  rw [process_lines_header] at hs0
  obtain ⟨hn, hph⟩ := process_lines_phase pre (output_header {}) s hh
    (by decide) (Or.inl front_open_after_header) hs0
  refine ⟨⟨hph, not_front_and_middle _⟩, middle_open_iff_heading pre s hh hs, ?_,
    fun s0 files => process_streams_eq files s0, ?_⟩
  · intro line s' hl hstep
    have post := process_line_some_post hn hstep
    rw [decide_eq_false hl] at post
    refine ⟨fun hm => Moves_middle_open post.1 hn hm, ?_, ?_⟩
    · intro hf hno
      rw [hno] at post
      exact Moves_front_open post.1 hn hf
    · rintro ⟨upper, hc, _⟩ hyes
      obtain ⟨title, ht, hr⟩ := process_line_heading_1 s line upper hc hyes
      rw [hr] at hstep
      cases hstep
      exact ⟨upper, title, hc, ht, rfl⟩
  · intro htt
    obtain ⟨fs, es, hfr, hmid⟩ := process_lines_output pre s hh htt hs
    constructor
    · intro hf
      refine ⟨hfr hf, ?_⟩
      intro line s' hl ht hno hstep
      obtain ⟨d, od, qd, _⟩ := process_line_quiet s line s' hn hph fs hl ht
        (fun k => by rw [hno] at k; exact absurd k.2 (by decide)) hstep
      obtain ⟨a1, a2⟩ := occurrences_after_ends_ok es d
      refine ⟨d, od, qd.2.1, qd.2.2, ?_, ?_⟩
      · rw [od, a1, (hfr hf).1, qd.2.1]
      · rw [od, a2, (hfr hf).2, qd.2.2]
    · intro hm
      obtain ⟨a, line, b, sa, upper, rest, e1, e2, e3, e4, e5, e6, e7, e8⟩ := hmid hm
      have tr := occurrences_transition e7 e8
      rw [← e6] at tr
      refine ⟨⟨tr.1, tr.2.1⟩, ⟨a, line, b, sa, upper, rest, e1, e2, e3, e5, ?_, e6,
        e7.2.1, e7.2.2, e8.2.1, e8.2.2⟩, ?_, ?_⟩
      · intro a1 l1 b1 s1 ea hs1
        cases hv : is_section_heading_1 s1 l1 with
        | false => rfl
        | true =>
          exfalso
          have hha : ∀ x ∈ a, x ≠ ".. header::".toList := by
            intro x hx
            exact hh x (by rw [e1]; exact List.mem_append_left _ hx)
          have := (middle_open_iff_heading a sa hha e2).mpr ⟨a1, l1, b1, s1, ea, hs1, hv⟩
          exact not_front_and_middle _ ⟨e4, this⟩
      · intro line s' hl ht hstep
        obtain ⟨d, od, qd, _⟩ := process_line_quiet s line s' hn hph fs hl ht
          (fun k => not_front_and_middle _ ⟨k.1, hm⟩) hstep
        obtain ⟨a1, a2⟩ := occurrences_after_ends_ok es d
        refine ⟨d, od, qd.2.1, qd.2.2, ?_, ?_⟩
        · rw [od, a1, tr.1, qd.2.1]
        · rw [od, a2, tr.2.1, qd.2.2]
      · intro sf hsf
        rw [pop_contexts_eq] at hsf
        cases hsf
        have hnf : FRONT ∉ s._contexts.take (s._contexts.length - 0) := by
          intro hx
          obtain ⟨up, hc, hu⟩ := hm
          have hx2 := List.mem_of_mem_take hx
          rw [hc, List.mem_append] at hx2
          rcases hx2 with hx2 | hx2
          · exact (hu FRONT hx2).1 rfl
          · simp at hx2
        have qc := quiet_closings _ hnf
        obtain ⟨a1, a2⟩ := occurrences_after_ends_ok es
          ((s._contexts.take (s._contexts.length - 0)).flatMap closing_text)
        exact ⟨by rw [a1, tr.1, qc.2.1], by rw [a2, tr.2.1, qc.2.2]⟩

set_option maxRecDepth 100000 in
theorem front_to_middle_once_witness :
    process_lines {} [".. header::".toList, "Intro".toList, "=====".toList, "* a".toList] =
      some { _contexts := [SECTION, MIDDLE, RFC], _previous_line := "* a".toList,
             output := xml_preamble ++ ("<rfc ipr=\"\" docName=\"\" category=\"\" " ++
               "submissionType=\"\">\n\n  <front>\n</front>\n<middle>\n" ++
               "<section anchor=\"intro\" title=\"Intro\">\n").toList } ∧
    ((front_open [SECTION, MIDDLE, RFC] ∨ middle_open [SECTION, MIDDLE, RFC]) ∧
      ¬ (front_open [SECTION, MIDDLE, RFC] ∧ middle_open [SECTION, MIDDLE, RFC])) ∧
    (occurrences "<middle>".toList (xml_preamble ++ ("<rfc ipr=\"\" docName=\"\" category=\"\" " ++
        "submissionType=\"\">\n\n  <front>\n</front>\n<middle>\n" ++
        "<section anchor=\"intro\" title=\"Intro\">\n").toList) = 1 ∧
      occurrences "</front>".toList (xml_preamble ++ ("<rfc ipr=\"\" docName=\"\" category=\"\" " ++
        "submissionType=\"\">\n\n  <front>\n</front>\n<middle>\n" ++
        "<section anchor=\"intro\" title=\"Intro\">\n").toList) = 1) :=
  have h := front_to_middle_once ["Intro".toList, "=====".toList, "* a".toList]
    { _contexts := [SECTION, MIDDLE, RFC], _previous_line := "* a".toList,
      output := xml_preamble ++ ("<rfc ipr=\"\" docName=\"\" category=\"\" " ++
        "submissionType=\"\">\n\n  <front>\n</front>\n<middle>\n" ++
        "<section anchor=\"intro\" title=\"Intro\">\n").toList }
    (by decide) (by decide)
  have hall : ∀ x ∈ ["Intro".toList, "=====".toList, "* a".toList],
      occurrences "<middle>".toList x = 0 ∧ occurrences "</front>".toList x = 0 := by decide
  ⟨by decide, h.1,
    ((h.2.2.2.2 (fun a line b _ e _ _ => hall line (by rw [e]; simp))).2
      ⟨[SECTION], rfl, by decide⟩).1⟩

end Rst2RfcXml
